import Mathlib

/-! # A verification development for the `mmu` allocator (`2022MT11172mmu.h`)

The header implements a general heap (first / next / best / worst fit over
`mmap`-ed arenas) and an independent binary buddy allocator.  This file embeds
the C functions as Lean functions over an explicit machine state and proves
properties of them.

Conventions of the embedding (LP64: pointers and `size_t` are 64 bits,
`unsigned` is 32 bits, `sizeof(Block) = 64`, `sizeof(Arena) = 16`):

* A pointer is a natural number, `0` is `NULL`.
* `Heap.mem` maps the address of a block header to the fields `size`,
  `is_free`, `prev_phys`, `next_phys` stored there.
* The chain `g_free_head -> next_free -> ...` is held as the list of the block
  addresses on it, head first; the tree hanging off `g_avl_root` through the
  `avl.l` / `avl.r` fields is held as a value of `Tree`, every node carrying
  the address of its block and the stored `avl.h`.  Keys are read from
  `Heap.mem` at the time of a comparison, as `cmp_block` does.
* The arena chain `g_arenas -> next -> ...` is the list of `(base, size)`.
* `mmap` is an oracle: every function that may call it takes the answer as an
  argument (`none` is `MAP_FAILED`).
* The buddy pool is word-addressed memory `Heap.words`; bins are chains through
  the first word of each free block, exactly as in the C code.
-/

namespace Mmu

/-! ## Constants and integer helpers -/

/-- The constant `ARENA_MIN`, `1u<<20`. -/
def ARENA_MIN : Nat := 2 ^ 20

/-- The constant `ALIGN`, `16u` (an `unsigned`, 32 bits wide). -/
def ALIGN : Nat := 16

/-- The constant `BUDDY_MAX_ORDER`. -/
def BUDDY_MAX_ORDER : Nat := 26

/-- Number of values of a `size_t`. -/
def SIZE_MOD : Nat := 2 ^ 64

/-- Addition of two `size_t` values. -/
def add64 (a b : Nat) : Nat := (a + b) % SIZE_MOD

/-- Subtraction of two `size_t` values (wraps around below zero). -/
def sub64 (a b : Nat) : Nat := (a + SIZE_MOD - b % SIZE_MOD) % SIZE_MOD

/-- The macro `ALIGN_UP(x,a)` = `(((x)+((a)-1)) & ~((a)-1))` where `x` is a
`size_t` and `a` has a type of `w` bits: the complement `~(a-1)` is taken in
`w` bits and zero-extended to 64 bits before the `&`. -/
def ALIGN_UP_w (w x a : Nat) : Nat :=
  ((x + (a - 1)) % SIZE_MOD) &&& (2 ^ w - 1 - (a - 1))

/-- The macro `ALIGN_UP(x, ALIGN)`-style use: the alignment is an `unsigned`
(32 bits), as `ALIGN` is `16u`. -/
def ALIGN_UP (x a : Nat) : Nat := ALIGN_UP_w 32 x a

/-- The macro `ALIGN_UP(x, a)` when `a` is itself a `size_t` (64 bits). -/
def ALIGN_UP_sz (x a : Nat) : Nat := ALIGN_UP_w 64 x a

/-- The value of `sizeof(Block)`. -/
def SIZEOF_BLOCK : Nat := 64

/-- The value of `sizeof(Arena)`. -/
def SIZEOF_ARENA : Nat := 16

/-- The macro `HDR_SZ` = `ALIGN_UP(sizeof(Block), ALIGN)`. -/
def HDR_SZ : Nat := ALIGN_UP SIZEOF_BLOCK ALIGN

/-- Conversion of an `int` to `int8_t` (two's complement wrap-around). -/
def toInt8 (x : Int) : Int := (x + 128) % 256 - 128

/-! ## Data model -/

/-- The enum `Strategy`. -/
inductive Strategy where
  | UNSET
  | FIRST
  | NEXT
  | BEST
  | WORST
deriving DecidableEq, Repr

/-- The fields of `struct Block` that live in the header and are not index
links: `size`, `is_free`, `prev_phys`, `next_phys`. -/
structure Block where
  size : Nat
  is_free : Nat
  prev_phys : Nat
  next_phys : Nat
deriving DecidableEq, Repr

/-- The tree reached from a `Block*` through `avl.l` and `avl.r`; a node holds
the address of its block and the stored `avl.h`. -/
inductive Tree where
  | nil
  | node (l : Tree) (b : Nat) (h : Int) (r : Tree)
deriving DecidableEq, Repr

/-- The process-wide state of the allocator. -/
structure Heap where
  mem : Nat → Block
  g_arenas : List (Nat × Nat)
  g_strat : Strategy
  g_free_head : List Nat
  g_nextfit_cursor : Nat
  g_avl_root : Tree
  buddy_base : Nat
  buddy_top_size : Nat
  buddy_order0 : Nat
  buddy_pool_order : Nat
  buddy_bins : Nat → Nat
  words : Nat → Nat

/-- Store into the block header at address `a`. -/
def store (m : Nat → Block) (a : Nat) (f : Block → Block) : Nat → Block :=
  fun x => if x = a then f (m a) else m x

/-- Store into a word-indexed array or memory. -/
def storeW (m : Nat → Nat) (a v : Nat) : Nat → Nat :=
  fun x => if x = a then v else m x

/-- The state given by the static initialisers of the globals. -/
def Heap.zero : Heap where
  mem := fun _ => ⟨0, 0, 0, 0⟩
  g_arenas := []
  g_strat := Strategy.UNSET
  g_free_head := []
  g_nextfit_cursor := 0
  g_avl_root := Tree.nil
  buddy_base := 0
  buddy_top_size := 0
  buddy_order0 := 0
  buddy_pool_order := 0
  buddy_bins := fun _ => 0
  words := fun _ => 0

/-- The function `blk_to_ptr`. -/
def blk_to_ptr (b : Nat) : Nat := b + HDR_SZ

/-- The function `ptr_to_blk`: `(uint8_t*)p - HDR_SZ`, as arithmetic on a 64-bit
address. -/
def ptr_to_blk (p : Nat) : Nat := sub64 p HDR_SZ

/-! ## Free-list index -/

/-- The pointer stored in `g_free_head`: the first block of the list or `NULL`. -/
def fl_head (l : List Nat) : Nat := l.headD 0

/-- The field `b->next_free`: the successor of `b` on the list, `NULL` when `b`
is the tail or is not on the list (every writer of a block that is off the
list leaves the field `NULL`). -/
def next_free : List Nat → Nat → Nat
  | [], _ => 0
  | x :: xs, b => if x = b then fl_head xs else next_free xs b

/-- The function `fl_push_sorted`: walk while `*pp && *pp < b`, splice `b` in. -/
def fl_push_sorted : List Nat → Nat → List Nat
  | [], b => [b]
  | x :: xs, b => if x < b then x :: fl_push_sorted xs b else b :: x :: xs

/-- The walk of `fl_remove`: `while (*pp && *pp != b)`, then unsplice. -/
def fl_unlink : List Nat → Nat → List Nat
  | [], _ => []
  | x :: xs, b => if x = b then xs else x :: fl_unlink xs b

/-- The function `fl_remove` on the pair (list, cursor). -/
def fl_remove (l : List Nat) (cursor b : Nat) : List Nat × Nat :=
  let l2 := fl_unlink l b
  let c2 := if cursor = b then (if next_free l b ≠ 0 then next_free l b else fl_head l2)
            else cursor
  (l2, c2)

/-- The function `fl_first_fit`; `sz` reads `cur->size`. -/
def fl_first_fit (sz : Nat → Nat) : List Nat → Nat → Nat
  | [], _ => 0
  | x :: xs, need => if sz x ≥ need then x else fl_first_fit sz xs need

/-- The `do ... while (cur && cur != start)` loop of `fl_next_fit`, run for at
most `fuel` iterations; the result is the chosen block and the new cursor, and
`none` when the fuel runs out. -/
def fl_next_fit_loop (sz : Nat → Nat) (l : List Nat) (need start cursor : Nat) :
    Nat → Nat → Option (Nat × Nat)
  | 0, _ => none
  | fuel + 1, cur =>
    if sz cur ≥ need then
      some (cur, if next_free l cur ≠ 0 then next_free l cur else fl_head l)
    else
      let nxt := if next_free l cur ≠ 0 then next_free l cur else fl_head l
      if nxt ≠ 0 ∧ nxt ≠ start then fl_next_fit_loop sz l need start cursor fuel nxt
      else some (0, cursor)

/-- The function `fl_next_fit` on the pair (list, cursor): the chosen block
(or `NULL`) and the new cursor.  A walk that starts on the list, or at a block
whose `next_free` is `NULL`, comes back to its start or finds a block within
`length + 1` iterations or never; `none` stands for the loop that never ends. -/
def fl_next_fit (sz : Nat → Nat) (l : List Nat) (cursor need : Nat) : Option (Nat × Nat) :=
  let c1 := if cursor = 0 then fl_head l else cursor
  if c1 = 0 then some (0, c1)
  else fl_next_fit_loop sz l need c1 c1 (l.length + 1) c1

/-! ## Tree index -/

/-- The function `cmp_block`, with `key_size` read through `sz` and `key_addr`
the address itself. -/
def cmp_block (sz : Nat → Nat) (a b : Nat) : Int :=
  if sz a < sz b then -1
  else if sz a > sz b then 1
  else if a < b then -1
  else if a > b then 1
  else 0

/-- The function `height`: the stored `avl.h`, `0` for `NULL`. -/
def height : Tree → Int
  | Tree.nil => 0
  | Tree.node _ _ h _ => h

/-- The function `upd`: recompute the stored height of the root node (the sum
is an `int`, the store converts to `int8_t`). -/
def upd : Tree → Tree
  | Tree.nil => Tree.nil
  | Tree.node l b _ r =>
    Tree.node l b (toInt8 ((if height l > height r then height l else height r) + 1)) r

/-- The function `rotR`.  (The C code dereferences `y->avl.l`; on a node without
a left child the embedding returns the tree unchanged.) -/
def rotR : Tree → Tree
  | Tree.node (Tree.node xl x xh xr) y yh yr =>
    upd (Tree.node xl x xh (upd (Tree.node xr y yh yr)))
  | t => t

/-- The function `rotL`.  (The C code dereferences `x->avl.r`; on a node without
a right child the embedding returns the tree unchanged.) -/
def rotL : Tree → Tree
  | Tree.node xl x xh (Tree.node yl y yh yr) =>
    upd (Tree.node (upd (Tree.node xl x xh yl)) y yh yr)
  | t => t

/-- The function `balance_factor`. -/
def balance_factor : Tree → Int
  | Tree.nil => 0
  | Tree.node l _ _ r => height l - height r

/-- The call `cmp_block(node, t)` for a subtree pointer `t`; the C code only
evaluates it for a non-null `t`, for `NULL` the embedding answers `0`. -/
def cmp_root (sz : Nat → Nat) (b : Nat) : Tree → Int
  | Tree.nil => 0
  | Tree.node _ x _ _ => cmp_block sz b x

/-- The four rebalancing tests that end `avl_insert_rec`, applied to the root
after `upd(root)`. -/
def insert_fix (sz : Nat → Nat) (b : Nat) : Tree → Tree
  | Tree.nil => Tree.nil
  | Tree.node l x h r =>
    let bf := balance_factor (Tree.node l x h r)
    if bf > 1 ∧ cmp_root sz b l < 0 then rotR (Tree.node l x h r)
    else if bf < -1 ∧ cmp_root sz b r > 0 then rotL (Tree.node l x h r)
    else if bf > 1 ∧ cmp_root sz b l > 0 then rotR (Tree.node (rotL l) x h r)
    else if bf < -1 ∧ cmp_root sz b r < 0 then rotL (Tree.node l x h (rotR r))
    else Tree.node l x h r

/-- The function `avl_insert_rec(root, node)`, where the fields of `node` are
the ones `avl_insert` has just written (`l = r = NULL`, `h = 1`). -/
def avl_insert_rec (sz : Nat → Nat) : Tree → Nat → Tree
  | Tree.nil, b => Tree.node Tree.nil b 1 Tree.nil
  | Tree.node l x h r, b =>
    let c := cmp_block sz b x
    if c < 0 then insert_fix sz b (upd (Tree.node (avl_insert_rec sz l b) x h r))
    else if c > 0 then insert_fix sz b (upd (Tree.node l x h (avl_insert_rec sz r b)))
    else Tree.node l x h r

/-- The function `avl_lower_bound`; the answer is a block address or `NULL`. -/
def avl_lower_bound_from (sz : Nat → Nat) (need : Nat) : Tree → Nat → Nat
  | Tree.nil, ans => ans
  | Tree.node l x _ r, ans =>
    if need ≤ sz x then avl_lower_bound_from sz need l x
    else avl_lower_bound_from sz need r ans

/-- The function `avl_lower_bound`, starting with `ans = NULL`. -/
def avl_lower_bound (sz : Nat → Nat) (root : Tree) (need : Nat) : Nat :=
  avl_lower_bound_from sz need root 0

/-- The loop of `avl_rightmost_ge`: both branches step to `avl.r`. -/
def avl_rightmost_ge_from (sz : Nat → Nat) (need : Nat) : Tree → Nat → Nat
  | Tree.nil, ans => ans
  | Tree.node _ x _ r, ans =>
    if sz x ≥ need then avl_rightmost_ge_from sz need r x
    else avl_rightmost_ge_from sz need r ans

/-- The function `avl_rightmost_ge`, starting with `ans = NULL`. -/
def avl_rightmost_ge (sz : Nat → Nat) (root : Tree) (need : Nat) : Nat :=
  avl_rightmost_ge_from sz need root 0

/-- The function `avl_min`: the address of the leftmost node, `NULL` for the
empty tree. -/
def avl_min : Tree → Nat
  | Tree.nil => 0
  | Tree.node Tree.nil x _ _ => x
  | Tree.node (Tree.node ll lx lh lr) _ _ _ => avl_min (Tree.node ll lx lh lr)

/-- The four rebalancing tests that end `avl_delete_rec`, applied to the root
after `upd(root)`. -/
def delete_fix : Tree → Tree
  | Tree.nil => Tree.nil
  | Tree.node l x h r =>
    let bf := balance_factor (Tree.node l x h r)
    if bf > 1 ∧ balance_factor l ≥ 0 then rotR (Tree.node l x h r)
    else if bf > 1 ∧ balance_factor l < 0 then rotR (Tree.node (rotL l) x h r)
    else if bf < -1 ∧ balance_factor r ≤ 0 then rotL (Tree.node l x h r)
    else if bf < -1 ∧ balance_factor r > 0 then rotL (Tree.node l x h (rotR r))
    else Tree.node l x h r

/-- The function `avl_delete_rec(root, node)`.  In the two-children case the
successor `s = avl_min(root->avl.r)` is deleted from the right subtree and then
takes the place of `root`; its stored height is overwritten by `upd` at once. -/
def avl_delete_rec (sz : Nat → Nat) : Tree → Nat → Tree
  | Tree.nil, _ => Tree.nil
  | Tree.node l x h r, b =>
    let c := cmp_block sz b x
    if c < 0 then delete_fix (upd (Tree.node (avl_delete_rec sz l b) x h r))
    else if c > 0 then delete_fix (upd (Tree.node l x h (avl_delete_rec sz r b)))
    else
      match l, r with
      | Tree.nil, _ => r
      | _, Tree.nil => l
      | _, _ =>
        let s := avl_min r
        delete_fix (upd (Tree.node l s h (avl_delete_rec sz r s)))

/-! ## Index dispatch -/

/-- The field `size` of the block at an address (`key_size`). -/
def Heap.sz (s : Heap) : Nat → Nat := fun a => (s.mem a).size

/-- The function `avl_insert` on the global `g_avl_root`. -/
def avl_insert (s : Heap) (b : Nat) : Heap :=
  { s with g_avl_root := avl_insert_rec s.sz s.g_avl_root b }

/-- The function `avl_erase` on the global `g_avl_root`. -/
def avl_erase (s : Heap) (b : Nat) : Heap :=
  { s with g_avl_root := avl_delete_rec s.sz s.g_avl_root b }

/-- The function `fl_push_sorted` on the global `g_free_head`. -/
def Heap.fl_push_sorted (s : Heap) (b : Nat) : Heap :=
  { s with g_free_head := Mmu.fl_push_sorted s.g_free_head b }

/-- The function `fl_remove` on the globals `g_free_head`, `g_nextfit_cursor`. -/
def Heap.fl_remove (s : Heap) (b : Nat) : Heap :=
  { s with g_free_head := (Mmu.fl_remove s.g_free_head s.g_nextfit_cursor b).1,
           g_nextfit_cursor := (Mmu.fl_remove s.g_free_head s.g_nextfit_cursor b).2 }

/-- The function `index_insert`. -/
def index_insert (s : Heap) (b : Nat) : Heap :=
  if s.g_strat = Strategy.FIRST ∨ s.g_strat = Strategy.NEXT ∨ s.g_strat = Strategy.UNSET then
    s.fl_push_sorted b
  else avl_insert s b

/-- The function `index_remove`. -/
def index_remove (s : Heap) (b : Nat) : Heap :=
  if s.g_strat = Strategy.FIRST ∨ s.g_strat = Strategy.NEXT then s.fl_remove b
  else if s.g_strat = Strategy.BEST ∨ s.g_strat = Strategy.WORST then avl_erase s b
  else s.fl_remove b

/-- The function `index_find`: the state afterwards (only `fl_next_fit` writes,
to the cursor) and the block found or `NULL`; `none` when `fl_next_fit` never
returns. -/
def index_find (s : Heap) (need : Nat) : Option (Heap × Nat) :=
  if s.g_strat = Strategy.FIRST then some (s, fl_first_fit s.sz s.g_free_head need)
  else if s.g_strat = Strategy.NEXT then
    match fl_next_fit s.sz s.g_free_head s.g_nextfit_cursor need with
    | none => none
    | some (b, c) => some ({ s with g_nextfit_cursor := c }, b)
  else if s.g_strat = Strategy.BEST then some (s, avl_lower_bound s.sz s.g_avl_root need)
  else if s.g_strat = Strategy.WORST then some (s, avl_rightmost_ge s.sz s.g_avl_root need)
  else some (s, fl_first_fit s.sz s.g_free_head need)

/-! ## Arenas -/

/-- The number of bytes `map_arena(min_usable)` asks `mmap` for. -/
def arena_need (min_usable : Nat) : Nat :=
  if add64 (add64 SIZEOF_ARENA HDR_SZ) min_usable < ARENA_MIN then ARENA_MIN
  else add64 (add64 SIZEOF_ARENA HDR_SZ) min_usable

/-- The function `map_arena`; `os` is the answer of `mmap` (`none` for
`MAP_FAILED`).  The result is the new state and the returned `Arena*`. -/
def map_arena (s : Heap) (min_usable : Nat) (os : Option Nat) : Heap × Nat :=
  match os with
  | none => (s, 0)
  | some ar =>
    let need := arena_need min_usable
    let b := ar + SIZEOF_ARENA
    let s1 : Heap :=
      { s with g_arenas := (ar, need) :: s.g_arenas,
               mem := store s.mem b
                 (fun _ => ⟨sub64 (sub64 need SIZEOF_ARENA) HDR_SZ, 1, 0, 0⟩) }
    (index_insert s1 b, ar)

/-- The constructor `init_once`. -/
def init_once (s : Heap) (os : Option Nat) : Heap := (map_arena s ARENA_MIN os).1

/-! ## Split and coalesce -/

/-- The function `split_block(b, need)`; it always returns `b`, so only the
state afterwards is given. -/
def split_block (s : Heap) (b need : Nat) : Heap :=
  let left := sub64 (s.mem b).size need
  let min_split := add64 HDR_SZ (ALIGN_UP 1 ALIGN)
  if left < min_split then s
  else
    let rem := b + HDR_SZ + need
    let m1 := store s.mem rem (fun B => ⟨sub64 left HDR_SZ, 1, b, B.next_phys⟩)
    let m2 := store m1 rem (fun B => { B with next_phys := (m1 b).next_phys })
    let m3 := if (m2 rem).next_phys ≠ 0 then
                store m2 (m2 rem).next_phys (fun B => { B with prev_phys := rem })
              else m2
    let m4 := store m3 b (fun B => { B with size := need })
    let m5 := store m4 b (fun B => { B with next_phys := rem })
    index_insert { s with mem := m5 } rem

/-- The first `if` of `coalesce_and_insert`: absorb `b` into its free
predecessor `L`; the result is the state and the new value of `b`. -/
def coalesce_left (s : Heap) (b : Nat) : Heap × Nat :=
  let L := (s.mem b).prev_phys
  if L ≠ 0 ∧ (s.mem L).is_free ≠ 0 then
    let t := index_remove s L
    let m1 := store t.mem L (fun B => { B with size := add64 B.size (add64 HDR_SZ (t.mem b).size) })
    let m2 := store m1 L (fun B => { B with next_phys := (m1 b).next_phys })
    let m3 := if (m2 b).next_phys ≠ 0 then
                store m2 (m2 b).next_phys (fun B => { B with prev_phys := L })
              else m2
    ({ t with mem := m3 }, L)
  else (s, b)

/-- The second `if` of `coalesce_and_insert`: absorb the free successor `R`
(read at entry, before the first `if`) into `b`. -/
def coalesce_right (s : Heap) (b R : Nat) : Heap :=
  if R ≠ 0 ∧ (s.mem R).is_free ≠ 0 then
    let t := index_remove s R
    let m1 := store t.mem b (fun B => { B with size := add64 B.size (add64 HDR_SZ (t.mem R).size) })
    let m2 := store m1 b (fun B => { B with next_phys := (m1 R).next_phys })
    let m3 := if (m2 R).next_phys ≠ 0 then
                store m2 (m2 R).next_phys (fun B => { B with prev_phys := b })
              else m2
    { t with mem := m3 }
  else s

/-- The function `coalesce_and_insert`. -/
def coalesce_and_insert (s : Heap) (b : Nat) : Heap :=
  let R := (s.mem b).next_phys
  let r1 := coalesce_left s b
  index_insert (coalesce_right r1.1 r1.2 R) r1.2

/-! ## Allocation core -/

/-- The tail of `allocate_general` once a block `b` has been found:
`index_remove(b); b = split_block(b, size); b->is_free = 0; return b;`. -/
def alloc_found (s : Heap) (b size : Nat) : Heap × Nat :=
  let s2 := split_block (index_remove s b) b size
  ({ s2 with mem := store s2.mem b (fun B => { B with is_free := 0 }) }, b)

/-- The function `allocate_general`; the result is the state afterwards and
the returned `Block*`. -/
def allocate_general (s : Heap) (size : Nat) (os : Option Nat) : Option (Heap × Nat) :=
  if size = 0 then some (s, 0)
  else
    match index_find s (ALIGN_UP size ALIGN) with
    | none => none
    | some (s1, b) =>
      if b ≠ 0 then some (alloc_found s1 b (ALIGN_UP size ALIGN))
      else if (map_arena s1 (ALIGN_UP size ALIGN) os).2 = 0 then
        some ((map_arena s1 (ALIGN_UP size ALIGN) os).1, 0)
      else
        match index_find (map_arena s1 (ALIGN_UP size ALIGN) os).1 (ALIGN_UP size ALIGN) with
        | none => none
        | some (s3, b2) =>
          if b2 = 0 then some (s3, 0) else some (alloc_found s3 b2 (ALIGN_UP size ALIGN))

/-- The function `lock_strategy`; `none` is the call of `abort()`. -/
def lock_strategy (s : Heap) (st : Strategy) : Option Heap :=
  if s.g_strat = Strategy.UNSET then some { s with g_strat := st }
  else if s.g_strat ≠ st then none
  else some s

/-- The function `allocator_init`. -/
def allocator_init (s : Heap) (st : Strategy) : Option Heap := lock_strategy s st

/-- The common body of `malloc_first_fit`, `malloc_next_fit`, `malloc_best_fit`
and `malloc_worst_fit`: `lock_strategy(st); b = allocate_general(size);
return b ? blk_to_ptr(b) : NULL;`.  The result `none` means the call does not
return. -/
def malloc_fit (st : Strategy) (s : Heap) (size : Nat) (os : Option Nat) :
    Option (Heap × Nat) :=
  match lock_strategy s st with
  | none => none
  | some s1 =>
    match allocate_general s1 size os with
    | none => none
    | some (s2, b) => some (s2, if b ≠ 0 then blk_to_ptr b else 0)

/-- The function `malloc_first_fit`. -/
def malloc_first_fit (s : Heap) (size : Nat) (os : Option Nat) : Option (Heap × Nat) :=
  malloc_fit Strategy.FIRST s size os

/-- The function `malloc_next_fit`. -/
def malloc_next_fit (s : Heap) (size : Nat) (os : Option Nat) : Option (Heap × Nat) :=
  malloc_fit Strategy.NEXT s size os

/-- The function `malloc_best_fit`. -/
def malloc_best_fit (s : Heap) (size : Nat) (os : Option Nat) : Option (Heap × Nat) :=
  malloc_fit Strategy.BEST s size os

/-- The function `malloc_worst_fit`. -/
def malloc_worst_fit (s : Heap) (size : Nat) (os : Option Nat) : Option (Heap × Nat) :=
  malloc_fit Strategy.WORST s size os

/-- The function `free_general`. -/
def free_general (s : Heap) (ptr : Nat) : Heap :=
  if ptr = 0 then s
  else if (s.mem (ptr_to_blk ptr)).is_free ≠ 0 then s
  else
    coalesce_and_insert
      { s with mem := store s.mem (ptr_to_blk ptr) (fun B => { B with is_free := 1 }) }
      (ptr_to_blk ptr)

/-! ## Buddy allocator -/

/-- The function `order_size`: `(size_t)1 << o`. -/
def order_size (o : Nat) : Nat := (1 <<< o) % SIZE_MOD

/-- The function `ptr_off`. -/
def ptr_off (s : Heap) (p : Nat) : Nat := sub64 p s.buddy_base

/-- The function `off_ptr`. -/
def off_ptr (s : Heap) (off : Nat) : Nat := s.buddy_base + off

/-- The function `buddy_push`: the first word of the block becomes the old
head of the bin. -/
def buddy_push (s : Heap) (o p : Nat) : Heap :=
  { s with words := storeW s.words p (s.buddy_bins o),
           buddy_bins := storeW s.buddy_bins o p }

/-- The function `buddy_pop`. -/
def buddy_pop (s : Heap) (o : Nat) : Heap × Nat :=
  if s.buddy_bins o = 0 then (s, 0)
  else ({ s with buddy_bins := storeW s.buddy_bins o (s.words (s.buddy_bins o)) },
        s.buddy_bins o)

/-- A loop `while (order_size(o) < need && o < limit) o++`, run for at most
`fuel` iterations. -/
def order_loop (need limit : Nat) : Nat → Nat → Nat
  | 0, o => o
  | fuel + 1, o =>
    if order_size o < need ∧ o < limit then order_loop need limit fuel (o + 1) else o

/-- The order `buddy_order0` that `buddy_init_pool` computes: the loop
`while (order_size(buddy_order0) < min_block) buddy_order0++` from `0`, with
`min_block = ALIGN_UP(sizeof(BuddyNode)+sizeof(size_t), ALIGN)`. -/
def buddy_order0_init : Nat := order_loop (ALIGN_UP (add64 8 8) ALIGN) 64 64 0

/-- The order `buddy_pool_order` that `buddy_init_pool(min_bytes)` computes. -/
def buddy_pool_order_init (min_bytes : Nat) : Nat :=
  if min_bytes > 2 ^ 22 then
    order_loop (ALIGN_UP_sz (add64 min_bytes 8) (order_size buddy_order0_init))
      BUDDY_MAX_ORDER (BUDDY_MAX_ORDER + 1) buddy_order0_init
  else 22

/-- The function `buddy_init_pool`; `os` is the answer of `mmap`. -/
def buddy_init_pool (s : Heap) (min_bytes : Nat) (os : Option Nat) : Heap :=
  let s1 : Heap := { s with buddy_order0 := buddy_order0_init,
                            buddy_pool_order := buddy_pool_order_init min_bytes }
  match os with
  | none => { s1 with buddy_base := 0, buddy_top_size := 0 }
  | some base =>
    buddy_push
      { s1 with buddy_base := base,
                buddy_top_size := order_size (buddy_pool_order_init min_bytes),
                buddy_bins := fun i => if i ≤ BUDDY_MAX_ORDER then 0 else s.buddy_bins i }
      (buddy_pool_order_init min_bytes) base

/-- The inner `while(cur)` loop of `buddy_try_merge`: look for `target` on the
chain of `buddy_bins[order]` and unlink it; `none` when the fuel runs out. -/
def bin_scan (order target : Nat) : Nat → Heap → Nat → Nat → Option (Heap × Bool)
  | 0, _, _, _ => none
  | fuel + 1, s, prev, cur =>
    if cur = 0 then some (s, false)
    else if cur = target then
      if prev ≠ 0 then some ({ s with words := storeW s.words prev (s.words cur) }, true)
      else some ({ s with buddy_bins := storeW s.buddy_bins order (s.words cur) }, true)
    else bin_scan order target fuel s cur (s.words cur)

/-- The `for (; order<buddy_pool_order; ++order)` loop of `buddy_try_merge`
together with the final `buddy_push`; `fuel` is the number of iterations
left, `buddy_pool_order - order`. -/
def merge_loop : Nat → Heap → Nat → Nat → Option Heap
  | 0, s, order, off => some (buddy_push s order (off_ptr s off))
  | fuel + 1, s, order, off =>
    if order < s.buddy_pool_order then
      if off ^^^ order_size order ≥ s.buddy_top_size then
        some (buddy_push s order (off_ptr s off))
      else
        match bin_scan order (off_ptr s (off ^^^ order_size order)) (s.buddy_top_size + 1) s 0
            (s.buddy_bins order) with
        | none => none
        | some (s1, true) =>
          merge_loop fuel s1 (order + 1)
            (if off ^^^ order_size order < off then off ^^^ order_size order else off)
        | some (s1, false) => some (buddy_push s1 order (off_ptr s1 off))
    else some (buddy_push s order (off_ptr s off))

/-- The function `buddy_try_merge`; `none` when the scan of a bin never ends
(a bin chain of distinct blocks inside the pool has at most `buddy_top_size`
blocks, so a longer walk is a walk round a cycle). -/
def buddy_try_merge (s : Heap) (order p : Nat) : Option Heap :=
  if p = 0 ∨ s.buddy_base = 0 then some s
  else if ptr_off s p ≥ s.buddy_top_size then some s
  else merge_loop (s.buddy_pool_order - order) s order (ptr_off s p)

/-- The loop `while (k<=buddy_pool_order && !buddy_bins[k]) k++`. -/
def bin_search (s : Heap) : Nat → Nat → Nat
  | 0, k => k
  | fuel + 1, k =>
    if k ≤ s.buddy_pool_order ∧ s.buddy_bins k = 0 then bin_search s fuel (k + 1) else k

/-- The loop `while (k>order){ k--; buddy_push(k, p + order_size(k)); }`. -/
def split_loop (order p : Nat) : Nat → Heap → Nat → Heap
  | 0, s, _ => s
  | fuel + 1, s, k =>
    if k > order then split_loop order p fuel (buddy_push s (k - 1) (p + order_size (k - 1))) (k - 1)
    else s

/-- The function `malloc_buddy_alloc`; `os` is the answer of `mmap` should
the pool have to be created. -/
def malloc_buddy_alloc (s : Heap) (size : Nat) (os : Option Nat) : Heap × Nat :=
  if size = 0 then (s, 0)
  else
    let sz := ALIGN_UP size ALIGN
    let s1 := if s.buddy_base = 0 then buddy_init_pool s sz os else s
    if s1.buddy_base = 0 then (s1, 0)
    else
      let need := add64 sz 8
      let order := order_loop need (s1.buddy_pool_order + 1) (s1.buddy_pool_order + 2)
        s1.buddy_order0
      if order > s1.buddy_pool_order then (s1, 0)
      else
        let k := bin_search s1 (s1.buddy_pool_order + 2) order
        if k > s1.buddy_pool_order then (s1, 0)
        else
          let r := buddy_pop s1 k
          let s3 := split_loop order r.2 (k - order) r.1 k
          ({ s3 with words := storeW s3.words r.2 (0x8000000000000000 ||| order) }, r.2 + 8)

/-- The function `is_buddy_ptr`: `none` for the answer `0`, otherwise the
values written to `*out_order` and `*out_raw`. -/
def is_buddy_ptr (s : Heap) (ptr : Nat) : Option (Nat × Nat) :=
  if s.buddy_base = 0 then none
  else if ptr ≤ s.buddy_base ∨ ptr ≥ add64 s.buddy_base s.buddy_top_size then none
  else if s.words (ptr - 8) &&& 0x8000000000000000 = 0 then none
  else if s.words (ptr - 8) &&& 0x7fffffffffffffff > s.buddy_pool_order then none
  else some (s.words (ptr - 8) &&& 0x7fffffffffffffff, ptr - 8)

/-- The function `my_free`; `none` when `buddy_try_merge` never returns. -/
def my_free (s : Heap) (ptr : Nat) : Option Heap :=
  if ptr = 0 then some s
  else
    match is_buddy_ptr s ptr with
    | some (ord, raw) => buddy_try_merge s ord raw
    | none => some (free_general s ptr)

/-! ## Invariants of the tree index -/

/-- The blocks of a tree in in-order (left subtree, node, right subtree). -/
def Tree.toList : Tree → List Nat
  | Tree.nil => []
  | Tree.node l b _ r => l.toList ++ b :: r.toList

/-- The number of nodes on the longest path from the root down. -/
def Tree.depth : Tree → Nat
  | Tree.nil => 0
  | Tree.node l _ _ r => max l.depth r.depth + 1

/-- Binary search tree under the key of `cmp_block`: at every node, every
block of the left subtree compares below the node and every block of the right
subtree compares above it. -/
def Tree.Bst (sz : Nat → Nat) : Tree → Prop
  | Tree.nil => True
  | Tree.node l b _ r =>
    (∀ x ∈ l.toList, cmp_block sz x b < 0) ∧ (∀ x ∈ r.toList, cmp_block sz x b > 0) ∧
    l.Bst sz ∧ r.Bst sz

/-- Height balance: `balance_factor` is `-1`, `0` or `+1` at every node. -/
def Tree.Balanced : Tree → Prop
  | Tree.nil => True
  | Tree.node l b h r =>
    (-1 ≤ balance_factor (Tree.node l b h r) ∧ balance_factor (Tree.node l b h r) ≤ 1) ∧
    l.Balanced ∧ r.Balanced

/-- Correct stored heights: `h = 1 + max(height(l), height(r))` at every node. -/
def Tree.HeightOk : Tree → Prop
  | Tree.nil => True
  | Tree.node l _ h r => h = 1 + max (height l) (height r) ∧ l.HeightOk ∧ r.HeightOk

/-- Decision procedure for `Tree.Bst`. -/
instance Tree.decBst (sz : Nat → Nat) : (t : Tree) → Decidable (t.Bst sz)
  | Tree.nil => isTrue trivial
  | Tree.node l b _ r =>
    have := Tree.decBst sz l
    have := Tree.decBst sz r
    by unfold Tree.Bst; exact inferInstance

/-- Decision procedure for `Tree.Balanced`. -/
instance Tree.decBalanced : (t : Tree) → Decidable t.Balanced
  | Tree.nil => isTrue trivial
  | Tree.node l _ _ r =>
    have := Tree.decBalanced l
    have := Tree.decBalanced r
    by unfold Tree.Balanced; exact inferInstance

/-- Decision procedure for `Tree.HeightOk`. -/
instance Tree.decHeightOk : (t : Tree) → Decidable t.HeightOk
  | Tree.nil => isTrue trivial
  | Tree.node l _ _ r =>
    have := Tree.decHeightOk l
    have := Tree.decHeightOk r
    by unfold Tree.HeightOk; exact inferInstance

/-- The shape of a tree that an insertion of `b` has made one higher: a single
node, or a root whose subtree on the side of `b` is the higher one. -/
def Grown (sz : Nat → Nat) (b : Nat) : Tree → Prop
  | Tree.nil => False
  | Tree.node l x _ r =>
    (l = Tree.nil ∧ r = Tree.nil) ∨ (cmp_block sz b x < 0 ∧ height l > height r) ∨
    (cmp_block sz b x > 0 ∧ height r > height l)

/-! ## Invariants of the general heap -/

/-- The outcome of a scan of the blocks `u` in order: the first block that
fits with the cursor value that `fl_next_fit` stores for it, or `NULL` with the
cursor left at `cur0`. -/
def scan_result (sz : Nat → Nat) (l : List Nat) (need cur0 : Nat) (u : List Nat) :
    Option (Nat × Nat) :=
  match u.find? (fun a => decide (need ≤ sz a)) with
  | some r => some (r, if next_free l r ≠ 0 then next_free l r else fl_head l)
  | none => some (0, cur0)

/-- The members of the index that the latched strategy uses: the tree for best
and worst fit, the free list otherwise. -/
def Heap.idx (s : Heap) : List Nat :=
  if s.g_strat = Strategy.BEST ∨ s.g_strat = Strategy.WORST then s.g_avl_root.toList
  else s.g_free_head

/-- The blocks left on the free list once the tree is the active index (they
were pushed by `map_arena` while the latch was unset). -/
def Heap.orphans (s : Heap) : List Nat :=
  if s.g_strat = Strategy.BEST ∨ s.g_strat = Strategy.WORST then s.g_free_head else []

/-- Well-formedness of the two index structures. -/
structure IdxOK (s : Heap) : Prop where
  sorted : s.g_free_head.Pairwise (· < ·)
  cursor : s.g_nextfit_cursor = 0 ∨ s.g_nextfit_cursor ∈ s.g_free_head
  bst : s.g_avl_root.Bst s.sz
  bal : s.g_avl_root.Balanced
  hok : s.g_avl_root.HeightOk
  nz : 0 ∉ s.g_free_head ∧ 0 ∉ s.g_avl_root.toList
  ptr : ∀ a ∈ s.g_avl_root.toList, a < 2 ^ 64
  tree_nil : ¬ (s.g_strat = Strategy.BEST ∨ s.g_strat = Strategy.WORST) →
    s.g_avl_root = Tree.nil

/-- Well-formedness of one block header `a` among the blocks `blocks` that lie
on the physical chains, in the memory `m` with the arenas `ars`: alignment,
position inside an arena, and agreement of the `prev_phys` / `next_phys` links
with the addresses. -/
structure BlockOK (m : Nat → Block) (ars : List (Nat × Nat)) (blocks : List Nat) (a : Nat) :
    Prop where
  al : a % 16 = 0
  szal : (m a).size % 16 = 0
  arena : ∃ ar ∈ ars, ar.1 + 16 ≤ a ∧ a + 64 + (m a).size ≤ ar.1 + ar.2 ∧
    ((m a).prev_phys = 0 → a = ar.1 + 16) ∧
    ((m a).next_phys = 0 → a + 64 + (m a).size = ar.1 + ar.2)
  nxt : (m a).next_phys ≠ 0 →
    (m a).next_phys ∈ blocks ∧ (m a).next_phys = a + 64 + (m a).size ∧
    (m (m a).next_phys).prev_phys = a
  prv : (m a).prev_phys ≠ 0 →
    (m a).prev_phys ∈ blocks ∧ (m (m a).prev_phys).next_phys = a

/-- Well-formedness of the arenas and of the physical chains: `blocks` are the
block headers that lie on the chains. -/
structure ChainOK (m : Nat → Block) (ars : List (Nat × Nat)) (blocks : List Nat) : Prop where
  arenas : ∀ ar ∈ ars, ar.1 % 16 = 0 ∧ 0 < ar.1 ∧ ar.1 + ar.2 ≤ 2 ^ 64 ∧ 80 ≤ ar.2
  arenas_disj : ∀ a ∈ ars, ∀ c ∈ ars, a ≠ c → a.1 + a.2 ≤ c.1 ∨ c.1 + c.2 ≤ a.1
  first : ∀ ar ∈ ars, ar.1 + 16 ∈ blocks ∧ (m (ar.1 + 16)).prev_phys = 0
  disj : ∀ a ∈ blocks, ∀ c ∈ blocks, a ≠ c →
    a + 64 + (m a).size ≤ c ∨ c + 64 + (m c).size ≤ a
  blk : ∀ a ∈ blocks, BlockOK m ars blocks a

/-- The invariant of the general heap.  `blocks` are the block headers on the
physical chains, `live` the user pointers handed out and not yet freed, and `x`
a block in transit (taken off the index by `allocate_general` or being merged
by `coalesce_and_insert`), whose flag is not yet meaningful; `x = 0` when no
block is in transit. -/
structure InvX (s : Heap) (blocks live : List Nat) (x : Nat) : Prop where
  idx : IdxOK s
  chain : ChainOK s.mem s.g_arenas blocks
  free_idx : ∀ a, (a ∈ s.idx ∨ a ∈ s.orphans) ↔
    (a ∈ blocks ∧ a ≠ x ∧ (s.mem a).is_free ≠ 0)
  orphan : ∀ a ∈ s.orphans,
    (s.mem a).prev_phys = 0 ∧ (s.mem a).next_phys = 0 ∧ a ∉ s.idx
  unset : s.g_strat = Strategy.UNSET →
    x = 0 ∧ ∀ a ∈ blocks,
      (s.mem a).is_free ≠ 0 ∧ (s.mem a).prev_phys = 0 ∧ (s.mem a).next_phys = 0
  noadj : ∀ a ∈ blocks, a ≠ x → (s.mem a).is_free ≠ 0 → (s.mem a).next_phys ≠ x →
    (s.mem a).next_phys ≠ 0 → (s.mem (s.mem a).next_phys).is_free = 0
  live_iff : ∀ p, p ∈ live ↔ ∃ a ∈ blocks, a ≠ x ∧ (s.mem a).is_free = 0 ∧ p = a + 64
  live_nodup : live.Nodup
  pool : s.buddy_base = 0 ∨ ∀ ar ∈ s.g_arenas,
    ar.1 + ar.2 ≤ s.buddy_base ∨ s.buddy_base + s.buddy_top_size ≤ ar.1

/-- The invariant of the general heap between two calls of the interface. -/
def HeapInv (s : Heap) (blocks live : List Nat) : Prop := InvX s blocks live 0

/-- The writes of `split_block(b, need)` to the block headers, `left` being
`b->size - need`: the new header at `rem = b + HDR_SZ + need`, the back pointer
of the old successor, and the size and forward pointer of `b`. -/
def split_mem (m : Nat → Block) (b need left : Nat) : Nat → Block :=
  let rem := b + HDR_SZ + need
  let m1 := store m rem (fun B => ⟨sub64 left HDR_SZ, 1, b, B.next_phys⟩)
  let m2 := store m1 rem (fun B => { B with next_phys := (m1 b).next_phys })
  let m3 := if (m2 rem).next_phys ≠ 0 then
              store m2 (m2 rem).next_phys (fun B => { B with prev_phys := rem })
            else m2
  let m4 := store m3 b (fun B => { B with size := need })
  store m4 b (fun B => { B with next_phys := rem })

/-- The writes of `coalesce_and_insert` when the block `a` absorbs its physical
successor `c`: `a->size += HDR_SZ + c->size; a->next_phys = c->next_phys;
if (c->next_phys) c->next_phys->prev_phys = a;`. -/
def absorb (m : Nat → Block) (a c : Nat) : Nat → Block :=
  let m1 := store m a (fun B => { B with size := add64 B.size (add64 HDR_SZ (m c).size) })
  let m2 := store m1 a (fun B => { B with next_phys := (m1 c).next_phys })
  if (m2 c).next_phys ≠ 0 then
    store m2 (m2 c).next_phys (fun B => { B with prev_phys := a })
  else m2

/-- The walk along `next_phys` from the block `b`, for at most `fuel` blocks. -/
def phys_chain (m : Nat → Block) : Nat → Nat → List Nat
  | 0, _ => []
  | fuel + 1, b => if b = 0 then [] else b :: phys_chain m fuel (m b).next_phys

/-- The physical chain of an arena `(base, size)`: the walk from the first
block header at `base + sizeof(Arena)`; an arena of `size` bytes holds fewer
than `size` headers. -/
def Heap.chain (s : Heap) (ar : Nat × Nat) : List Nat :=
  phys_chain s.mem ar.2 (ar.1 + SIZEOF_ARENA)

/-- A block that is flagged free and whose physical successor exists and is
flagged free as well. -/
def adj_free (s : Heap) (b : Nat) : Bool :=
  decide ((s.mem b).is_free ≠ 0 ∧ (s.mem b).next_phys ≠ 0 ∧
    (s.mem (s.mem b).next_phys).is_free ≠ 0)

/-- The number of adjacent free-free pairs over all physical chains. -/
def free_pairs (s : Heap) : Nat :=
  (s.g_arenas.map (fun ar => (s.chain ar).countP (adj_free s))).sum

/-- The block `a` is free in the sense of the index: it is in an index slot,
on the free list or in the tree. -/
def Heap.listed (s : Heap) (a : Nat) : Bool :=
  decide (a ∈ s.g_free_head ∨ a ∈ s.g_avl_root.toList)

/-- A block in an index slot whose physical successor exists and is in an
index slot as well. -/
def adj_listed (s : Heap) (b : Nat) : Bool :=
  s.listed b && (decide ((s.mem b).next_phys ≠ 0) && s.listed (s.mem b).next_phys)

/-- The number of adjacent pairs of blocks in index slots over all physical
chains. -/
def listed_pairs (s : Heap) : Nat :=
  (s.g_arenas.map (fun ar => (s.chain ar).countP (adj_listed s))).sum

/-- What is assumed of an answer of `mmap` to a request of `need` bytes in the
state `s`: failure, or the base of a fresh region that is 16-aligned, lies in
the 64-bit address space away from address 0, and overlaps neither an arena
nor the buddy pool. -/
def OsOk (s : Heap) (need : Nat) (os : Option Nat) : Prop :=
  ∀ base, os = some base →
    base % 16 = 0 ∧ 0 < base ∧ base + need ≤ 2 ^ 64 ∧
    (∀ ar ∈ s.g_arenas, base + need ≤ ar.1 ∨ ar.1 + ar.2 ≤ base) ∧
    (s.buddy_base = 0 ∨ base + need ≤ s.buddy_base ∨
      s.buddy_base + s.buddy_top_size ≤ base)

/-- Two states agree on the general heap: block headers, arenas, latch, free
list, cursor and tree. -/
def GenEq (s t : Heap) : Prop :=
  t.mem = s.mem ∧ t.g_arenas = s.g_arenas ∧ t.g_strat = s.g_strat ∧
  t.g_free_head = s.g_free_head ∧ t.g_nextfit_cursor = s.g_nextfit_cursor ∧
  t.g_avl_root = s.g_avl_root

/-- What is assumed of the answer of `mmap` to `buddy_init_pool` for the first
request of `n` bytes: failure, or a region that overlaps no arena. -/
def PoolOk (s : Heap) (n : Nat) (os : Option Nat) : Prop :=
  ∀ base, os = some base → ∀ ar ∈ s.g_arenas,
    base + order_size (buddy_pool_order_init (ALIGN_UP n ALIGN)) ≤ ar.1 ∨ ar.1 + ar.2 ≤ base

/-- The states reachable from program start by `allocator_init`, the four
strategy-driven allocators, `malloc_buddy_alloc` and `my_free`, where
`my_free` is called on a live pointer of a strategy-driven allocator, each such
pointer freed at most once, or on any pointer that `is_buddy_ptr` accepts; the
list holds the live pointers of the strategy-driven allocators.  A call that
aborts or does not return reaches no state. -/
inductive Reach : Heap → List Nat → Prop where
  | boot (os : Option Nat) (h : OsOk Heap.zero (arena_need ARENA_MIN) os) :
      Reach (init_once Heap.zero os) []
  | init (s s1 : Heap) (live : List Nat) (st : Strategy) (h : Reach s live)
      (e : allocator_init s st = some s1) : Reach s1 live
  | malloc (s s1 : Heap) (live : List Nat) (st : Strategy) (n p : Nat) (os : Option Nat)
      (h : Reach s live) (hst : st ≠ Strategy.UNSET)
      (hos : OsOk s (arena_need (ALIGN_UP n ALIGN)) os)
      (e : malloc_fit st s n os = some (s1, p)) :
      Reach s1 (if p = 0 then live else p :: live)
  | free (s s1 : Heap) (live : List Nat) (p : Nat) (h : Reach s live) (hp : p ∈ live)
      (e : my_free s p = some s1) : Reach s1 (live.erase p)
  | balloc (s : Heap) (live : List Nat) (n : Nat) (os : Option Nat) (h : Reach s live)
      (hos : PoolOk s n os) : Reach (malloc_buddy_alloc s n os).1 live
  | bfree (s s1 : Heap) (live : List Nat) (q : Nat) (h : Reach s live)
      (hq : (is_buddy_ptr s q).isSome = true) (e : my_free s q = some s1) : Reach s1 live

/-- A state used to exercise the tree index: best fit is latched and the tree
holds three free blocks with keys `(32, 4096) < (32, 8192) < (64, 12288)`; the
block at `16384` has size `16`. -/
def treeDemo : Heap :=
  { Heap.zero with
    mem := fun a => ⟨if a = 4096 then 32 else if a = 8192 then 32 else if a = 12288 then 64
                     else if a = 16384 then 16 else 0, 1, 0, 0⟩
    g_strat := Strategy.BEST
    g_avl_root :=
      Tree.node (Tree.node Tree.nil 4096 1 Tree.nil) 8192 2 (Tree.node Tree.nil 12288 1 Tree.nil) }

/-- The state at program start when `mmap` answers `65536` to `init_once`. -/
def heapDemo : Heap := init_once Heap.zero (some 65536)

/-- The state and the pointer after `malloc_first_fit(100)` at program start. -/
def heapDemo1 : Heap × Nat := (malloc_first_fit heapDemo 100 none).getD (Heap.zero, 0)

/-- The state after `malloc_buddy_alloc(1024)` twice from the initial state,
`mmap` answering `1073741824` for the pool, with the two pointers returned. -/
def buddyDemo : Heap × Nat × Nat :=
  let r1 := malloc_buddy_alloc Heap.zero 1024 (some 1073741824)
  let r2 := malloc_buddy_alloc r1.1 1024 none
  (r2.1, r1.2, r2.2)

/-- The state and the pointer after `malloc_first_fit(4294967296)` at program
start. -/
def heapDemoWide : Heap × Nat :=
  (malloc_first_fit heapDemo 4294967296 none).getD (Heap.zero, 0)

/-- The state and the pointer after `malloc_best_fit(16)` at program start,
`mmap` answering `4194304` to the request for a second arena. -/
def heapDemoBest : Heap × Nat :=
  (malloc_best_fit heapDemo 16 (some 4194304)).getD (Heap.zero, 0)

/-- The state after `malloc_first_fit(100)` at program start followed by
`malloc_buddy_alloc(1024)`, `mmap` answering `1073741824` for the pool, with
the buddy pointer returned. -/
def mixDemo : Heap × Nat := malloc_buddy_alloc heapDemo1.1 1024 (some 1073741824)

/-! ## Invariants of the buddy pool -/

/-- The walk from the pointer `h` through the `next` words of the blocks
`l`, in this order, arrives at the pointer `c`. -/
def Seg (w : Nat → Nat) : Nat → List Nat → Nat → Prop
  | h, [], c => h = c
  | h, x :: xs, c => h = x ∧ x ≠ 0 ∧ Seg w (w x) xs c

/-- The chain of a bin that starts at the pointer `h` holds the blocks `l`
and ends with `NULL`. -/
def BinChain (w : Nat → Nat) (h : Nat) (l : List Nat) : Prop := Seg w h l 0

/-- The unlink step of the scan in `buddy_try_merge`:
`if(prev) prev->next=cur->next; else *pp=cur->next;` with `cur` the target. -/
def bin_unlink (s : Heap) (order target prev : Nat) : Heap :=
  if prev ≠ 0 then { s with words := storeW s.words prev (s.words target) }
  else { s with buddy_bins := storeW s.buddy_bins order (s.words target) }

/-- Two states agree on the place and the size of the buddy pool. -/
def PoolEq (s t : Heap) : Prop :=
  t.buddy_base = s.buddy_base ∧ t.buddy_top_size = s.buddy_top_size ∧
  t.buddy_order0 = s.buddy_order0 ∧ t.buddy_pool_order = s.buddy_pool_order

/-- The shape of the buddy pool: a block is free, handed out, or split into
its two halves. -/
inductive BTree where
  | free
  | used
  | split (l r : BTree)
deriving DecidableEq, Repr

/-- The free blocks `(order, address)` of a pool shape whose root block has
the order `k` and the address `a`. -/
def BTree.frees : BTree → Nat → Nat → List (Nat × Nat)
  | BTree.free, k, a => [(k, a)]
  | BTree.used, _, _ => []
  | BTree.split l r, k, a => l.frees (k - 1) a ++ r.frees (k - 1) (a + 2 ^ (k - 1))

/-- The blocks `(order, address)` handed out, in a pool shape whose root block
has the order `k` and the address `a`. -/
def BTree.useds : BTree → Nat → Nat → List (Nat × Nat)
  | BTree.free, _, _ => []
  | BTree.used, k, a => [(k, a)]
  | BTree.split l r, k, a => l.useds (k - 1) a ++ r.useds (k - 1) (a + 2 ^ (k - 1))

/-- Every block of the shape has at least the order `buddy_order0` (`4`). -/
def BTree.WF : BTree → Nat → Prop
  | BTree.split l r, k => 5 ≤ k ∧ l.WF (k - 1) ∧ r.WF (k - 1)
  | _, k => 4 ≤ k

/-- No block is split into two free halves. -/
def BTree.Merged : BTree → Prop
  | BTree.split BTree.free BTree.free => False
  | BTree.split l r => l.Merged ∧ r.Merged
  | _ => True

/-- The shape that `malloc_buddy_alloc` leaves of a free block that it splits
`d` times: the left-most block is handed out, every right half is free. -/
def BTree.down : Nat → BTree
  | 0 => BTree.used
  | d + 1 => BTree.split (BTree.down d) BTree.free

/-- The shape after the free block at the address `x` has been taken by
`malloc_buddy_alloc` for a block of the order `o`. -/
def BTree.take : BTree → Nat → Nat → Nat → Nat → BTree
  | BTree.free, k, a, x, o => if a = x then BTree.down (k - o) else BTree.free
  | BTree.used, _, _, _, _ => BTree.used
  | BTree.split l r, k, a, x, o =>
    if x < a + 2 ^ (k - 1) then BTree.split (l.take (k - 1) a x o) r
    else BTree.split l (r.take (k - 1) (a + 2 ^ (k - 1)) x o)

/-- Two halves put together: two free halves make a free block. -/
def BTree.mk : BTree → BTree → BTree
  | BTree.free, BTree.free => BTree.free
  | l, r => BTree.split l r

/-- The shape after the block handed out at the address `x` has been freed and
merged with its free buddies. -/
def BTree.rel : BTree → Nat → Nat → Nat → BTree
  | BTree.free, _, _, _ => BTree.free
  | BTree.used, _, a, x => if a = x then BTree.free else BTree.used
  | BTree.split l r, k, a, x =>
    if x < a + 2 ^ (k - 1) then BTree.mk (l.rel (k - 1) a x) r
    else BTree.mk l (r.rel (k - 1) (a + 2 ^ (k - 1)) x)

/-- The bins and the tags of the pool memory represent the free blocks `F` and
the blocks handed out `U` (`F k a`: the block at the address `a` is free with
the order `k`): the chain of `buddy_bins[k]` holds exactly the free blocks of
the order `k`, each once, and the word at the base of a block handed out is
its tag. -/
structure BuddyRep (s : Heap) (F U : Nat → Nat → Prop) : Prop where
  bins : ∀ k, k ≤ BUDDY_MAX_ORDER →
    ∃ l, BinChain s.words (s.buddy_bins k) l ∧ l.Nodup ∧ ∀ a, a ∈ l ↔ F k a
  tags : ∀ k a, U k a → s.words a = 0x8000000000000000 ||| k

/-- The invariant of the buddy pool with the shape `t`: the pool exists, its
order is between `buddy_order0 = 4` and `BUDDY_MAX_ORDER`, it ends inside the
address space, the shape is merged as far as possible, and bins and tags
represent the blocks of the shape. -/
structure BuddyInv (s : Heap) (t : BTree) : Prop where
  base : s.buddy_base ≠ 0
  order0 : s.buddy_order0 = 4
  order : 4 ≤ s.buddy_pool_order ∧ s.buddy_pool_order ≤ BUDDY_MAX_ORDER
  top : s.buddy_top_size = 2 ^ s.buddy_pool_order
  fits : s.buddy_base + 2 ^ s.buddy_pool_order < 2 ^ 64
  wf : t.WF s.buddy_pool_order
  merged : t.Merged
  rep : BuddyRep s (fun k a => (k, a) ∈ t.frees s.buddy_pool_order s.buddy_base)
    (fun k a => (k, a) ∈ t.useds s.buddy_pool_order s.buddy_base)

/-- The order that `malloc_buddy_alloc(size)` computes for its block: the loop
`while (order_size(order) < need && order<=buddy_pool_order) order++` from
`buddy_order0`, with `need = ALIGN_UP(size,ALIGN) + sizeof(size_t)`. -/
def buddy_order (s : Heap) (size : Nat) : Nat :=
  order_loop (add64 (ALIGN_UP size ALIGN) 8) (s.buddy_pool_order + 1) (s.buddy_pool_order + 2)
    s.buddy_order0

/-- The state in which `malloc_buddy_alloc(size)` looks for a block: the state
after its line `if (!buddy_base) buddy_init_pool(size);`, `size` being rounded
already. -/
def buddy_ready (s : Heap) (size : Nat) (os : Option Nat) : Heap :=
  if s.buddy_base = 0 then buddy_init_pool s (ALIGN_UP size ALIGN) os else s

/-- A sequence of calls `malloc_buddy_alloc(n)` for the sizes `ns`, the pool
being mapped already; the result is the final state and the pointers returned,
in the order of the calls. -/
def buddy_alloc_seq : Heap → List Nat → Heap × List Nat
  | s, [] => (s, [])
  | s, n :: ns =>
    ((buddy_alloc_seq (malloc_buddy_alloc s n none).1 ns).1,
     (malloc_buddy_alloc s n none).2 :: (buddy_alloc_seq (malloc_buddy_alloc s n none).1 ns).2)

/-- A sequence of calls `my_free(q)` for the pointers `qs`. -/
def my_free_seq : Heap → List Nat → Option Heap
  | s, [] => some s
  | s, q :: qs => (my_free s q).bind (fun s1 => my_free_seq s1 qs)

/-- The pool as `buddy_init_pool` leaves it: `buddy_bins[buddy_pool_order]`
holds the one block at offset 0, whose `next` is `NULL`, and every other bin is
empty. -/
structure FreshPool (s : Heap) : Prop where
  base : s.buddy_base ≠ 0
  order0 : s.buddy_order0 = 4
  order : 4 ≤ s.buddy_pool_order ∧ s.buddy_pool_order ≤ BUDDY_MAX_ORDER
  top : s.buddy_top_size = 2 ^ s.buddy_pool_order
  fits : s.buddy_base + 2 ^ s.buddy_pool_order < 2 ^ 64
  whole : s.buddy_bins s.buddy_pool_order = s.buddy_base
  last : s.words s.buddy_base = 0
  empty : ∀ k, k ≤ BUDDY_MAX_ORDER → k ≠ s.buddy_pool_order → s.buddy_bins k = 0

/-- The pointers `live` are the pointers of the blocks handed out in the pool
shape `t`, each once: the pointer of a block is its base plus the tag word. -/
def Owns (s : Heap) (t : BTree) (live : List Nat) : Prop :=
  live.Nodup ∧
  ∀ p, p ∈ live ↔ ∃ o a, (o, a) ∈ t.useds s.buddy_pool_order s.buddy_base ∧ p = a + 8

/-- Two states agree on the buddy pool: its place and size, the bins, and the
pool memory. -/
def BuddyEq (s t : Heap) : Prop :=
  PoolEq s t ∧ t.buddy_bins = s.buddy_bins ∧ t.words = s.words

/-- The states that a program reaches, with the buddy pointers it holds: from
a state without a pool, by calls of `malloc_buddy_alloc` (the mapping of the
pool, if `mmap` grants one, lies inside the address space away from address 0),
by calls of `my_free` on a buddy pointer that it holds, by calls of the four
strategy allocators, and by calls of `my_free` on a pointer that `is_buddy_ptr`
rejects. -/
inductive BReach : Heap → List Nat → Prop where
  | start (s : Heap) (hb : s.buddy_base = 0) : BReach s []
  | alloc (s : Heap) (live : List Nat) (n : Nat) (os : Option Nat) (h : BReach s live)
      (hos : ∀ base, os = some base → base ≠ 0 ∧
        base + order_size (buddy_pool_order_init (ALIGN_UP n ALIGN)) < 2 ^ 64) :
      BReach (malloc_buddy_alloc s n os).1
        (if (malloc_buddy_alloc s n os).2 = 0 then live
         else (malloc_buddy_alloc s n os).2 :: live)
  | free (s s1 : Heap) (live : List Nat) (p : Nat) (h : BReach s live) (hp : p ∈ live)
      (e : my_free s p = some s1) : BReach s1 (live.erase p)
  | gmalloc (s s1 : Heap) (live : List Nat) (st : Strategy) (n : Nat) (os : Option Nat)
      (p : Nat) (h : BReach s live) (e : malloc_fit st s n os = some (s1, p)) : BReach s1 live
  | gfree (s s1 : Heap) (live : List Nat) (q : Nat) (h : BReach s live)
      (hq : is_buddy_ptr s q = none) (e : my_free s q = some s1) : BReach s1 live

/-- The fresh pool that `buddy_init_pool(1024)` makes at program start, `mmap`
answering `1073741824`. -/
def poolDemo : Heap := buddy_init_pool Heap.zero 1024 (some 1073741824)

/-- The state and the pointer after the first call `malloc_buddy_alloc(1024)`
at program start, `mmap` answering `1073741824` for the pool. -/
def buddyDemo1 : Heap × Nat := malloc_buddy_alloc Heap.zero 1024 (some 1073741824)

/-- The state and the pointer after the first call
`malloc_buddy_alloc(4194304)` at program start, `mmap` answering `1073741824`
for the pool. -/
def buddyDemoBig : Heap × Nat := malloc_buddy_alloc Heap.zero 4194304 (some 1073741824)



/-! ## Reachable trees -/

/-- The trees that `avl_insert` and `avl_erase` make from the empty tree, the
keys being read through `sz`: a block that is inserted is an address (below
`2^64`) and is not in the tree yet. -/
inductive TreeReach (sz : Nat → Nat) : Tree → Prop where
  | empty : TreeReach sz Tree.nil
  | insert (t : Tree) (b : Nat) (h : TreeReach sz t) (hb : b ∉ t.toList) (h64 : b < 2 ^ 64) :
      TreeReach sz (avl_insert_rec sz t b)
  | erase (t : Tree) (b : Nat) (h : TreeReach sz t) : TreeReach sz (avl_delete_rec sz t b)


/-- The physical-chain property of a state: on the chain of every arena each
block is the successor of its predecessor and the predecessor of its successor
where these exist, the successor lies at `b + HDR_SZ + b->size`, and the
headers and payloads of the chain add up to the arena without its `Arena`
header. -/
def PhysOK (s : Heap) : Prop :=
  ∀ ar ∈ s.g_arenas,
    (∀ b ∈ s.chain ar,
      ((s.mem b).prev_phys ≠ 0 → (s.mem (s.mem b).prev_phys).next_phys = b) ∧
      ((s.mem b).next_phys ≠ 0 → (s.mem (s.mem b).next_phys).prev_phys = b ∧
        (s.mem b).next_phys = b + HDR_SZ + (s.mem b).size)) ∧
    ((s.chain ar).map (fun b => HDR_SZ + (s.mem b).size)).sum = ar.2 - SIZEOF_ARENA


/-! ## Scenarios of the test suite -/

/-- A sequence of calls of one strategy-driven allocator with the sizes `ns`,
`mmap` giving the answer `os` whenever it is asked: the state afterwards and
the pointers returned, in order; `none` when a call does not return. -/
def malloc_seq (st : Strategy) (os : Option Nat) : Heap → List Nat → Option (Heap × List Nat)
  | s, [] => some (s, [])
  | s, n :: ns =>
    match malloc_fit st s n os with
    | none => none
    | some (s1, p) =>
      match malloc_seq st os s1 ns with
      | none => none
      | some (s2, ps) => some (s2, p :: ps)

/-- The layout that the specification gives for a run of allocations of the
sizes `ns` out of one block, each allocation splitting what the one before
left: the distance from the start of the block to the header of the `i`-th
allocation, every earlier allocation taking its size rounded up to a multiple
of 16 and one header. -/
def spec_run_off (ns : List Nat) (i : Nat) : Nat :=
  ((ns.take i).map (fun n => (n + 15) / 16 * 16 + HDR_SZ)).sum


/-- The state and the pointer after `malloc_worst_fit(16)` at program start,
`mmap` answering `4194304` to the request for a second arena. -/
def heapDemoWorst : Heap × Nat :=
  (malloc_worst_fit heapDemo 16 (some 4194304)).getD (Heap.zero, 0)

/-- Scenario S2 under worst fit from `heapDemoWorst`: three calls
`malloc_worst_fit(256)`, `my_free` of the second pointer, and one more
`malloc_worst_fit(256)`; the result is the three pointers and the fourth. -/
def worstReuseDemo : Option (List Nat × Nat) :=
  match malloc_seq Strategy.WORST none heapDemoWorst.1 [256, 256, 256] with
  | none => none
  | some (s3, ps) =>
    match my_free s3 (ps.getD 1 0) with
    | none => none
    | some s4 =>
      match malloc_worst_fit s4 256 none with
      | none => none
      | some (_, p4) => some (ps, p4)

/-! ## The tiling of the buddy pool -/

/-- The loop of `buddy_try_merge` once more, with a record of the values
`buddy_off = off ^ block_sz` that the iterations compute, in their order; the
state is that of `merge_loop`.  The loop is left by `break` exactly when the
value recorded last is at least `buddy_top_size`. -/
def merge_trace : Nat → Heap → Nat → Nat → Option (Heap × List Nat)
  | 0, s, order, off => some (buddy_push s order (off_ptr s off), [])
  | fuel + 1, s, order, off =>
    if order < s.buddy_pool_order then
      if off ^^^ order_size order ≥ s.buddy_top_size then
        some (buddy_push s order (off_ptr s off), [off ^^^ order_size order])
      else
        match bin_scan order (off_ptr s (off ^^^ order_size order)) (s.buddy_top_size + 1) s 0
            (s.buddy_bins order) with
        | none => none
        | some (s1, true) =>
          (merge_trace fuel s1 (order + 1)
            (if off ^^^ order_size order < off then off ^^^ order_size order else off)).map
            (fun r => (r.1, (off ^^^ order_size order) :: r.2))
        | some (s1, false) =>
          some (buddy_push s1 order (off_ptr s1 off), [off ^^^ order_size order])
    else some (buddy_push s order (off_ptr s off), [])

/-- The block at the address `a` is a free block of the order `k`: it lies on
the chain of `buddy_bins[k]`. -/
def BinBlock (s : Heap) (k a : Nat) : Prop :=
  k ≤ BUDDY_MAX_ORDER ∧ ∃ l, BinChain s.words (s.buddy_bins k) l ∧ a ∈ l

/-- The block at the address `a` is an allocated block of the order `k`: the
program holds its pointer `a + 8`, and `is_buddy_ptr` reads the order `k` and
the base `a` from its tag. -/
def HeldBlock (s : Heap) (live : List Nat) (k a : Nat) : Prop :=
  a + 8 ∈ live ∧ is_buddy_ptr s (a + 8) = some (k, a)

/-- The blocks of the pool: the free blocks of the bins and the allocated
blocks. -/
def PoolBlock (s : Heap) (live : List Nat) (k a : Nat) : Prop :=
  BinBlock s k a ∨ HeldBlock s live k a

/-- The blocks `(order, address)` of a pool shape, free or handed out, from
left to right. -/
def BTree.leaves : BTree → Nat → Nat → List (Nat × Nat)
  | BTree.split l r, k, a => l.leaves (k - 1) a ++ r.leaves (k - 1) (a + 2 ^ (k - 1))
  | _, k, a => [(k, a)]

/-- The states reachable from a freshly initialised pool (the state in which
`buddy_init_pool` leaves the allocator when `mmap` has answered `base`, the
region lying inside the address space away from address 0) by calls of
`malloc_buddy_alloc` and by calls of `my_free` on a buddy pointer that the
program holds; the list holds these pointers, and a pointer leaves it when it
is freed. -/
inductive PoolReach : Heap → List Nat → Prop where
  | fresh (s : Heap) (m base : Nat) (h0 : base ≠ 0)
      (hfit : base + order_size (buddy_pool_order_init m) < 2 ^ 64) :
      PoolReach (buddy_init_pool s m (some base)) []
  | alloc (s : Heap) (live : List Nat) (n : Nat) (os : Option Nat) (h : PoolReach s live) :
      PoolReach (malloc_buddy_alloc s n os).1
        (if (malloc_buddy_alloc s n os).2 = 0 then live
         else (malloc_buddy_alloc s n os).2 :: live)
  | free (s s1 : Heap) (live : List Nat) (p : Nat) (h : PoolReach s live) (hp : p ∈ live)
      (e : my_free s p = some s1) : PoolReach s1 (live.erase p)

/-- The state and the pointer after `malloc_buddy_alloc(1024)` in the fresh
pool `poolDemo`. -/
def poolDemo1 : Heap × Nat := malloc_buddy_alloc poolDemo 1024 none

/-! # Lemmas and theorems -/

/-! ## The free list -/

theorem mem_fl_push_sorted (l : List Nat) (b x : Nat) :
    x ∈ fl_push_sorted l b ↔ x = b ∨ x ∈ l := by
  induction l with
  | nil => simp [fl_push_sorted]
  | cons y ys ih =>
    unfold fl_push_sorted
    split
    · simp only [List.mem_cons, ih]; tauto
    · simp only [List.mem_cons]

theorem fl_push_sorted_pairwise (l : List Nat) (b : Nat) (hs : l.Pairwise (· < ·))
    (hb : b ∉ l) : (fl_push_sorted l b).Pairwise (· < ·) := by
  induction l with
  | nil => simp [fl_push_sorted]
  | cons y ys ih =>
    rw [List.pairwise_cons] at hs
    have hne : b ≠ y := fun h => hb (by simp [h])
    have hb2 : b ∉ ys := fun h => hb (List.mem_cons_of_mem _ h)
    unfold fl_push_sorted
    split
    · rename_i hlt
      rw [List.pairwise_cons]
      refine ⟨?_, ih hs.2 hb2⟩
      intro a ha
      rcases (mem_fl_push_sorted ys b a).1 ha with h | h
      · rw [h]; exact hlt
      · exact hs.1 a h
    · rename_i hlt
      have hby : b < y := by omega
      rw [List.pairwise_cons]
      refine ⟨?_, List.pairwise_cons.2 hs⟩
      intro a ha
      rcases List.mem_cons.1 ha with h | h
      · rw [h]; exact hby
      · exact lt_trans hby (hs.1 a h)

theorem fl_unlink_eq_erase (l : List Nat) (b : Nat) : fl_unlink l b = l.erase b := by
  induction l with
  | nil => rfl
  | cons y ys ih =>
    unfold fl_unlink
    by_cases h : y = b
    · simp [h]
    · simp [h, ih, List.erase_cons_tail]

theorem fl_unlink_pairwise (l : List Nat) (b : Nat) (hs : l.Pairwise (· < ·)) :
    (fl_unlink l b).Pairwise (· < ·) := by
  rw [fl_unlink_eq_erase]
  exact hs.sublist (List.erase_sublist b l)

theorem mem_fl_unlink (l : List Nat) (b x : Nat) (hs : l.Pairwise (· < ·)) :
    x ∈ fl_unlink l b ↔ x ∈ l ∧ x ≠ b := by
  rw [fl_unlink_eq_erase]
  have hnd : l.Nodup := hs.imp (fun h => ne_of_lt h)
  rw [hnd.mem_erase_iff]; tauto

/-- Claim C8: on a free list that is strictly ascending by block address,
`fl_push_sorted(b)` of a block not on the list yields a strictly ascending list
whose members are the old members plus `b`, and `fl_remove(b)` of a member
yields a strictly ascending list whose members are the old members minus `b`. -/
theorem fl_index_sorted (s : Heap) (b : Nat) (hs : s.g_free_head.Pairwise (· < ·)) :
    (b ∉ s.g_free_head →
      (s.fl_push_sorted b).g_free_head.Pairwise (· < ·) ∧
      ∀ x, x ∈ (s.fl_push_sorted b).g_free_head ↔ x ∈ s.g_free_head ∨ x = b) ∧
    (b ∈ s.g_free_head →
      (s.fl_remove b).g_free_head.Pairwise (· < ·) ∧
      ∀ x, x ∈ (s.fl_remove b).g_free_head ↔ x ∈ s.g_free_head ∧ x ≠ b) := by
  refine ⟨fun hb => ⟨fl_push_sorted_pairwise _ _ hs hb, fun x => ?_⟩,
          fun _ => ⟨fl_unlink_pairwise _ _ hs, fun x => mem_fl_unlink _ _ _ hs⟩⟩
  show x ∈ Mmu.fl_push_sorted s.g_free_head b ↔ _
  rw [mem_fl_push_sorted]; tauto

/-- Witness for claim C8: the list `[32, 64, 128]`, pushing `96` and removing
`64`. -/
theorem fl_index_sorted_witness :
    ([32, 64, 128] : List Nat).Pairwise (· < ·) ∧
    ({ Heap.zero with g_free_head := [32, 64, 128] }.fl_push_sorted 96).g_free_head
      = [32, 64, 96, 128] ∧
    ({ Heap.zero with g_free_head := [32, 64, 128] }.fl_remove 64).g_free_head = [32, 128] ∧
    ({ Heap.zero with g_free_head := [32, 64, 128] }.fl_push_sorted 96).g_free_head.Pairwise
      (· < ·) ∧
    ({ Heap.zero with g_free_head := [32, 64, 128] }.fl_remove 64).g_free_head.Pairwise
      (· < ·) :=
  ⟨by decide, by decide, by decide,
   ((fl_index_sorted { Heap.zero with g_free_head := [32, 64, 128] } 96 (by decide)).1
      (by decide)).1,
   ((fl_index_sorted { Heap.zero with g_free_head := [32, 64, 128] } 64 (by decide)).2
      (by decide)).1⟩

/-! ## The strategy latch -/

@[simp] theorem index_insert_strat (s : Heap) (b : Nat) :
    (index_insert s b).g_strat = s.g_strat := by
  unfold index_insert Heap.fl_push_sorted avl_insert; split <;> rfl

@[simp] theorem index_remove_strat (s : Heap) (b : Nat) :
    (index_remove s b).g_strat = s.g_strat := by
  unfold index_remove Heap.fl_remove avl_erase; split_ifs <;> rfl

theorem index_find_strat (s s1 : Heap) (need b : Nat) (h : index_find s need = some (s1, b)) :
    s1.g_strat = s.g_strat := by
  unfold index_find at h
  split_ifs at h
  · cases h; rfl
  · split at h
    · cases h
    · cases h; rfl
  · cases h; rfl
  · cases h; rfl
  · cases h; rfl

@[simp] theorem map_arena_strat (s : Heap) (n : Nat) (os : Option Nat) :
    (map_arena s n os).1.g_strat = s.g_strat := by
  unfold map_arena; cases os <;> simp

@[simp] theorem split_block_strat (s : Heap) (b n : Nat) :
    (split_block s b n).g_strat = s.g_strat := by
  unfold split_block; simp only []; split <;> simp

@[simp] theorem alloc_found_strat (s : Heap) (b n : Nat) :
    (alloc_found s b n).1.g_strat = s.g_strat := by
  unfold alloc_found; simp

theorem allocate_general_strat (s s1 : Heap) (n b : Nat) (os : Option Nat)
    (h : allocate_general s n os = some (s1, b)) : s1.g_strat = s.g_strat := by
  unfold allocate_general at h
  split_ifs at h with h0
  · cases h; rfl
  · split at h
    · cases h
    · rename_i s2 b2 hf
      have e2 := index_find_strat _ _ _ _ hf
      split_ifs at h
      · cases h; simp [e2]
      · cases h; simp [e2]
      · split at h
        · cases h
        · rename_i s3 b3 hf3
          have e3 := index_find_strat _ _ _ _ hf3
          split_ifs at h <;> cases h <;> simp [e3, e2]

theorem malloc_fit_strat (st : Strategy) (s s1 : Heap) (n p : Nat) (os : Option Nat)
    (h : malloc_fit st s n os = some (s1, p)) : s1.g_strat = st := by
  unfold malloc_fit at h
  split at h
  · cases h
  · rename_i s2 hl
    split at h
    · cases h
    · rename_i s3 b ha
      cases h
      rw [allocate_general_strat _ _ _ _ _ ha]
      unfold lock_strategy at hl
      split_ifs at hl with h1 h2
      · cases hl; rfl
      · cases hl; push_neg at h2; exact h2

/-- Claim C4: `lock_strategy` is a one-way latch.  An unset latch becomes the
argument; a latch equal to the argument leaves the state unchanged, so
`allocator_init` applied twice is `allocator_init` applied once; a latch set
to another strategy makes the call abort; a returning call never changes a set
latch; every `malloc_*_fit` starts with the latch; and after any returning
`malloc_first_fit` every `malloc_best_fit` aborts. -/
theorem lock_strategy_latch (s : Heap) (st : Strategy) :
    (s.g_strat = Strategy.UNSET → lock_strategy s st = some { s with g_strat := st }) ∧
    (s.g_strat = st → lock_strategy s st = some s) ∧
    (s.g_strat ≠ Strategy.UNSET → s.g_strat ≠ st → lock_strategy s st = none) ∧
    (∀ s1, allocator_init s st = some s1 → allocator_init s1 st = some s1) ∧
    (∀ s1 st2, s.g_strat ≠ Strategy.UNSET → lock_strategy s st2 = some s1 →
      s1 = s ∧ st2 = s.g_strat) ∧
    (∀ n os, malloc_fit st s n os =
      (lock_strategy s st).bind (fun s1 =>
        (allocate_general s1 n os).map (fun r => (r.1, if r.2 ≠ 0 then blk_to_ptr r.2 else 0)))) ∧
    (∀ n os s1 p n2 os2, malloc_first_fit s n os = some (s1, p) →
      malloc_best_fit s1 n2 os2 = none) := by
  have key : ∀ t : Heap, ∀ u : Strategy, t.g_strat = u → lock_strategy t u = some t := by
    intro t u h
    subst h
    unfold lock_strategy
    by_cases h1 : t.g_strat = Strategy.UNSET
    · rw [if_pos h1]
    · rw [if_neg h1, if_neg (by simp)]
  refine ⟨?_, key s st, ?_, ?_, ?_, ?_, ?_⟩
  · intro h; simp [lock_strategy, h]
  · intro h1 h2; simp [lock_strategy, h1, h2]
  · intro s1 h
    apply key
    unfold allocator_init lock_strategy at h
    split_ifs at h with h1 h2
    · cases h; rfl
    · cases h; push_neg at h2; exact h2
  · intro s1 st2 h1 h; unfold lock_strategy at h
    rw [if_neg h1] at h
    by_cases h2 : s.g_strat = st2
    · rw [if_neg (by simpa using h2)] at h
      cases h; exact ⟨rfl, h2.symm⟩
    · rw [if_pos h2] at h; cases h
  · intro n os; unfold malloc_fit
    cases lock_strategy s st with
    | none => rfl
    | some s1 =>
      simp only [Option.bind]
      cases allocate_general s1 n os with
      | none => rfl
      | some r => rfl
  · intro n os s1 p n2 os2 h
    have e := malloc_fit_strat _ _ _ _ _ _ h
    simp [malloc_best_fit, malloc_fit, lock_strategy, e]

/-- Witness for claim C4: from the state at program start (one arena mapped at
`65536`), `malloc_first_fit(16)` returns and `malloc_best_fit(16)` then aborts. -/
theorem lock_strategy_latch_witness :
    lock_strategy (init_once Heap.zero (some 65536)) Strategy.FIRST =
      some { init_once Heap.zero (some 65536) with g_strat := Strategy.FIRST } ∧
    (∀ s1 p, malloc_first_fit (init_once Heap.zero (some 65536)) 16 none = some (s1, p) →
      malloc_best_fit s1 16 none = none) ∧
    (malloc_first_fit (init_once Heap.zero (some 65536)) 16 none).isSome = true :=
  ⟨(lock_strategy_latch (init_once Heap.zero (some 65536)) Strategy.FIRST).1 rfl,
   fun s1 p h =>
     (lock_strategy_latch (init_once Heap.zero (some 65536)) Strategy.FIRST).2.2.2.2.2.2
       16 none s1 p 16 none h,
   by decide⟩

/-! ## Frame facts and double free on the general heap -/

@[simp] theorem index_insert_frame (s : Heap) (b : Nat) :
    (index_insert s b).mem = s.mem ∧ (index_insert s b).g_arenas = s.g_arenas ∧
    (index_insert s b).buddy_base = s.buddy_base ∧
    (index_insert s b).buddy_top_size = s.buddy_top_size ∧
    (index_insert s b).buddy_order0 = s.buddy_order0 ∧
    (index_insert s b).buddy_pool_order = s.buddy_pool_order ∧
    (index_insert s b).buddy_bins = s.buddy_bins ∧ (index_insert s b).words = s.words := by
  unfold index_insert Heap.fl_push_sorted avl_insert; split <;> simp

@[simp] theorem index_remove_frame (s : Heap) (b : Nat) :
    (index_remove s b).mem = s.mem ∧ (index_remove s b).g_arenas = s.g_arenas ∧
    (index_remove s b).buddy_base = s.buddy_base ∧
    (index_remove s b).buddy_top_size = s.buddy_top_size ∧
    (index_remove s b).buddy_order0 = s.buddy_order0 ∧
    (index_remove s b).buddy_pool_order = s.buddy_pool_order ∧
    (index_remove s b).buddy_bins = s.buddy_bins ∧ (index_remove s b).words = s.words := by
  unfold index_remove Heap.fl_remove avl_erase; split_ifs <;> simp

theorem store_is_free (m : Nat → Block) (a x : Nat) (f : Block → Block)
    (hf : ∀ B, (f B).is_free = B.is_free) : (store m a f x).is_free = (m x).is_free := by
  unfold store; split
  · rename_i h; rw [hf, h]
  · rfl


theorem coalesce_left_frame (s : Heap) (b : Nat) :
    (∀ a, ((coalesce_left s b).1.mem a).is_free = (s.mem a).is_free) ∧
    (coalesce_left s b).1.buddy_base = s.buddy_base ∧
    (coalesce_left s b).1.buddy_top_size = s.buddy_top_size ∧
    (coalesce_left s b).1.buddy_pool_order = s.buddy_pool_order ∧
    (coalesce_left s b).1.buddy_bins = s.buddy_bins ∧
    (coalesce_left s b).1.words = s.words ∧
    (coalesce_left s b).1.g_strat = s.g_strat ∧
    (coalesce_left s b).1.g_arenas = s.g_arenas := by
  unfold coalesce_left
  simp only []
  split
  · refine ⟨fun a => ?_, ?_⟩
    swap
    · simp
    simp only []
    split
    · refine (store_is_free _ _ _ _ ?_).trans ((store_is_free _ _ _ _ ?_).trans
        ((store_is_free _ _ _ _ ?_).trans ?_))
      · intro B; rfl
      · intro B; rfl
      · intro B; rfl
      · simp
    · refine (store_is_free _ _ _ _ ?_).trans ((store_is_free _ _ _ _ ?_).trans ?_)
      · intro B; rfl
      · intro B; rfl
      · simp
  · simp

theorem coalesce_right_frame (s : Heap) (b R : Nat) :
    (∀ a, ((coalesce_right s b R).mem a).is_free = (s.mem a).is_free) ∧
    (coalesce_right s b R).buddy_base = s.buddy_base ∧
    (coalesce_right s b R).buddy_top_size = s.buddy_top_size ∧
    (coalesce_right s b R).buddy_pool_order = s.buddy_pool_order ∧
    (coalesce_right s b R).buddy_bins = s.buddy_bins ∧
    (coalesce_right s b R).words = s.words ∧
    (coalesce_right s b R).g_strat = s.g_strat ∧
    (coalesce_right s b R).g_arenas = s.g_arenas := by
  unfold coalesce_right
  simp only []
  split
  · refine ⟨fun a => ?_, ?_⟩
    swap
    · simp
    simp only []
    split
    · refine (store_is_free _ _ _ _ ?_).trans ((store_is_free _ _ _ _ ?_).trans
        ((store_is_free _ _ _ _ ?_).trans ?_))
      · intro B; rfl
      · intro B; rfl
      · intro B; rfl
      · simp
    · refine (store_is_free _ _ _ _ ?_).trans ((store_is_free _ _ _ _ ?_).trans ?_)
      · intro B; rfl
      · intro B; rfl
      · simp
  · simp

theorem coalesce_and_insert_frame (s : Heap) (b : Nat) :
    (∀ a, ((coalesce_and_insert s b).mem a).is_free = (s.mem a).is_free) ∧
    (coalesce_and_insert s b).buddy_base = s.buddy_base ∧
    (coalesce_and_insert s b).buddy_top_size = s.buddy_top_size ∧
    (coalesce_and_insert s b).buddy_pool_order = s.buddy_pool_order ∧
    (coalesce_and_insert s b).buddy_bins = s.buddy_bins ∧
    (coalesce_and_insert s b).words = s.words ∧
    (coalesce_and_insert s b).g_strat = s.g_strat ∧
    (coalesce_and_insert s b).g_arenas = s.g_arenas := by
  obtain ⟨l1, l2, l3, l4, l5, l6, l7, l8⟩ := coalesce_left_frame s b
  obtain ⟨r1, r2, r3, r4, r5, r6, r7, r8⟩ :=
    coalesce_right_frame (coalesce_left s b).1 (coalesce_left s b).2 (s.mem b).next_phys
  unfold coalesce_and_insert
  simp only [index_insert_frame, index_insert_strat]
  exact ⟨fun a => (r1 a).trans (l1 a), r2.trans l2, r3.trans l3, r4.trans l4, r5.trans l5,
    r6.trans l6, r7.trans l7, r8.trans l8⟩

theorem free_general_frame (s : Heap) (p : Nat) :
    (free_general s p).buddy_base = s.buddy_base ∧
    (free_general s p).buddy_top_size = s.buddy_top_size ∧
    (free_general s p).buddy_pool_order = s.buddy_pool_order ∧
    (free_general s p).buddy_bins = s.buddy_bins ∧
    (free_general s p).words = s.words ∧
    (free_general s p).g_strat = s.g_strat ∧
    (free_general s p).g_arenas = s.g_arenas := by
  unfold free_general
  split_ifs
  · simp
  · simp
  · obtain ⟨-, r2, r3, r4, r5, r6, r7, r8⟩ := coalesce_and_insert_frame
      { s with mem := store s.mem (ptr_to_blk p) (fun B => { B with is_free := 1 }) }
      (ptr_to_blk p)
    exact ⟨r2, r3, r4, r5, r6, r7, r8⟩

/-- After `free_general(p)` the block of `p` is flagged free, whatever it was
before: a second `free_general(p)` returns at the double-free test. -/
theorem free_general_idem (s : Heap) (p : Nat) :
    free_general (free_general s p) p = free_general s p := by
  by_cases hp : p = 0
  · simp [free_general, hp]
  · by_cases hf : (s.mem (ptr_to_blk p)).is_free ≠ 0
    · have e : free_general s p = s := by simp [free_general, hp, hf]
      rw [e, e]
    · have e : free_general s p = coalesce_and_insert
          { s with mem := store s.mem (ptr_to_blk p) (fun B => { B with is_free := 1 }) }
          (ptr_to_blk p) := by simp [free_general, hp, hf]
      have h1 : ((free_general s p).mem (ptr_to_blk p)).is_free ≠ 0 := by
        rw [e, (coalesce_and_insert_frame _ _).1]
        simp [store]
      generalize free_general s p = t at h1 ⊢
      simp [free_general, hp, h1]

theorem is_buddy_ptr_congr (s t : Heap) (p : Nat) (h1 : t.buddy_base = s.buddy_base)
    (h2 : t.buddy_top_size = s.buddy_top_size) (h3 : t.buddy_pool_order = s.buddy_pool_order)
    (h4 : t.words = s.words) : is_buddy_ptr t p = is_buddy_ptr s p := by
  unfold is_buddy_ptr; rw [h1, h2, h3, h4]

theorem is_buddy_ptr_outside (s : Heap) (p : Nat)
    (hp : s.buddy_base = 0 ∨ p ≤ s.buddy_base ∨ p ≥ add64 s.buddy_base s.buddy_top_size) :
    is_buddy_ptr s p = none := by
  unfold is_buddy_ptr
  by_cases h0 : s.buddy_base = 0
  · rw [if_pos h0]
  · rw [if_neg h0, if_pos (by tauto)]

/-! ## Two defects, evaluated -/

/-- Claim C1 at a failing input.  `ALIGN` is the 32-bit constant `16u`, so the
mask of `ALIGN_UP` clears the upper half of a `size_t`: at program start (arena
at `65536`) `malloc_first_fit(4294967296)` returns `65616`, the payload of its
block is `0` bytes, and the next `malloc_first_fit(16)` returns `65680`, which
lies inside the `4294967296` bytes promised to the first caller. -/
theorem malloc_first_fit_truncates_size :
    ALIGN_UP 4294967296 ALIGN = 0 ∧
    (malloc_first_fit heapDemo 4294967296 none).map
      (fun r => (r.2, (r.1.mem (ptr_to_blk r.2)).size)) = some (65616, 0) ∧
    ((malloc_first_fit heapDemo 4294967296 none).bind
      (fun r => malloc_first_fit r.1 16 none)).map (fun r => r.2) = some 65680 ∧
    (65616 ≤ 65680 ∧ 65680 < 65616 + 4294967296) := by
  refine ⟨by decide, by decide, by decide, by decide⟩

/-- Claim C6 at a failing input.  Two buddy blocks of order 11 are allocated at
offsets `0` and `2048` of the pool at `1073741824`; both are freed, which merges
the whole pool back into `buddy_bins[22]` and leaves `buddy_bins[11]` empty.
The tag word of the second block is still in place, so a second `my_free` of
its pointer is classified as a buddy pointer again and pushes the block onto
`buddy_bins[11]`: the bins change. -/
theorem buddy_double_free_changes_bins :
    (buddyDemo.2.1 = 1073741832 ∧ buddyDemo.2.2 = 1073743880) ∧
    ((my_free buddyDemo.1 buddyDemo.2.1).bind (fun s => my_free s buddyDemo.2.2)).map
      (fun s => (s.buddy_bins 11, s.buddy_bins 22, is_buddy_ptr s buddyDemo.2.2)) =
      some (0, 1073741824, some (11, 1073743872)) ∧
    (((my_free buddyDemo.1 buddyDemo.2.1).bind (fun s => my_free s buddyDemo.2.2)).bind
      (fun s => my_free s buddyDemo.2.2)).map
      (fun s => (s.buddy_bins 11, s.buddy_bins 22)) = some (1073743872, 1073741824) := by
  refine ⟨by decide, by decide, by decide⟩

/-! ## The tree index -/

theorem toInt8_eq (x : Int) (h1 : -128 ≤ x) (h2 : x ≤ 127) : toInt8 x = x := by
  unfold toInt8; omega

@[simp] theorem height_nil : height Tree.nil = 0 := rfl

@[simp] theorem height_node (l r : Tree) (b : Nat) (k : Int) :
    height (Tree.node l b k r) = k := rfl

theorem height_nonneg (t : Tree) (h : t.HeightOk) : 0 ≤ height t := by
  induction t with
  | nil => simp
  | node l b k r ihl ihr =>
    have h1 := ihl h.2.1
    have h2 := ihr h.2.2
    simp only [Tree.HeightOk, height_node] at *; omega

theorem height_eq_depth (t : Tree) (h : t.HeightOk) : height t = t.depth := by
  induction t with
  | nil => simp [Tree.depth]
  | node l b k r ihl ihr =>
    have h1 := ihl h.2.1
    have h2 := ihr h.2.2
    simp only [Tree.HeightOk, height_node, Tree.depth] at *
    omega

theorem upd_eq (l r : Tree) (x : Nat) (h : Int) (hl : l.HeightOk) (hr : r.HeightOk)
    (b1 : height l ≤ 126) (b2 : height r ≤ 126) :
    upd (Tree.node l x h r) = Tree.node l x (1 + max (height l) (height r)) r := by
  have h1 := height_nonneg l hl
  have h2 := height_nonneg r hr
  simp only [upd]
  congr 1
  rw [toInt8_eq] <;> split_ifs <;> omega

theorem upd_toList (t : Tree) : (upd t).toList = t.toList := by
  cases t <;> rfl

theorem rotR_toList (t : Tree) : (rotR t).toList = t.toList := by
  unfold rotR
  split
  · simp [upd, Tree.toList]
  · rfl

theorem rotL_toList (t : Tree) : (rotL t).toList = t.toList := by
  unfold rotL
  split
  · simp [upd, Tree.toList]
  · rfl

theorem heightOk_mk (l r : Tree) (x : Nat) (hl : l.HeightOk) (hr : r.HeightOk) :
    (Tree.node l x (1 + max (height l) (height r)) r).HeightOk := ⟨rfl, hl, hr⟩

theorem cmp_lt_iff (sz : Nat → Nat) (a b : Nat) :
    cmp_block sz a b < 0 ↔ (sz a < sz b ∨ (sz a = sz b ∧ a < b)) := by
  unfold cmp_block; split_ifs <;> simp <;> omega

theorem cmp_gt_iff (sz : Nat → Nat) (a b : Nat) :
    cmp_block sz a b > 0 ↔ (sz b < sz a ∨ (sz a = sz b ∧ b < a)) := by
  unfold cmp_block; split_ifs <;> simp <;> omega

theorem cmp_gt_iff_lt (sz : Nat → Nat) (a b : Nat) :
    cmp_block sz a b > 0 ↔ cmp_block sz b a < 0 := by
  rw [cmp_gt_iff, cmp_lt_iff]; omega

theorem cmp_eq_iff (sz : Nat → Nat) (a b : Nat) : cmp_block sz a b = 0 ↔ a = b := by
  constructor
  · intro h
    unfold cmp_block at h
    split_ifs at h <;> omega
  · intro h
    subst h
    simp [cmp_block]

theorem cmp_trichotomy (sz : Nat → Nat) (a b : Nat) :
    cmp_block sz a b < 0 ∨ a = b ∨ cmp_block sz a b > 0 := by
  rw [cmp_lt_iff, cmp_gt_iff]; omega

theorem cmp_lt_trans (sz : Nat → Nat) (a b c : Nat) (h1 : cmp_block sz a b < 0)
    (h2 : cmp_block sz b c < 0) : cmp_block sz a c < 0 := by
  rw [cmp_lt_iff] at *; omega

theorem cmp_lt_irrefl (sz : Nat → Nat) (a : Nat) : ¬ cmp_block sz a a < 0 := by
  rw [cmp_lt_iff]; omega

theorem bst_iff_pairwise (sz : Nat → Nat) (t : Tree) :
    t.Bst sz ↔ t.toList.Pairwise (fun a b => cmp_block sz a b < 0) := by
  induction t with
  | nil => simp [Tree.Bst, Tree.toList]
  | node l x h r ihl ihr =>
    simp only [Tree.Bst, Tree.toList, List.pairwise_append, List.pairwise_cons, ihl, ihr,
      List.mem_cons]
    constructor
    · rintro ⟨h1, h2, h3, h4⟩
      refine ⟨h3, ⟨fun a ha => (cmp_gt_iff_lt sz a x).1 (h2 a ha), h4⟩, ?_⟩
      intro a ha c hc
      rcases hc with hc | hc
      · rw [hc]; exact h1 a ha
      · exact cmp_lt_trans sz a x c (h1 a ha) ((cmp_gt_iff_lt sz c x).1 (h2 c hc))
    · rintro ⟨h1, ⟨h2, h3⟩, h4⟩
      exact ⟨fun a ha => h4 a ha x (Or.inl rfl), fun a ha => (cmp_gt_iff_lt sz a x).2 (h2 a ha),
        h1, h3⟩

theorem bst_of_toList_eq (sz : Nat → Nat) (t u : Tree) (h : t.toList = u.toList)
    (hu : u.Bst sz) : t.Bst sz := by
  rw [bst_iff_pairwise] at *; rw [h]; exact hu

theorem bst_nodup (sz : Nat → Nat) (t : Tree) (h : t.Bst sz) : t.toList.Nodup := by
  rw [bst_iff_pairwise] at h
  refine h.imp ?_
  intro a b hab e
  rw [e] at hab
  exact cmp_lt_irrefl sz b hab

@[simp] theorem balance_factor_node (l r : Tree) (x : Nat) (h : Int) :
    balance_factor (Tree.node l x h r) = height l - height r := rfl

theorem insert_fix_eq (sz : Nat → Nat) (b : Nat) (l r : Tree) (x : Nat) (h : Int)
    (hL : height l - height r > 1 →
      (cmp_root sz b l < 0 ∧ balance_factor l > 0) ∨ (cmp_root sz b l > 0 ∧ balance_factor l < 0))
    (hR : height l - height r < -1 →
      (cmp_root sz b r > 0 ∧ balance_factor r < 0) ∨ (cmp_root sz b r < 0 ∧ balance_factor r > 0)) :
    insert_fix sz b (Tree.node l x h r) = delete_fix (Tree.node l x h r) := by
  simp only [insert_fix, delete_fix, balance_factor_node]
  by_cases c1 : height l - height r > 1
  · rcases hL c1 with ⟨h1, h2⟩ | ⟨h1, h2⟩
    · rw [if_pos ⟨c1, h1⟩, if_pos ⟨c1, by omega⟩]
    · rw [if_neg (by omega), if_neg (by omega), if_pos ⟨c1, h1⟩, if_neg (by omega),
        if_pos ⟨c1, h2⟩]
  · by_cases c2 : height l - height r < -1
    · rcases hR c2 with ⟨h1, h2⟩ | ⟨h1, h2⟩
      · rw [if_neg (by omega), if_pos ⟨c2, h1⟩, if_neg (by omega), if_neg (by omega),
          if_pos ⟨c2, by omega⟩]
      · rw [if_neg (by omega), if_neg (by omega), if_neg (by omega), if_pos ⟨c2, h1⟩,
          if_neg (by omega), if_neg (by omega), if_neg (by omega), if_pos ⟨c2, h2⟩]
    · have a1 : ¬ (height l - height r > 1) := c1
      have a2 : ¬ (height l - height r < -1) := c2
      simp only [a1, a2, false_and, if_false]

theorem node_heightOk_iff (l r : Tree) (x : Nat) (k : Int) :
    (Tree.node l x k r).HeightOk ↔ k = 1 + max (height l) (height r) ∧ l.HeightOk ∧ r.HeightOk :=
  Iff.rfl

theorem node_balanced_iff (l r : Tree) (x : Nat) (k : Int) :
    (Tree.node l x k r).Balanced ↔
      (-1 ≤ height l - height r ∧ height l - height r ≤ 1) ∧ l.Balanced ∧ r.Balanced :=
  Iff.rfl

/-- No rotation: the subtrees differ by at most one. -/
theorem delete_fix_balanced (l r : Tree) (x : Nat) (k : Int)
    (c1 : height l ≤ height r + 1) (c2 : height r ≤ height l + 1) :
    delete_fix (Tree.node l x k r) = Tree.node l x k r := by
  simp only [delete_fix, balance_factor_node]
  have a1 : ¬ (height l - height r > 1) := by omega
  have a2 : ¬ (height l - height r < -1) := by omega
  simp only [a1, a2, false_and, if_false]

/-- Single left rotation: the right subtree is two higher and not left-heavy. -/
theorem delete_fix_rotL (l rl rr : Tree) (x rx : Nat) (k rh : Int)
    (hl : l.HeightOk) (hrl : rl.HeightOk) (hrr : rr.HeightOk)
    (e2 : rh = height l + 2) (c3 : height rl ≤ height rr) (m : rh = 1 + height rr)
    (b : rh ≤ 126) (d : height rr ≤ height rl + 1) :
    delete_fix (Tree.node l x k (Tree.node rl rx rh rr)) =
      Tree.node (Tree.node l x (1 + max (height l) (height rl)) rl) rx
        (1 + max (1 + max (height l) (height rl)) (height rr)) rr := by
  have nl := height_nonneg l hl
  have n1 := height_nonneg rl hrl
  have n2 := height_nonneg rr hrr
  simp only [delete_fix, balance_factor_node, height_node]
  rw [if_neg (by omega), if_neg (by omega), if_pos (by omega)]
  simp only [rotL]
  rw [upd_eq l rl x _ hl hrl (by omega) (by omega)]
  rw [upd_eq _ rr rx _ (heightOk_mk l rl x hl hrl) hrr (by simp only [height_node]; omega)
    (by omega)]
  simp only [height_node]

/-- Double rotation: the right subtree is two higher and left-heavy. -/
theorem delete_fix_rotRL (l rll rlr rr : Tree) (x rx rlx : Nat) (k rh rlh : Int)
    (hl : l.HeightOk) (hrll : rll.HeightOk) (hrlr : rlr.HeightOk) (hrr : rr.HeightOk)
    (e2 : rh = height l + 2) (c3 : rlh = height rr + 1) (m : rh = 1 + rlh)
    (b : rh ≤ 126) (m1 : height rll ≤ rlh - 1) (m2 : height rlr ≤ rlh - 1) :
    delete_fix (Tree.node l x k (Tree.node (Tree.node rll rlx rlh rlr) rx rh rr)) =
      Tree.node (Tree.node l x (1 + max (height l) (height rll)) rll) rlx
        (1 + max (1 + max (height l) (height rll)) (1 + max (height rlr) (height rr)))
        (Tree.node rlr rx (1 + max (height rlr) (height rr)) rr) := by
  have nl := height_nonneg l hl
  have n1 := height_nonneg rll hrll
  have n2 := height_nonneg rlr hrlr
  have n3 := height_nonneg rr hrr
  simp only [delete_fix, balance_factor_node, height_node]
  rw [if_neg (by omega), if_neg (by omega), if_neg (by omega), if_pos (by omega)]
  simp only [rotR]
  rw [upd_eq rlr rr rx _ hrlr hrr (by omega) (by omega)]
  rw [upd_eq rll _ rlx _ hrll (heightOk_mk rlr rr rx hrlr hrr) (by omega)
    (by simp only [height_node]; omega)]
  simp only [rotL]
  rw [upd_eq l rll x _ hl hrll (by omega) (by omega)]
  rw [upd_eq _ _ rlx _ (heightOk_mk l rll x hl hrll) (heightOk_mk rlr rr rx hrlr hrr)
    (by simp only [height_node]; omega) (by simp only [height_node]; omega)]
  simp only [height_node]

/-- Single right rotation: the left subtree is two higher and not right-heavy. -/
theorem delete_fix_rotR (ll lr r : Tree) (x lx : Nat) (k lh : Int)
    (hll : ll.HeightOk) (hlr : lr.HeightOk) (hr : r.HeightOk)
    (e2 : lh = height r + 2) (c3 : height lr ≤ height ll) (m : lh = 1 + height ll)
    (b : lh ≤ 126) (d : height ll ≤ height lr + 1) :
    delete_fix (Tree.node (Tree.node ll lx lh lr) x k r) =
      Tree.node ll lx (1 + max (height ll) (1 + max (height lr) (height r)))
        (Tree.node lr x (1 + max (height lr) (height r)) r) := by
  have nr := height_nonneg r hr
  have n1 := height_nonneg ll hll
  have n2 := height_nonneg lr hlr
  simp only [delete_fix, balance_factor_node, height_node]
  rw [if_pos (by omega)]
  simp only [rotR]
  rw [upd_eq lr r x _ hlr hr (by omega) (by omega)]
  rw [upd_eq ll _ lx _ hll (heightOk_mk lr r x hlr hr) (by omega)
    (by simp only [height_node]; omega)]
  simp only [height_node]

/-- Double rotation: the left subtree is two higher and right-heavy. -/
theorem delete_fix_rotLR (ll lrl lrr r : Tree) (x lx lrx : Nat) (k lh lrh : Int)
    (hll : ll.HeightOk) (hlrl : lrl.HeightOk) (hlrr : lrr.HeightOk) (hr : r.HeightOk)
    (e2 : lh = height r + 2) (c3 : lrh = height ll + 1) (m : lh = 1 + lrh)
    (b : lh ≤ 126) (m1 : height lrl ≤ lrh - 1) (m2 : height lrr ≤ lrh - 1) :
    delete_fix (Tree.node (Tree.node ll lx lh (Tree.node lrl lrx lrh lrr)) x k r) =
      Tree.node (Tree.node ll lx (1 + max (height ll) (height lrl)) lrl) lrx
        (1 + max (1 + max (height ll) (height lrl)) (1 + max (height lrr) (height r)))
        (Tree.node lrr x (1 + max (height lrr) (height r)) r) := by
  have nr := height_nonneg r hr
  have n1 := height_nonneg ll hll
  have n2 := height_nonneg lrl hlrl
  have n3 := height_nonneg lrr hlrr
  simp only [delete_fix, balance_factor_node, height_node]
  rw [if_neg (by omega), if_pos (by omega)]
  simp only [rotL]
  rw [upd_eq ll lrl lx _ hll hlrl (by omega) (by omega)]
  rw [upd_eq _ lrr lrx _ (heightOk_mk ll lrl lx hll hlrl) hlrr
    (by simp only [height_node]; omega) (by omega)]
  simp only [rotR]
  rw [upd_eq lrr r x _ hlrr hr (by omega) (by omega)]
  rw [upd_eq _ _ lrx _ (heightOk_mk ll lrl lx hll hlrl) (heightOk_mk lrr r x hlrr hr)
    (by simp only [height_node]; omega) (by simp only [height_node]; omega)]
  simp only [height_node]


/-- The rebalancing step on a node whose subtrees are balanced with correct
heights that differ by at most two. -/
theorem delete_fix_spec (l r : Tree) (x : Nat) (h : Int) (hl : l.HeightOk) (hr : r.HeightOk)
    (bl : l.Balanced) (br : r.Balanced) (b1 : height l ≤ 126) (b2 : height r ≤ 126)
    (d1 : height l ≤ height r + 2) (d2 : height r ≤ height l + 2) :
    (delete_fix (upd (Tree.node l x h r))).HeightOk ∧
    (delete_fix (upd (Tree.node l x h r))).Balanced ∧
    (delete_fix (upd (Tree.node l x h r))).toList = l.toList ++ x :: r.toList ∧
    (height l ≤ height r + 1 → height r ≤ height l + 1 →
      delete_fix (upd (Tree.node l x h r)) =
        Tree.node l x (1 + max (height l) (height r)) r) ∧
    (height l = height r + 2 →
      height (delete_fix (upd (Tree.node l x h r))) = height l ∨
      (height (delete_fix (upd (Tree.node l x h r))) = height l + 1 ∧
        balance_factor l = 0)) ∧
    (height r = height l + 2 →
      height (delete_fix (upd (Tree.node l x h r))) = height r ∨
      (height (delete_fix (upd (Tree.node l x h r))) = height r + 1 ∧
        balance_factor r = 0)) := by
  have n1 := height_nonneg l hl
  have n2 := height_nonneg r hr
  rw [upd_eq l r x h hl hr b1 b2]
  by_cases c1 : height l ≤ height r + 1
  · by_cases c2 : height r ≤ height l + 1
    · rw [delete_fix_balanced _ _ _ _ c1 c2]
      exact ⟨heightOk_mk l r x hl hr, (node_balanced_iff _ _ _ _).2 ⟨⟨by omega, by omega⟩, bl, br⟩, rfl, fun _ _ => rfl,
        fun e => by omega, fun e => by omega⟩
    · -- right heavy
      cases r with
      | nil => simp only [height_nil] at c2; omega
      | node rl rx rh rr =>
        obtain ⟨hr1, hr2, hr3⟩ := hr
        obtain ⟨⟨br0, br1⟩, br2, br3⟩ := (node_balanced_iff _ _ _ _).1 br
        have nrl := height_nonneg rl hr2
        have nrr := height_nonneg rr hr3
        simp only [height_node] at b2 n2 c1 c2 d1 d2 ⊢
        have e2 : rh = height l + 2 := by omega
        clear c1 c2 d1 d2
        by_cases c3 : height rl ≤ height rr
        · have m : rh = 1 + height rr := by omega
          have d : height rr ≤ height rl + 1 := by omega
          clear hr1 br0 br1
          rw [delete_fix_rotL l rl rr x rx _ rh hl hr2 hr3 e2 c3 m b2 d]
          refine ⟨heightOk_mk _ _ _ (heightOk_mk _ _ _ hl hr2) hr3,
            (node_balanced_iff _ _ _ _).2 ⟨⟨?_, ?_⟩, (node_balanced_iff _ _ _ _).2 ⟨⟨?_, ?_⟩, bl, br2⟩, br3⟩, ?_, ?_, ?_, ?_⟩
          · simp only [height_node]; omega
          · simp only [height_node]; omega
          · omega
          · omega
          · simp only [Tree.toList, List.append_assoc, List.cons_append]
          · intro e1 e3; omega
          · intro e1; omega
          · intro _
            simp only [height_node, balance_factor_node] at *
            omega
        · have c4 : height rl = height rr + 1 := by omega
          have m : rh = 1 + height rl := by omega
          clear hr1 br0 br1 c3
          cases rl with
          | nil => simp only [height_nil] at c4; omega
          | node rll rlx rlh rlr =>
            obtain ⟨k1, k2, k3⟩ := hr2
            obtain ⟨⟨q0, q1⟩, q2, q3⟩ := (node_balanced_iff _ _ _ _).1 br2
            have nrll := height_nonneg rll k2
            have nrlr := height_nonneg rlr k3
            simp only [height_node] at c4 m nrl
            have m1 : height rll ≤ rlh - 1 := by omega
            have m2 : height rlr ≤ rlh - 1 := by omega
            have m3 : rlh - 2 ≤ height rll := by omega
            have m4 : rlh - 2 ≤ height rlr := by omega
            clear k1 q0 q1
            rw [delete_fix_rotRL l rll rlr rr x rx rlx _ rh rlh hl k2 k3 hr3 e2 c4 m b2 m1 m2]
            refine ⟨heightOk_mk _ _ _ (heightOk_mk _ _ _ hl k2) (heightOk_mk _ _ _ k3 hr3),
              (node_balanced_iff _ _ _ _).2 ⟨⟨?_, ?_⟩, (node_balanced_iff _ _ _ _).2 ⟨⟨?_, ?_⟩, bl, q2⟩, (node_balanced_iff _ _ _ _).2 ⟨⟨?_, ?_⟩, q3, br3⟩⟩, ?_, ?_, ?_, ?_⟩
            · simp only [height_node]; omega
            · simp only [height_node]; omega
            · omega
            · omega
            · omega
            · omega
            · simp only [Tree.toList, List.append_assoc, List.cons_append]
            · intro e1 e3; omega
            · intro e1; omega
            · intro _
              simp only [height_node]
              omega
  · -- left heavy
    cases l with
    | nil => simp only [height_nil] at c1; omega
    | node ll lx lh lr =>
      obtain ⟨hl1, hl2, hl3⟩ := hl
      obtain ⟨⟨bl0, bl1⟩, bl2, bl3⟩ := (node_balanced_iff _ _ _ _).1 bl
      have nll := height_nonneg ll hl2
      have nlr := height_nonneg lr hl3
      simp only [height_node] at b1 n1 c1 d1 d2 ⊢
      have e2 : lh = height r + 2 := by omega
      clear c1 d1 d2
      by_cases c3 : height lr ≤ height ll
      · have m : lh = 1 + height ll := by omega
        have d : height ll ≤ height lr + 1 := by omega
        clear hl1 bl0 bl1
        rw [delete_fix_rotR ll lr r x lx _ lh hl2 hl3 hr e2 c3 m b1 d]
        refine ⟨heightOk_mk _ _ _ hl2 (heightOk_mk _ _ _ hl3 hr),
          (node_balanced_iff _ _ _ _).2 ⟨⟨?_, ?_⟩, bl2, (node_balanced_iff _ _ _ _).2 ⟨⟨?_, ?_⟩, bl3, br⟩⟩, ?_, ?_, ?_, ?_⟩
        · simp only [height_node]; omega
        · simp only [height_node]; omega
        · omega
        · omega
        · simp only [Tree.toList, List.append_assoc, List.cons_append]
        · intro e1 e3; omega
        · intro _
          simp only [height_node, balance_factor_node] at *
          omega
        · intro e1; omega
      · have c4 : height lr = height ll + 1 := by omega
        have m : lh = 1 + height lr := by omega
        clear hl1 bl0 bl1 c3
        cases lr with
        | nil => simp only [height_nil] at c4; omega
        | node lrl lrx lrh lrr =>
          obtain ⟨k1, k2, k3⟩ := hl3
          obtain ⟨⟨q0, q1⟩, q2, q3⟩ := (node_balanced_iff _ _ _ _).1 bl3
          have nlrl := height_nonneg lrl k2
          have nlrr := height_nonneg lrr k3
          simp only [height_node] at c4 m nlr
          have m1 : height lrl ≤ lrh - 1 := by omega
          have m2 : height lrr ≤ lrh - 1 := by omega
          have m3 : lrh - 2 ≤ height lrl := by omega
          have m4 : lrh - 2 ≤ height lrr := by omega
          clear k1 q0 q1
          rw [delete_fix_rotLR ll lrl lrr r x lx lrx _ lh lrh hl2 k2 k3 hr e2 c4 m b1 m1 m2]
          refine ⟨heightOk_mk _ _ _ (heightOk_mk _ _ _ hl2 k2) (heightOk_mk _ _ _ k3 hr),
            (node_balanced_iff _ _ _ _).2 ⟨⟨?_, ?_⟩, (node_balanced_iff _ _ _ _).2 ⟨⟨?_, ?_⟩, bl2, q2⟩, (node_balanced_iff _ _ _ _).2 ⟨⟨?_, ?_⟩, q3, br⟩⟩, ?_, ?_, ?_, ?_⟩
          · simp only [height_node]; omega
          · simp only [height_node]; omega
          · omega
          · omega
          · omega
          · omega
          · simp only [Tree.toList, List.append_assoc, List.cons_append]
          · intro e1 e3; omega
          · intro _
            simp only [height_node]
            omega
          · intro e1; omega

/-! ### Insertion -/

theorem mem_of_perm_cons {l l2 : List Nat} {b : Nat} (h : l2.Perm (b :: l)) (y : Nat) :
    y ∈ l2 ↔ y = b ∨ y ∈ l := by
  rw [h.mem_iff]; simp

theorem grown_shape (sz : Nat → Nat) (b : Nat) (t : Tree) (hk : t.HeightOk)
    (g : Grown sz b t) (h2 : 2 ≤ height t) :
    (cmp_root sz b t < 0 ∧ balance_factor t > 0) ∨
    (cmp_root sz b t > 0 ∧ balance_factor t < 0) := by
  cases t with
  | nil => simp only [height_nil] at h2; omega
  | node ll lx lh lr =>
    simp only [Grown] at g
    simp only [cmp_root, balance_factor_node]
    rcases g with ⟨g1, g2⟩ | ⟨g1, g2⟩ | ⟨g1, g2⟩
    · subst g1; subst g2
      have := hk.1
      simp only [height_nil, max_self, height_node] at this h2
      omega
    · left; exact ⟨g1, by omega⟩
    · right; exact ⟨g1, by omega⟩

/-- The end of `avl_insert_rec` after a recursive call on the left subtree. -/
theorem insert_step_left (sz : Nat → Nat) (b x : Nat) (h : Int) (l l2 r : Tree)
    (c : cmp_block sz b x < 0)
    (hh1 : h = 1 + max (height l) (height r)) (hh2 : l.HeightOk) (hh3 : r.HeightOk)
    (bb1 : -1 ≤ height l - height r ∧ height l - height r ≤ 1) (bb3 : r.Balanced)
    (hd : h ≤ 126)
    (i1 : l2.HeightOk) (i2 : l2.Balanced)
    (i5 : height l2 = height l ∨ (height l2 = height l + 1 ∧ Grown sz b l2)) :
    (insert_fix sz b (upd (Tree.node l2 x h r))).HeightOk ∧
    (insert_fix sz b (upd (Tree.node l2 x h r))).Balanced ∧
    (insert_fix sz b (upd (Tree.node l2 x h r))).toList = l2.toList ++ x :: r.toList ∧
    (height (insert_fix sz b (upd (Tree.node l2 x h r))) = h ∨
      (height (insert_fix sz b (upd (Tree.node l2 x h r))) = h + 1 ∧
        Grown sz b (insert_fix sz b (upd (Tree.node l2 x h r))))) := by
  have nl := height_nonneg l hh2
  have nr := height_nonneg r hh3
  have n2 := height_nonneg l2 i1
  have i6 : height l2 = height l ∨ height l2 = height l + 1 := by
    rcases i5 with i5 | ⟨i5, -⟩
    · exact Or.inl i5
    · exact Or.inr i5
  have hl2 : height l2 ≤ 126 := by clear i5; omega
  have hr1 : height r ≤ 126 := by clear i5 i6; omega
  have d1 : height l2 ≤ height r + 2 := by clear i5; omega
  have d2 : height r ≤ height l2 + 2 := by clear i5; omega
  have g : height l2 = height r + 2 →
      (cmp_root sz b l2 < 0 ∧ balance_factor l2 > 0) ∨
      (cmp_root sz b l2 > 0 ∧ balance_factor l2 < 0) := by
    intro e3
    rcases i5 with i5 | ⟨i5, g⟩
    · clear i6; omega
    · exact grown_shape sz b l2 i1 g (by clear i6; omega)
  have e1 := upd_eq l2 r x h i1 hh3 hl2 hr1
  have e2 : insert_fix sz b (upd (Tree.node l2 x h r)) =
      delete_fix (upd (Tree.node l2 x h r)) := by
    rw [e1]
    apply insert_fix_eq
    · intro hgt; exact g (by clear i5 g; omega)
    · intro hgt; clear i5 g; omega
  rw [e2]
  obtain ⟨f1, f2, f3, f4, f5, f6⟩ := delete_fix_spec l2 r x h i1 hh3 i2 bb3 hl2 hr1 d1 d2
  refine ⟨f1, f2, f3, ?_⟩
  clear f6 f1 f2 f3 e1 e2
  by_cases c1 : height l2 ≤ height r + 1
  · rw [f4 c1 (by clear i5 g f5; omega)]
    clear f4 f5 g i5
    simp only [height_node, Grown]
    rcases i6 with i6 | i6
    · left; omega
    · by_cases c3 : height l < height r
      · left; omega
      · right; exact ⟨by omega, Or.inr (Or.inl ⟨c, by omega⟩)⟩
  · left
    have e3 : height l2 = height r + 2 := by clear i5 i6 g f5 f4; omega
    have g1 := g e3
    have f7 := f5 e3
    clear f4 f5 g i5
    rcases f7 with f | ⟨f, g0⟩
    · clear g1; omega
    · clear i6 hh1; rcases g1 with ⟨_, g1⟩ | ⟨_, g1⟩ <;> omega

/-- The end of `avl_insert_rec` after a recursive call on the right subtree. -/
theorem insert_step_right (sz : Nat → Nat) (b x : Nat) (h : Int) (l r r2 : Tree)
    (c : cmp_block sz b x > 0)
    (hh1 : h = 1 + max (height l) (height r)) (hh2 : l.HeightOk) (hh3 : r.HeightOk)
    (bb1 : -1 ≤ height l - height r ∧ height l - height r ≤ 1) (bb2 : l.Balanced)
    (hd : h ≤ 126)
    (i1 : r2.HeightOk) (i2 : r2.Balanced)
    (i5 : height r2 = height r ∨ (height r2 = height r + 1 ∧ Grown sz b r2)) :
    (insert_fix sz b (upd (Tree.node l x h r2))).HeightOk ∧
    (insert_fix sz b (upd (Tree.node l x h r2))).Balanced ∧
    (insert_fix sz b (upd (Tree.node l x h r2))).toList = l.toList ++ x :: r2.toList ∧
    (height (insert_fix sz b (upd (Tree.node l x h r2))) = h ∨
      (height (insert_fix sz b (upd (Tree.node l x h r2))) = h + 1 ∧
        Grown sz b (insert_fix sz b (upd (Tree.node l x h r2))))) := by
  have nl := height_nonneg l hh2
  have nr := height_nonneg r hh3
  have n2 := height_nonneg r2 i1
  have i6 : height r2 = height r ∨ height r2 = height r + 1 := by
    rcases i5 with i5 | ⟨i5, -⟩
    · exact Or.inl i5
    · exact Or.inr i5
  have hr2 : height r2 ≤ 126 := by clear i5; omega
  have hl1 : height l ≤ 126 := by clear i5 i6; omega
  have d1 : height l ≤ height r2 + 2 := by clear i5; omega
  have d2 : height r2 ≤ height l + 2 := by clear i5; omega
  have g : height r2 = height l + 2 →
      (cmp_root sz b r2 > 0 ∧ balance_factor r2 < 0) ∨
      (cmp_root sz b r2 < 0 ∧ balance_factor r2 > 0) := by
    intro e3
    rcases i5 with i5 | ⟨i5, g⟩
    · clear i6; omega
    · exact (grown_shape sz b r2 i1 g (by clear i6; omega)).symm
  have e1 := upd_eq l r2 x h hh2 i1 hl1 hr2
  have e2 : insert_fix sz b (upd (Tree.node l x h r2)) =
      delete_fix (upd (Tree.node l x h r2)) := by
    rw [e1]
    apply insert_fix_eq
    · intro hgt; clear i5 g; omega
    · intro hgt; exact g (by clear i5 g; omega)
  rw [e2]
  obtain ⟨f1, f2, f3, f4, f5, f6⟩ := delete_fix_spec l r2 x h hh2 i1 bb2 i2 hl1 hr2 d1 d2
  refine ⟨f1, f2, f3, ?_⟩
  clear f5 f1 f2 f3 e1 e2
  by_cases c1 : height r2 ≤ height l + 1
  · rw [f4 (by clear i5 g f6; omega) c1]
    clear f4 f6 g i5
    simp only [height_node, Grown]
    rcases i6 with i6 | i6
    · left; omega
    · by_cases c3 : height r < height l
      · left; omega
      · right; exact ⟨by omega, Or.inr (Or.inr ⟨c, by omega⟩)⟩
  · left
    have e3 : height r2 = height l + 2 := by clear i5 i6 g f6 f4; omega
    have g1 := g e3
    have f7 := f6 e3
    clear f4 f6 g i5
    rcases f7 with f | ⟨f, g0⟩
    · clear g1; omega
    · clear i6 hh1; rcases g1 with ⟨_, g1⟩ | ⟨_, g1⟩ <;> omega

/-- What `avl_insert_rec` does to a balanced search tree with correct heights. -/
theorem avl_insert_rec_spec (sz : Nat → Nat) (b : Nat) (t : Tree) (hb : b ∉ t.toList)
    (hbst : t.Bst sz) (hh : t.HeightOk) (hbal : t.Balanced) (hd : height t ≤ 126) :
    (avl_insert_rec sz t b).HeightOk ∧ (avl_insert_rec sz t b).Balanced ∧
    (avl_insert_rec sz t b).toList.Perm (b :: t.toList) ∧ (avl_insert_rec sz t b).Bst sz ∧
    (height (avl_insert_rec sz t b) = height t ∨
      (height (avl_insert_rec sz t b) = height t + 1 ∧ Grown sz b (avl_insert_rec sz t b))) := by
  induction t with
  | nil =>
    simp only [avl_insert_rec, Tree.HeightOk, Tree.Balanced, Tree.toList, Tree.Bst, Grown,
      balance_factor_node, height_nil, height_node]
    simp
  | node l x h r ihl ihr =>
    have hx : b ≠ x := fun e => hb (by simp [Tree.toList, e])
    have hbl : b ∉ l.toList := fun e => hb (by simp [Tree.toList, e])
    have hbr : b ∉ r.toList := fun e => hb (by simp [Tree.toList, e])
    obtain ⟨bs1, bs2, bs3, bs4⟩ := hbst
    obtain ⟨hh1, hh2, hh3⟩ := hh
    obtain ⟨bb1, bb2, bb3⟩ := (node_balanced_iff _ _ _ _).1 hbal
    have nl := height_nonneg l hh2
    have nr := height_nonneg r hh3
    simp only [height_node] at hd ⊢
    rcases cmp_trichotomy sz b x with c | c | c
    · -- insert on the left
      obtain ⟨i1, i2, i3, i4, i5⟩ := ihl hbl bs3 hh2 bb2 (by omega)
      have e0 : avl_insert_rec sz (Tree.node l x h r) b =
          insert_fix sz b (upd (Tree.node (avl_insert_rec sz l b) x h r)) := by
        simp only [avl_insert_rec]; rw [if_pos c]
      rw [e0]
      obtain ⟨f1, f2, f3, f4⟩ := insert_step_left sz b x h l _ r c hh1 hh2 hh3 bb1 bb3 hd i1 i2 i5
      refine ⟨f1, f2, ?_, ?_, f4⟩
      · rw [f3]
        simp only [Tree.toList]
        exact (i3.append_right _)
      · refine bst_of_toList_eq sz _ (Tree.node (avl_insert_rec sz l b) x h r) f3
          ⟨?_, bs2, i4, bs4⟩
        intro y hy
        rcases (mem_of_perm_cons i3 y).1 hy with e | e
        · rw [e]; exact c
        · exact bs1 y e
    · exact absurd c hx
    · -- insert on the right
      obtain ⟨i1, i2, i3, i4, i5⟩ := ihr hbr bs4 hh3 bb3 (by omega)
      have c0 : ¬ cmp_block sz b x < 0 := by omega
      have e0 : avl_insert_rec sz (Tree.node l x h r) b =
          insert_fix sz b (upd (Tree.node l x h (avl_insert_rec sz r b))) := by
        simp only [avl_insert_rec]; rw [if_neg c0, if_pos c]
      rw [e0]
      obtain ⟨f1, f2, f3, f4⟩ := insert_step_right sz b x h l r _ c hh1 hh2 hh3 bb1 bb2 hd i1 i2 i5
      refine ⟨f1, f2, ?_, ?_, f4⟩
      · rw [f3]
        simp only [Tree.toList]
        have p1 : (l.toList ++ x :: (avl_insert_rec sz r b).toList).Perm
            (l.toList ++ x :: b :: r.toList) := (i3.cons x).append_left _
        have p2 : (l.toList ++ x :: b :: r.toList).Perm (b :: (l.toList ++ x :: r.toList)) := by
          have := @List.perm_middle _ b (l.toList ++ [x]) r.toList
          simpa using this
        exact p1.trans p2
      · refine bst_of_toList_eq sz _ (Tree.node l x h (avl_insert_rec sz r b)) f3
          ⟨bs1, ?_, bs3, i4⟩
        intro y hy
        rcases (mem_of_perm_cons i3 y).1 hy with e | e
        · rw [e]; exact c
        · exact bs2 y e

/-! ### Deletion -/

theorem avl_min_head (t : Tree) (hne : t ≠ Tree.nil) :
    ∃ tl, t.toList = avl_min t :: tl := by
  induction t with
  | nil => exact absurd rfl hne
  | node l x h r ihl _ =>
    cases l with
    | nil => exact ⟨r.toList, by simp [Tree.toList, avl_min]⟩
    | node ll lx lh lr =>
      obtain ⟨tl, e⟩ := ihl (by simp)
      refine ⟨tl ++ x :: r.toList, ?_⟩
      simp only [avl_min]
      rw [Tree.toList, e]
      simp

theorem filter_ne_self (l : List Nat) (b : Nat) (h : b ∉ l) :
    l.filter (fun y => decide (y ≠ b)) = l := by
  rw [List.filter_eq_self]
  intro a ha
  simp only [ne_eq, decide_not, Bool.not_eq_eq_eq_not, Bool.not_true, decide_eq_false_iff_not]
  intro e; exact h (e ▸ ha)

/-- The end of `avl_delete_rec` after a recursive call on the left subtree. -/
theorem delete_step_left (x : Nat) (h k : Int) (l l2 r : Tree)
    (hh1 : h = 1 + max (height l) (height r)) (hh2 : l.HeightOk) (hh3 : r.HeightOk)
    (bb1 : -1 ≤ height l - height r ∧ height l - height r ≤ 1) (bb3 : r.Balanced)
    (hd : h ≤ 127)
    (i1 : l2.HeightOk) (i2 : l2.Balanced)
    (i5 : height l2 = height l ∨ height l2 + 1 = height l) :
    (delete_fix (upd (Tree.node l2 x k r))).HeightOk ∧
    (delete_fix (upd (Tree.node l2 x k r))).Balanced ∧
    (delete_fix (upd (Tree.node l2 x k r))).toList = l2.toList ++ x :: r.toList ∧
    (height (delete_fix (upd (Tree.node l2 x k r))) = h ∨
      height (delete_fix (upd (Tree.node l2 x k r))) + 1 = h) := by
  have nl := height_nonneg l hh2
  have nr := height_nonneg r hh3
  have n2 := height_nonneg l2 i1
  have hl2 : height l2 ≤ 126 := by omega
  have hr1 : height r ≤ 126 := by clear i5; omega
  have d1 : height l2 ≤ height r + 2 := by omega
  have d2 : height r ≤ height l2 + 2 := by omega
  obtain ⟨f1, f2, f3, f4, f5, f6⟩ := delete_fix_spec l2 r x k i1 hh3 i2 bb3 hl2 hr1 d1 d2
  refine ⟨f1, f2, f3, ?_⟩
  clear f5 f1 f2 f3
  by_cases c1 : height r ≤ height l2 + 1
  · rw [f4 (by clear f6 f4; omega) c1]
    clear f4 f6
    simp only [height_node]
    rcases i5 with i5 | i5 <;> omega
  · have e3 : height r = height l2 + 2 := by clear f6 f4; omega
    have f7 := f6 e3
    clear f4 f6
    rcases f7 with f | ⟨f, -⟩ <;> rcases i5 with i5 | i5 <;> omega

/-- The end of `avl_delete_rec` after a recursive call on the right subtree. -/
theorem delete_step_right (x : Nat) (h k : Int) (l r r2 : Tree)
    (hh1 : h = 1 + max (height l) (height r)) (hh2 : l.HeightOk) (hh3 : r.HeightOk)
    (bb1 : -1 ≤ height l - height r ∧ height l - height r ≤ 1) (bb2 : l.Balanced)
    (hd : h ≤ 127)
    (i1 : r2.HeightOk) (i2 : r2.Balanced)
    (i5 : height r2 = height r ∨ height r2 + 1 = height r) :
    (delete_fix (upd (Tree.node l x k r2))).HeightOk ∧
    (delete_fix (upd (Tree.node l x k r2))).Balanced ∧
    (delete_fix (upd (Tree.node l x k r2))).toList = l.toList ++ x :: r2.toList ∧
    (height (delete_fix (upd (Tree.node l x k r2))) = h ∨
      height (delete_fix (upd (Tree.node l x k r2))) + 1 = h) := by
  have nl := height_nonneg l hh2
  have nr := height_nonneg r hh3
  have n2 := height_nonneg r2 i1
  have hr2 : height r2 ≤ 126 := by omega
  have hl1 : height l ≤ 126 := by clear i5; omega
  have d1 : height l ≤ height r2 + 2 := by omega
  have d2 : height r2 ≤ height l + 2 := by omega
  obtain ⟨f1, f2, f3, f4, f5, f6⟩ := delete_fix_spec l r2 x k hh2 i1 bb2 i2 hl1 hr2 d1 d2
  refine ⟨f1, f2, f3, ?_⟩
  clear f6 f1 f2 f3
  by_cases c1 : height l ≤ height r2 + 1
  · rw [f4 c1 (by clear f5 f4; omega)]
    clear f4 f5
    simp only [height_node]
    rcases i5 with i5 | i5 <;> omega
  · have e3 : height l = height r2 + 2 := by clear f5 f4; omega
    have f7 := f5 e3
    clear f4 f5
    rcases f7 with f | ⟨f, -⟩ <;> rcases i5 with i5 | i5 <;> omega

/-- What `avl_delete_rec` does to a balanced search tree with correct heights. -/
theorem avl_delete_rec_spec (sz : Nat → Nat) (t : Tree) : ∀ (b : Nat), t.Bst sz → t.HeightOk →
    t.Balanced → height t ≤ 127 →
    (avl_delete_rec sz t b).HeightOk ∧ (avl_delete_rec sz t b).Balanced ∧
    (avl_delete_rec sz t b).toList = t.toList.filter (fun y => decide (y ≠ b)) ∧
    (height (avl_delete_rec sz t b) = height t ∨
      height (avl_delete_rec sz t b) + 1 = height t) := by
  induction t with
  | nil =>
    intro b _ _ _ _
    simp [avl_delete_rec, Tree.HeightOk, Tree.Balanced, Tree.toList]
  | node l x h r ihl ihr =>
    intro b hbst hh hbal hd
    obtain ⟨bs1, bs2, bs3, bs4⟩ := hbst
    obtain ⟨hh1, hh2, hh3⟩ := hh
    obtain ⟨bb1, bb2, bb3⟩ := (node_balanced_iff _ _ _ _).1 hbal
    have nl := height_nonneg l hh2
    have nr := height_nonneg r hh3
    simp only [height_node] at hd ⊢
    have xl : x ∉ l.toList := fun e => cmp_lt_irrefl sz x (bs1 x e)
    have xr : x ∉ r.toList := fun e => cmp_lt_irrefl sz x ((cmp_gt_iff_lt sz x x).1 (bs2 x e))
    rcases cmp_trichotomy sz b x with c | c | c
    · -- delete on the left
      obtain ⟨i1, i2, i3, i5⟩ := ihl b bs3 hh2 bb2 (by omega)
      have e0 : avl_delete_rec sz (Tree.node l x h r) b =
          delete_fix (upd (Tree.node (avl_delete_rec sz l b) x h r)) := by
        simp only [avl_delete_rec]; rw [if_pos c]
      rw [e0]
      obtain ⟨f1, f2, f3, f4⟩ := delete_step_left x h h l _ r hh1 hh2 hh3 bb1 bb3 hd i1 i2 i5
      refine ⟨f1, f2, ?_, f4⟩
      rw [f3, i3]
      simp only [Tree.toList, List.filter_append]
      have hxb : x ≠ b := fun e => cmp_lt_irrefl sz b (by rw [e] at c; exact c)
      have hbr : b ∉ r.toList := fun e =>
        cmp_lt_irrefl sz b (cmp_lt_trans sz b x b c ((cmp_gt_iff_lt sz b x).1 (bs2 b e)))
      rw [List.filter_cons_of_pos (by simpa using hxb), filter_ne_self _ _ hbr]
    · -- delete the root
      subst c
      have c1 : ¬ cmp_block sz b b < 0 := cmp_lt_irrefl sz b
      have c2 : ¬ cmp_block sz b b > 0 := by
        rw [cmp_gt_iff_lt]; exact cmp_lt_irrefl sz b
      have efl : (Tree.node l b h r).toList.filter (fun y => decide (y ≠ b)) =
          l.toList ++ r.toList := by
        simp only [Tree.toList, List.filter_append]
        rw [List.filter_cons_of_neg (by simp), filter_ne_self _ _ xl, filter_ne_self _ _ xr]
      rw [efl]
      cases l with
      | nil =>
        have e0 : avl_delete_rec sz (Tree.node Tree.nil b h r) b = r := by
          simp only [avl_delete_rec]; rw [if_neg c1, if_neg c2]
        rw [e0]
        simp only [height_nil] at hh1
        exact ⟨hh3, bb3, by simp [Tree.toList], by omega⟩
      | node ll lx lh lr =>
        cases r with
        | nil =>
          have e0 : avl_delete_rec sz (Tree.node (Tree.node ll lx lh lr) b h Tree.nil) b =
              Tree.node ll lx lh lr := by
            simp only [avl_delete_rec]; rw [if_neg c1, if_neg c2]
          rw [e0]
          simp only [height_nil] at hh1 nl
          exact ⟨hh2, bb2, by simp [Tree.toList], by omega⟩
        | node rl rx rh rr =>
          have e0 : avl_delete_rec sz (Tree.node (Tree.node ll lx lh lr) b h
              (Tree.node rl rx rh rr)) b =
              delete_fix (upd (Tree.node (Tree.node ll lx lh lr)
                (avl_min (Tree.node rl rx rh rr)) h
                (avl_delete_rec sz (Tree.node rl rx rh rr) (avl_min (Tree.node rl rx rh rr))))) := by
            simp only [avl_delete_rec]; rw [if_neg c1, if_neg c2]
          rw [e0]
          obtain ⟨tl, emin⟩ := avl_min_head (Tree.node rl rx rh rr) (by simp)
          obtain ⟨i1, i2, i3, i5⟩ := ihr (avl_min (Tree.node rl rx rh rr)) bs4 hh3 bb3
            (by omega)
          obtain ⟨f1, f2, f3, f4⟩ := delete_step_right (avl_min (Tree.node rl rx rh rr)) h h
            _ _ _ hh1 hh2 hh3 bb1 bb2 hd i1 i2 i5
          refine ⟨f1, f2, ?_, f4⟩
          rw [f3, i3, emin]
          have nd := bst_nodup sz _ bs4
          rw [emin] at nd
          rw [List.filter_cons_of_neg (by simp), filter_ne_self _ _ (List.nodup_cons.1 nd).1]
    · -- delete on the right
      obtain ⟨i1, i2, i3, i5⟩ := ihr b bs4 hh3 bb3 (by omega)
      have c0 : ¬ cmp_block sz b x < 0 := by omega
      have e0 : avl_delete_rec sz (Tree.node l x h r) b =
          delete_fix (upd (Tree.node l x h (avl_delete_rec sz r b))) := by
        simp only [avl_delete_rec]; rw [if_neg c0, if_pos c]
      rw [e0]
      obtain ⟨f1, f2, f3, f4⟩ := delete_step_right x h h l r _ hh1 hh2 hh3 bb1 bb2 hd i1 i2 i5
      refine ⟨f1, f2, ?_, f4⟩
      rw [f3, i3]
      simp only [Tree.toList, List.filter_append]
      have hxb : x ≠ b := fun e => by
        rw [e] at c; exact cmp_lt_irrefl sz b ((cmp_gt_iff_lt sz b b).1 c)
      have hbl : b ∉ l.toList := fun e =>
        cmp_lt_irrefl sz b (cmp_lt_trans sz b x b (bs1 b e) ((cmp_gt_iff_lt sz b x).1 c))
      rw [List.filter_cons_of_pos (by simpa using hxb), filter_ne_self _ _ hbl]

/-! ### The invariant of the tree index -/

theorem fib_le_size (t : Tree) (hh : t.HeightOk) (hb : t.Balanced) :
    Nat.fib (t.depth + 2) ≤ t.toList.length + 1 := by
  induction t with
  | nil => simp [Tree.depth, Tree.toList]
  | node l x h r ihl ihr =>
    obtain ⟨-, hh2, hh3⟩ := hh
    obtain ⟨bb1, bb2, bb3⟩ := (node_balanced_iff _ _ _ _).1 hb
    have il := ihl hh2 bb2
    have ir := ihr hh3 bb3
    rw [height_eq_depth l hh2, height_eq_depth r hh3] at bb1
    simp only [Tree.depth, Tree.toList, List.length_append, List.length_cons]
    rcases le_total l.depth r.depth with c | c
    · rw [max_eq_right c]
      have e : r.depth + 1 + 2 = (r.depth + 1) + 2 := rfl
      rw [e, Nat.fib_add_two, show r.depth + 1 + 1 = r.depth + 2 from rfl]
      have m : Nat.fib (r.depth + 1) ≤ Nat.fib (l.depth + 2) := Nat.fib_mono (by omega)
      omega
    · rw [max_eq_left c]
      have e : l.depth + 1 + 2 = (l.depth + 1) + 2 := rfl
      rw [e, Nat.fib_add_two, show l.depth + 1 + 1 = l.depth + 2 from rfl]
      have m : Nat.fib (l.depth + 1) ≤ Nat.fib (r.depth + 2) := Nat.fib_mono (by omega)
      omega

theorem nodup_length_le (l : List Nat) (n : Nat) (hn : l.Nodup) (hb : ∀ x ∈ l, x < n) :
    l.length ≤ n := by
  have h1 : l.toFinset ⊆ Finset.range n := by
    intro x hx
    rw [List.mem_toFinset] at hx
    exact Finset.mem_range.2 (hb x hx)
  have h2 := Finset.card_le_card h1
  rw [List.toFinset_card_of_nodup hn, Finset.card_range] at h2
  exact h2

theorem fib_129 : 2 ^ 64 + 1 < Nat.fib 129 := by norm_num

/-- A balanced search tree whose nodes are 64-bit addresses has a height that
fits the `int8_t` field with room to spare. -/
theorem height_le_of_ptr (sz : Nat → Nat) (t : Tree) (hbst : t.Bst sz) (hh : t.HeightOk)
    (hb : t.Balanced) (hptr : ∀ x ∈ t.toList, x < 2 ^ 64) : height t ≤ 126 := by
  have h1 := fib_le_size t hh hb
  have h2 := nodup_length_le _ _ (bst_nodup sz t hbst) hptr
  rw [height_eq_depth t hh]
  by_contra hc
  have h3 : 129 ≤ t.depth + 2 := by omega
  have h4 := Nat.fib_mono h3
  have h5 := fib_129
  omega

/-- Claim C9: `avl_insert` preserves the tree invariant.  For a tree that is a
binary search tree under the `(size, address)` key of `cmp_block`, is height
balanced and stores correct heights (its nodes being 64-bit addresses), and a
block `b` whose key is not in the tree, the tree after `avl_insert(b)` is again
a binary search tree, height balanced, with correct stored heights, and holds
exactly the old nodes plus `b`. -/
theorem avl_insert_invariant (s : Heap) (b : Nat)
    (hbst : s.g_avl_root.Bst s.sz) (hbal : s.g_avl_root.Balanced)
    (hh : s.g_avl_root.HeightOk) (hptr : ∀ x ∈ s.g_avl_root.toList, x < 2 ^ 64)
    (hb : ∀ x ∈ s.g_avl_root.toList, cmp_block s.sz b x ≠ 0) :
    (avl_insert s b).g_avl_root.Bst (avl_insert s b).sz ∧
    (avl_insert s b).g_avl_root.Balanced ∧
    (avl_insert s b).g_avl_root.HeightOk ∧
    (avl_insert s b).g_avl_root.toList.Perm (b :: s.g_avl_root.toList) := by
  have hb2 : b ∉ s.g_avl_root.toList := fun hm => hb b hm ((cmp_eq_iff s.sz b b).2 rfl)
  obtain ⟨i1, i2, i3, i4, -⟩ := avl_insert_rec_spec s.sz b s.g_avl_root hb2 hbst hh hbal
    (height_le_of_ptr s.sz _ hbst hh hbal hptr)
  exact ⟨i4, i2, i1, i3⟩

/-- Witness for claim C9: inserting the block at `16384` (size `16`) into the
three-node tree of `treeDemo`. -/
theorem avl_insert_invariant_witness :
    (avl_insert treeDemo 16384).g_avl_root.Bst (avl_insert treeDemo 16384).sz ∧
    (avl_insert treeDemo 16384).g_avl_root.Balanced ∧
    (avl_insert treeDemo 16384).g_avl_root.HeightOk ∧
    (avl_insert treeDemo 16384).g_avl_root.toList.Perm (16384 :: treeDemo.g_avl_root.toList) :=
  avl_insert_invariant treeDemo 16384 (by decide) (by decide) (by decide) (by decide)
    (by decide)

/-- Claim C10: `avl_erase` preserves the tree invariant.  For a tree that is a
binary search tree under the `(size, address)` key, is height balanced and
stores correct heights (its nodes being 64-bit addresses), the tree after
`avl_erase(b)` is again a binary search tree, height balanced, with correct
stored heights, and holds exactly the old nodes minus `b`, in the same order;
this includes a `b` with two children, which its in-order successor replaces. -/
theorem avl_erase_invariant (s : Heap) (b : Nat)
    (hbst : s.g_avl_root.Bst s.sz) (hbal : s.g_avl_root.Balanced)
    (hh : s.g_avl_root.HeightOk) (hptr : ∀ x ∈ s.g_avl_root.toList, x < 2 ^ 64) :
    (avl_erase s b).g_avl_root.Bst (avl_erase s b).sz ∧
    (avl_erase s b).g_avl_root.Balanced ∧
    (avl_erase s b).g_avl_root.HeightOk ∧
    (avl_erase s b).g_avl_root.toList =
      s.g_avl_root.toList.filter (fun y => decide (y ≠ b)) ∧
    (b ∈ s.g_avl_root.toList →
      (b :: (avl_erase s b).g_avl_root.toList).Perm s.g_avl_root.toList) := by
  obtain ⟨i1, i2, i3, -⟩ := avl_delete_rec_spec s.sz s.g_avl_root b hbst hh hbal
    (by have := height_le_of_ptr s.sz _ hbst hh hbal hptr; omega)
  have e : (avl_erase s b).g_avl_root = avl_delete_rec s.sz s.g_avl_root b := rfl
  have nd := bst_nodup s.sz _ hbst
  refine ⟨?_, i2, i1, i3, ?_⟩
  · show (avl_delete_rec s.sz s.g_avl_root b).Bst s.sz
    rw [bst_iff_pairwise, i3]
    exact ((bst_iff_pairwise _ _).1 hbst).sublist (List.filter_sublist _)
  · intro hm
    have e2 : s.g_avl_root.toList.filter (fun y => decide (y ≠ b)) =
        s.g_avl_root.toList.erase b := by
      rw [nd.erase_eq_filter]
      congr 1
      funext y
      by_cases hy : y = b <;> simp [bne, hy]
    rw [e, i3, e2]
    exact (List.perm_cons_erase hm).symm

/-- Witness for claim C10: erasing the root `8192` of the tree of `treeDemo`,
a node with two children; its successor `12288` takes its place. -/
theorem avl_erase_invariant_witness :
    (avl_erase treeDemo 8192).g_avl_root =
      Tree.node (Tree.node Tree.nil 4096 1 Tree.nil) 12288 2 Tree.nil ∧
    (avl_erase treeDemo 8192).g_avl_root.Bst (avl_erase treeDemo 8192).sz ∧
    (avl_erase treeDemo 8192).g_avl_root.Balanced ∧
    (avl_erase treeDemo 8192).g_avl_root.HeightOk ∧
    (avl_erase treeDemo 8192).g_avl_root.toList = [4096, 12288] :=
  ⟨by decide,
   (avl_erase_invariant treeDemo 8192 (by decide) (by decide) (by decide) (by decide)).1,
   (avl_erase_invariant treeDemo 8192 (by decide) (by decide) (by decide) (by decide)).2.1,
   (avl_erase_invariant treeDemo 8192 (by decide) (by decide) (by decide) (by decide)).2.2.1,
   by decide⟩


/-! ## The two lookups in the tree index -/

/-- The walk of `avl_lower_bound` over a search tree: the candidate is kept when
no node fits, and otherwise the answer is the fitting node with the least key. -/
theorem lower_bound_from_min (sz : Nat → Nat) (need : Nat) (t : Tree) (hb : t.Bst sz) :
    ∀ ans, (avl_lower_bound_from sz need t ans = ans ∧ ∀ a ∈ t.toList, sz a < need) ∨
      (avl_lower_bound_from sz need t ans ∈ t.toList ∧
        need ≤ sz (avl_lower_bound_from sz need t ans) ∧
        ∀ a ∈ t.toList, need ≤ sz a →
          a = avl_lower_bound_from sz need t ans ∨
          cmp_block sz (avl_lower_bound_from sz need t ans) a < 0) := by
  induction t with
  | nil =>
    intro ans
    exact Or.inl ⟨rfl, fun a ha => absurd ha (List.not_mem_nil a)⟩
  | node l x h r ihl ihr =>
    intro ans
    obtain ⟨b1, b2, b3, b4⟩ := hb
    unfold avl_lower_bound_from
    have hmem : ∀ a, a ∈ (Tree.node l x h r).toList ↔ a ∈ l.toList ∨ a = x ∨ a ∈ r.toList := by
      intro a; simp [Tree.toList]
    by_cases hx : need ≤ sz x
    · rw [if_pos hx]
      right
      rcases ihl b3 x with ⟨e, hs⟩ | ⟨m1, m2, m3⟩
      · rw [e]
        refine ⟨(hmem x).2 (Or.inr (Or.inl rfl)), hx, fun a ha hfit => ?_⟩
        rcases (hmem a).1 ha with h1 | h1 | h1
        · have := hs a h1; omega
        · exact Or.inl h1
        · exact Or.inr ((cmp_gt_iff_lt sz a x).1 (b2 a h1))
      · refine ⟨(hmem _).2 (Or.inl m1), m2, fun a ha hfit => ?_⟩
        rcases (hmem a).1 ha with h1 | h1 | h1
        · exact m3 a h1 hfit
        · rw [h1]; exact Or.inr (b1 _ m1)
        · exact Or.inr (cmp_lt_trans sz _ x a (b1 _ m1) ((cmp_gt_iff_lt sz a x).1 (b2 a h1)))
    · rw [if_neg hx]
      have hl : ∀ a ∈ l.toList, sz a < need := by
        intro a ha
        have := (cmp_lt_iff sz a x).1 (b1 a ha)
        omega
      rcases ihr b4 ans with ⟨e, hs⟩ | ⟨m1, m2, m3⟩
      · left
        refine ⟨e, fun a ha => ?_⟩
        rcases (hmem a).1 ha with h1 | h1 | h1
        · exact hl a h1
        · rw [h1]; omega
        · exact hs a h1
      · right
        refine ⟨(hmem _).2 (Or.inr (Or.inr m1)), m2, fun a ha hfit => ?_⟩
        rcases (hmem a).1 ha with h1 | h1 | h1
        · have := hl a h1; omega
        · rw [h1] at hfit; omega
        · exact m3 a h1 hfit

/-- The walk of `avl_rightmost_ge` over a search tree: the candidate is kept
when no node fits, and otherwise the answer is the node with the greatest key
of the whole tree. -/
theorem rightmost_ge_from_max (sz : Nat → Nat) (need : Nat) (t : Tree) (hb : t.Bst sz) :
    ∀ ans, (avl_rightmost_ge_from sz need t ans = ans ∧ ∀ a ∈ t.toList, sz a < need) ∨
      (avl_rightmost_ge_from sz need t ans ∈ t.toList ∧
        need ≤ sz (avl_rightmost_ge_from sz need t ans) ∧
        ∀ a ∈ t.toList, a = avl_rightmost_ge_from sz need t ans ∨
          cmp_block sz a (avl_rightmost_ge_from sz need t ans) < 0) := by
  induction t with
  | nil =>
    intro ans
    exact Or.inl ⟨rfl, fun a ha => absurd ha (List.not_mem_nil a)⟩
  | node l x h r _ ihr =>
    intro ans
    obtain ⟨b1, b2, -, b4⟩ := hb
    unfold avl_rightmost_ge_from
    have hmem : ∀ a, a ∈ (Tree.node l x h r).toList ↔ a ∈ l.toList ∨ a = x ∨ a ∈ r.toList := by
      intro a; simp [Tree.toList]
    have hr : ∀ a ∈ r.toList, sz x ≤ sz a := by
      intro a ha
      have := (cmp_gt_iff sz a x).1 (b2 a ha)
      omega
    by_cases hx : sz x ≥ need
    · rw [if_pos hx]
      right
      rcases ihr b4 x with ⟨e, hs⟩ | ⟨m1, m2, m3⟩
      · rw [e]
        refine ⟨(hmem x).2 (Or.inr (Or.inl rfl)), hx, fun a ha => ?_⟩
        rcases (hmem a).1 ha with h1 | h1 | h1
        · exact Or.inr (b1 a h1)
        · exact Or.inl h1
        · have := hs a h1; have := hr a h1; omega
      · refine ⟨(hmem _).2 (Or.inr (Or.inr m1)), m2, fun a ha => ?_⟩
        have hxm := (cmp_gt_iff_lt sz _ x).1 (b2 _ m1)
        rcases (hmem a).1 ha with h1 | h1 | h1
        · exact Or.inr (cmp_lt_trans sz a x _ (b1 a h1) hxm)
        · rw [h1]; exact Or.inr hxm
        · exact m3 a h1
    · rw [if_neg hx]
      rcases ihr b4 ans with ⟨e, hs⟩ | ⟨m1, m2, m3⟩
      · left
        refine ⟨e, fun a ha => ?_⟩
        rcases (hmem a).1 ha with h1 | h1 | h1
        · have := (cmp_lt_iff sz a x).1 (b1 a h1); omega
        · rw [h1]; omega
        · exact hs a h1
      · right
        refine ⟨(hmem _).2 (Or.inr (Or.inr m1)), m2, fun a ha => ?_⟩
        have hxm := (cmp_gt_iff_lt sz _ x).1 (b2 _ m1)
        rcases (hmem a).1 ha with h1 | h1 | h1
        · exact Or.inr (cmp_lt_trans sz a x _ (b1 a h1) hxm)
        · rw [h1]; exact Or.inr hxm
        · exact m3 a h1

/-- Claim C11: best-fit lookup.  For a tree that is a binary search tree under
the `(size, address)` key of `cmp_block` and whose nodes are blocks (none is
`NULL`), and for every `need`: `avl_lower_bound(root, need)` returns `NULL`
exactly when no node has `size ≥ need`; otherwise it returns a node of the tree
with `size ≥ need` whose key is the least among the fitting nodes: every
fitting node has a larger size, or the same size and an address that is not
smaller. -/
theorem avl_lower_bound_best (sz : Nat → Nat) (t : Tree) (need : Nat) (hb : t.Bst sz)
    (h0 : 0 ∉ t.toList) :
    (avl_lower_bound sz t need = 0 ↔ ∀ a ∈ t.toList, sz a < need) ∧
    (avl_lower_bound sz t need ≠ 0 →
      avl_lower_bound sz t need ∈ t.toList ∧ need ≤ sz (avl_lower_bound sz t need) ∧
      ∀ a ∈ t.toList, need ≤ sz a →
        sz (avl_lower_bound sz t need) < sz a ∨
        (sz (avl_lower_bound sz t need) = sz a ∧ avl_lower_bound sz t need ≤ a)) := by
  unfold avl_lower_bound
  rcases lower_bound_from_min sz need t hb 0 with ⟨e, hs⟩ | ⟨m1, m2, m3⟩
  · refine ⟨⟨fun _ => hs, fun _ => e⟩, fun hne => absurd e hne⟩
  · have hne : avl_lower_bound_from sz need t 0 ≠ 0 := fun e => h0 (e ▸ m1)
    refine ⟨⟨fun e => absurd e hne, fun hs => ?_⟩, fun _ => ⟨m1, m2, fun a ha hfit => ?_⟩⟩
    · have := hs _ m1; omega
    · rcases m3 a ha hfit with h1 | h1
      · rw [← h1]; exact Or.inr ⟨rfl, le_refl _⟩
      · have := (cmp_lt_iff sz _ a).1 h1
        omega

/-- Witness for claim C11: in the tree of `treeDemo`, with keys `(32, 4096)`,
`(32, 8192)`, `(64, 12288)`, a request of `20` finds `4096`, a request of `40`
finds `12288`, and a request of `100` finds nothing. -/
theorem avl_lower_bound_best_witness :
    avl_lower_bound treeDemo.sz treeDemo.g_avl_root 20 = 4096 ∧
    avl_lower_bound treeDemo.sz treeDemo.g_avl_root 40 = 12288 ∧
    avl_lower_bound treeDemo.sz treeDemo.g_avl_root 100 = 0 ∧
    (∀ a ∈ treeDemo.g_avl_root.toList, treeDemo.sz a < 100) :=
  ⟨by decide, by decide, by decide,
   (avl_lower_bound_best treeDemo.sz treeDemo.g_avl_root 100 (by decide) (by decide)).1.1
     (by decide)⟩

/-- Claim C12: worst-fit lookup.  For a tree that is a binary search tree under
the `(size, address)` key and whose nodes are blocks (none is `NULL`), and for
every `need`: `avl_rightmost_ge(root, need)` returns `NULL` exactly when no node
of the whole tree has `size ≥ need`; otherwise it returns a node with
`size ≥ need` whose key is the greatest of the tree: every node has a smaller
size, or the same size and an address that is not larger. -/
theorem avl_rightmost_ge_worst (sz : Nat → Nat) (t : Tree) (need : Nat) (hb : t.Bst sz)
    (h0 : 0 ∉ t.toList) :
    (avl_rightmost_ge sz t need = 0 ↔ ∀ a ∈ t.toList, sz a < need) ∧
    (avl_rightmost_ge sz t need ≠ 0 →
      avl_rightmost_ge sz t need ∈ t.toList ∧ need ≤ sz (avl_rightmost_ge sz t need) ∧
      ∀ a ∈ t.toList,
        sz a < sz (avl_rightmost_ge sz t need) ∨
        (sz a = sz (avl_rightmost_ge sz t need) ∧ a ≤ avl_rightmost_ge sz t need)) := by
  unfold avl_rightmost_ge
  rcases rightmost_ge_from_max sz need t hb 0 with ⟨e, hs⟩ | ⟨m1, m2, m3⟩
  · refine ⟨⟨fun _ => hs, fun _ => e⟩, fun hne => absurd e hne⟩
  · have hne : avl_rightmost_ge_from sz need t 0 ≠ 0 := fun e => h0 (e ▸ m1)
    refine ⟨⟨fun e => absurd e hne, fun hs => ?_⟩, fun _ => ⟨m1, m2, fun a ha => ?_⟩⟩
    · have := hs _ m1; omega
    · rcases m3 a ha with h1 | h1
      · rw [← h1]; exact Or.inr ⟨rfl, le_refl _⟩
      · have := (cmp_lt_iff sz a _).1 h1
        omega

/-- Witness for claim C12: in the tree of `treeDemo` a request of `20` finds the
largest block `12288`, and a request of `100` finds nothing. -/
theorem avl_rightmost_ge_worst_witness :
    avl_rightmost_ge treeDemo.sz treeDemo.g_avl_root 20 = 12288 ∧
    avl_rightmost_ge treeDemo.sz treeDemo.g_avl_root 100 = 0 ∧
    (∀ a ∈ treeDemo.g_avl_root.toList,
      treeDemo.sz a < treeDemo.sz 12288 ∨ (treeDemo.sz a = treeDemo.sz 12288 ∧ a ≤ 12288)) :=
  ⟨by decide, by decide,
   ((avl_rightmost_ge_worst treeDemo.sz treeDemo.g_avl_root 20 (by decide) (by decide)).2
     (by decide)).2.2⟩

/-! ## The index operations on well-formed indices -/

/-! ### Finding a block on the free list -/

theorem fl_first_fit_spec (sz : Nat → Nat) (l : List Nat) (need : Nat) :
    (fl_first_fit sz l need ≠ 0 →
      fl_first_fit sz l need ∈ l ∧ need ≤ sz (fl_first_fit sz l need)) ∧
    (0 ∉ l → fl_first_fit sz l need = 0 → ∀ a ∈ l, sz a < need) := by
  induction l with
  | nil => simp [fl_first_fit]
  | cons x xs ih =>
    unfold fl_first_fit
    split
    · rename_i h
      exact ⟨fun _ => ⟨List.mem_cons_self _ _, h⟩, fun h0 e => absurd (e ▸ List.mem_cons_self x xs) (e ▸ h0)⟩
    · rename_i h
      refine ⟨fun hne => ⟨List.mem_cons_of_mem _ (ih.1 hne).1, (ih.1 hne).2⟩, ?_⟩
      intro h0 e a ha
      rcases List.mem_cons.1 ha with rfl | ha
      · omega
      · exact ih.2 (fun h1 => h0 (List.mem_cons_of_mem _ h1)) e a ha

theorem fl_head_mem (l : List Nat) (h : fl_head l ≠ 0) : fl_head l ∈ l := by
  cases l with
  | nil => simp [fl_head] at h
  | cons x xs => simp [fl_head]

theorem fl_head_cons (x : Nat) (xs : List Nat) : fl_head (x :: xs) = x := rfl

theorem next_free_mem (l : List Nat) (b : Nat) (h : next_free l b ≠ 0) :
    next_free l b ∈ l := by
  induction l with
  | nil => simp [next_free] at h
  | cons x xs ih =>
    unfold next_free at h ⊢
    split
    · rename_i e
      rw [if_pos e] at h
      exact List.mem_cons_of_mem _ (fl_head_mem _ h)
    · rename_i e
      rw [if_neg e] at h
      exact List.mem_cons_of_mem _ (ih h)

/-- The successor of `a` when `a` is followed by `b` on a list without
repetition. -/
theorem next_free_mid (v w : List Nat) (a b : Nat) (ha : a ∉ v) :
    next_free (v ++ a :: b :: w) a = b := by
  induction v with
  | nil => simp [next_free, fl_head]
  | cons y ys ih =>
    have h1 : y ≠ a := fun e => ha (by simp [e])
    have h2 : a ∉ ys := fun e => ha (List.mem_cons_of_mem _ e)
    simp only [List.cons_append, next_free, if_neg h1]
    exact ih h2

/-- The successor of the tail is `NULL`. -/
theorem next_free_last (v : List Nat) (a : Nat) (ha : a ∉ v) :
    next_free (v ++ [a]) a = 0 := by
  induction v with
  | nil => simp [next_free, fl_head]
  | cons y ys ih =>
    have h1 : y ≠ a := fun e => ha (by simp [e])
    have h2 : a ∉ ys := fun e => ha (List.mem_cons_of_mem _ e)
    simp only [List.cons_append, next_free, if_neg h1]
    exact ih h2

theorem next_free_not_mem (l : List Nat) (a : Nat) (ha : a ∉ l) : next_free l a = 0 := by
  induction l with
  | nil => rfl
  | cons y ys ih =>
    have h1 : y ≠ a := fun e => ha (by simp [e])
    have h2 : a ∉ ys := fun e => ha (List.mem_cons_of_mem _ e)
    simp only [next_free, if_neg h1]
    exact ih h2

theorem scan_result_cons_fit (sz : Nat → Nat) (l : List Nat) (need cur0 x : Nat)
    (u : List Nat) (h : need ≤ sz x) :
    scan_result sz l need cur0 (x :: u) =
      some (x, if next_free l x ≠ 0 then next_free l x else fl_head l) := by
  simp [scan_result, List.find?, h]

theorem scan_result_cons_skip (sz : Nat → Nat) (l : List Nat) (need cur0 x : Nat)
    (u : List Nat) (h : ¬ need ≤ sz x) :
    scan_result sz l need cur0 (x :: u) = scan_result sz l need cur0 u := by
  simp [scan_result, List.find?, h]

/-- The loop of `fl_next_fit` on the part of the list before the start. -/
theorem next_fit_loop_pre (sz : Nat → Nat) (need c cur0 : Nat) (post : List Nat) :
    ∀ (u2 u1 : List Nat) (x fuel : Nat),
      (u1 ++ x :: u2 ++ c :: post).Nodup → 0 ∉ (u1 ++ x :: u2 ++ c :: post) →
      (x :: u2).length ≤ fuel →
      fl_next_fit_loop sz (u1 ++ x :: u2 ++ c :: post) need c cur0 fuel x =
        scan_result sz (u1 ++ x :: u2 ++ c :: post) need cur0 (x :: u2) := by
  intro u2
  induction u2 with
  | nil =>
    intro u1 x fuel hnd h0 hf
    obtain ⟨f, rfl⟩ : ∃ f, fuel = f + 1 := ⟨fuel - 1, by simp at hf; omega⟩
    have hx : x ∉ u1 := by
      intro hm
      have := List.nodup_append.1 hnd
      simp only [List.append_assoc, List.cons_append, List.nil_append] at hnd
      exact (List.disjoint_of_nodup_append hnd) hm (List.mem_cons_self _ _)
    have hc : c ≠ 0 := fun e => h0 (by simp [e])
    have e1 : next_free (u1 ++ x :: [] ++ c :: post) x = c := by
      simpa using next_free_mid u1 post x c hx
    by_cases hfit : need ≤ sz x
    · rw [scan_result_cons_fit _ _ _ _ _ _ hfit]
      simp only [fl_next_fit_loop]
      rw [if_pos hfit]
    · rw [scan_result_cons_skip _ _ _ _ _ _ hfit]
      simp only [fl_next_fit_loop]
      rw [if_neg hfit, e1]
      simp [scan_result, hc]
  | cons y u2 ih =>
    intro u1 x fuel hnd h0 hf
    obtain ⟨f, rfl⟩ : ∃ f, fuel = f + 1 := ⟨fuel - 1, by simp at hf; omega⟩
    have hx : x ∉ u1 := by
      intro hm
      simp only [List.append_assoc, List.cons_append] at hnd
      exact (List.disjoint_of_nodup_append hnd) hm (List.mem_cons_self _ _)
    have hy0 : y ≠ 0 := fun e => h0 (by simp [e])
    have hyc : y ≠ c := by
      intro e
      have h1 : (u1 ++ x :: y :: u2 ++ c :: post) = (u1 ++ [x]) ++ y :: (u2 ++ c :: post) := by
        simp
      rw [h1] at hnd
      have h2 := (List.nodup_append.1 hnd).2.1
      rw [List.nodup_cons] at h2
      exact h2.1 (by simp [e])
    have e1 : next_free (u1 ++ x :: (y :: u2) ++ c :: post) x = y := by
      simpa using next_free_mid u1 (u2 ++ c :: post) x y hx
    have el : u1 ++ x :: (y :: u2) ++ c :: post = (u1 ++ [x]) ++ y :: u2 ++ c :: post := by
      simp
    by_cases hfit : need ≤ sz x
    · rw [scan_result_cons_fit _ _ _ _ _ _ hfit]
      simp only [fl_next_fit_loop]
      rw [if_pos hfit]
    · rw [scan_result_cons_skip _ _ _ _ _ _ hfit]
      simp only [fl_next_fit_loop]
      rw [if_neg hfit, e1, if_pos hy0, if_pos ⟨hy0, hyc⟩, el]
      apply ih
      · rw [← el]; exact hnd
      · rw [← el]; exact h0
      · simp at hf ⊢; omega

/-- The loop of `fl_next_fit` from the start to the tail of the list and on
from the head to the block before the start. -/
theorem next_fit_loop_post (sz : Nat → Nat) (need c cur0 : Nat) (pre : List Nat) :
    ∀ (u2 m t : List Nat) (x fuel : Nat),
      m ++ [x] = c :: t →
      (pre ++ m ++ x :: u2).Nodup → 0 ∉ (pre ++ m ++ x :: u2) →
      (x :: u2).length + pre.length ≤ fuel →
      fl_next_fit_loop sz (pre ++ m ++ x :: u2) need c cur0 fuel x =
        scan_result sz (pre ++ m ++ x :: u2) need cur0 (x :: u2 ++ pre) := by
  intro u2
  induction u2 with
  | nil =>
    intro m t x fuel hm hnd h0 hf
    obtain ⟨f, rfl⟩ : ∃ f, fuel = f + 1 := ⟨fuel - 1, by simp at hf; omega⟩
    have hx : x ∉ pre ++ m := fun hmem =>
      (List.disjoint_of_nodup_append hnd) hmem (List.mem_cons_self _ _)
    have e1 : next_free (pre ++ m ++ [x]) x = 0 := next_free_last _ _ hx
    by_cases hfit : need ≤ sz x
    · rw [List.cons_append, scan_result_cons_fit _ _ _ _ _ _ hfit]
      simp only [fl_next_fit_loop]
      rw [if_pos hfit]
    · rw [List.cons_append, scan_result_cons_skip _ _ _ _ _ _ hfit]
      simp only [fl_next_fit_loop]
      rw [if_neg hfit, e1]
      simp only [ne_eq, not_true_eq_false, if_false, List.nil_append]
      cases pre with
      | nil =>
        have eh : fl_head ([] ++ m ++ [x]) = c := by
          simp only [List.nil_append]; rw [hm]; rfl
        rw [eh]
        simp [scan_result]
      | cons z pre2 =>
        have hz0 : z ≠ 0 := fun e => h0 (by simp [e])
        have hzc : z ≠ c := by
          intro e
          have h1 : z :: pre2 ++ m ++ [x] = z :: (pre2 ++ (c :: t)) := by
            rw [← hm]; simp
          rw [h1] at hnd
          exact (List.nodup_cons.1 hnd).1 (by simp [e])
        have eh : fl_head (z :: pre2 ++ m ++ [x]) = z := rfl
        rw [eh, if_pos ⟨hz0, hzc⟩]
        have el : z :: pre2 ++ m ++ [x] = [] ++ z :: pre2 ++ c :: t := by
          rw [← hm]; simp
        rw [el]
        apply next_fit_loop_pre
        · rw [← el]; exact hnd
        · rw [← el]; exact h0
        · simp at hf ⊢; omega
  | cons y u2 ih =>
    intro m t x fuel hm hnd h0 hf
    obtain ⟨f, rfl⟩ : ∃ f, fuel = f + 1 := ⟨fuel - 1, by simp at hf; omega⟩
    have hx : x ∉ pre ++ m := fun hmem =>
      (List.disjoint_of_nodup_append hnd) hmem (List.mem_cons_self _ _)
    have hy0 : y ≠ 0 := fun e => h0 (by simp [e])
    have el : pre ++ m ++ x :: y :: u2 = pre ++ (m ++ [x]) ++ y :: u2 := by simp
    have hyc : y ≠ c := by
      intro e
      rw [el, hm] at hnd
      have h2 := List.disjoint_of_nodup_append hnd
      exact h2 (show c ∈ pre ++ c :: t by simp) (by rw [← e]; exact List.mem_cons_self _ _)
    have e1 : next_free (pre ++ m ++ x :: y :: u2) x = y := next_free_mid _ u2 x y hx
    by_cases hfit : need ≤ sz x
    · rw [List.cons_append, scan_result_cons_fit _ _ _ _ _ _ hfit]
      simp only [fl_next_fit_loop]
      rw [if_pos hfit]
    · rw [List.cons_append, scan_result_cons_skip _ _ _ _ _ _ hfit]
      simp only [fl_next_fit_loop]
      rw [if_neg hfit, e1, if_pos hy0, if_pos ⟨hy0, hyc⟩, el]
      apply ih (m ++ [x]) (t ++ [y])
      · rw [hm]; simp
      · rw [← el]; exact hnd
      · rw [← el]; exact h0
      · simp at hf ⊢; omega

/-- The function `fl_next_fit` on a list without repetition and without
`NULL`, the cursor being `NULL` or on the list: with the list cut at the
starting block into `pre ++ c :: post`, the outcome is that of a scan of
`c :: post ++ pre`. -/
theorem fl_next_fit_scan (sz : Nat → Nat) (pre post : List Nat) (c cursor need : Nat)
    (hnd : (pre ++ c :: post).Nodup) (h0 : 0 ∉ pre ++ c :: post)
    (hc : (cursor = 0 ∧ pre = []) ∨ cursor = c) :
    fl_next_fit sz (pre ++ c :: post) cursor need =
      scan_result sz (pre ++ c :: post) need c (c :: post ++ pre) := by
  have hc0 : c ≠ 0 := fun e => h0 (by simp [e])
  have e1 : (if cursor = 0 then fl_head (pre ++ c :: post) else cursor) = c := by
    rcases hc with ⟨h1, h2⟩ | h1
    · rw [if_pos h1, h2]; rfl
    · rw [h1, if_neg hc0]
  unfold fl_next_fit
  simp only [e1, if_neg hc0]
  have := next_fit_loop_post sz need c c pre post [] [] c ((pre ++ c :: post).length + 1)
    (by simp) (by simpa using hnd) (by simpa using h0) (by simp; omega)
  simpa using this

/-! ### Finding a block in the tree -/

theorem lower_bound_from_spec (sz : Nat → Nat) (need : Nat) (t : Tree) :
    ∀ ans, (avl_lower_bound_from sz need t ans = ans ∨
      (avl_lower_bound_from sz need t ans ∈ t.toList ∧
        need ≤ sz (avl_lower_bound_from sz need t ans))) ∧
      (t.Bst sz → (∃ a ∈ t.toList, need ≤ sz a) →
        avl_lower_bound_from sz need t ans ∈ t.toList ∧
        need ≤ sz (avl_lower_bound_from sz need t ans)) := by
  induction t with
  | nil => intro ans; simp [avl_lower_bound_from, Tree.toList]
  | node l x h r ihl ihr =>
    intro ans
    by_cases c : need ≤ sz x
    · have e : avl_lower_bound_from sz need (Tree.node l x h r) ans =
          avl_lower_bound_from sz need l x := by
        simp only [avl_lower_bound_from]; rw [if_pos c]
      rw [e]
      have key : avl_lower_bound_from sz need l x ∈ (Tree.node l x h r).toList ∧
          need ≤ sz (avl_lower_bound_from sz need l x) := by
        rcases (ihl x).1 with h1 | ⟨h1, h2⟩
        · rw [h1]; exact ⟨by simp [Tree.toList], c⟩
        · exact ⟨by simp [Tree.toList, h1], h2⟩
      exact ⟨Or.inr key, fun _ _ => key⟩
    · have e : avl_lower_bound_from sz need (Tree.node l x h r) ans =
          avl_lower_bound_from sz need r ans := by
        simp only [avl_lower_bound_from]; rw [if_neg c]
      rw [e]
      refine ⟨?_, ?_⟩
      · rcases (ihr ans).1 with h1 | ⟨h1, h2⟩
        · exact Or.inl h1
        · exact Or.inr ⟨by simp [Tree.toList, h1], h2⟩
      · rintro ⟨b1, b2, b3, b4⟩ ⟨a, ha, hfit⟩
        have har : a ∈ r.toList := by
          simp only [Tree.toList, List.mem_append, List.mem_cons] at ha
          rcases ha with ha | ha | ha
          · have := (cmp_lt_iff sz a x).1 (b1 a ha)
            omega
          · rw [ha] at hfit; exact absurd hfit c
          · exact ha
        obtain ⟨h1, h2⟩ := (ihr ans).2 b4 ⟨a, har, hfit⟩
        exact ⟨by simp [Tree.toList, h1], h2⟩

theorem rightmost_ge_from_spec (sz : Nat → Nat) (need : Nat) (t : Tree) :
    ∀ ans, (avl_rightmost_ge_from sz need t ans = ans ∨
      (avl_rightmost_ge_from sz need t ans ∈ t.toList ∧
        need ≤ sz (avl_rightmost_ge_from sz need t ans))) ∧
      (t.Bst sz → (∃ a ∈ t.toList, need ≤ sz a) →
        avl_rightmost_ge_from sz need t ans ∈ t.toList ∧
        need ≤ sz (avl_rightmost_ge_from sz need t ans)) := by
  induction t with
  | nil => intro ans; simp [avl_rightmost_ge_from, Tree.toList]
  | node l x h r _ ihr =>
    intro ans
    by_cases c : sz x ≥ need
    · have e : avl_rightmost_ge_from sz need (Tree.node l x h r) ans =
          avl_rightmost_ge_from sz need r x := by
        simp only [avl_rightmost_ge_from]; rw [if_pos c]
      rw [e]
      have key : avl_rightmost_ge_from sz need r x ∈ (Tree.node l x h r).toList ∧
          need ≤ sz (avl_rightmost_ge_from sz need r x) := by
        rcases (ihr x).1 with h1 | ⟨h1, h2⟩
        · rw [h1]; exact ⟨by simp [Tree.toList], c⟩
        · exact ⟨by simp [Tree.toList, h1], h2⟩
      exact ⟨Or.inr key, fun _ _ => key⟩
    · have e : avl_rightmost_ge_from sz need (Tree.node l x h r) ans =
          avl_rightmost_ge_from sz need r ans := by
        simp only [avl_rightmost_ge_from]; rw [if_neg c]
      rw [e]
      refine ⟨?_, ?_⟩
      · rcases (ihr ans).1 with h1 | ⟨h1, h2⟩
        · exact Or.inl h1
        · exact Or.inr ⟨by simp [Tree.toList, h1], h2⟩
      · rintro ⟨b1, b2, b3, b4⟩ ⟨a, ha, hfit⟩
        have har : a ∈ r.toList := by
          simp only [Tree.toList, List.mem_append, List.mem_cons] at ha
          rcases ha with ha | ha | ha
          · have := (cmp_lt_iff sz a x).1 (b1 a ha)
            omega
          · rw [ha] at hfit; exact absurd hfit c
          · exact ha
        obtain ⟨h1, h2⟩ := (ihr ans).2 b4 ⟨a, har, hfit⟩
        exact ⟨by simp [Tree.toList, h1], h2⟩

/-- A tree lookup that starts from `NULL` on a tree without a `NULL` node
answers `NULL` exactly when no node fits. -/
theorem tree_find_spec (sz : Nat → Nat) (need : Nat) (t : Tree) (hb : t.Bst sz)
    (h0 : 0 ∉ t.toList) :
    ((avl_lower_bound sz t need ≠ 0 →
        avl_lower_bound sz t need ∈ t.toList ∧ need ≤ sz (avl_lower_bound sz t need)) ∧
      (avl_lower_bound sz t need = 0 → ∀ a ∈ t.toList, sz a < need)) ∧
    ((avl_rightmost_ge sz t need ≠ 0 →
        avl_rightmost_ge sz t need ∈ t.toList ∧ need ≤ sz (avl_rightmost_ge sz t need)) ∧
      (avl_rightmost_ge sz t need = 0 → ∀ a ∈ t.toList, sz a < need)) := by
  unfold avl_lower_bound avl_rightmost_ge
  obtain ⟨p1, p2⟩ := lower_bound_from_spec sz need t 0
  obtain ⟨q1, q2⟩ := rightmost_ge_from_spec sz need t 0
  refine ⟨⟨fun hne => ?_, fun he a ha => ?_⟩, ⟨fun hne => ?_, fun he a ha => ?_⟩⟩
  · rcases p1 with h | h
    · exact absurd h hne
    · exact h
  · by_contra hc
    have := (p2 hb ⟨a, ha, by omega⟩).1
    rw [he] at this
    exact h0 this
  · rcases q1 with h | h
    · exact absurd h hne
    · exact h
  · by_contra hc
    have := (q2 hb ⟨a, ha, by omega⟩).1
    rw [he] at this
    exact h0 this

theorem fl_next_fit_spec (sz : Nat → Nat) (l : List Nat) (cursor need : Nat)
    (hs : l.Pairwise (· < ·)) (h0 : 0 ∉ l) (hc : cursor = 0 ∨ cursor ∈ l) :
    ∃ r c2, fl_next_fit sz l cursor need = some (r, c2) ∧ (c2 = 0 ∨ c2 ∈ l) ∧
      (r ≠ 0 → r ∈ l ∧ need ≤ sz r) ∧ (r = 0 → ∀ a ∈ l, sz a < need) := by
  have hnd : l.Nodup := hs.imp (fun h => ne_of_lt h)
  cases l with
  | nil =>
    have e : cursor = 0 := by
      rcases hc with h | h
      · exact h
      · simp at h
    refine ⟨0, 0, ?_, Or.inl rfl, fun h => absurd rfl h, fun _ a ha => by simp at ha⟩
    simp [fl_next_fit, e, fl_head]
  | cons y ys =>
    obtain ⟨pre, post, c, el, hcc⟩ : ∃ pre post c, y :: ys = pre ++ c :: post ∧
        ((cursor = 0 ∧ pre = []) ∨ cursor = c) := by
      by_cases hz : cursor = 0
      · exact ⟨[], ys, y, rfl, Or.inl ⟨hz, rfl⟩⟩
      · rcases hc with h | h
        · exact absurd h hz
        · obtain ⟨pre, post, e⟩ := List.append_of_mem h
          exact ⟨pre, post, cursor, e, Or.inr rfl⟩
    rw [el] at hnd h0 ⊢
    rw [fl_next_fit_scan sz pre post c cursor need hnd h0 hcc]
    unfold scan_result
    have hperm : ∀ a, a ∈ c :: post ++ pre ↔ a ∈ pre ++ c :: post := by
      intro a; simp only [List.mem_append, List.mem_cons]; tauto
    cases hf : (c :: post ++ pre).find? (fun a => decide (need ≤ sz a)) with
    | none =>
      refine ⟨0, c, rfl, Or.inr (by simp), fun h => absurd rfl h, fun _ a ha => ?_⟩
      have := List.find?_eq_none.1 hf a ((hperm a).2 ha)
      simpa using this
    | some r =>
      have hr1 : r ∈ pre ++ c :: post := (hperm r).1 (List.mem_of_find?_eq_some hf)
      have hr2 : need ≤ sz r := by simpa using List.find?_some hf
      have hr0 : r ≠ 0 := fun e => h0 (e ▸ hr1)
      refine ⟨r, _, rfl, ?_, fun _ => ⟨hr1, hr2⟩, fun e => absurd e hr0⟩
      right
      split
      · rename_i h; exact next_free_mem _ _ h
      · apply fl_head_mem
        cases pre with
        | nil => simpa [fl_head] using fun e : c = 0 => h0 (by simp [e])
        | cons z zs => simpa [fl_head] using fun e : z = 0 => h0 (by simp [e])

theorem next_free_gt (l : List Nat) (b : Nat) (hs : l.Pairwise (· < ·))
    (h : next_free l b ≠ 0) : b < next_free l b := by
  induction l with
  | nil => simp [next_free] at h
  | cons x xs ih =>
    rw [List.pairwise_cons] at hs
    unfold next_free at h ⊢
    split
    · rename_i e
      rw [if_pos e] at h
      rw [← e]
      exact hs.1 _ (fl_head_mem _ h)
    · rename_i e
      rw [if_neg e] at h
      exact ih hs.2 h

/-- The cursor after `fl_remove` is `NULL` or on the list again. -/
theorem fl_remove_cursor (l : List Nat) (c b : Nat) (hs : l.Pairwise (· < ·))
    (hc : c = 0 ∨ c ∈ l) :
    (fl_remove l c b).2 = 0 ∨ (fl_remove l c b).2 ∈ (fl_remove l c b).1 := by
  unfold fl_remove
  simp only []
  by_cases e : c = b
  · rw [if_pos e]
    split
    · rename_i h
      right
      rw [mem_fl_unlink _ _ _ hs]
      exact ⟨next_free_mem _ _ h, ne_of_gt (next_free_gt _ _ hs h)⟩
    · by_cases h2 : fl_head (fl_unlink l b) = 0
      · exact Or.inl h2
      · exact Or.inr (fl_head_mem _ h2)
  · rw [if_neg e]
    rcases hc with h | h
    · exact Or.inl h
    · right
      rw [mem_fl_unlink _ _ _ hs]
      exact ⟨h, e⟩

theorem bst_congr (sz sz2 : Nat → Nat) (t : Tree) (h : ∀ a ∈ t.toList, sz2 a = sz a)
    (hb : t.Bst sz) : t.Bst sz2 := by
  rw [bst_iff_pairwise] at hb ⊢
  have key : ∀ a ∈ t.toList, ∀ b ∈ t.toList, cmp_block sz a b < 0 → cmp_block sz2 a b < 0 := by
    intro a ha b hb2 hlt
    rw [cmp_lt_iff] at hlt ⊢
    rw [h a ha, h b hb2]
    exact hlt
  exact hb.imp_of_mem (fun {a b} ha hb2 hlt => key a ha b hb2 hlt)

/-- The index invariant does not depend on the memory except for the sizes of
the blocks in the tree. -/
theorem idxOK_mem (s : Heap) (m : Nat → Block) (h : IdxOK s)
    (hsz : ∀ a ∈ s.g_avl_root.toList, (m a).size = (s.mem a).size) :
    IdxOK { s with mem := m } :=
  { sorted := h.sorted, cursor := h.cursor
    bst := bst_congr s.sz _ _ hsz h.bst
    bal := h.bal, hok := h.hok, nz := h.nz, ptr := h.ptr, tree_nil := h.tree_nil }

theorem idxOK_strat (s : Heap) (st : Strategy) (h : IdxOK s)
    (hu : s.g_strat = Strategy.UNSET) : IdxOK { s with g_strat := st } :=
  { sorted := h.sorted, cursor := h.cursor, bst := h.bst, bal := h.bal, hok := h.hok
    nz := h.nz, ptr := h.ptr
    tree_nil := fun _ => h.tree_nil (by rw [hu]; simp) }

theorem idx_of_tree (s : Heap) (h : s.g_strat = Strategy.BEST ∨ s.g_strat = Strategy.WORST) :
    s.idx = s.g_avl_root.toList ∧ s.orphans = s.g_free_head := by
  unfold Heap.idx Heap.orphans; rw [if_pos h, if_pos h]; exact ⟨rfl, rfl⟩

theorem idx_of_list (s : Heap)
    (h : ¬ (s.g_strat = Strategy.BEST ∨ s.g_strat = Strategy.WORST)) :
    s.idx = s.g_free_head ∧ s.orphans = [] := by
  unfold Heap.idx Heap.orphans; rw [if_neg h, if_neg h]; exact ⟨rfl, rfl⟩

theorem index_insert_of_tree (s : Heap) (b : Nat)
    (h : s.g_strat = Strategy.BEST ∨ s.g_strat = Strategy.WORST) :
    index_insert s b = avl_insert s b := by
  unfold index_insert
  rw [if_neg]
  rcases h with h | h <;> rw [h] <;> simp

theorem index_insert_of_list (s : Heap) (b : Nat)
    (h : ¬ (s.g_strat = Strategy.BEST ∨ s.g_strat = Strategy.WORST)) :
    index_insert s b = s.fl_push_sorted b := by
  unfold index_insert
  rw [if_pos]
  cases hs : s.g_strat <;> simp [hs] at h ⊢

theorem index_remove_of_tree (s : Heap) (b : Nat)
    (h : s.g_strat = Strategy.BEST ∨ s.g_strat = Strategy.WORST) :
    index_remove s b = avl_erase s b := by
  unfold index_remove
  rw [if_neg, if_pos h]
  rcases h with h | h <;> rw [h] <;> simp

theorem index_remove_of_list (s : Heap) (b : Nat)
    (h : ¬ (s.g_strat = Strategy.BEST ∨ s.g_strat = Strategy.WORST)) :
    index_remove s b = s.fl_remove b := by
  unfold index_remove
  rw [if_neg h]
  simp

/-- Insertion of a block that is not yet a member keeps the index well formed
and adds exactly that block. -/
theorem idx_insert (s : Heap) (b : Nat) (h : IdxOK s) (hb : b ∉ s.idx) (hb0 : b ≠ 0)
    (hb64 : b < 2 ^ 64) :
    IdxOK (index_insert s b) ∧ (∀ a, a ∈ (index_insert s b).idx ↔ a ∈ s.idx ∨ a = b) ∧
    (index_insert s b).orphans = s.orphans := by
  by_cases ht : s.g_strat = Strategy.BEST ∨ s.g_strat = Strategy.WORST
  · rw [index_insert_of_tree s b ht]
    have ht2 : (avl_insert s b).g_strat = Strategy.BEST ∨
        (avl_insert s b).g_strat = Strategy.WORST := ht
    rw [(idx_of_tree _ ht2).1, (idx_of_tree _ ht2).2, (idx_of_tree _ ht).1, (idx_of_tree _ ht).2]
    rw [(idx_of_tree _ ht).1] at hb
    obtain ⟨i1, i2, i3, i4, -⟩ := avl_insert_rec_spec s.sz b s.g_avl_root hb h.bst h.hok h.bal
      (height_le_of_ptr s.sz _ h.bst h.hok h.bal h.ptr)
    have hm : ∀ a, a ∈ (avl_insert s b).g_avl_root.toList ↔ a ∈ s.g_avl_root.toList ∨ a = b := by
      intro a
      show a ∈ (avl_insert_rec s.sz s.g_avl_root b).toList ↔ _
      rw [mem_of_perm_cons i3]; tauto
    refine ⟨?_, hm, rfl⟩
    exact { sorted := h.sorted, cursor := h.cursor, bst := i4, bal := i2, hok := i1
            nz := ⟨h.nz.1, fun h0 => by
              rcases (hm 0).1 h0 with h1 | h1
              · exact h.nz.2 h1
              · exact hb0 h1.symm⟩
            ptr := fun a ha => by
              rcases (hm a).1 ha with h1 | h1
              · exact h.ptr a h1
              · rw [h1]; exact hb64
            tree_nil := fun hn => absurd ht2 hn }
  · rw [index_insert_of_list s b ht]
    have ht2 : ¬ ((s.fl_push_sorted b).g_strat = Strategy.BEST ∨
        (s.fl_push_sorted b).g_strat = Strategy.WORST) := ht
    rw [(idx_of_list _ ht2).1, (idx_of_list _ ht2).2, (idx_of_list _ ht).1, (idx_of_list _ ht).2]
    rw [(idx_of_list _ ht).1] at hb
    have hm : ∀ a, a ∈ (s.fl_push_sorted b).g_free_head ↔ a ∈ s.g_free_head ∨ a = b := by
      intro a
      show a ∈ Mmu.fl_push_sorted s.g_free_head b ↔ _
      rw [mem_fl_push_sorted]; tauto
    refine ⟨?_, hm, rfl⟩
    exact { sorted := fl_push_sorted_pairwise _ _ h.sorted hb
            cursor := by
              rcases h.cursor with h1 | h1
              · exact Or.inl h1
              · exact Or.inr ((hm _).2 (Or.inl h1))
            bst := h.bst, bal := h.bal, hok := h.hok
            nz := ⟨fun h0 => by
              rcases (hm 0).1 h0 with h1 | h1
              · exact h.nz.1 h1
              · exact hb0 h1.symm, h.nz.2⟩
            ptr := h.ptr
            tree_nil := h.tree_nil }

/-- Removal keeps the index well formed and removes exactly that block. -/
theorem idx_remove (s : Heap) (b : Nat) (h : IdxOK s) :
    IdxOK (index_remove s b) ∧ (∀ a, a ∈ (index_remove s b).idx ↔ a ∈ s.idx ∧ a ≠ b) ∧
    (index_remove s b).orphans = s.orphans := by
  by_cases ht : s.g_strat = Strategy.BEST ∨ s.g_strat = Strategy.WORST
  · rw [index_remove_of_tree s b ht]
    have ht2 : (avl_erase s b).g_strat = Strategy.BEST ∨
        (avl_erase s b).g_strat = Strategy.WORST := ht
    rw [(idx_of_tree _ ht2).1, (idx_of_tree _ ht2).2, (idx_of_tree _ ht).1, (idx_of_tree _ ht).2]
    obtain ⟨i3, i2, i4, -⟩ := avl_delete_rec_spec s.sz s.g_avl_root b h.bst h.hok h.bal
      (by have := height_le_of_ptr s.sz _ h.bst h.hok h.bal h.ptr; omega)
    have i1 : (avl_delete_rec s.sz s.g_avl_root b).Bst s.sz := by
      rw [bst_iff_pairwise, i4]
      exact ((bst_iff_pairwise _ _).1 h.bst).sublist (List.filter_sublist _)
    have hm : ∀ a, a ∈ (avl_erase s b).g_avl_root.toList ↔ a ∈ s.g_avl_root.toList ∧ a ≠ b := by
      intro a
      show a ∈ (avl_delete_rec s.sz s.g_avl_root b).toList ↔ _
      rw [i4]; simp
    refine ⟨?_, hm, rfl⟩
    exact { sorted := h.sorted, cursor := h.cursor, bst := i1, bal := i2, hok := i3
            nz := ⟨h.nz.1, fun h0 => h.nz.2 ((hm 0).1 h0).1⟩
            ptr := fun a ha => h.ptr a ((hm a).1 ha).1
            tree_nil := fun hn => absurd ht2 hn }
  · rw [index_remove_of_list s b ht]
    have ht2 : ¬ ((s.fl_remove b).g_strat = Strategy.BEST ∨
        (s.fl_remove b).g_strat = Strategy.WORST) := ht
    rw [(idx_of_list _ ht2).1, (idx_of_list _ ht2).2, (idx_of_list _ ht).1, (idx_of_list _ ht).2]
    have hm : ∀ a, a ∈ (s.fl_remove b).g_free_head ↔ a ∈ s.g_free_head ∧ a ≠ b :=
      fun a => mem_fl_unlink _ _ _ h.sorted
    refine ⟨?_, hm, rfl⟩
    exact { sorted := fl_unlink_pairwise _ _ h.sorted
            cursor := fl_remove_cursor _ _ _ h.sorted h.cursor
            bst := h.bst, bal := h.bal, hok := h.hok
            nz := ⟨fun h0 => h.nz.1 ((hm 0).1 h0).1, h.nz.2⟩
            ptr := h.ptr
            tree_nil := h.tree_nil }

/-- The lookup returns, changes nothing but the cursor, and answers `NULL`
exactly when no member of the active index fits. -/
theorem idx_find (s : Heap) (need : Nat) (h : IdxOK s) (hst : s.g_strat ≠ Strategy.UNSET) :
    ∃ c b, index_find s need = some ({ s with g_nextfit_cursor := c }, b) ∧
      IdxOK { s with g_nextfit_cursor := c } ∧
      (b ≠ 0 → b ∈ s.idx ∧ need ≤ s.sz b) ∧ (b = 0 → ∀ a ∈ s.idx, s.sz a < need) := by
  have hcases : s.g_strat = Strategy.UNSET ∨ s.g_strat = Strategy.FIRST ∨
      s.g_strat = Strategy.NEXT ∨ s.g_strat = Strategy.BEST ∨ s.g_strat = Strategy.WORST := by
    cases s.g_strat <;> simp
  rcases hcases with hs | hs | hs | hs | hs
  · exact absurd hs hst
  · -- first fit
    have ht : ¬ (s.g_strat = Strategy.BEST ∨ s.g_strat = Strategy.WORST) := by simp [hs]
    obtain ⟨p1, p2⟩ := fl_first_fit_spec s.sz s.g_free_head need
    refine ⟨s.g_nextfit_cursor, fl_first_fit s.sz s.g_free_head need, ?_, h, ?_, ?_⟩
    · unfold index_find; rw [if_pos hs]
    · rw [(idx_of_list s ht).1]; exact p1
    · rw [(idx_of_list s ht).1]; exact p2 h.nz.1
  · -- next fit
    have ht : ¬ (s.g_strat = Strategy.BEST ∨ s.g_strat = Strategy.WORST) := by simp [hs]
    obtain ⟨r, c2, e, hc2, p1, p2⟩ := fl_next_fit_spec s.sz s.g_free_head s.g_nextfit_cursor
      need h.sorted h.nz.1 h.cursor
    refine ⟨c2, r, ?_, ?_, ?_, ?_⟩
    · unfold index_find; rw [if_neg (by rw [hs]; decide), if_pos hs, e]
    · exact { sorted := h.sorted, cursor := hc2, bst := h.bst, bal := h.bal, hok := h.hok
              nz := h.nz, ptr := h.ptr, tree_nil := h.tree_nil }
    · rw [(idx_of_list s ht).1]; exact p1
    · rw [(idx_of_list s ht).1]; exact p2
  · -- best fit
    have ht : s.g_strat = Strategy.BEST ∨ s.g_strat = Strategy.WORST := Or.inl hs
    obtain ⟨⟨p1, p2⟩, -⟩ := tree_find_spec s.sz need s.g_avl_root h.bst h.nz.2
    refine ⟨s.g_nextfit_cursor, avl_lower_bound s.sz s.g_avl_root need, ?_, h, ?_, ?_⟩
    · unfold index_find; rw [if_neg (by rw [hs]; decide), if_neg (by rw [hs]; decide), if_pos hs]
    · rw [(idx_of_tree s ht).1]; exact p1
    · rw [(idx_of_tree s ht).1]; exact p2
  · -- worst fit
    have ht : s.g_strat = Strategy.BEST ∨ s.g_strat = Strategy.WORST := Or.inr hs
    obtain ⟨-, ⟨p1, p2⟩⟩ := tree_find_spec s.sz need s.g_avl_root h.bst h.nz.2
    refine ⟨s.g_nextfit_cursor, avl_rightmost_ge s.sz s.g_avl_root need, ?_, h, ?_, ?_⟩
    · unfold index_find
      rw [if_neg (by rw [hs]; decide), if_neg (by rw [hs]; decide),
        if_neg (by rw [hs]; decide), if_pos hs]
    · rw [(idx_of_tree s ht).1]; exact p1
    · rw [(idx_of_tree s ht).1]; exact p2

/-! ## The writes of split and coalesce -/

theorem HDR_SZ_eq : HDR_SZ = 64 := by decide

theorem min_split_eq : add64 HDR_SZ (ALIGN_UP 1 ALIGN) = 80 := by decide

theorem store_same (m : Nat → Block) (a : Nat) (f : Block → Block) :
    store m a f a = f (m a) := by simp [store]

theorem store_other (m : Nat → Block) (a x : Nat) (f : Block → Block) (h : x ≠ a) :
    store m a f x = m x := by simp [store, h]

/-- The block headers after the writes of `split_block`. -/
theorem split_mem_spec (m : Nat → Block) (b need left : Nat)
    (hnb : (m b).next_phys ≠ b) (hnr : (m b).next_phys ≠ b + 64 + need) :
    split_mem m b need left b = ⟨need, (m b).is_free, (m b).prev_phys, b + 64 + need⟩ ∧
    split_mem m b need left (b + 64 + need) = ⟨sub64 left 64, 1, b, (m b).next_phys⟩ ∧
    ((m b).next_phys ≠ 0 → split_mem m b need left (m b).next_phys =
      { m (m b).next_phys with prev_phys := b + 64 + need }) ∧
    (∀ x, x ≠ b → x ≠ b + 64 + need → x ≠ (m b).next_phys →
      split_mem m b need left x = m x) := by
  have hrb : b + 64 + need ≠ b := by omega
  have hbr : b ≠ b + 64 + need := by omega
  unfold split_mem store
  simp only [HDR_SZ_eq]
  by_cases h0 : (m b).next_phys = 0
  · refine ⟨?_, ?_, fun h => absurd h0 h, ?_⟩
    · simp [hbr, hrb, h0]
    · simp [hrb, hbr, h0]
    · intro x h1 h2 _
      simp [h1, h2, hbr, h0]
  · refine ⟨?_, ?_, fun _ => ?_, ?_⟩
    · simp [hbr, hrb, h0, hnb.symm, hnb]
    · simp [hrb, hbr, h0, hnr.symm, hnr]
    · simp [hbr, hrb, h0, hnb, hnr]
    · intro x h1 h2 h3
      simp [h1, h2, h3, hbr, h0]

/-- The block headers after the writes that let `a` absorb `c`. -/
theorem absorb_spec (m : Nat → Block) (a c : Nat) (hac : a ≠ c)
    (hna : (m c).next_phys ≠ a) :
    absorb m a c a = ⟨add64 (m a).size (add64 64 (m c).size), (m a).is_free,
      (m a).prev_phys, (m c).next_phys⟩ ∧
    ((m c).next_phys ≠ 0 → absorb m a c (m c).next_phys =
      { m (m c).next_phys with prev_phys := a }) ∧
    (∀ x, x ≠ a → x ≠ (m c).next_phys → absorb m a c x = m x) := by
  unfold absorb store
  simp only [HDR_SZ_eq]
  by_cases h0 : (m c).next_phys = 0
  · refine ⟨?_, fun h => absurd h0 h, ?_⟩
    · simp [hac.symm, h0]
    · intro x h1 _
      simp [h1, hac.symm, h0]
  · refine ⟨?_, fun _ => ?_, ?_⟩
    · simp [hac.symm, h0, hna.symm]
    · simp [hac.symm, h0, hna]
    · intro x h1 h2
      simp [h1, h2, hac.symm, h0]

theorem split_block_eq (s : Heap) (b need : Nat) :
    split_block s b need =
      if sub64 (s.mem b).size need < 80 then s
      else index_insert { s with mem := split_mem s.mem b need (sub64 (s.mem b).size need) }
        (b + 64 + need) := by
  unfold split_block split_mem
  rw [min_split_eq]
  simp only [HDR_SZ_eq]

theorem coalesce_left_eq (s : Heap) (b : Nat) :
    coalesce_left s b =
      if (s.mem b).prev_phys ≠ 0 ∧ (s.mem (s.mem b).prev_phys).is_free ≠ 0 then
        ({ index_remove s (s.mem b).prev_phys with
            mem := absorb s.mem (s.mem b).prev_phys b }, (s.mem b).prev_phys)
      else (s, b) := by
  unfold coalesce_left absorb
  simp only [index_remove_frame]

theorem coalesce_right_eq (s : Heap) (b R : Nat) :
    coalesce_right s b R =
      if R ≠ 0 ∧ (s.mem R).is_free ≠ 0 then
        { index_remove s R with mem := absorb s.mem b R }
      else s := by
  unfold coalesce_right absorb
  simp only [index_remove_frame]

/-! ## Physical chains: bounds, successors, absorbing a block -/

theorem chain_bounds {m : Nat → Block} {ars : List (Nat × Nat)} {blocks : List Nat}
    (h : ChainOK m ars blocks) (a : Nat) (ha : a ∈ blocks) :
    16 < a ∧ a + 64 + (m a).size ≤ 2 ^ 64 := by
  obtain ⟨ar, har, h1, h2, -, -⟩ := (h.blk a ha).arena
  obtain ⟨-, g2, g3, -⟩ := h.arenas ar har
  omega

theorem arena_unique {m : Nat → Block} {ars : List (Nat × Nat)} {blocks : List Nat}
    (h : ChainOK m ars blocks) (ar1 ar2 : Nat × Nat) (h1 : ar1 ∈ ars) (h2 : ar2 ∈ ars)
    (p : Nat) (p1 : ar1.1 ≤ p ∧ p < ar1.1 + ar1.2) (p2 : ar2.1 ≤ p ∧ p < ar2.1 + ar2.2) :
    ar1 = ar2 := by
  by_contra hne
  have := h.arenas_disj ar1 h1 ar2 h2 hne
  omega

/-- The physical successor of a block: where it lies, and that it shares the
arena of the block. -/
theorem chain_next {m : Nat → Block} {ars : List (Nat × Nat)} {blocks : List Nat}
    (h : ChainOK m ars blocks) (a : Nat) (ha : a ∈ blocks) (hn : (m a).next_phys ≠ 0) :
    (m a).next_phys ∈ blocks ∧ (m a).next_phys = a + 64 + (m a).size ∧
    (m (m a).next_phys).prev_phys = a ∧
    (∀ ar ∈ ars, ar.1 + 16 ≤ a → a + 64 + (m a).size ≤ ar.1 + ar.2 →
      (m a).next_phys + 64 + (m (m a).next_phys).size ≤ ar.1 + ar.2 ∧
      ((m (m a).next_phys).next_phys = 0 →
        (m a).next_phys + 64 + (m (m a).next_phys).size = ar.1 + ar.2)) := by
  obtain ⟨n1, n2, n3⟩ := (h.blk a ha).nxt hn
  refine ⟨n1, n2, n3, ?_⟩
  intro ar har b1 b2
  obtain ⟨arc, harc, c1, c2, -, c4⟩ := (h.blk _ n1).arena
  have e : ar = arc := by
    apply arena_unique h ar arc har harc ((m a).next_phys - 1)
    · omega
    · omega
  rw [e]
  exact ⟨c2, c4⟩

theorem add64_eq (a b : Nat) (h : a + b < 2 ^ 64) : add64 a b = a + b := by
  unfold add64 SIZE_MOD; omega

theorem sub64_eq (a b : Nat) (h1 : b ≤ a) (h2 : a < 2 ^ 64) : sub64 a b = a - b := by
  unfold sub64 SIZE_MOD; omega

/-- The fields of the block headers after `a` has absorbed its successor. -/
theorem absorb_fields {m : Nat → Block} {ars : List (Nat × Nat)} {blocks : List Nat}
    (h : ChainOK m ars blocks) (a : Nat) (ha : a ∈ blocks) (hn : (m a).next_phys ≠ 0) :
    ∀ x, x ≠ 0 → ((absorb m a (m a).next_phys x).size =
        if x = a then (m a).size + 64 + (m (m a).next_phys).size else (m x).size) ∧
      ((absorb m a (m a).next_phys x).next_phys =
        if x = a then (m (m a).next_phys).next_phys else (m x).next_phys) ∧
      ((absorb m a (m a).next_phys x).prev_phys =
        if x = (m (m a).next_phys).next_phys then a else (m x).prev_phys) ∧
      (absorb m a (m a).next_phys x).is_free = (m x).is_free := by
  obtain ⟨n1, n2, n3, -⟩ := chain_next h a ha hn
  have ba := chain_bounds h a ha
  have bc := chain_bounds h _ n1
  have hac : a ≠ (m a).next_phys := by omega
  have hna : (m (m a).next_phys).next_phys ≠ a := by
    intro e
    by_cases h0 : (m (m a).next_phys).next_phys = 0
    · omega
    · have := (chain_next h _ n1 h0).2.1
      omega
  obtain ⟨s1, s2, s3⟩ := absorb_spec m a (m a).next_phys hac hna
  have hadd : add64 (m a).size (add64 64 (m (m a).next_phys).size) =
      (m a).size + 64 + (m (m a).next_phys).size := by
    rw [add64_eq 64 _ (by omega), add64_eq _ _ (by omega)]; omega
  intro x x0
  by_cases hx : x = a
  · rw [hx, s1, hadd]
    simp [hna.symm]
  · by_cases hx2 : x = (m (m a).next_phys).next_phys
    · have h0 : (m (m a).next_phys).next_phys ≠ 0 := fun e => x0 (hx2.trans e)
      rw [hx2, s2 h0]
      simp [hna]
    · rw [s3 x hx hx2]
      simp [hx, hx2]

/-- Absorbing the physical successor keeps the chain structure; the absorbed
block leaves the set of blocks. -/
theorem chain_absorb {m : Nat → Block} {ars : List (Nat × Nat)} {blocks : List Nat}
    (h : ChainOK m ars blocks) (a : Nat) (ha : a ∈ blocks) (hn : (m a).next_phys ≠ 0) :
    ChainOK (absorb m a (m a).next_phys) ars (blocks.filter (fun y => y ≠ (m a).next_phys)) := by
  obtain ⟨n1, n2, n3, n4⟩ := chain_next h a ha hn
  have F := absorb_fields h a ha hn
  have ba := chain_bounds h a ha
  have bc := chain_bounds h _ n1
  have nz : ∀ x ∈ blocks, x ≠ 0 := fun x hx => by have := chain_bounds h x hx; omega
  have hac : a ≠ (m a).next_phys := by omega
  have hcc : (m (m a).next_phys).next_phys ≠ 0 →
      (m (m a).next_phys).next_phys ∈ blocks ∧
      (m (m a).next_phys).next_phys = (m a).next_phys + 64 + (m (m a).next_phys).size ∧
      (m (m (m a).next_phys).next_phys).prev_phys = (m a).next_phys := fun h0 =>
    ⟨(chain_next h _ n1 h0).1, (chain_next h _ n1 h0).2.1, (chain_next h _ n1 h0).2.2.1⟩
  have hna : (m (m a).next_phys).next_phys ≠ a := by
    intro e
    by_cases h0 : (m (m a).next_phys).next_phys = 0
    · omega
    · have := (hcc h0).2.1
      omega
  have memf : ∀ x, x ∈ blocks.filter (fun y => y ≠ (m a).next_phys) ↔
      x ∈ blocks ∧ x ≠ (m a).next_phys := by
    intro x; simp
  refine ⟨h.arenas, h.arenas_disj, ?_, ?_, ?_⟩
  · intro ar har
    obtain ⟨f1, f2⟩ := h.first ar har
    have fne : ar.1 + 16 ≠ (m a).next_phys := by
      intro e; rw [e, n3] at f2; omega
    refine ⟨(memf _).2 ⟨f1, fne⟩, ?_⟩
    rw [(F _ (nz _ f1)).2.2.1]
    by_cases e : ar.1 + 16 = (m (m a).next_phys).next_phys
    · exfalso
      have h0 : (m (m a).next_phys).next_phys ≠ 0 := by rw [← e]; exact nz _ f1
      have := (hcc h0).2.2
      rw [← e, f2] at this
      omega
    · rw [if_neg e]; exact f2
  · intro x hx y hy hxy
    obtain ⟨hx1, hx2⟩ := (memf x).1 hx
    obtain ⟨hy1, hy2⟩ := (memf y).1 hy
    rw [(F x (nz x hx1)).1, (F y (nz y hy1)).1]
    have d0 := h.disj x hx1 y hy1 hxy
    by_cases ex : x = a
    · have ey : y ≠ a := fun e => hxy (ex.trans e.symm)
      rw [if_pos ex, if_neg ey]
      have d1 := h.disj _ n1 y hy1 (Ne.symm hy2)
      rw [ex] at d0
      omega
    · rw [if_neg ex]
      by_cases ey : y = a
      · rw [if_pos ey]
        have d1 := h.disj _ n1 x hx1 (Ne.symm hx2)
        rw [ey] at d0
        omega
      · rw [if_neg ey]; exact d0
  · intro x hx
    obtain ⟨hx1, hx2⟩ := (memf x).1 hx
    have B := h.blk x hx1
    obtain ⟨Fs, Fn, Fp, -⟩ := F x (nz x hx1)
    by_cases ex : x = a
    · subst ex
      have Bc := h.blk _ n1
      rw [if_pos rfl] at Fs Fn
      rw [if_neg hna.symm] at Fp
      constructor
      · exact B.al
      · rw [Fs]
        have := B.szal; have := Bc.szal
        omega
      · obtain ⟨ar, har, a1, a2, a3, -⟩ := B.arena
        obtain ⟨c1, c2⟩ := n4 ar har a1 a2
        refine ⟨ar, har, a1, ?_, ?_, ?_⟩
        · rw [Fs]; omega
        · rw [Fp]; exact a3
        · rw [Fn, Fs]
          intro e; have := c2 e; omega
      · rw [Fn, Fs]
        intro h0
        obtain ⟨k1, k2, -⟩ := hcc h0
        refine ⟨(memf _).2 ⟨k1, by omega⟩, by omega, ?_⟩
        rw [(F _ h0).2.2.1, if_pos rfl]
      · rw [Fp]
        intro h0
        obtain ⟨p1, p2⟩ := B.prv h0
        have pc : (m x).prev_phys ≠ (m x).next_phys := by
          intro e; rw [e] at p2; exact hna p2
        have pa : (m x).prev_phys ≠ x := by
          intro e; rw [e] at p2; exact hac p2.symm
        refine ⟨(memf _).2 ⟨p1, pc⟩, ?_⟩
        rw [(F _ h0).2.1, if_neg pa]; exact p2
    · rw [if_neg ex] at Fs Fn
      constructor
      · exact B.al
      · rw [Fs]; exact B.szal
      · obtain ⟨ar, har, a1, a2, a3, a4⟩ := B.arena
        refine ⟨ar, har, a1, by rw [Fs]; exact a2, ?_, by rw [Fn, Fs]; exact a4⟩
        rw [Fp]
        by_cases e : x = (m (m a).next_phys).next_phys
        · rw [if_pos e]; intro h0; omega
        · rw [if_neg e]; exact a3
      · rw [Fn, Fs]
        intro h0
        obtain ⟨k1, k2, k3⟩ := B.nxt h0
        have kc : (m x).next_phys ≠ (m a).next_phys := by
          intro e; rw [e, n3] at k3; exact ex k3.symm
        refine ⟨(memf _).2 ⟨k1, kc⟩, k2, ?_⟩
        rw [(F _ h0).2.2.1]
        by_cases e : (m x).next_phys = (m (m a).next_phys).next_phys
        · exfalso
          have h1 : (m (m a).next_phys).next_phys ≠ 0 := by rw [← e]; exact h0
          have := (hcc h1).2.2
          rw [← e, k3] at this
          exact hx2 this
        · rw [if_neg e]; exact k3
      · rw [Fp]
        by_cases e : x = (m (m a).next_phys).next_phys
        · rw [if_pos e]
          intro _
          refine ⟨(memf _).2 ⟨ha, hac⟩, ?_⟩
          rw [(F a (nz a ha)).2.1, if_pos rfl]; exact e.symm
        · rw [if_neg e]
          intro h0
          obtain ⟨p1, p2⟩ := B.prv h0
          have pc : (m x).prev_phys ≠ (m a).next_phys := by
            intro e1; rw [e1] at p2; exact e p2.symm
          have pa : (m x).prev_phys ≠ a := by
            intro e1; rw [e1] at p2; exact hx2 p2.symm
          refine ⟨(memf _).2 ⟨p1, pc⟩, ?_⟩
          rw [(F _ h0).2.1, if_neg pa]; exact p2

/-! ## Physical chains: splitting a block -/

/-- The fields of the block headers after `b` has been split at `need`. -/
theorem split_fields {m : Nat → Block} {ars : List (Nat × Nat)} {blocks : List Nat}
    (h : ChainOK m ars blocks) (b need : Nat) (hb : b ∈ blocks)
    (hle : need + 80 ≤ (m b).size) :
    ∀ x, x ≠ 0 → ((split_mem m b need ((m b).size - need) x).size =
        if x = b then need else if x = b + 64 + need then (m b).size - need - 64
          else (m x).size) ∧
      ((split_mem m b need ((m b).size - need) x).next_phys =
        if x = b then b + 64 + need else if x = b + 64 + need then (m b).next_phys
          else (m x).next_phys) ∧
      ((split_mem m b need ((m b).size - need) x).prev_phys =
        if x = b + 64 + need then b else if x = (m b).next_phys then b + 64 + need
          else (m x).prev_phys) ∧
      (split_mem m b need ((m b).size - need) x).is_free =
        if x = b + 64 + need then 1 else (m x).is_free := by
  have bb := chain_bounds h b hb
  have hnx : (m b).next_phys ≠ 0 → (m b).next_phys = b + 64 + (m b).size :=
    fun h0 => (chain_next h b hb h0).2.1
  have hnb : (m b).next_phys ≠ b := by
    intro e
    by_cases h0 : (m b).next_phys = 0
    · omega
    · have := hnx h0; omega
  have hnr : (m b).next_phys ≠ b + 64 + need := by
    intro e
    by_cases h0 : (m b).next_phys = 0
    · omega
    · have := hnx h0; omega
  obtain ⟨s1, s2, s3, s4⟩ := split_mem_spec m b need ((m b).size - need) hnb hnr
  have hsub : sub64 ((m b).size - need) 64 = (m b).size - need - 64 :=
    sub64_eq _ _ (by omega) (by omega)
  have hbr : b ≠ b + 64 + need := by omega
  intro x x0
  by_cases e1 : x = b
  · rw [e1, s1]
    simp [hnb.symm, hbr]
  · by_cases e2 : x = b + 64 + need
    · rw [e2, s2, hsub]
      simp [hnr.symm, hbr.symm]
    · by_cases e3 : x = (m b).next_phys
      · have h0 : (m b).next_phys ≠ 0 := fun e => x0 (e3.trans e)
        rw [e3, s3 h0]
        simp [hnb, hnr]
      · rw [s4 x e1 e2 e3]
        simp [e1, e2, e3]

/-- Splitting a block keeps the chain structure; the remainder joins the set
of blocks. -/
theorem chain_split {m : Nat → Block} {ars : List (Nat × Nat)} {blocks : List Nat}
    (h : ChainOK m ars blocks) (b need : Nat) (hb : b ∈ blocks)
    (hal : need % 16 = 0) (hle : need + 80 ≤ (m b).size) :
    b + 64 + need ∉ blocks ∧
    ChainOK (split_mem m b need ((m b).size - need)) ars ((b + 64 + need) :: blocks) := by
  have F := split_fields h b need hb hle
  have bb := chain_bounds h b hb
  have nz : ∀ x ∈ blocks, x ≠ 0 := fun x hx => by have := chain_bounds h x hx; omega
  have Bb := h.blk b hb
  have hnx : (m b).next_phys ≠ 0 → (m b).next_phys ∈ blocks ∧
      (m b).next_phys = b + 64 + (m b).size ∧ (m (m b).next_phys).prev_phys = b :=
    fun h0 => ⟨(chain_next h b hb h0).1, (chain_next h b hb h0).2.1, (chain_next h b hb h0).2.2.1⟩
  have hnb : (m b).next_phys ≠ b := by
    intro e
    by_cases h0 : (m b).next_phys = 0
    · omega
    · have := (hnx h0).2.1; omega
  have hnr : (m b).next_phys ≠ b + 64 + need := by
    intro e
    by_cases h0 : (m b).next_phys = 0
    · omega
    · have := (hnx h0).2.1; omega
  have far : ∀ z ∈ blocks, z ≠ b → b + 64 + (m b).size ≤ z ∨ z + 64 + (m z).size ≤ b :=
    fun z hz hzb => h.disj b hb z hz (Ne.symm hzb)
  have hrem : b + 64 + need ∉ blocks := by
    intro hr
    have := far _ hr (by omega)
    omega
  have rne : ∀ z ∈ blocks, z ≠ b + 64 + need := fun z hz e => hrem (e ▸ hz)
  have r0 : b + 64 + need ≠ 0 := by omega
  have hbr : b ≠ b + 64 + need := by omega
  obtain ⟨Rs, Rn, Rp, -⟩ := F _ r0
  rw [if_neg hbr.symm, if_pos rfl] at Rs Rn
  rw [if_pos rfl] at Rp
  obtain ⟨Bs, Bn, Bp, -⟩ := F b (nz b hb)
  rw [if_pos rfl] at Bs Bn
  rw [if_neg hbr, if_neg hnb.symm] at Bp
  have FO : ∀ z ∈ blocks, z ≠ b →
      (split_mem m b need ((m b).size - need) z).size = (m z).size ∧
      (split_mem m b need ((m b).size - need) z).next_phys = (m z).next_phys ∧
      (split_mem m b need ((m b).size - need) z).prev_phys =
        if z = (m b).next_phys then b + 64 + need else (m z).prev_phys := by
    intro z hz hzb
    obtain ⟨Zs, Zn, Zp, -⟩ := F z (nz z hz)
    rw [if_neg hzb, if_neg (rne z hz)] at Zs Zn
    rw [if_neg (rne z hz)] at Zp
    exact ⟨Zs, Zn, Zp⟩
  refine ⟨hrem, h.arenas, h.arenas_disj, ?_, ?_, ?_⟩
  · intro ar har
    obtain ⟨f1, f2⟩ := h.first ar har
    refine ⟨List.mem_cons_of_mem _ f1, ?_⟩
    by_cases e : ar.1 + 16 = b
    · rw [e, Bp, ← e]; exact f2
    · rw [(FO _ f1 e).2.2]
      by_cases e2 : ar.1 + 16 = (m b).next_phys
      · exfalso
        have h0 : (m b).next_phys ≠ 0 := by rw [← e2]; exact nz _ f1
        have := (hnx h0).2.2
        rw [← e2, f2] at this
        omega
      · rw [if_neg e2]; exact f2
  · have key : ∀ z ∈ blocks,
        b + 64 + need + 64 + (split_mem m b need ((m b).size - need) (b + 64 + need)).size ≤ z ∨
        z + 64 + (split_mem m b need ((m b).size - need) z).size ≤ b + 64 + need := by
      intro z hz
      by_cases e : z = b
      · rw [e, Bs]; omega
      · rw [(FO z hz e).1, Rs]
        have := far z hz e
        omega
    have key2 : ∀ x ∈ blocks, ∀ y ∈ blocks, x ≠ y →
        x + 64 + (split_mem m b need ((m b).size - need) x).size ≤ y ∨
        y + 64 + (split_mem m b need ((m b).size - need) y).size ≤ x := by
      intro x hx y hy hxy
      have d0 := h.disj x hx y hy hxy
      by_cases ex : x = b
      · have ey : y ≠ b := fun e => hxy (ex.trans e.symm)
        rw [(FO y hy ey).1, ex, Bs]
        rw [ex] at d0
        omega
      · rw [(FO x hx ex).1]
        by_cases ey : y = b
        · rw [ey, Bs]
          rw [ey] at d0
          omega
        · rw [(FO y hy ey).1]; exact d0
    intro x hx y hy hxy
    rcases List.mem_cons.1 hx with ex | hx1
    · rcases List.mem_cons.1 hy with ey | hy1
      · exact absurd (ex.trans ey.symm) hxy
      · rw [ex]; exact key y hy1
    · rcases List.mem_cons.1 hy with ey | hy1
      · rw [ey]; exact (key x hx1).symm
      · exact key2 x hx1 y hy1 hxy
  · intro x hx
    rcases List.mem_cons.1 hx with ex | hx1
    · rw [ex]
      constructor
      · have := Bb.al; omega
      · rw [Rs]; have := Bb.szal; omega
      · obtain ⟨ar, har, a1, a2, -, a4⟩ := Bb.arena
        refine ⟨ar, har, by omega, by rw [Rs]; omega, ?_, ?_⟩
        · rw [Rp]; intro e; omega
        · rw [Rn, Rs]; intro e; have := a4 e; omega
      · rw [Rn, Rs]
        intro h0
        obtain ⟨k1, k2, -⟩ := hnx h0
        refine ⟨List.mem_cons_of_mem _ k1, by omega, ?_⟩
        rw [(FO _ k1 hnb).2.2, if_pos rfl]
      · rw [Rp]
        intro _
        exact ⟨List.mem_cons_of_mem _ hb, Bn⟩
    · by_cases ex : x = b
      · rw [ex]
        constructor
        · exact Bb.al
        · rw [Bs]; exact hal
        · obtain ⟨ar, har, a1, a2, a3, -⟩ := Bb.arena
          refine ⟨ar, har, a1, by rw [Bs]; omega, by rw [Bp]; exact a3, ?_⟩
          rw [Bn]; intro e; omega
        · rw [Bn, Bs]
          intro _
          exact ⟨List.mem_cons_self _ _, rfl, Rp⟩
        · rw [Bp]
          intro h0
          obtain ⟨p1, p2⟩ := Bb.prv h0
          have pb : (m b).prev_phys ≠ b := by
            intro e; rw [e] at p2; exact hnb p2
          refine ⟨List.mem_cons_of_mem _ p1, ?_⟩
          rw [(FO _ p1 pb).2.1]; exact p2
      · have B := h.blk x hx1
        obtain ⟨Fs, Fn, Fp⟩ := FO x hx1 ex
        constructor
        · exact B.al
        · rw [Fs]; exact B.szal
        · obtain ⟨ar, har, a1, a2, a3, a4⟩ := B.arena
          refine ⟨ar, har, a1, by rw [Fs]; exact a2, ?_, by rw [Fn, Fs]; exact a4⟩
          rw [Fp]
          by_cases e : x = (m b).next_phys
          · rw [if_pos e]; intro h0; omega
          · rw [if_neg e]; exact a3
        · rw [Fn, Fs]
          intro h0
          obtain ⟨k1, k2, k3⟩ := B.nxt h0
          refine ⟨List.mem_cons_of_mem _ k1, k2, ?_⟩
          by_cases kb : (m x).next_phys = b
          · rw [kb, Bp]; rw [kb] at k3; exact k3
          rw [(FO _ k1 kb).2.2]
          by_cases e : (m x).next_phys = (m b).next_phys
          · exfalso
            have h1 : (m b).next_phys ≠ 0 := by rw [← e]; exact h0
            have := (hnx h1).2.2
            rw [← e, k3] at this
            exact ex this
          · rw [if_neg e]; exact k3
        · rw [Fp]
          by_cases e : x = (m b).next_phys
          · rw [if_pos e]
            intro _
            refine ⟨List.mem_cons_self _ _, ?_⟩
            rw [Rn]; exact e.symm
          · rw [if_neg e]
            intro h0
            obtain ⟨p1, p2⟩ := B.prv h0
            have pb : (m x).prev_phys ≠ b := by
              intro e1; rw [e1] at p2; exact e p2.symm
            refine ⟨List.mem_cons_of_mem _ p1, ?_⟩
            rw [(FO _ p1 pb).2.1]; exact p2

/-! ## The heap invariant under the latch and the cursor -/

/-- The chain structure reads only the fields `size`, `prev_phys` and
`next_phys` of the headers. -/
theorem chain_congr {m m2 : Nat → Block} {ars : List (Nat × Nat)} {blocks : List Nat}
    (h : ChainOK m ars blocks)
    (hs : ∀ a, (m2 a).size = (m a).size) (hp : ∀ a, (m2 a).prev_phys = (m a).prev_phys)
    (hn : ∀ a, (m2 a).next_phys = (m a).next_phys) : ChainOK m2 ars blocks := by
  refine ⟨h.arenas, h.arenas_disj, ?_, ?_, ?_⟩
  · intro ar har
    rw [hp]; exact h.first ar har
  · intro a ha c hc hac
    rw [hs, hs]; exact h.disj a ha c hc hac
  · intro a ha
    have B := h.blk a ha
    constructor
    · exact B.al
    · rw [hs]; exact B.szal
    · rw [hs, hp, hn]; exact B.arena
    · rw [hn, hs, hp]; exact B.nxt
    · rw [hp, hn]; exact B.prv

/-- Writing the flag `is_free` of one header. -/
theorem store_flag (m : Nat → Block) (b v : Nat) :
    ∀ a, (store m b (fun B => { B with is_free := v }) a).size = (m a).size ∧
      (store m b (fun B => { B with is_free := v }) a).prev_phys = (m a).prev_phys ∧
      (store m b (fun B => { B with is_free := v }) a).next_phys = (m a).next_phys ∧
      (store m b (fun B => { B with is_free := v }) a).is_free
        = if a = b then v else (m a).is_free := by
  intro a
  unfold store
  by_cases e : a = b
  · simp [e]
  · simp [e]

theorem invX_nz {s : Heap} {blocks live : List Nat} {x : Nat} (h : InvX s blocks live x) :
    ∀ a ∈ blocks, a ≠ 0 := fun a ha => by
  have := chain_bounds h.chain a ha; omega

theorem invX_strat {s : Heap} {blocks live : List Nat} {x : Nat} (h : InvX s blocks live x)
    (hx : x ≠ 0) : s.g_strat ≠ Strategy.UNSET := fun e => hx (h.unset e).1

/-- Latching a strategy keeps the invariant: the blocks listed while the latch
was unset become the index under first and next fit, and orphans under best
and worst fit. -/
theorem inv_lock {s : Heap} {blocks live : List Nat} (h : InvX s blocks live 0)
    (st : Strategy) (hu : s.g_strat = Strategy.UNSET) :
    InvX { s with g_strat := st } blocks live 0 := by
  have hi : s.idx = s.g_free_head := by unfold Heap.idx; rw [hu]; simp
  have ho : s.orphans = [] := by unfold Heap.orphans; rw [hu]; simp
  have ht : s.g_avl_root = Tree.nil := h.idx.tree_nil (by rw [hu]; simp)
  have hfi := h.free_idx
  rw [hi, ho] at hfi
  by_cases hb : st = Strategy.BEST ∨ st = Strategy.WORST
  · have hi2 : ({ s with g_strat := st } : Heap).idx = [] := by
      unfold Heap.idx; rw [if_pos hb]; show s.g_avl_root.toList = []; rw [ht]; rfl
    have ho2 : ({ s with g_strat := st } : Heap).orphans = s.g_free_head := by
      unfold Heap.orphans; rw [if_pos hb]
    exact { idx := idxOK_strat s st h.idx hu
            chain := h.chain
            free_idx := fun a => by rw [hi2, ho2, ← hfi a]; simp
            orphan := fun a ha => by
              rw [ho2] at ha
              have hab := ((hfi a).1 (Or.inl ha)).1
              rw [hi2]
              exact ⟨((h.unset hu).2 a hab).2.1, ((h.unset hu).2 a hab).2.2, List.not_mem_nil a⟩
            unset := fun e => ⟨rfl, (h.unset hu).2⟩
            noadj := h.noadj
            live_iff := h.live_iff
            live_nodup := h.live_nodup
            pool := h.pool }
  · have hi2 : ({ s with g_strat := st } : Heap).idx = s.g_free_head := by
      unfold Heap.idx; rw [if_neg hb]
    have ho2 : ({ s with g_strat := st } : Heap).orphans = [] := by
      unfold Heap.orphans; rw [if_neg hb]
    exact { idx := idxOK_strat s st h.idx hu
            chain := h.chain
            free_idx := fun a => by rw [hi2, ho2]; exact hfi a
            orphan := fun a ha => by rw [ho2] at ha; exact absurd ha (List.not_mem_nil a)
            unset := fun e => ⟨rfl, (h.unset hu).2⟩
            noadj := h.noadj
            live_iff := h.live_iff
            live_nodup := h.live_nodup
            pool := h.pool }

/-- The call `lock_strategy(st)` in a state that satisfies the invariant either
aborts or keeps the invariant and leaves the latch at `st`. -/
theorem inv_lock_strategy {s s1 : Heap} {blocks live : List Nat} (h : InvX s blocks live 0)
    (st : Strategy) (e : lock_strategy s st = some s1) :
    InvX s1 blocks live 0 ∧ s1.g_strat = st := by
  unfold lock_strategy at e
  by_cases hu : s.g_strat = Strategy.UNSET
  · rw [if_pos hu] at e
    cases e
    exact ⟨inv_lock h st hu, rfl⟩
  · rw [if_neg hu] at e
    by_cases hne : s.g_strat ≠ st
    · rw [if_pos hne] at e; cases e
    · rw [if_neg hne] at e
      cases e
      exact ⟨h, not_not.1 hne⟩

/-- Moving the next-fit cursor keeps the invariant. -/
theorem inv_cursor {s : Heap} {blocks live : List Nat} {x : Nat} (h : InvX s blocks live x)
    (c : Nat) (hc : IdxOK { s with g_nextfit_cursor := c }) :
    InvX { s with g_nextfit_cursor := c } blocks live x :=
  { idx := hc, chain := h.chain, free_idx := h.free_idx, orphan := h.orphan, unset := h.unset
    noadj := h.noadj, live_iff := h.live_iff, live_nodup := h.live_nodup, pool := h.pool }

/-! ## The heap invariant under index moves and flag writes -/

/-- Taking a block out of the index puts it in transit. -/
theorem inv_take {s : Heap} {blocks live : List Nat} (h : InvX s blocks live 0)
    (b : Nat) (hb : b ∈ s.idx) (hst : s.g_strat ≠ Strategy.UNSET) :
    InvX (index_remove s b) blocks live b := by
  obtain ⟨i1, i2, i3⟩ := idx_remove s b h.idx
  obtain ⟨hm, ha, hbb, hbt, -⟩ := index_remove_frame s b
  have nz := invX_nz h
  have hbf := (h.free_idx b).1 (Or.inl hb)
  refine { idx := i1, chain := ?_, free_idx := ?_, orphan := ?_, unset := ?_, noadj := ?_,
           live_iff := ?_, live_nodup := h.live_nodup, pool := ?_ }
  · rw [hm, ha]; exact h.chain
  · intro a
    rw [i2, i3, hm]
    have := h.free_idx a
    constructor
    · rintro (⟨h1, h2⟩ | h1)
      · exact ⟨(this.1 (Or.inl h1)).1, h2, (this.1 (Or.inl h1)).2.2⟩
      · exact ⟨(this.1 (Or.inr h1)).1, fun e => (h.orphan a h1).2.2 (e ▸ hb),
          (this.1 (Or.inr h1)).2.2⟩
    · rintro ⟨h1, h2, h3⟩
      rcases this.2 ⟨h1, nz a h1, h3⟩ with h4 | h4
      · exact Or.inl ⟨h4, h2⟩
      · exact Or.inr h4
  · intro a ha2
    rw [i3] at ha2
    rw [hm, i2]
    exact ⟨(h.orphan a ha2).1, (h.orphan a ha2).2.1, fun e => (h.orphan a ha2).2.2 e.1⟩
  · intro e
    rw [index_remove_strat] at e
    exact absurd e hst
  · intro a ha2 _ hf _ hn0
    rw [hm] at hf hn0 ⊢
    exact h.noadj a ha2 (nz a ha2) hf hn0 hn0
  · intro p
    rw [h.live_iff p, hm]
    constructor
    · rintro ⟨a, h1, -, h3, h4⟩
      exact ⟨a, h1, fun e => hbf.2.2 (e ▸ h3), h3, h4⟩
    · rintro ⟨a, h1, -, h3, h4⟩
      exact ⟨a, h1, nz a h1, h3, h4⟩
  · rw [hbb, hbt, ha]; exact h.pool

/-- Clearing the flag of the block in transit hands it out: it becomes live. -/
theorem inv_hand_out {s : Heap} {blocks live : List Nat} {b : Nat} (h : InvX s blocks live b)
    (hb : b ∈ blocks) :
    InvX { s with mem := store s.mem b (fun B => { B with is_free := 0 }) } blocks
      ((b + 64) :: live) 0 := by
  have F := store_flag s.mem b 0
  have nz := invX_nz h
  have b0 := nz b hb
  refine { idx := ?_, chain := ?_, free_idx := ?_, orphan := ?_, unset := ?_, noadj := ?_,
           live_iff := ?_, live_nodup := ?_, pool := h.pool }
  · exact idxOK_mem s _ h.idx (fun a _ => (F a).1)
  · exact chain_congr h.chain (fun a => (F a).1) (fun a => (F a).2.1) (fun a => (F a).2.2.1)
  · intro a
    show (a ∈ s.idx ∨ a ∈ s.orphans) ↔ _
    rw [h.free_idx a]
    show _ ↔ a ∈ blocks ∧ a ≠ 0 ∧
      (store s.mem b (fun B => { B with is_free := 0 }) a).is_free ≠ 0
    rw [(F a).2.2.2]
    by_cases e : a = b
    · simp [e]
    · simp [e]
      intro h1 _
      exact nz a h1
  · intro a ha
    have := h.orphan a ha
    show (store s.mem b (fun B => { B with is_free := 0 }) a).prev_phys = 0 ∧
      (store s.mem b (fun B => { B with is_free := 0 }) a).next_phys = 0 ∧ a ∉ s.idx
    rw [(F a).2.1, (F a).2.2.1]; exact this
  · intro e
    exact absurd (h.unset e).1 b0
  · intro a ha _ hf _ hn0
    show (store s.mem b (fun B => { B with is_free := 0 })
      (store s.mem b (fun B => { B with is_free := 0 }) a).next_phys).is_free = 0
    have hf2 : (store s.mem b (fun B => { B with is_free := 0 }) a).is_free ≠ 0 := hf
    have hn2 : (store s.mem b (fun B => { B with is_free := 0 }) a).next_phys ≠ 0 := hn0
    rw [(F a).2.2.2] at hf2
    rw [(F a).2.2.1] at hn2 ⊢
    rw [(F _).2.2.2]
    by_cases e : a = b
    · rw [if_pos e] at hf2; exact absurd rfl hf2
    · rw [if_neg e] at hf2
      by_cases e2 : (s.mem a).next_phys = b
      · rw [if_pos e2]
      · rw [if_neg e2]; exact h.noadj a ha e hf2 e2 hn2
  · intro p
    show _ ↔ ∃ a ∈ blocks, a ≠ 0 ∧
      (store s.mem b (fun B => { B with is_free := 0 }) a).is_free = 0 ∧ p = a + 64
    rw [List.mem_cons, h.live_iff p]
    constructor
    · rintro (e | ⟨a, h1, h2, h3, h4⟩)
      · exact ⟨b, hb, b0, by rw [(F b).2.2.2, if_pos rfl], e⟩
      · exact ⟨a, h1, nz a h1, by rw [(F a).2.2.2, if_neg h2]; exact h3, h4⟩
    · rintro ⟨a, h1, -, h3, h4⟩
      by_cases e : a = b
      · exact Or.inl (by rw [h4, e])
      · rw [(F a).2.2.2, if_neg e] at h3
        exact Or.inr ⟨a, h1, e, h3, h4⟩
  · refine List.nodup_cons.2 ⟨?_, h.live_nodup⟩
    intro hl
    obtain ⟨a, -, h2, -, h4⟩ := (h.live_iff _).1 hl
    omega

/-- Setting the flag of a live block puts the block in transit and ends the
life of its pointer. -/
theorem inv_release {s : Heap} {blocks live : List Nat} (h : InvX s blocks live 0)
    (p : Nat) (hp : p ∈ live) :
    p - 64 ∈ blocks ∧ (s.mem (p - 64)).is_free = 0 ∧
    InvX { s with mem := store s.mem (p - 64) (fun B => { B with is_free := 1 }) } blocks
      (live.erase p) (p - 64) := by
  obtain ⟨b, hb, -, hbf, hpb⟩ := (h.live_iff p).1 hp
  have e : p - 64 = b := by omega
  rw [e]
  have F := store_flag s.mem b 1
  have nz := invX_nz h
  have b0 := nz b hb
  refine ⟨hb, hbf, ?_⟩
  refine { idx := ?_, chain := ?_, free_idx := ?_, orphan := ?_, unset := ?_, noadj := ?_,
           live_iff := ?_, live_nodup := h.live_nodup.erase p, pool := h.pool }
  · exact idxOK_mem s _ h.idx (fun a _ => (F a).1)
  · exact chain_congr h.chain (fun a => (F a).1) (fun a => (F a).2.1) (fun a => (F a).2.2.1)
  · intro a
    show (a ∈ s.idx ∨ a ∈ s.orphans) ↔ a ∈ blocks ∧ a ≠ b ∧
      (store s.mem b (fun B => { B with is_free := 1 }) a).is_free ≠ 0
    rw [h.free_idx a, (F a).2.2.2]
    by_cases e1 : a = b
    · simp [e1, hbf]
    · simp [e1]
      intro h1 _
      exact nz a h1
  · intro a ha
    have := h.orphan a ha
    show (store s.mem b (fun B => { B with is_free := 1 }) a).prev_phys = 0 ∧
      (store s.mem b (fun B => { B with is_free := 1 }) a).next_phys = 0 ∧ a ∉ s.idx
    rw [(F a).2.1, (F a).2.2.1]; exact this
  · intro e1
    exact absurd hbf ((h.unset e1).2 b hb).1
  · intro a ha hab hf hnb hn0
    show (store s.mem b (fun B => { B with is_free := 1 })
      (store s.mem b (fun B => { B with is_free := 1 }) a).next_phys).is_free = 0
    have hf2 : (store s.mem b (fun B => { B with is_free := 1 }) a).is_free ≠ 0 := hf
    have hn2 : (store s.mem b (fun B => { B with is_free := 1 }) a).next_phys ≠ 0 := hn0
    have hnb2 : (store s.mem b (fun B => { B with is_free := 1 }) a).next_phys ≠ b := hnb
    rw [(F a).2.2.2, if_neg hab] at hf2
    rw [(F a).2.2.1] at hn2 hnb2 ⊢
    rw [(F _).2.2.2, if_neg hnb2]
    exact h.noadj a ha (nz a ha) hf2 hn2 hn2
  · intro q
    show _ ↔ ∃ a ∈ blocks, a ≠ b ∧
      (store s.mem b (fun B => { B with is_free := 1 }) a).is_free = 0 ∧ q = a + 64
    rw [h.live_nodup.mem_erase_iff, h.live_iff q]
    constructor
    · rintro ⟨hqp, a, h1, -, h3, h4⟩
      have hab : a ≠ b := fun e1 => hqp (by rw [h4, hpb, e1])
      exact ⟨a, h1, hab, by rw [(F a).2.2.2, if_neg hab]; exact h3, h4⟩
    · rintro ⟨a, h1, h2, h3, h4⟩
      rw [(F a).2.2.2, if_neg h2] at h3
      exact ⟨by omega, a, h1, nz a h1, h3, h4⟩

/-- Putting the block in transit into the index, when neither physical
neighbour is free, ends the transit. -/
theorem inv_put {s : Heap} {blocks live : List Nat} {x : Nat} (h : InvX s blocks live x)
    (hx : x ∈ blocks) (hf : (s.mem x).is_free ≠ 0)
    (hl : (s.mem x).prev_phys = 0 ∨ (s.mem (s.mem x).prev_phys).is_free = 0)
    (hr : (s.mem x).next_phys = 0 ∨ (s.mem (s.mem x).next_phys).is_free = 0) :
    InvX (index_insert s x) blocks live 0 := by
  have nz := invX_nz h
  have x0 := nz x hx
  have xb := chain_bounds h.chain x hx
  have hxi : x ∉ s.idx := fun hi => ((h.free_idx x).1 (Or.inl hi)).2.1 rfl
  obtain ⟨i1, i2, i3⟩ := idx_insert s x h.idx hxi x0 (by omega)
  obtain ⟨hm, ha, hbb, hbt, -⟩ := index_insert_frame s x
  refine { idx := i1, chain := ?_, free_idx := ?_, orphan := ?_, unset := ?_, noadj := ?_,
           live_iff := ?_, live_nodup := h.live_nodup, pool := ?_ }
  · rw [hm, ha]; exact h.chain
  · intro a
    rw [i2, i3, hm]
    have := h.free_idx a
    by_cases e : a = x
    · rw [e] at this ⊢
      simp [hx, hf, x0]
    · constructor
      · rintro ((h1 | h1) | h1)
        · exact ⟨((this.1 (Or.inl h1))).1, nz a (this.1 (Or.inl h1)).1, (this.1 (Or.inl h1)).2.2⟩
        · exact absurd h1 e
        · exact ⟨((this.1 (Or.inr h1))).1, nz a (this.1 (Or.inr h1)).1, (this.1 (Or.inr h1)).2.2⟩
      · rintro ⟨h1, -, h3⟩
        rcases this.2 ⟨h1, e, h3⟩ with h4 | h4
        · exact Or.inl (Or.inl h4)
        · exact Or.inr h4
  · intro a ha2
    rw [i3] at ha2
    rw [hm, i2]
    refine ⟨(h.orphan a ha2).1, (h.orphan a ha2).2.1, ?_⟩
    rintro (h1 | h1)
    · exact (h.orphan a ha2).2.2 h1
    · exact ((h.free_idx a).1 (Or.inr ha2)).2.1 h1
  · intro e
    rw [index_insert_strat] at e
    exact absurd (h.unset e).1 x0
  · intro a ha2 _ hfa _ hn0
    rw [hm] at hfa hn0 ⊢
    by_cases e : a = x
    · rw [e] at hn0 ⊢
      rcases hr with h1 | h1
      · exact absurd h1 hn0
      · exact h1
    · by_cases e2 : (s.mem a).next_phys = x
      · exfalso
        have := ((h.chain.blk a ha2).nxt hn0).2.2
        rw [e2] at this
        rw [this] at hl
        rcases hl with h1 | h1
        · exact nz a ha2 h1
        · exact hfa h1
      · exact h.noadj a ha2 e hfa e2 hn0
  · intro p
    rw [h.live_iff p, hm]
    constructor
    · rintro ⟨a, h1, -, h3, h4⟩
      exact ⟨a, h1, nz a h1, h3, h4⟩
    · rintro ⟨a, h1, -, h3, h4⟩
      exact ⟨a, h1, fun e => hf (e ▸ h3), h3, h4⟩
  · rw [hbb, hbt, ha]; exact h.pool

/-! ## The heap invariant under `split_block` -/

theorem tree_mem_idx {s : Heap} (h : IdxOK s) (a : Nat) (ha : a ∈ s.g_avl_root.toList) :
    a ∈ s.idx := by
  by_cases ht : s.g_strat = Strategy.BEST ∨ s.g_strat = Strategy.WORST
  · rw [(idx_of_tree s ht).1]; exact ha
  · rw [h.tree_nil ht] at ha
    exact absurd ha (List.not_mem_nil a)

/-- The invariant after `split_block(b, need)` on the block in transit: the
remainder, when one is carved off, is a free block of the index. -/
theorem inv_split {s : Heap} {blocks live : List Nat} {b : Nat} (h : InvX s blocks live b)
    (hb : b ∈ blocks) (need : Nat) (hal : need % 16 = 0) (hle : need ≤ (s.mem b).size)
    (hnf : (s.mem b).next_phys ≠ 0 → (s.mem (s.mem b).next_phys).is_free = 0) :
    ∃ blocks2, InvX (split_block s b need) blocks2 live b ∧ b ∈ blocks2 ∧
      need ≤ ((split_block s b need).mem b).size ∧
      ((split_block s b need).mem b).prev_phys = (s.mem b).prev_phys ∧
      (∀ z ∈ blocks, ((split_block s b need).mem z).is_free = (s.mem z).is_free) := by
  have bb := chain_bounds h.chain b hb
  have hsub : sub64 (s.mem b).size need = (s.mem b).size - need :=
    sub64_eq _ _ hle (by omega)
  rw [split_block_eq, hsub]
  by_cases hsmall : (s.mem b).size - need < 80
  · rw [if_pos hsmall]
    exact ⟨blocks, h, hb, hle, rfl, fun _ _ => rfl⟩
  rw [if_neg hsmall]
  have hle2 : need + 80 ≤ (s.mem b).size := by omega
  obtain ⟨hrem, C⟩ := chain_split h.chain b need hb hal hle2
  have F := split_fields h.chain b need hb hle2
  have nz := invX_nz h
  have b0 := nz b hb
  have r0 : b + 64 + need ≠ 0 := by omega
  have hbr : b ≠ b + 64 + need := by omega
  have rne : ∀ z ∈ blocks, z ≠ b + 64 + need := fun z hz e => hrem (e ▸ hz)
  have hst := invX_strat h b0
  generalize split_mem s.mem b need ((s.mem b).size - need) = m2 at C F ⊢
  have FO : ∀ z ∈ blocks, z ≠ b → (m2 z).size = (s.mem z).size ∧
      (m2 z).next_phys = (s.mem z).next_phys ∧ (m2 z).is_free = (s.mem z).is_free := by
    intro z hz hzb
    obtain ⟨Zs, Zn, -, Zf⟩ := F z (nz z hz)
    rw [if_neg hzb, if_neg (rne z hz)] at Zs Zn
    rw [if_neg (rne z hz)] at Zf
    exact ⟨Zs, Zn, Zf⟩
  have Ffree : ∀ z ∈ blocks, (m2 z).is_free = (s.mem z).is_free := by
    intro z hz
    rw [(F z (nz z hz)).2.2.2, if_neg (rne z hz)]
  have iblk : ∀ a, a ∈ s.idx → a ∈ blocks ∧ a ≠ b :=
    fun a ha => ⟨((h.free_idx a).1 (Or.inl ha)).1, ((h.free_idx a).1 (Or.inl ha)).2.1⟩
  have I1 : IdxOK { s with mem := m2 } :=
    idxOK_mem s m2 h.idx (fun a ha =>
      (FO a (iblk a (tree_mem_idx h.idx a ha)).1 (iblk a (tree_mem_idx h.idx a ha)).2).1)
  have hri : b + 64 + need ∉ ({ s with mem := m2 } : Heap).idx :=
    fun hi => hrem (iblk _ hi).1
  obtain ⟨i1, i2, i3⟩ := idx_insert { s with mem := m2 } (b + 64 + need) I1 hri r0 (by omega)
  obtain ⟨hm, ha, hbb, hbt, -⟩ := index_insert_frame { s with mem := m2 } (b + 64 + need)
  have hm2 : (index_insert { s with mem := m2 } (b + 64 + need)).mem = m2 := hm
  have i2b : ∀ a, a ∈ (index_insert { s with mem := m2 } (b + 64 + need)).idx ↔
      a ∈ s.idx ∨ a = b + 64 + need := i2
  have i3b : (index_insert { s with mem := m2 } (b + 64 + need)).orphans = s.orphans := i3
  refine ⟨(b + 64 + need) :: blocks, ?_, List.mem_cons_of_mem _ hb, ?_, ?_, ?_⟩
  · refine { idx := i1, chain := ?_, free_idx := ?_, orphan := ?_, unset := ?_, noadj := ?_,
             live_iff := ?_, live_nodup := h.live_nodup, pool := ?_ }
    · rw [hm2, ha]; exact C
    · intro a
      rw [i2b, i3b, hm2, List.mem_cons]
      have := h.free_idx a
      constructor
      · rintro ((h1 | h1) | h1)
        · obtain ⟨k1, k2, k3⟩ := this.1 (Or.inl h1)
          exact ⟨Or.inr k1, k2, by rw [Ffree a k1]; exact k3⟩
        · rw [h1]
          exact ⟨Or.inl rfl, hbr.symm, by rw [(F _ r0).2.2.2, if_pos rfl]; decide⟩
        · obtain ⟨k1, k2, k3⟩ := this.1 (Or.inr h1)
          exact ⟨Or.inr k1, k2, by rw [Ffree a k1]; exact k3⟩
      · rintro ⟨h1 | h1, h2, h3⟩
        · exact Or.inl (Or.inr h1)
        · rw [Ffree a h1] at h3
          rcases this.2 ⟨h1, h2, h3⟩ with h4 | h4
          · exact Or.inl (Or.inl h4)
          · exact Or.inr h4
    · intro a ha2
      rw [i3b] at ha2
      rw [hm2, i2b]
      obtain ⟨o1, o2, o3⟩ := h.orphan a ha2
      obtain ⟨k1, k2, -⟩ := (h.free_idx a).1 (Or.inr ha2)
      obtain ⟨-, Zn, Zp, -⟩ := F a (nz a k1)
      rw [if_neg k2, if_neg (rne a k1)] at Zn
      rw [if_neg (rne a k1)] at Zp
      have : a ≠ (s.mem b).next_phys := by
        intro e
        have h0 : (s.mem b).next_phys ≠ 0 := by rw [← e]; exact nz a k1
        have := (chain_next h.chain b hb h0).2.2.1
        rw [← e, o1] at this
        exact b0 this.symm
      rw [if_neg this] at Zp
      refine ⟨Zp.trans o1, Zn.trans o2, ?_⟩
      rintro (h1 | h1)
      · exact o3 h1
      · exact rne a k1 h1
    · intro e
      rw [index_insert_strat] at e
      exact absurd e hst
    · intro a ha2 hab hf hnb hn0
      rw [hm2] at hf hnb hn0 ⊢
      rcases List.mem_cons.1 ha2 with e | ha3
      · rw [e] at hn0 ⊢
        rw [(F _ r0).2.1, if_neg hbr.symm, if_pos rfl] at hn0 ⊢
        rw [Ffree _ (chain_next h.chain b hb hn0).1]
        exact hnf hn0
      · rw [(FO a ha3 hab).2.2] at hf
        rw [(FO a ha3 hab).2.1] at hnb hn0 ⊢
        rw [Ffree _ ((h.chain.blk a ha3).nxt hn0).1]
        exact h.noadj a ha3 hab hf hnb hn0
    · intro p
      rw [h.live_iff p, hm2]
      constructor
      · rintro ⟨a, h1, h2, h3, h4⟩
        exact ⟨a, List.mem_cons_of_mem _ h1, h2, by rw [Ffree a h1]; exact h3, h4⟩
      · rintro ⟨a, h1, h2, h3, h4⟩
        rcases List.mem_cons.1 h1 with e | h5
        · rw [e, (F _ r0).2.2.2, if_pos rfl] at h3
          exact absurd h3 (by decide)
        · rw [Ffree a h5] at h3
          exact ⟨a, h5, h2, h3, h4⟩
    · rw [hbb, hbt, ha]; exact h.pool
  · rw [hm2, (F b b0).1, if_pos rfl]
  · rw [hm2, (F b b0).2.2.1, if_neg hbr, if_neg]
    intro e
    by_cases h0 : (s.mem b).next_phys = 0
    · exact b0 (e.trans h0)
    · have := (chain_next h.chain b hb h0).2.1
      omega
  · intro z hz
    rw [hm2, Ffree z hz]

/-! ## The heap invariant under absorbing a neighbour -/

/-- The invariant after a free block `a` has absorbed its free physical
successor `c`, one of the two being the block in transit and the other, `o`,
being taken out of the index first: `a` is in transit afterwards and `c` is
no longer a block. -/
theorem inv_absorb {s : Heap} {blocks live : List Nat} {x : Nat} (h : InvX s blocks live x)
    (a c o : Nat) (ha : a ∈ blocks) (hc : (s.mem a).next_phys = c) (hc0 : c ≠ 0)
    (hfa : (s.mem a).is_free ≠ 0) (hfc : (s.mem c).is_free ≠ 0)
    (hxo : (x = a ∧ o = c) ∨ (x = c ∧ o = a)) :
    InvX { index_remove s o with mem := absorb s.mem a c } (blocks.filter (fun y => y ≠ c))
      live a ∧
    a ∈ blocks.filter (fun y => y ≠ c) ∧
    (∀ z, z ≠ 0 → (absorb s.mem a c z).is_free = (s.mem z).is_free) ∧
    (absorb s.mem a c a).next_phys = (s.mem c).next_phys ∧
    (absorb s.mem a c a).prev_phys = (s.mem a).prev_phys := by
  subst hc
  have hn : (s.mem a).next_phys ≠ 0 := hc0
  obtain ⟨n1, n2, n3, -⟩ := chain_next h.chain a ha hn
  have C := chain_absorb h.chain a ha hn
  have F := absorb_fields h.chain a ha hn
  have nz := invX_nz h
  have a0 := nz a ha
  have hac : a ≠ (s.mem a).next_phys := by omega
  have x0 : x ≠ 0 := by
    rcases hxo with ⟨e, -⟩ | ⟨e, -⟩
    · rw [e]; exact a0
    · rw [e]; exact hn
  have hst := invX_strat h x0
  have hxac : x = a ∨ x = (s.mem a).next_phys := by
    rcases hxo with ⟨e, -⟩ | ⟨e, -⟩
    · exact Or.inl e
    · exact Or.inr e
  have hoac : o = a ∨ o = (s.mem a).next_phys := by
    rcases hxo with ⟨-, e⟩ | ⟨-, e⟩
    · exact Or.inr e
    · exact Or.inl e
  have hcover : ∀ z, z ≠ x → z ≠ o → z ≠ a ∧ z ≠ (s.mem a).next_phys := by
    intro z h1 h2
    rcases hxo with ⟨e1, e2⟩ | ⟨e1, e2⟩
    · rw [e1] at h1; rw [e2] at h2; exact ⟨h1, h2⟩
    · rw [e1] at h1; rw [e2] at h2; exact ⟨h2, h1⟩
  have hxf : (s.mem x).is_free ≠ 0 := by
    rcases hxac with e | e
    · rw [e]; exact hfa
    · rw [e]; exact hfc
  have hox : o ≠ x := by
    rcases hxo with ⟨e1, e2⟩ | ⟨e1, e2⟩
    · rw [e1, e2]; exact hac.symm
    · rw [e1, e2]; exact hac
  have hob : o ∈ blocks := by
    rcases hoac with e | e
    · rw [e]; exact ha
    · rw [e]; exact n1
  have hof : (s.mem o).is_free ≠ 0 := by
    rcases hoac with e | e
    · rw [e]; exact hfa
    · rw [e]; exact hfc
  have hoi : o ∈ s.idx := by
    rcases (h.free_idx o).2 ⟨hob, hox, hof⟩ with h1 | h1
    · exact h1
    · exfalso
      obtain ⟨o1, o2, -⟩ := h.orphan o h1
      rcases hoac with e | e
      · rw [e] at o2; exact hn o2
      · rw [e, n3] at o1; exact a0 o1
  have memf : ∀ z, z ∈ blocks.filter (fun y => y ≠ (s.mem a).next_phys) ↔
      z ∈ blocks ∧ z ≠ (s.mem a).next_phys := by
    intro z; simp
  obtain ⟨i1, i2, i3⟩ := idx_remove s o h.idx
  obtain ⟨hm, har, hbb, hbt, -⟩ := index_remove_frame s o
  have iblk : ∀ z, z ∈ (index_remove s o).idx → z ∈ blocks ∧ z ≠ a ∧
      z ≠ (s.mem a).next_phys ∧ (s.mem z).is_free ≠ 0 := by
    intro z hz
    obtain ⟨k1, k2⟩ := (i2 z).1 hz
    obtain ⟨k3, k4, k5⟩ := (h.free_idx z).1 (Or.inl k1)
    exact ⟨k3, (hcover z k4 k2).1, (hcover z k4 k2).2, k5⟩
  have oblk : ∀ z, z ∈ s.orphans → z ∈ blocks ∧ z ≠ a ∧
      z ≠ (s.mem a).next_phys ∧ (s.mem z).is_free ≠ 0 := by
    intro z hz
    obtain ⟨k3, k4, k5⟩ := (h.free_idx z).1 (Or.inr hz)
    have k2 : z ≠ o := fun e => (h.orphan z hz).2.2 (e ▸ hoi)
    exact ⟨k3, (hcover z k4 k2).1, (hcover z k4 k2).2, k5⟩
  generalize hm2 : absorb s.mem a (s.mem a).next_phys = m2 at C F ⊢
  have I1 : IdxOK { index_remove s o with mem := m2 } := by
    refine idxOK_mem (index_remove s o) m2 i1 (fun z hz => ?_)
    obtain ⟨k1, k2, -, -⟩ := iblk z (tree_mem_idx i1 z hz)
    rw [(F z (nz z k1)).1, if_neg k2, hm]
  refine ⟨?_, (memf a).2 ⟨ha, hac⟩, fun z hz => (F z hz).2.2.2, ?_, ?_⟩
  · refine { idx := I1, chain := ?_, free_idx := ?_, orphan := ?_, unset := ?_, noadj := ?_,
             live_iff := ?_, live_nodup := h.live_nodup, pool := ?_ }
    · show ChainOK m2 (index_remove s o).g_arenas _
      rw [har]; exact C
    · intro z
      show (z ∈ (index_remove s o).idx ∨ z ∈ (index_remove s o).orphans) ↔
        z ∈ blocks.filter (fun y => y ≠ (s.mem a).next_phys) ∧ z ≠ a ∧ (m2 z).is_free ≠ 0
      rw [i3, memf]
      constructor
      · rintro (h1 | h1)
        · obtain ⟨k1, k2, k3, k4⟩ := iblk z h1
          exact ⟨⟨k1, k3⟩, k2, by rw [(F z (nz z k1)).2.2.2]; exact k4⟩
        · obtain ⟨k1, k2, k3, k4⟩ := oblk z h1
          exact ⟨⟨k1, k3⟩, k2, by rw [(F z (nz z k1)).2.2.2]; exact k4⟩
      · rintro ⟨⟨k1, k3⟩, k2, k4⟩
        rw [(F z (nz z k1)).2.2.2] at k4
        have zx : z ≠ x := by
          rcases hxac with e | e
          · rw [e]; exact k2
          · rw [e]; exact k3
        have zo : z ≠ o := by
          rcases hoac with e | e
          · rw [e]; exact k2
          · rw [e]; exact k3
        rcases (h.free_idx z).2 ⟨k1, zx, k4⟩ with h1 | h1
        · exact Or.inl ((i2 z).2 ⟨h1, zo⟩)
        · exact Or.inr h1
    · intro z hz
      have hz2 : z ∈ s.orphans := by rw [← i3]; exact hz
      obtain ⟨k1, k2, k3, -⟩ := oblk z hz2
      obtain ⟨o1, o2, o3⟩ := h.orphan z hz2
      obtain ⟨-, Zn, Zp, -⟩ := F z (nz z k1)
      rw [if_neg k2] at Zn
      have : z ≠ (s.mem (s.mem a).next_phys).next_phys := by
        intro e
        have h0 : (s.mem (s.mem a).next_phys).next_phys ≠ 0 := by rw [← e]; exact nz z k1
        have := (chain_next h.chain _ n1 h0).2.2.1
        rw [← e, o1] at this
        exact hn this.symm
      rw [if_neg this] at Zp
      exact ⟨Zp.trans o1, Zn.trans o2, fun hi => o3 ((i2 z).1 hi).1⟩
    · intro e
      have e2 : (index_remove s o).g_strat = Strategy.UNSET := e
      rw [index_remove_strat] at e2
      exact absurd e2 hst
    · intro z hz hza hf hnb hn0
      obtain ⟨k1, k3⟩ := (memf z).1 hz
      have hf2 : (m2 z).is_free ≠ 0 := hf
      have hnb2 : (m2 z).next_phys ≠ a := hnb
      have hn2 : (m2 z).next_phys ≠ 0 := hn0
      show (m2 (m2 z).next_phys).is_free = 0
      rw [(F z (nz z k1)).2.2.2] at hf2
      rw [(F z (nz z k1)).2.1, if_neg hza] at hnb2 hn2 ⊢
      rw [(F _ hn2).2.2.2]
      have zx : z ≠ x := by
        rcases hxac with e | e
        · rw [e]; exact hza
        · rw [e]; exact k3
      have hnc : (s.mem z).next_phys ≠ (s.mem a).next_phys := by
        intro e
        have := ((h.chain.blk z k1).nxt hn2).2.2
        rw [e, n3] at this
        exact hza this.symm
      have hnx : (s.mem z).next_phys ≠ x := by
        rcases hxac with e | e
        · rw [e]; exact hnb2
        · rw [e]; exact hnc
      exact h.noadj z k1 zx hf2 hnx hn2
    · intro p
      show _ ↔ ∃ z ∈ blocks.filter (fun y => y ≠ (s.mem a).next_phys),
        z ≠ a ∧ (m2 z).is_free = 0 ∧ p = z + 64
      rw [h.live_iff p]
      constructor
      · rintro ⟨z, h1, h2, h3, h4⟩
        refine ⟨z, (memf z).2 ⟨h1, fun e => hfc (e ▸ h3)⟩, fun e => hfa (e ▸ h3), ?_, h4⟩
        rw [(F z (nz z h1)).2.2.2]; exact h3
      · rintro ⟨z, h1, h2, h3, h4⟩
        obtain ⟨k1, k3⟩ := (memf z).1 h1
        rw [(F z (nz z k1)).2.2.2] at h3
        exact ⟨z, k1, fun e => hxf (e ▸ h3), h3, h4⟩
    · show (index_remove s o).buddy_base = 0 ∨ ∀ ar ∈ (index_remove s o).g_arenas, _
      rw [hbb, hbt, har]; exact h.pool
  · rw [(F a a0).2.1, if_pos rfl]
  · rw [(F a a0).2.2.1, if_neg]
    intro e
    by_cases h0 : (s.mem (s.mem a).next_phys).next_phys = 0
    · exact a0 (e.trans h0)
    · have := (chain_next h.chain _ n1 h0).2.1
      omega

/-! ## The heap invariant under `coalesce_and_insert` -/

/-- The first `if` of `coalesce_and_insert` on the block `b` in transit. -/
theorem inv_coalesce_left {s : Heap} {blocks live : List Nat} {b : Nat}
    (h : InvX s blocks live b) (hb : b ∈ blocks) (hf : (s.mem b).is_free ≠ 0) :
    ∃ blocks1, InvX (coalesce_left s b).1 blocks1 live (coalesce_left s b).2 ∧
      (coalesce_left s b).2 ∈ blocks1 ∧
      ((coalesce_left s b).1.mem (coalesce_left s b).2).is_free ≠ 0 ∧
      ((coalesce_left s b).1.mem (coalesce_left s b).2).next_phys = (s.mem b).next_phys ∧
      (((coalesce_left s b).1.mem (coalesce_left s b).2).prev_phys = 0 ∨
        ((coalesce_left s b).1.mem
          ((coalesce_left s b).1.mem (coalesce_left s b).2).prev_phys).is_free = 0) ∧
      (∀ z, z ∈ blocks1 → z ∈ blocks) := by
  rw [coalesce_left_eq]
  by_cases hc : (s.mem b).prev_phys ≠ 0 ∧ (s.mem (s.mem b).prev_phys).is_free ≠ 0
  · rw [if_pos hc]
    obtain ⟨hL0, hLf⟩ := hc
    obtain ⟨p1, p2⟩ := (h.chain.blk b hb).prv hL0
    have nz := invX_nz h
    have b0 := nz b hb
    obtain ⟨r1, r2, r3, r4, r5⟩ := inv_absorb h (s.mem b).prev_phys b (s.mem b).prev_phys
      p1 p2 b0 hLf hf (Or.inr ⟨rfl, rfl⟩)
    refine ⟨_, r1, r2, ?_, r4, ?_, fun z hz => (List.mem_filter.1 hz).1⟩
    · show (absorb s.mem (s.mem b).prev_phys b (s.mem b).prev_phys).is_free ≠ 0
      rw [r3 _ hL0]; exact hLf
    · show (absorb s.mem (s.mem b).prev_phys b (s.mem b).prev_phys).prev_phys = 0 ∨
        (absorb s.mem (s.mem b).prev_phys b
          (absorb s.mem (s.mem b).prev_phys b (s.mem b).prev_phys).prev_phys).is_free = 0
      rw [r5]
      by_cases hP : (s.mem (s.mem b).prev_phys).prev_phys = 0
      · exact Or.inl hP
      · right
        rw [r3 _ hP]
        obtain ⟨q1, q2⟩ := (h.chain.blk _ p1).prv hP
        by_contra hPf
        have k1 := (chain_next h.chain _ q1 (by rw [q2]; exact hL0)).2.1
        have k2 := (chain_next h.chain _ p1 (by rw [p2]; exact b0)).2.1
        rw [q2] at k1
        rw [p2] at k2
        have := h.noadj _ q1 (by omega) hPf (by rw [q2]; omega) (by rw [q2]; exact hL0)
        rw [q2] at this
        exact hLf this
  · rw [if_neg hc]
    refine ⟨blocks, h, hb, hf, rfl, ?_, fun z hz => hz⟩
    by_cases h0 : (s.mem b).prev_phys = 0
    · exact Or.inl h0
    · right
      by_contra h1
      exact hc ⟨h0, h1⟩

/-- The second `if` of `coalesce_and_insert` on the block `x` in transit, the
successor read from `x` itself. -/
theorem inv_coalesce_right {s : Heap} {blocks live : List Nat} {x : Nat}
    (h : InvX s blocks live x) (hx : x ∈ blocks) (hf : (s.mem x).is_free ≠ 0)
    (hl : (s.mem x).prev_phys = 0 ∨ (s.mem (s.mem x).prev_phys).is_free = 0) :
    ∃ blocks2, InvX (coalesce_right s x (s.mem x).next_phys) blocks2 live x ∧ x ∈ blocks2 ∧
      ((coalesce_right s x (s.mem x).next_phys).mem x).is_free ≠ 0 ∧
      (((coalesce_right s x (s.mem x).next_phys).mem x).prev_phys = 0 ∨
        ((coalesce_right s x (s.mem x).next_phys).mem
          ((coalesce_right s x (s.mem x).next_phys).mem x).prev_phys).is_free = 0) ∧
      (((coalesce_right s x (s.mem x).next_phys).mem x).next_phys = 0 ∨
        ((coalesce_right s x (s.mem x).next_phys).mem
          ((coalesce_right s x (s.mem x).next_phys).mem x).next_phys).is_free = 0) ∧
      (∀ z, z ∈ blocks2 → z ∈ blocks) := by
  rw [coalesce_right_eq]
  by_cases hc : (s.mem x).next_phys ≠ 0 ∧ (s.mem (s.mem x).next_phys).is_free ≠ 0
  · rw [if_pos hc]
    obtain ⟨hR0, hRf⟩ := hc
    obtain ⟨n1, n2, n3, -⟩ := chain_next h.chain x hx hR0
    have nz := invX_nz h
    have x0 := nz x hx
    obtain ⟨r1, r2, r3, r4, r5⟩ := inv_absorb h x (s.mem x).next_phys (s.mem x).next_phys
      hx rfl hR0 hf hRf (Or.inl ⟨rfl, rfl⟩)
    refine ⟨_, r1, r2, ?_, ?_, ?_, fun z hz => (List.mem_filter.1 hz).1⟩
    · show (absorb s.mem x (s.mem x).next_phys x).is_free ≠ 0
      rw [r3 _ x0]; exact hf
    · show (absorb s.mem x (s.mem x).next_phys x).prev_phys = 0 ∨
        (absorb s.mem x (s.mem x).next_phys
          (absorb s.mem x (s.mem x).next_phys x).prev_phys).is_free = 0
      rw [r5]
      rcases hl with h1 | h1
      · exact Or.inl h1
      · by_cases hP : (s.mem x).prev_phys = 0
        · exact Or.inl hP
        · right; rw [r3 _ hP]; exact h1
    · show (absorb s.mem x (s.mem x).next_phys x).next_phys = 0 ∨
        (absorb s.mem x (s.mem x).next_phys
          (absorb s.mem x (s.mem x).next_phys x).next_phys).is_free = 0
      rw [r4]
      by_cases hN : (s.mem (s.mem x).next_phys).next_phys = 0
      · exact Or.inl hN
      · right
        rw [r3 _ hN]
        have k := (chain_next h.chain _ n1 hN).2.1
        exact h.noadj _ n1 (by omega) hRf (by omega) hN
  · rw [if_neg hc]
    refine ⟨blocks, h, hx, hf, hl, ?_, fun z hz => hz⟩
    by_cases h0 : (s.mem x).next_phys = 0
    · exact Or.inl h0
    · right
      by_contra h1
      exact hc ⟨h0, h1⟩

/-- The function `coalesce_and_insert` on the block in transit ends the
transit and restores the whole invariant. -/
theorem inv_coalesce {s : Heap} {blocks live : List Nat} {b : Nat}
    (h : InvX s blocks live b) (hb : b ∈ blocks) (hf : (s.mem b).is_free ≠ 0) :
    ∃ blocks2, InvX (coalesce_and_insert s b) blocks2 live 0 ∧ (∀ z, z ∈ blocks2 → z ∈ blocks) := by
  obtain ⟨blocks1, l1, l2, l3, l4, l5, l6⟩ := inv_coalesce_left h hb hf
  obtain ⟨blocks2, r1, r2, r3, r4, r5, r6⟩ := inv_coalesce_right l1 l2 l3 l5
  rw [l4] at r1 r3 r4 r5
  exact ⟨blocks2, inv_put r1 r2 r3 r4 r5, fun z hz => l6 z (r6 z hz)⟩

/-! ## The heap invariant under `map_arena` -/

theorem ALIGN_UP_facts (n : Nat) : ALIGN_UP n ALIGN % 16 = 0 ∧ ALIGN_UP n ALIGN < 2 ^ 32 := by
  unfold ALIGN_UP ALIGN_UP_w ALIGN SIZE_MOD
  constructor
  · have e := Nat.and_pow_two_sub_one_eq_mod
      ((n + (16 - 1)) % 2 ^ 64 &&& (2 ^ 32 - 1 - (16 - 1))) 4
    rw [Nat.and_assoc] at e
    rw [show (2 ^ 32 - 1 - (16 - 1)) &&& (2 ^ 4 - 1) = 0 from by decide, Nat.and_zero] at e
    exact e.symm
  · have := @Nat.and_le_right ((n + (16 - 1)) % 2 ^ 64) (2 ^ 32 - 1 - (16 - 1))
    omega

theorem arena_need_facts (mu : Nat) (h1 : mu % 16 = 0) (h2 : mu < 2 ^ 32) :
    arena_need mu % 16 = 0 ∧ 80 + mu ≤ arena_need mu ∧ 2 ^ 20 ≤ arena_need mu := by
  have e : add64 (add64 SIZEOF_ARENA HDR_SZ) mu = 80 + mu := by
    rw [show add64 SIZEOF_ARENA HDR_SZ = 80 from by decide]
    exact add64_eq _ _ (by omega)
  unfold arena_need
  rw [e]
  unfold ARENA_MIN
  split <;> omega

/-- The function `map_arena` when `mmap` fails: nothing changes. -/
theorem map_arena_none (s : Heap) (mu : Nat) : map_arena s mu none = (s, 0) := rfl

/-- The invariant after a successful `map_arena`: the arena holds one free
block of at least the usable size asked for, and the block is in the index. -/
theorem inv_map {s : Heap} {blocks live : List Nat} (h : InvX s blocks live 0)
    (mu base : Nat) (h1 : mu % 16 = 0) (h2 : mu < 2 ^ 32)
    (hos : OsOk s (arena_need mu) (some base)) :
    InvX (map_arena s mu (some base)).1 ((base + 16) :: blocks) live 0 ∧
    (map_arena s mu (some base)).2 = base ∧ base ≠ 0 ∧
    base + 16 ∈ (map_arena s mu (some base)).1.idx ∧
    mu ≤ ((map_arena s mu (some base)).1.mem (base + 16)).size ∧
    (map_arena s mu (some base)).1.g_strat = s.g_strat := by
  obtain ⟨o1, o2, o3, o4, o5⟩ := hos base rfl
  obtain ⟨n1, n2, n3⟩ := arena_need_facts mu h1 h2
  have nz := invX_nz h
  have hsz : sub64 (sub64 (arena_need mu) SIZEOF_ARENA) HDR_SZ = arena_need mu - 80 := by
    rw [show SIZEOF_ARENA = 16 from rfl, HDR_SZ_eq, sub64_eq _ 16 (by omega) (by omega),
      sub64_eq _ 64 (by omega) (by omega)]
    omega
  have hin : ∀ a ∈ blocks, ∃ ar ∈ s.g_arenas, ar.1 + 16 ≤ a ∧ a + 64 + (s.mem a).size ≤ ar.1 + ar.2 :=
    fun a ha => by
      obtain ⟨ar, har, a1, a2, -, -⟩ := (h.chain.blk a ha).arena
      exact ⟨ar, har, a1, a2⟩
  have hfar : ∀ a ∈ blocks, base + arena_need mu ≤ a ∨ a + 64 + (s.mem a).size ≤ base := by
    intro a ha
    obtain ⟨ar, har, a1, a2⟩ := hin a ha
    have := o4 ar har
    omega
  have hnew : base + 16 ∉ blocks := by
    intro hb
    have := hfar _ hb
    omega
  have bne : ∀ a ∈ blocks, a ≠ base + 16 := fun a ha e => hnew (e ▸ ha)
  have hmap : map_arena s mu (some base) =
      (index_insert
        { s with g_arenas := (base, arena_need mu) :: s.g_arenas,
                 mem := store s.mem (base + 16) (fun _ => ⟨arena_need mu - 80, 1, 0, 0⟩) }
        (base + 16), base) := by
    show (index_insert
      { s with g_arenas := (base, arena_need mu) :: s.g_arenas,
               mem := store s.mem (base + SIZEOF_ARENA)
                 (fun _ => ⟨sub64 (sub64 (arena_need mu) SIZEOF_ARENA) HDR_SZ, 1, 0, 0⟩) }
      (base + SIZEOF_ARENA), base) = _
    rw [hsz]
    rfl
  rw [hmap]
  dsimp only
  have Fb : store s.mem (base + 16) (fun _ => ⟨arena_need mu - 80, 1, 0, 0⟩) (base + 16) =
      ⟨arena_need mu - 80, 1, 0, 0⟩ := by unfold store; rw [if_pos rfl]
  have Fo : ∀ z, z ≠ base + 16 →
      store s.mem (base + 16) (fun _ => ⟨arena_need mu - 80, 1, 0, 0⟩) z = s.mem z := by
    intro z hz; unfold store; rw [if_neg hz]
  generalize store s.mem (base + 16) (fun _ => ⟨arena_need mu - 80, 1, 0, 0⟩) = m2 at Fb Fo ⊢
  have iblk : ∀ a, a ∈ s.idx → a ∈ blocks := fun a ha => ((h.free_idx a).1 (Or.inl ha)).1
  have I1 : IdxOK { s with g_arenas := (base, arena_need mu) :: s.g_arenas, mem := m2 } :=
    { sorted := h.idx.sorted, cursor := h.idx.cursor
      bst := bst_congr s.sz _ _
        (fun a ha => by
          show (m2 a).size = (s.mem a).size
          rw [Fo a (bne a (iblk a (tree_mem_idx h.idx a ha)))]) h.idx.bst
      bal := h.idx.bal, hok := h.idx.hok, nz := h.idx.nz, ptr := h.idx.ptr
      tree_nil := h.idx.tree_nil }
  have hri : base + 16 ∉
      ({ s with g_arenas := (base, arena_need mu) :: s.g_arenas, mem := m2 } : Heap).idx :=
    fun hi => hnew (iblk _ hi)
  obtain ⟨i1, i2, i3⟩ := idx_insert _ (base + 16) I1 hri (by omega) (by omega)
  obtain ⟨hm, ha, hbb, hbt, -⟩ := index_insert_frame
    { s with g_arenas := (base, arena_need mu) :: s.g_arenas, mem := m2 } (base + 16)
  have hst := index_insert_strat
    { s with g_arenas := (base, arena_need mu) :: s.g_arenas, mem := m2 } (base + 16)
  generalize index_insert
    { s with g_arenas := (base, arena_need mu) :: s.g_arenas, mem := m2 } (base + 16) = t
    at i1 i2 i3 hm ha hbb hbt hst ⊢
  have hm2 : t.mem = m2 := hm
  have ha2 : t.g_arenas = (base, arena_need mu) :: s.g_arenas := ha
  have hbb2 : t.buddy_base = s.buddy_base := hbb
  have hbt2 : t.buddy_top_size = s.buddy_top_size := hbt
  have hst2 : t.g_strat = s.g_strat := hst
  have i2b : ∀ a, a ∈ t.idx ↔ a ∈ s.idx ∨ a = base + 16 := i2
  have i3b : t.orphans = s.orphans := i3
  refine ⟨?_, rfl, by omega, (i2b _).2 (Or.inr rfl), by rw [hm2, Fb]; show mu ≤ arena_need mu - 80; omega, hst2⟩
  refine { idx := i1, chain := ?_, free_idx := ?_, orphan := ?_, unset := ?_, noadj := ?_,
           live_iff := ?_, live_nodup := h.live_nodup, pool := ?_ }
  · rw [hm2, ha2]
    refine ⟨?_, ?_, ?_, ?_, ?_⟩
    · intro ar har
      rcases List.mem_cons.1 har with e | har2
      · rw [e]; exact ⟨o1, o2, o3, by show 80 ≤ arena_need mu; omega⟩
      · exact h.chain.arenas ar har2
    · intro a ha3 c hc hac
      rcases List.mem_cons.1 ha3 with e | ha4
      · rcases List.mem_cons.1 hc with e2 | hc4
        · exact absurd (e.trans e2.symm) hac
        · rw [e]; exact o4 c hc4
      · rcases List.mem_cons.1 hc with e2 | hc4
        · rw [e2]; exact (o4 a ha4).symm
        · exact h.chain.arenas_disj a ha4 c hc4 hac
    · intro ar har
      rcases List.mem_cons.1 har with e | har2
      · rw [e]; exact ⟨List.mem_cons_self _ _, by rw [Fb]⟩
      · obtain ⟨f1, f2⟩ := h.chain.first ar har2
        exact ⟨List.mem_cons_of_mem _ f1, by rw [Fo _ (bne _ f1)]; exact f2⟩
    · intro a ha3 c hc hac
      rcases List.mem_cons.1 ha3 with e | ha4
      · rcases List.mem_cons.1 hc with e2 | hc4
        · exact absurd (e.trans e2.symm) hac
        · rw [e, Fb, Fo c (bne c hc4)]
          have := hfar c hc4
          show base + 16 + 64 + (arena_need mu - 80) ≤ c ∨ _
          omega
      · rcases List.mem_cons.1 hc with e2 | hc4
        · rw [e2, Fb, Fo a (bne a ha4)]
          have := hfar a ha4
          show _ ∨ base + 16 + 64 + (arena_need mu - 80) ≤ a
          omega
        · rw [Fo a (bne a ha4), Fo c (bne c hc4)]
          exact h.chain.disj a ha4 c hc4 hac
    · intro a ha3
      rcases List.mem_cons.1 ha3 with e | ha4
      · rw [e]
        constructor
        · omega
        · rw [Fb]; show (arena_need mu - 80) % 16 = 0; omega
        · refine ⟨(base, arena_need mu), List.mem_cons_self _ _, le_refl _, ?_, fun _ => rfl, ?_⟩
          · rw [Fb]; show base + 16 + 64 + (arena_need mu - 80) ≤ base + arena_need mu; omega
          · rw [Fb]; intro _; show base + 16 + 64 + (arena_need mu - 80) = base + arena_need mu; omega
        · rw [Fb]; intro hh; exact absurd rfl hh
        · rw [Fb]; intro hh; exact absurd rfl hh
      · have B := h.chain.blk a ha4
        have ea := Fo a (bne a ha4)
        constructor
        · exact B.al
        · rw [ea]; exact B.szal
        · rw [ea]
          obtain ⟨ar, har, a1⟩ := B.arena
          exact ⟨ar, List.mem_cons_of_mem _ har, a1⟩
        · rw [ea]
          intro h0
          obtain ⟨k1, k2, k3⟩ := B.nxt h0
          exact ⟨List.mem_cons_of_mem _ k1, k2, by rw [Fo _ (bne _ k1)]; exact k3⟩
        · rw [ea]
          intro h0
          obtain ⟨k1, k2⟩ := B.prv h0
          exact ⟨List.mem_cons_of_mem _ k1, by rw [Fo _ (bne _ k1)]; exact k2⟩
  · intro a
    rw [i2b, i3b, hm2, List.mem_cons]
    have := h.free_idx a
    constructor
    · rintro ((k | k) | k)
      · obtain ⟨k1, k2, k3⟩ := this.1 (Or.inl k)
        exact ⟨Or.inr k1, k2, by rw [Fo a (bne a k1)]; exact k3⟩
      · rw [k, Fb]; exact ⟨Or.inl rfl, by omega, Nat.one_ne_zero⟩
      · obtain ⟨k1, k2, k3⟩ := this.1 (Or.inr k)
        exact ⟨Or.inr k1, k2, by rw [Fo a (bne a k1)]; exact k3⟩
    · rintro ⟨k1 | k1, k2, k3⟩
      · exact Or.inl (Or.inr k1)
      · rw [Fo a (bne a k1)] at k3
        rcases this.2 ⟨k1, k2, k3⟩ with k4 | k4
        · exact Or.inl (Or.inl k4)
        · exact Or.inr k4
  · intro a ha3
    rw [i3b] at ha3
    obtain ⟨q1, q2, q3⟩ := h.orphan a ha3
    have k1 := ((h.free_idx a).1 (Or.inr ha3)).1
    rw [hm2, i2b, Fo a (bne a k1)]
    refine ⟨q1, q2, ?_⟩
    rintro (k | k)
    · exact q3 k
    · exact bne a k1 k
  · intro e
    rw [hst2] at e
    refine ⟨rfl, fun a ha3 => ?_⟩
    rw [hm2]
    rcases List.mem_cons.1 ha3 with e2 | ha4
    · rw [e2, Fb]; exact ⟨Nat.one_ne_zero, rfl, rfl⟩
    · rw [Fo a (bne a ha4)]; exact (h.unset e).2 a ha4
  · intro a ha3 a0 hf _ hn0
    rw [hm2] at hf hn0 ⊢
    rcases List.mem_cons.1 ha3 with e2 | ha4
    · rw [e2, Fb] at hn0; exact absurd rfl hn0
    · rw [Fo a (bne a ha4)] at hf hn0 ⊢
      rw [Fo _ (bne _ ((h.chain.blk a ha4).nxt hn0).1)]
      exact h.noadj a ha4 a0 hf hn0 hn0
  · intro p
    rw [h.live_iff p, hm2]
    constructor
    · rintro ⟨a, k1, k2, k3, k4⟩
      exact ⟨a, List.mem_cons_of_mem _ k1, k2, by rw [Fo a (bne a k1)]; exact k3, k4⟩
    · rintro ⟨a, k1, k2, k3, k4⟩
      rcases List.mem_cons.1 k1 with e | k5
      · rw [e, Fb] at k3; exact absurd k3 Nat.one_ne_zero
      · rw [Fo a (bne a k5)] at k3
        exact ⟨a, k5, k2, k3, k4⟩
  · rw [hbb2, hbt2, ha2]
    rcases o5 with k1 | k1
    · exact Or.inl k1
    rcases h.pool with k | k
    · exact Or.inl k
    · right
      intro ar har
      rcases List.mem_cons.1 har with e | har2
      · rw [e]; exact k1
      · exact k ar har2

/-! ## The heap invariant under `allocate_general` -/

/-- The tail of `allocate_general` on a block `b` found in the index. -/
theorem inv_alloc_found {s : Heap} {blocks live : List Nat} (h : InvX s blocks live 0)
    (b need : Nat) (hb : b ∈ s.idx) (hal : need % 16 = 0) (hle : need ≤ (s.mem b).size)
    (hst : s.g_strat ≠ Strategy.UNSET) :
    ∃ blocks2, InvX (alloc_found s b need).1 blocks2 ((b + 64) :: live) 0 ∧ b ∈ blocks2 ∧
      (alloc_found s b need).2 = b ∧ need ≤ ((alloc_found s b need).1.mem b).size ∧
      (alloc_found s b need).1.g_strat = s.g_strat := by
  obtain ⟨k1, k2, k3⟩ := (h.free_idx b).1 (Or.inl hb)
  have t1 := inv_take h b hb hst
  have hm : (index_remove s b).mem = s.mem := (index_remove_frame s b).1
  have hnf : ((index_remove s b).mem b).next_phys ≠ 0 →
      ((index_remove s b).mem ((index_remove s b).mem b).next_phys).is_free = 0 := by
    rw [hm]
    intro h0
    exact h.noadj b k1 k2 k3 h0 h0
  obtain ⟨blocks2, t2, hb2, hsz, -, -⟩ := inv_split t1 k1 need hal (by rw [hm]; exact hle) hnf
  have t3 := inv_hand_out t2 hb2
  refine ⟨blocks2, t3, hb2, rfl, ?_, ?_⟩
  · show need ≤ (store (split_block (index_remove s b) b need).mem b
      (fun B => { B with is_free := 0 }) b).size
    rw [(store_flag _ b 0 b).1]; exact hsz
  · show (split_block (index_remove s b) b need).g_strat = s.g_strat
    rw [split_block_strat, index_remove_strat]

/-- The function `allocate_general` in a state that satisfies the invariant:
it returns, keeps the invariant, and returns `NULL` for a nonzero size only
when no block of the index fits and `mmap` fails. -/
theorem inv_allocate {s : Heap} {blocks live : List Nat} (h : InvX s blocks live 0)
    (size : Nat) (os : Option Nat) (hst : s.g_strat ≠ Strategy.UNSET)
    (hos : OsOk s (arena_need (ALIGN_UP size ALIGN)) os) :
    ∃ s2 b blocks2, allocate_general s size os = some (s2, b) ∧
      InvX s2 blocks2 (if b = 0 then live else (b + 64) :: live) 0 ∧
      s2.g_strat = s.g_strat ∧
      (b ≠ 0 → b ∈ blocks2 ∧ ALIGN_UP size ALIGN ≤ (s2.mem b).size) ∧
      (size = 0 → s2 = s ∧ b = 0) ∧
      (size ≠ 0 → b = 0 → os = none ∧ ∀ a ∈ s.idx, (s.mem a).size < ALIGN_UP size ALIGN) ∧
      (size ≠ 0 → os ≠ none → b ≠ 0) ∧
      (os = none → (∀ a ∈ s.idx, (s.mem a).size < ALIGN_UP size ALIGN) → b = 0) := by
  obtain ⟨hal, hlt⟩ := ALIGN_UP_facts size
  unfold allocate_general
  by_cases h0 : size = 0
  · rw [if_pos h0]
    exact ⟨s, 0, blocks, rfl, by rw [if_pos rfl]; exact h, rfl, fun e => absurd rfl e,
      fun _ => ⟨rfl, rfl⟩, fun e => absurd h0 e, fun e => absurd h0 e, fun _ _ => rfl⟩
  rw [if_neg h0]
  obtain ⟨c, b, e1, I1, f1, f2⟩ := idx_find s (ALIGN_UP size ALIGN) h.idx hst
  rw [e1]
  simp only []
  have h1 := inv_cursor h c I1
  by_cases hb : b = 0
  · have hmiss := f2 hb
    subst hb
    rw [if_neg (fun hh => hh rfl)]
    cases os with
    | none =>
      rw [if_pos (show (map_arena { s with g_nextfit_cursor := c } (ALIGN_UP size ALIGN)
        none).2 = 0 from rfl)]
      refine ⟨{ s with g_nextfit_cursor := c }, 0, blocks, rfl, ?_, rfl, fun e => absurd rfl e,
        fun e => absurd e h0, fun _ _ => ⟨rfl, hmiss⟩, fun _ e => absurd rfl e, fun _ _ => rfl⟩
      rw [if_pos rfl]; exact h1
    | some base =>
      obtain ⟨m1, m2, m3, m4, m5, m6⟩ := inv_map h1 (ALIGN_UP size ALIGN) base hal hlt hos
      rw [if_neg (by rw [m2]; exact m3)]
      have hst3 : (map_arena { s with g_nextfit_cursor := c } (ALIGN_UP size ALIGN)
          (some base)).1.g_strat ≠ Strategy.UNSET := by rw [m6]; exact hst
      obtain ⟨c2, b2, e2, I2, g1, g2⟩ := idx_find _ (ALIGN_UP size ALIGN) m1.idx hst3
      rw [e2]
      simp only []
      have hb2 : b2 ≠ 0 := by
        intro e
        have := g2 e _ m4
        exact absurd m5 (by unfold Heap.sz at this; omega)
      rw [if_neg hb2]
      have m7 := inv_cursor m1 c2 I2
      obtain ⟨blocks2, a1, a2, -, a4, a5⟩ := inv_alloc_found m7 b2 (ALIGN_UP size ALIGN)
        (g1 hb2).1 hal (g1 hb2).2 hst3
      refine ⟨_, b2, blocks2, rfl, ?_, ?_, fun _ => ⟨a2, a4⟩, fun e => absurd e h0,
        fun _ e => absurd e hb2, fun _ _ => hb2, fun e => Option.noConfusion e⟩
      · rw [if_neg hb2]; exact a1
      · exact a5.trans m6
  · rw [if_pos hb]
    obtain ⟨blocks2, a1, a2, -, a4, a5⟩ := inv_alloc_found h1 b (ALIGN_UP size ALIGN)
      (f1 hb).1 hal (f1 hb).2 hst
    refine ⟨_, b, blocks2, rfl, ?_, a5, fun _ => ⟨a2, a4⟩, fun e => absurd e h0,
      fun _ e => absurd e hb, fun _ _ => hb, fun _ hno => ?_⟩
    · rw [if_neg hb]; exact a1
    · have := hno b (f1 hb).1
      have := (f1 hb).2
      unfold Heap.sz at this
      omega

/-! ## The heap invariant under the buddy allocator -/

theorem genEq_refl (s : Heap) : GenEq s s := ⟨rfl, rfl, rfl, rfl, rfl, rfl⟩

theorem genEq_trans {s t u : Heap} (h1 : GenEq s t) (h2 : GenEq t u) : GenEq s u :=
  ⟨h2.1.trans h1.1, h2.2.1.trans h1.2.1, h2.2.2.1.trans h1.2.2.1,
   h2.2.2.2.1.trans h1.2.2.2.1, h2.2.2.2.2.1.trans h1.2.2.2.2.1,
   h2.2.2.2.2.2.trans h1.2.2.2.2.2⟩

/-- What a buddy operation keeps: the general heap and the extent of the pool. -/
theorem buddy_push_keeps (s : Heap) (o p : Nat) :
    GenEq s (buddy_push s o p) ∧ (buddy_push s o p).buddy_base = s.buddy_base ∧
    (buddy_push s o p).buddy_top_size = s.buddy_top_size ∧
    (buddy_push s o p).buddy_pool_order = s.buddy_pool_order :=
  ⟨⟨rfl, rfl, rfl, rfl, rfl, rfl⟩, rfl, rfl, rfl⟩

theorem buddy_pop_keeps (s : Heap) (o : Nat) :
    GenEq s (buddy_pop s o).1 ∧ (buddy_pop s o).1.buddy_base = s.buddy_base ∧
    (buddy_pop s o).1.buddy_top_size = s.buddy_top_size ∧
    (buddy_pop s o).1.buddy_pool_order = s.buddy_pool_order := by
  unfold buddy_pop
  split
  · exact ⟨genEq_refl s, rfl, rfl, rfl⟩
  · exact ⟨⟨rfl, rfl, rfl, rfl, rfl, rfl⟩, rfl, rfl, rfl⟩

theorem bin_scan_keeps (order target : Nat) (fuel : Nat) :
    ∀ (s : Heap) (prev cur : Nat) (r : Heap × Bool),
      bin_scan order target fuel s prev cur = some r →
      GenEq s r.1 ∧ r.1.buddy_base = s.buddy_base ∧ r.1.buddy_top_size = s.buddy_top_size ∧
      r.1.buddy_pool_order = s.buddy_pool_order := by
  induction fuel with
  | zero => intro s prev cur r e; cases e
  | succ k ih =>
    intro s prev cur r e
    unfold bin_scan at e
    by_cases h1 : cur = 0
    · rw [if_pos h1] at e; cases e; exact ⟨genEq_refl s, rfl, rfl, rfl⟩
    · rw [if_neg h1] at e
      by_cases h2 : cur = target
      · rw [if_pos h2] at e
        by_cases h3 : prev ≠ 0
        · rw [if_pos h3] at e; cases e; exact ⟨⟨rfl, rfl, rfl, rfl, rfl, rfl⟩, rfl, rfl, rfl⟩
        · rw [if_neg h3] at e; cases e; exact ⟨⟨rfl, rfl, rfl, rfl, rfl, rfl⟩, rfl, rfl, rfl⟩
      · rw [if_neg h2] at e
        exact ih s cur (s.words cur) r e

theorem merge_loop_keeps (fuel : Nat) :
    ∀ (s : Heap) (order off : Nat) (t : Heap), merge_loop fuel s order off = some t →
      GenEq s t ∧ t.buddy_base = s.buddy_base ∧ t.buddy_top_size = s.buddy_top_size := by
  induction fuel with
  | zero =>
    intro s order off t e
    unfold merge_loop at e
    cases e
    exact ⟨(buddy_push_keeps _ _ _).1, rfl, rfl⟩
  | succ k ih =>
    intro s order off t e
    unfold merge_loop at e
    by_cases h1 : order < s.buddy_pool_order
    · rw [if_pos h1] at e
      by_cases h2 : off ^^^ order_size order ≥ s.buddy_top_size
      · rw [if_pos h2] at e; cases e
        exact ⟨(buddy_push_keeps _ _ _).1, rfl, rfl⟩
      · rw [if_neg h2] at e
        cases hb : bin_scan order (off_ptr s (off ^^^ order_size order)) (s.buddy_top_size + 1) s 0
            (s.buddy_bins order) with
        | none => rw [hb] at e; cases e
        | some r =>
          obtain ⟨s1, found⟩ := r
          rw [hb] at e
          obtain ⟨g1, g2, g3, -⟩ := bin_scan_keeps _ _ _ _ _ _ _ hb
          cases found with
          | true =>
            obtain ⟨k1, k2, k3⟩ := ih _ _ _ _ e
            exact ⟨genEq_trans g1 k1, k2.trans g2, k3.trans g3⟩
          | false =>
            cases e
            exact ⟨genEq_trans g1 (buddy_push_keeps _ _ _).1, g2, g3⟩
    · rw [if_neg h1] at e; cases e
      exact ⟨(buddy_push_keeps _ _ _).1, rfl, rfl⟩

theorem buddy_try_merge_keeps (s : Heap) (order p : Nat) (t : Heap)
    (e : buddy_try_merge s order p = some t) :
    GenEq s t ∧ t.buddy_base = s.buddy_base ∧ t.buddy_top_size = s.buddy_top_size := by
  unfold buddy_try_merge at e
  split_ifs at e
  · cases e; exact ⟨genEq_refl s, rfl, rfl⟩
  · cases e; exact ⟨genEq_refl s, rfl, rfl⟩
  · exact merge_loop_keeps _ _ _ _ _ e

theorem split_loop_keeps (order p : Nat) (fuel : Nat) :
    ∀ (s : Heap) (k : Nat), GenEq s (split_loop order p fuel s k) ∧
      (split_loop order p fuel s k).buddy_base = s.buddy_base ∧
      (split_loop order p fuel s k).buddy_top_size = s.buddy_top_size := by
  induction fuel with
  | zero => intro s k; exact ⟨genEq_refl s, rfl, rfl⟩
  | succ j ih =>
    intro s k
    unfold split_loop
    split
    · obtain ⟨k1, k2, k3⟩ := ih (buddy_push s (k - 1) (p + order_size (k - 1))) (k - 1)
      exact ⟨genEq_trans (buddy_push_keeps _ _ _).1 k1, k2, k3⟩
    · exact ⟨genEq_refl s, rfl, rfl⟩

theorem buddy_init_pool_keeps (s : Heap) (mb : Nat) (os : Option Nat) :
    GenEq s (buddy_init_pool s mb os) ∧
    ((buddy_init_pool s mb os).buddy_base = 0 ∨
      (os = some (buddy_init_pool s mb os).buddy_base ∧
       (buddy_init_pool s mb os).buddy_top_size = order_size (buddy_pool_order_init mb))) := by
  unfold buddy_init_pool
  cases os with
  | none => exact ⟨⟨rfl, rfl, rfl, rfl, rfl, rfl⟩, Or.inl rfl⟩
  | some base => exact ⟨⟨rfl, rfl, rfl, rfl, rfl, rfl⟩, Or.inr ⟨rfl, rfl⟩⟩

/-- The function `malloc_buddy_alloc` keeps the general heap; the pool it leaves
is the pool it found or the pool just mapped. -/
theorem malloc_buddy_alloc_keeps (s : Heap) (n : Nat) (os : Option Nat) :
    GenEq s (malloc_buddy_alloc s n os).1 ∧
    (((malloc_buddy_alloc s n os).1.buddy_base = s.buddy_base ∧
      (malloc_buddy_alloc s n os).1.buddy_top_size = s.buddy_top_size) ∨
     (malloc_buddy_alloc s n os).1.buddy_base = 0 ∨
     (os = some (malloc_buddy_alloc s n os).1.buddy_base ∧
      (malloc_buddy_alloc s n os).1.buddy_top_size =
        order_size (buddy_pool_order_init (ALIGN_UP n ALIGN)))) := by
  have key : ∀ s1 : Heap, GenEq s s1 →
      ((s1.buddy_base = s.buddy_base ∧ s1.buddy_top_size = s.buddy_top_size) ∨
        s1.buddy_base = 0 ∨ (os = some s1.buddy_base ∧
          s1.buddy_top_size = order_size (buddy_pool_order_init (ALIGN_UP n ALIGN)))) →
      ∀ t : Heap, GenEq s1 t → t.buddy_base = s1.buddy_base →
        t.buddy_top_size = s1.buddy_top_size →
      GenEq s t ∧ ((t.buddy_base = s.buddy_base ∧ t.buddy_top_size = s.buddy_top_size) ∨
        t.buddy_base = 0 ∨ (os = some t.buddy_base ∧
          t.buddy_top_size = order_size (buddy_pool_order_init (ALIGN_UP n ALIGN)))) := by
    intro s1 g1 c1 t g2 e1 e2
    refine ⟨genEq_trans g1 g2, ?_⟩
    rw [e1, e2]; exact c1
  have hs1 : GenEq s (if s.buddy_base = 0 then buddy_init_pool s (ALIGN_UP n ALIGN) os else s) ∧
      (((if s.buddy_base = 0 then buddy_init_pool s (ALIGN_UP n ALIGN) os else s).buddy_base
          = s.buddy_base ∧
        (if s.buddy_base = 0 then buddy_init_pool s (ALIGN_UP n ALIGN) os else s).buddy_top_size
          = s.buddy_top_size) ∨
       (if s.buddy_base = 0 then buddy_init_pool s (ALIGN_UP n ALIGN) os else s).buddy_base = 0 ∨
       (os = some (if s.buddy_base = 0 then buddy_init_pool s (ALIGN_UP n ALIGN) os
          else s).buddy_base ∧
        (if s.buddy_base = 0 then buddy_init_pool s (ALIGN_UP n ALIGN) os else s).buddy_top_size
          = order_size (buddy_pool_order_init (ALIGN_UP n ALIGN)))) := by
    by_cases h0 : s.buddy_base = 0
    · rw [if_pos h0]
      exact ⟨(buddy_init_pool_keeps _ _ _).1, Or.inr (buddy_init_pool_keeps _ _ _).2⟩
    · rw [if_neg h0]
      exact ⟨genEq_refl s, Or.inl ⟨rfl, rfl⟩⟩
  unfold malloc_buddy_alloc
  by_cases hn : n = 0
  · rw [if_pos hn]; exact ⟨genEq_refl s, Or.inl ⟨rfl, rfl⟩⟩
  rw [if_neg hn]
  simp only []
  generalize (if s.buddy_base = 0 then buddy_init_pool s (ALIGN_UP n ALIGN) os else s) = s1
    at hs1 ⊢
  obtain ⟨g1, c1⟩ := hs1
  split
  · exact key s1 g1 c1 s1 (genEq_refl s1) rfl rfl
  split
  · exact key s1 g1 c1 s1 (genEq_refl s1) rfl rfl
  split
  · exact key s1 g1 c1 s1 (genEq_refl s1) rfl rfl
  · obtain ⟨p1, p2, p3, -⟩ := buddy_pop_keeps s1
      (bin_search s1 (s1.buddy_pool_order + 2)
        (order_loop (add64 (ALIGN_UP n ALIGN) 8) (s1.buddy_pool_order + 1)
          (s1.buddy_pool_order + 2) s1.buddy_order0))
    obtain ⟨q1, q2, q3⟩ := split_loop_keeps
      (order_loop (add64 (ALIGN_UP n ALIGN) 8) (s1.buddy_pool_order + 1)
          (s1.buddy_pool_order + 2) s1.buddy_order0)
      (buddy_pop s1 (bin_search s1 (s1.buddy_pool_order + 2)
        (order_loop (add64 (ALIGN_UP n ALIGN) 8) (s1.buddy_pool_order + 1)
          (s1.buddy_pool_order + 2) s1.buddy_order0))).2
      (bin_search s1 (s1.buddy_pool_order + 2)
        (order_loop (add64 (ALIGN_UP n ALIGN) 8) (s1.buddy_pool_order + 1)
          (s1.buddy_pool_order + 2) s1.buddy_order0) -
        order_loop (add64 (ALIGN_UP n ALIGN) 8) (s1.buddy_pool_order + 1)
          (s1.buddy_pool_order + 2) s1.buddy_order0)
      (buddy_pop s1 (bin_search s1 (s1.buddy_pool_order + 2)
        (order_loop (add64 (ALIGN_UP n ALIGN) 8) (s1.buddy_pool_order + 1)
          (s1.buddy_pool_order + 2) s1.buddy_order0))).1
      (bin_search s1 (s1.buddy_pool_order + 2)
        (order_loop (add64 (ALIGN_UP n ALIGN) 8) (s1.buddy_pool_order + 1)
          (s1.buddy_pool_order + 2) s1.buddy_order0))
    refine key s1 g1 c1 _ ?_ ?_ ?_
    · exact genEq_trans p1 q1
    · exact q2.trans p2
    · exact q3.trans p3

/-- The invariant of the general heap reads the buddy state only through the
extent of the pool. -/
theorem inv_gen {s t : Heap} {blocks live : List Nat} {x : Nat} (h : InvX s blocks live x)
    (hg : GenEq s t)
    (hp : t.buddy_base = 0 ∨ ∀ ar ∈ t.g_arenas,
      ar.1 + ar.2 ≤ t.buddy_base ∨ t.buddy_base + t.buddy_top_size ≤ ar.1) :
    InvX t blocks live x := by
  obtain ⟨m, ars, st, fl, cur, tree, bb, bt, b0, bp, bins, w⟩ := s
  obtain ⟨m2, ars2, st2, fl2, cur2, tree2, bb2, bt2, b02, bp2, bins2, w2⟩ := t
  obtain ⟨e1, e2, e3, e4, e5, e6⟩ := hg
  simp only at e1 e2 e3 e4 e5 e6
  subst e1 e2 e3 e4 e5 e6
  exact { idx := { sorted := h.idx.sorted, cursor := h.idx.cursor, bst := h.idx.bst
                   bal := h.idx.bal, hok := h.idx.hok, nz := h.idx.nz, ptr := h.idx.ptr
                   tree_nil := h.idx.tree_nil }
          chain := h.chain, free_idx := h.free_idx, orphan := h.orphan, unset := h.unset
          noadj := h.noadj, live_iff := h.live_iff, live_nodup := h.live_nodup, pool := hp }

/-- The function `malloc_buddy_alloc` keeps the invariant of the general heap,
the pool it maps being away from the arenas. -/
theorem inv_buddy_alloc {s : Heap} {blocks live : List Nat} (h : InvX s blocks live 0)
    (n : Nat) (os : Option Nat) (hos : PoolOk s n os) :
    InvX (malloc_buddy_alloc s n os).1 blocks live 0 := by
  obtain ⟨g, c⟩ := malloc_buddy_alloc_keeps s n os
  refine inv_gen h g ?_
  rw [g.2.1]
  rcases c with ⟨c1, c2⟩ | c | ⟨c1, c2⟩
  · rw [c1, c2]; exact h.pool
  · exact Or.inl c
  · right
    intro ar har
    rw [c2]
    exact (hos _ c1 ar har).symm

/-- A call of `my_free` that takes the buddy path keeps the invariant of the
general heap. -/
theorem inv_buddy_free {s s1 : Heap} {blocks live : List Nat} (h : InvX s blocks live 0)
    (q : Nat) (hq : (is_buddy_ptr s q).isSome = true) (e : my_free s q = some s1) :
    InvX s1 blocks live 0 := by
  unfold my_free at e
  by_cases q0 : q = 0
  · rw [if_pos q0] at e; cases e; exact h
  · rw [if_neg q0] at e
    cases hb : is_buddy_ptr s q with
    | none => rw [hb] at hq; cases hq
    | some r =>
      rw [hb] at e
      obtain ⟨g, c1, c2⟩ := buddy_try_merge_keeps s r.1 r.2 s1 e
      refine inv_gen h g ?_
      rw [g.2.1, c1, c2]; exact h.pool

/-! ## The heap invariant in every reachable state -/

/-- The call `lock_strategy(st)` returns exactly when the latch is unset or
already holds `st`. -/
theorem lock_strategy_some (s : Heap) (st : Strategy) :
    (s.g_strat = Strategy.UNSET ∨ s.g_strat = st) ↔ ∃ s0, lock_strategy s st = some s0 := by
  unfold lock_strategy
  by_cases hu : s.g_strat = Strategy.UNSET
  · rw [if_pos hu]
    exact ⟨fun _ => ⟨_, rfl⟩, fun _ => Or.inl hu⟩
  · rw [if_neg hu]
    by_cases hne : s.g_strat ≠ st
    · rw [if_pos hne]
      constructor
      · rintro (h | h)
        · exact absurd h hu
        · exact absurd h hne
      · rintro ⟨s0, h⟩; cases h
    · rw [if_neg hne]
      exact ⟨fun _ => ⟨_, rfl⟩, fun _ => Or.inr (not_not.1 hne)⟩

/-- A strategy-driven allocator in a state that satisfies the invariant, the
latch permitting the call: the call returns and keeps the invariant; `s0` is
the state after `lock_strategy` and `b` the block `allocate_general` returns. -/
theorem inv_malloc {s : Heap} {blocks live : List Nat} (h : InvX s blocks live 0)
    (st : Strategy) (hst : st ≠ Strategy.UNSET)
    (hl : s.g_strat = Strategy.UNSET ∨ s.g_strat = st) (n : Nat) (os : Option Nat)
    (hos : OsOk s (arena_need (ALIGN_UP n ALIGN)) os) :
    ∃ s0 s1 b blocks2, lock_strategy s st = some s0 ∧ s0.g_strat = st ∧
      InvX s0 blocks live 0 ∧
      allocate_general s0 n os = some (s1, b) ∧
      malloc_fit st s n os = some (s1, if b ≠ 0 then b + 64 else 0) ∧
      InvX s1 blocks2 (if b = 0 then live else (b + 64) :: live) 0 ∧
      s1.g_strat = st ∧
      (b ≠ 0 → b ∈ blocks2 ∧ ALIGN_UP n ALIGN ≤ (s1.mem b).size) ∧
      (n = 0 → s1 = s0 ∧ b = 0) ∧
      (n ≠ 0 → b = 0 → os = none ∧ ∀ a ∈ s0.idx, (s0.mem a).size < ALIGN_UP n ALIGN) ∧
      (n ≠ 0 → os ≠ none → b ≠ 0) ∧
      (os = none → (∀ a ∈ s0.idx, (s0.mem a).size < ALIGN_UP n ALIGN) → b = 0) ∧
      s0.mem = s.mem ∧ s0.g_arenas = s.g_arenas ∧ s0.g_free_head = s.g_free_head ∧
      s0.g_avl_root = s.g_avl_root ∧ s0.g_nextfit_cursor = s.g_nextfit_cursor := by
  obtain ⟨s0, e0⟩ := (lock_strategy_some s st).1 hl
  obtain ⟨h0, hs0⟩ := inv_lock_strategy h st e0
  have hfr : s0.g_arenas = s.g_arenas ∧ s0.buddy_base = s.buddy_base ∧
      s0.buddy_top_size = s.buddy_top_size ∧ s0.mem = s.mem ∧
      s0.g_free_head = s.g_free_head ∧ s0.g_avl_root = s.g_avl_root ∧
      s0.g_nextfit_cursor = s.g_nextfit_cursor := by
    unfold lock_strategy at e0
    split_ifs at e0 <;> cases e0 <;> exact ⟨rfl, rfl, rfl, rfl, rfl, rfl, rfl⟩
  have hos0 : OsOk s0 (arena_need (ALIGN_UP n ALIGN)) os := by
    unfold OsOk at hos ⊢
    rw [hfr.1, hfr.2.1, hfr.2.2.1]; exact hos
  obtain ⟨s1, b, blocks2, e1, a1, a2, a3, a4, a5, a6, a7⟩ :=
    inv_allocate h0 n os (by rw [hs0]; exact hst) hos0
  refine ⟨s0, s1, b, blocks2, e0, hs0, h0, e1, ?_, a1, a2.trans hs0, a3, a4, a5, a6, a7,
    hfr.2.2.2.1, hfr.1, hfr.2.2.2.2⟩
  unfold malloc_fit
  rw [e0]
  simp only []
  rw [e1]
  rfl

/-- A returning call of a strategy-driven allocator found the latch unset or
at its own strategy. -/
theorem malloc_fit_latch (st : Strategy) (s : Heap) (n : Nat) (os : Option Nat)
    (r : Heap × Nat) (e : malloc_fit st s n os = some r) :
    s.g_strat = Strategy.UNSET ∨ s.g_strat = st := by
  rw [lock_strategy_some]
  unfold malloc_fit at e
  cases hl : lock_strategy s st with
  | none => rw [hl] at e; cases e
  | some s0 => exact ⟨s0, rfl⟩

/-- A pointer of a live block is not claimed by the buddy classifier. -/
theorem live_not_buddy {s : Heap} {blocks live : List Nat} (h : InvX s blocks live 0)
    (p : Nat) (hp : p ∈ live) : p ≠ 0 ∧ is_buddy_ptr s p = none := by
  obtain ⟨b, hb, -, -, hpb⟩ := (h.live_iff p).1 hp
  refine ⟨by omega, is_buddy_ptr_outside s p ?_⟩
  rcases h.pool with k | k
  · exact Or.inl k
  · right
    obtain ⟨ar, har, a1, a2, -, -⟩ := (h.chain.blk b hb).arena
    have := k ar har
    have hle : add64 s.buddy_base s.buddy_top_size ≤ s.buddy_base + s.buddy_top_size := by
      unfold add64; exact Nat.mod_le _ _
    omega

/-- The header of a live pointer. -/
theorem live_ptr_to_blk {s : Heap} {blocks live : List Nat} (h : InvX s blocks live 0)
    (p : Nat) (hp : p ∈ live) : ptr_to_blk p = p - 64 := by
  obtain ⟨b, hb, -, -, hpb⟩ := (h.live_iff p).1 hp
  have := chain_bounds h.chain b hb
  unfold ptr_to_blk sub64 SIZE_MOD
  rw [HDR_SZ_eq]
  omega

/-- The call `my_free(p)` of a live pointer in a state that satisfies the
invariant: it is `free_general(p)`, it keeps the invariant, and `p` is no
longer live. -/
theorem inv_free {s : Heap} {blocks live : List Nat} (h : InvX s blocks live 0)
    (p : Nat) (hp : p ∈ live) :
    ∃ blocks2, my_free s p = some (free_general s p) ∧
      InvX (free_general s p) blocks2 (live.erase p) 0 ∧ (∀ z, z ∈ blocks2 → z ∈ blocks) := by
  obtain ⟨p0, hnb⟩ := live_not_buddy h p hp
  obtain ⟨r1, r2, r3⟩ := inv_release h p hp
  have F := store_flag s.mem (p - 64) 1 (p - 64)
  obtain ⟨blocks2, c1, c2⟩ := inv_coalesce r3 r1
    (by show (store s.mem (p - 64) (fun B => { B with is_free := 1 }) (p - 64)).is_free ≠ 0
        rw [F.2.2.2, if_pos rfl]; exact Nat.one_ne_zero)
  have e : free_general s p = coalesce_and_insert
      { s with mem := store s.mem (p - 64) (fun B => { B with is_free := 1 }) } (p - 64) := by
    unfold free_general
    rw [if_neg p0, live_ptr_to_blk h p hp, if_neg (not_not.2 r2)]
  refine ⟨blocks2, ?_, by rw [e]; exact c1, c2⟩
  unfold my_free
  rw [if_neg p0, hnb]

/-- The state given by the static initialisers satisfies the invariant, with no
arena and no block. -/
theorem inv_zero : InvX Heap.zero [] [] 0 :=
  { idx := { sorted := List.Pairwise.nil, cursor := Or.inl rfl, bst := by decide,
             bal := by decide, hok := by decide
             nz := ⟨List.not_mem_nil 0, List.not_mem_nil 0⟩
             ptr := fun a ha => absurd ha (List.not_mem_nil a)
             tree_nil := fun _ => rfl }
    chain := ⟨fun ar har => absurd har (List.not_mem_nil ar),
              fun a ha => absurd ha (List.not_mem_nil a),
              fun ar har => absurd har (List.not_mem_nil ar),
              fun a ha => absurd ha (List.not_mem_nil a),
              fun a ha => absurd ha (List.not_mem_nil a)⟩
    free_idx := fun a => by
      show (a ∈ ([] : List Nat) ∨ a ∈ ([] : List Nat)) ↔ _
      simp
    orphan := fun a ha => absurd ha (List.not_mem_nil a)
    unset := fun _ => ⟨rfl, fun a ha => absurd ha (List.not_mem_nil a)⟩
    noadj := fun a ha => absurd ha (List.not_mem_nil a)
    live_iff := fun p => by simp
    live_nodup := List.nodup_nil
    pool := Or.inl rfl }

/-- Every reachable state satisfies the invariant of the general heap. -/
theorem reach_inv {s : Heap} {live : List Nat} (h : Reach s live) :
    ∃ blocks, HeapInv s blocks live := by
  induction h with
  | boot os hos =>
    cases os with
    | none => exact ⟨[], inv_zero⟩
    | some base =>
      exact ⟨_, (inv_map inv_zero ARENA_MIN base (by decide) (by decide) hos).1⟩
  | init s s1 live st _ e ih =>
    obtain ⟨blocks, hi⟩ := ih
    exact ⟨blocks, (inv_lock_strategy hi st e).1⟩
  | malloc s s1 live st n p os _ hst hos e ih =>
    obtain ⟨blocks, hi⟩ := ih
    obtain ⟨s0, s2, b, blocks2, -, -, -, -, e2, a1, -⟩ :=
      inv_malloc hi st hst (malloc_fit_latch st s n os _ e) n os hos
    rw [e] at e2
    cases e2
    refine ⟨blocks2, ?_⟩
    by_cases hb : b = 0
    · rw [if_pos hb] at a1
      rw [if_neg (not_not.2 hb), if_pos rfl]; exact a1
    · rw [if_neg hb] at a1
      rw [if_pos hb, if_neg (by omega)]; exact a1
  | free s s1 live p _ hp e ih =>
    obtain ⟨blocks, hi⟩ := ih
    obtain ⟨blocks2, e2, a1, -⟩ := inv_free hi p hp
    rw [e] at e2
    cases e2
    exact ⟨blocks2, a1⟩
  | balloc s live n os _ hos ih =>
    obtain ⟨blocks, hi⟩ := ih
    exact ⟨blocks, inv_buddy_alloc hi n os hos⟩
  | bfree s s1 live q _ hq e ih =>
    obtain ⟨blocks, hi⟩ := ih
    exact ⟨blocks, inv_buddy_free hi q hq e⟩

/-! ## The walk along a physical chain -/

/-- A walk along `next_phys` that starts at a block (or at `NULL`) meets only
blocks. -/
theorem phys_chain_sound {m : Nat → Block} {ars : List (Nat × Nat)} {blocks : List Nat}
    (h : ChainOK m ars blocks) (fuel : Nat) :
    ∀ b0, (b0 = 0 ∨ b0 ∈ blocks) → ∀ b ∈ phys_chain m fuel b0, b ∈ blocks := by
  induction fuel with
  | zero => intro b0 _ b hb; exact absurd hb (List.not_mem_nil b)
  | succ k ih =>
    intro b0 hb0 b hb
    unfold phys_chain at hb
    by_cases e : b0 = 0
    · rw [if_pos e] at hb; exact absurd hb (List.not_mem_nil b)
    · rw [if_neg e] at hb
      have hb1 : b0 ∈ blocks := hb0.resolve_left e
      rcases List.mem_cons.1 hb with e2 | hb2
      · rw [e2]; exact hb1
      · refine ih (m b0).next_phys ?_ b hb2
        by_cases e3 : (m b0).next_phys = 0
        · exact Or.inl e3
        · exact Or.inr ((h.blk b0 hb1).nxt e3).1

/-- A walk along `next_phys` with enough fuel to cross the arena meets every
block of the arena from its start on. -/
theorem phys_chain_complete {m : Nat → Block} {ars : List (Nat × Nat)} {blocks : List Nat}
    (h : ChainOK m ars blocks) (ar : Nat × Nat) (har : ar ∈ ars) (a : Nat) (ha : a ∈ blocks)
    (ha2 : a + 64 + (m a).size ≤ ar.1 + ar.2) (fuel : Nat) :
    ∀ b, b ∈ blocks → ar.1 + 16 ≤ b → b + 64 + (m b).size ≤ ar.1 + ar.2 →
      ar.1 + ar.2 ≤ b + fuel → b ≤ a → a ∈ phys_chain m fuel b := by
  induction fuel with
  | zero => intro b _ _ h2 h3 _; omega
  | succ k ih =>
    intro b hb h1 h2 h3 h4
    have bb := chain_bounds h b hb
    unfold phys_chain
    rw [if_neg (by omega)]
    by_cases e : a = b
    · rw [e]; exact List.mem_cons_self _ _
    · refine List.mem_cons_of_mem _ ?_
      have d := h.disj b hb a ha (Ne.symm e)
      obtain ⟨ar2, har2, c1, c2, -, c4⟩ := (h.blk b hb).arena
      have e2 : ar2 = ar := arena_unique h ar2 ar har2 har b (by omega) (by omega)
      rw [e2] at c4
      by_cases e3 : (m b).next_phys = 0
      · have := c4 e3; omega
      · obtain ⟨n1, n2, -, n4⟩ := chain_next h b hb e3
        obtain ⟨k1, -⟩ := n4 ar har h1 h2
        exact ih _ n1 (by omega) k1 (by omega) (by omega)

/-- The blocks are exactly the headers on the physical chains of the arenas. -/
theorem blocks_iff_chain {s : Heap} {blocks live : List Nat} {x : Nat}
    (h : InvX s blocks live x) (a : Nat) :
    a ∈ blocks ↔ ∃ ar ∈ s.g_arenas, a ∈ s.chain ar := by
  constructor
  · intro ha
    obtain ⟨ar, har, a1, a2, -, -⟩ := (h.chain.blk a ha).arena
    obtain ⟨f1, -⟩ := h.chain.first ar har
    obtain ⟨ar2, har2, c1, c2, c3, -⟩ := (h.chain.blk _ f1).arena
    have e2 : ar2 = ar := arena_unique h.chain ar2 ar har2 har (ar.1 + 16) (by omega)
      (by have := (h.chain.arenas ar har).2.2.2; omega)
    rw [e2] at c2
    exact ⟨ar, har, phys_chain_complete h.chain ar har a ha a2 ar.2 _ f1 (le_refl _) c2
      (by omega) a1⟩
  · rintro ⟨ar, har, ha⟩
    exact phys_chain_sound h.chain ar.2 _ (Or.inr (h.chain.first ar har).1) a ha

/-- In a state that satisfies the invariant no block on a physical chain is
free together with its successor. -/
theorem inv_no_adj {s : Heap} {blocks live : List Nat} (h : InvX s blocks live 0) :
    (∀ ar ∈ s.g_arenas, ∀ b ∈ s.chain ar, adj_free s b = false) ∧ free_pairs s = 0 := by
  have key : ∀ ar ∈ s.g_arenas, ∀ b ∈ s.chain ar, adj_free s b = false := by
    intro ar har b hb
    have hb2 := (blocks_iff_chain h b).2 ⟨ar, har, hb⟩
    unfold adj_free
    rw [decide_eq_false_iff_not]
    rintro ⟨h1, h2, h3⟩
    exact h3 (h.noadj b hb2 (invX_nz h b hb2) h1 h2 h2)
  refine ⟨key, ?_⟩
  unfold free_pairs
  apply List.sum_eq_zero
  intro n hn
  obtain ⟨ar, har, e⟩ := List.mem_map.1 hn
  rw [← e, List.countP_eq_zero]
  intro b hb
  rw [key ar har b hb]
  exact Bool.false_ne_true

/-- The blocks in an index slot are the members of the active index and the
blocks left on the free list. -/
theorem listed_iff {s : Heap} (h : IdxOK s) (a : Nat) :
    s.listed a = true ↔ (a ∈ s.idx ∨ a ∈ s.orphans) := by
  unfold Heap.listed
  rw [decide_eq_true_iff]
  by_cases ht : s.g_strat = Strategy.BEST ∨ s.g_strat = Strategy.WORST
  · rw [(idx_of_tree s ht).1, (idx_of_tree s ht).2]
    exact Or.comm
  · rw [(idx_of_list s ht).1, (idx_of_list s ht).2, h.tree_nil ht]
    constructor
    · rintro (k | k)
      · exact Or.inl k
      · exact absurd k (List.not_mem_nil _)
    · rintro (k | k)
      · exact Or.inl k
      · exact absurd k (List.not_mem_nil _)

/-- Under the invariant, also while a block is in transit, no block in an
index slot has a physical successor in an index slot, and the block in transit
is in no index slot. -/
theorem inv_listed_pairs {s : Heap} {blocks live : List Nat} {x : Nat}
    (h : InvX s blocks live x) :
    (∀ ar ∈ s.g_arenas, ∀ b ∈ s.chain ar, adj_listed s b = false) ∧ listed_pairs s = 0 ∧
    (x ≠ 0 → s.listed x = false) := by
  have key : ∀ ar ∈ s.g_arenas, ∀ b ∈ s.chain ar, adj_listed s b = false := by
    intro ar har b hb
    have hb2 := (blocks_iff_chain h b).2 ⟨ar, har, hb⟩
    rw [← Bool.not_eq_true]
    intro hadj
    unfold adj_listed at hadj
    rw [Bool.and_eq_true, Bool.and_eq_true, decide_eq_true_iff] at hadj
    obtain ⟨q1, q2, q3⟩ := hadj
    obtain ⟨-, b1, b2⟩ := (h.free_idx b).1 ((listed_iff h.idx b).1 q1)
    obtain ⟨-, n1, n2⟩ := (h.free_idx _).1 ((listed_iff h.idx _).1 q3)
    exact n2 (h.noadj b hb2 b1 b2 n1 q2)
  refine ⟨key, ?_, ?_⟩
  · unfold listed_pairs
    apply List.sum_eq_zero
    intro n hn
    obtain ⟨ar, har, e⟩ := List.mem_map.1 hn
    rw [← e, List.countP_eq_zero]
    intro b hb
    rw [key ar har b hb]
    exact Bool.false_ne_true
  · intro _
    rw [← Bool.not_eq_true]
    intro hl
    exact ((h.free_idx x).1 ((listed_iff h.idx x).1 hl)).2.1 rfl

/-- Between two calls of the interface a block of a chain is in an index
slot exactly when its flag `is_free` is set. -/
theorem inv_listed_flag {s : Heap} {blocks live : List Nat} (h : InvX s blocks live 0) :
    ∀ ar ∈ s.g_arenas, ∀ b ∈ s.chain ar, (s.listed b = true ↔ (s.mem b).is_free ≠ 0) := by
  intro ar har b hb
  have hb2 := (blocks_iff_chain h b).2 ⟨ar, har, hb⟩
  rw [listed_iff h.idx, h.free_idx]
  exact ⟨fun k => k.2.2, fun k => ⟨hb2, invX_nz h b hb2, k⟩⟩

/-! ## Consequences of the heap invariant -/

/-- In a state that satisfies the invariant every live pointer and every block
header on a physical chain is a multiple of 16. -/
theorem inv_aligned {s : Heap} {blocks live : List Nat} (h : InvX s blocks live 0) :
    (∀ q ∈ live, q % 16 = 0) ∧ (∀ ar ∈ s.g_arenas, ∀ b ∈ s.chain ar, b % 16 = 0) := by
  constructor
  · intro q hq
    obtain ⟨a, ha, -, -, e⟩ := (h.live_iff q).1 hq
    have := (h.chain.blk a ha).al
    omega
  · intro ar har b hb
    exact (h.chain.blk b ((blocks_iff_chain h b).2 ⟨ar, har, hb⟩)).al

/-- After a successful `map_arena` the second lookup of `allocate_general`
finds a block. -/
theorem retry_finds {s : Heap} {blocks live : List Nat} (h : InvX s blocks live 0)
    (size : Nat) (os : Option Nat) (hst : s.g_strat ≠ Strategy.UNSET)
    (hos : OsOk s (arena_need (ALIGN_UP size ALIGN)) os) (s2 : Heap) (b : Nat)
    (e : index_find s (ALIGN_UP size ALIGN) = some (s2, b)) (hn : os ≠ none) :
    ∃ s3 b2, index_find (map_arena s2 (ALIGN_UP size ALIGN) os).1 (ALIGN_UP size ALIGN)
      = some (s3, b2) ∧ b2 ≠ 0 := by
  obtain ⟨hal, hlt⟩ := ALIGN_UP_facts size
  obtain ⟨c, b1, e1, I1, -, -⟩ := idx_find s (ALIGN_UP size ALIGN) h.idx hst
  rw [e1] at e
  cases e
  have h1 := inv_cursor h c I1
  cases os with
  | none => exact absurd rfl hn
  | some base =>
    obtain ⟨m1, -, -, m4, m5, m6⟩ := inv_map h1 (ALIGN_UP size ALIGN) base hal hlt hos
    have hst3 : (map_arena { s with g_nextfit_cursor := c } (ALIGN_UP size ALIGN)
        (some base)).1.g_strat ≠ Strategy.UNSET := by rw [m6]; exact hst
    obtain ⟨c2, b2, e2, -, -, g2⟩ := idx_find _ (ALIGN_UP size ALIGN) m1.idx hst3
    refine ⟨_, b2, e2, ?_⟩
    intro e
    have := g2 e _ m4
    exact absurd m5 (by unfold Heap.sz at this; omega)

/-- After `split_block` in `allocate_general` every adjacent free-free pair
starts at the block being handed out. -/
theorem split_pairs {s : Heap} {blocks live : List Nat} (h : InvX s blocks live 0)
    (b need : Nat) (hb : b ∈ s.idx) (hal : need % 16 = 0) (hle : need ≤ (s.mem b).size)
    (hst : s.g_strat ≠ Strategy.UNSET) :
    ∀ ar ∈ (split_block (index_remove s b) b need).g_arenas,
      ∀ a ∈ (split_block (index_remove s b) b need).chain ar,
        adj_free (split_block (index_remove s b) b need) a = true → a = b := by
  obtain ⟨k1, k2, k3⟩ := (h.free_idx b).1 (Or.inl hb)
  have t1 := inv_take h b hb hst
  have hm : (index_remove s b).mem = s.mem := (index_remove_frame s b).1
  have hnf : ((index_remove s b).mem b).next_phys ≠ 0 →
      ((index_remove s b).mem ((index_remove s b).mem b).next_phys).is_free = 0 := by
    rw [hm]
    intro h0
    exact h.noadj b k1 k2 k3 h0 h0
  obtain ⟨blocks2, t2, hb2, -, hp, hf⟩ := inv_split t1 k1 need hal (by rw [hm]; exact hle) hnf
  rw [hm] at hp hf
  intro ar har a ha hadj
  have ha2 := (blocks_iff_chain t2 a).2 ⟨ar, har, ha⟩
  unfold adj_free at hadj
  rw [decide_eq_true_iff] at hadj
  obtain ⟨q1, q2, q3⟩ := hadj
  by_contra hab
  by_cases hnb : ((split_block (index_remove s b) b need).mem a).next_phys = b
  · have hpa := ((t2.chain.blk a ha2).nxt q2).2.2
    rw [hnb, hp] at hpa
    have hp0 : (s.mem b).prev_phys ≠ 0 := by rw [hpa]; exact invX_nz t2 a ha2
    obtain ⟨p1, p2⟩ := (h.chain.blk b k1).prv hp0
    rw [hpa] at p1 p2
    rw [hf a p1] at q1
    have := h.noadj a p1 (invX_nz h a p1) q1 (by rw [p2]; exact k2) (by rw [p2]; exact k2)
    rw [p2] at this
    exact k3 this
  · exact q3 (t2.noadj a ha2 hab q1 hnb q2)

theorem osOk_none (s : Heap) (need : Nat) : OsOk s need none :=
  fun _ hb => Option.noConfusion hb

/-- The answer `65536` of `mmap` at program start meets the assumption. -/
theorem osOk_boot : OsOk Heap.zero (arena_need ARENA_MIN) (some 65536) := by
  intro base hb
  cases hb
  exact ⟨by decide, by decide, by decide, fun ar har => absurd har (List.not_mem_nil ar),
    Or.inl rfl⟩

theorem reach_heapDemo : Reach heapDemo [] := Reach.boot (some 65536) osOk_boot

theorem reach_heapDemo1 : Reach heapDemo1.1 [65616] :=
  Reach.malloc heapDemo heapDemo1.1 [] Strategy.FIRST 100 65616 none reach_heapDemo
    (by decide) (osOk_none _ _) rfl

/-! ## Claims on the general heap: alignment, failure, adjacent free blocks, double free -/

/-- Claim C2: alignment of the pointers of the strategy-driven allocators.
In a state reached from program start by `allocator_init`, the four
allocators, `malloc_buddy_alloc` and `my_free` (`Reach`), every answer of
`mmap` being a fresh region whose base is a multiple of 16 (`OsOk`), a call
of `malloc_first_fit`,
`malloc_next_fit`, `malloc_best_fit` or `malloc_worst_fit` with any size `n`
that returns the pointer `p` has `p % 16 = 0`; every pointer that is live is a
multiple of 16; and every block header on every physical chain, before and
after the call, sits at a multiple of 16. -/
theorem malloc_pointer_aligned (s : Heap) (live : List Nat) (h : Reach s live)
    (n : Nat) (os : Option Nat) (hos : OsOk s (arena_need (ALIGN_UP n ALIGN)) os)
    (s1 : Heap) (p : Nat)
    (e : malloc_first_fit s n os = some (s1, p) ∨ malloc_next_fit s n os = some (s1, p) ∨
      malloc_best_fit s n os = some (s1, p) ∨ malloc_worst_fit s n os = some (s1, p)) :
    p % 16 = 0 ∧ (∀ q ∈ live, q % 16 = 0) ∧
    (∀ ar ∈ s1.g_arenas, ∀ b ∈ s1.chain ar, b % 16 = 0) ∧
    (∀ ar ∈ s.g_arenas, ∀ b ∈ s.chain ar, b % 16 = 0) := by
  have key : ∃ st, st ≠ Strategy.UNSET ∧ malloc_fit st s n os = some (s1, p) := by
    rcases e with e | e | e | e
    · exact ⟨Strategy.FIRST, by decide, e⟩
    · exact ⟨Strategy.NEXT, by decide, e⟩
    · exact ⟨Strategy.BEST, by decide, e⟩
    · exact ⟨Strategy.WORST, by decide, e⟩
  obtain ⟨st, hst, e2⟩ := key
  obtain ⟨blocks, hi⟩ := reach_inv h
  obtain ⟨blocks1, hi1⟩ := reach_inv (Reach.malloc s s1 live st n p os h hst hos e2)
  obtain ⟨l1, c1⟩ := inv_aligned hi1
  refine ⟨?_, (inv_aligned hi).1, c1, (inv_aligned hi).2⟩
  by_cases hp : p = 0
  · rw [hp]
  · rw [if_neg hp] at l1
    exact l1 p (List.mem_cons_self _ _)

/-- Witness for claim C2: at program start (one arena mapped at `65536`)
`malloc_first_fit(100)` returns the pointer `65616`. -/
theorem malloc_pointer_aligned_witness :
    Reach heapDemo [] ∧ malloc_first_fit heapDemo 100 none = some heapDemo1 ∧
    heapDemo1.2 = 65616 ∧ heapDemo1.2 % 16 = 0 ∧
    (∀ ar ∈ heapDemo1.1.g_arenas, ∀ b ∈ heapDemo1.1.chain ar, b % 16 = 0) :=
  ⟨reach_heapDemo, rfl, by decide,
   (malloc_pointer_aligned heapDemo [] reach_heapDemo 100 none (osOk_none _ _)
      heapDemo1.1 heapDemo1.2 (Or.inl rfl)).1,
   (malloc_pointer_aligned heapDemo [] reach_heapDemo 100 none (osOk_none _ _)
      heapDemo1.1 heapDemo1.2 (Or.inl rfl)).2.2.1⟩

/-- Claim C3: when a strategy-driven allocator returns `NULL`.  In a reachable
state whose latch is unset or holds the strategy `st` of the allocator called
(`malloc_first_fit s n os` is `malloc_fit Strategy.FIRST s n os`, and likewise
for next, best and worst fit), with `mmap` answering `os`, the call returns; the
state `s0` after `lock_strategy` differs from `s` in the latch only; for `n = 0`
the result is `NULL` and the state is `s0`, so arenas, chains and index are
unchanged; for `n > 0` the result is `NULL` only if `mmap` fails and no block
of the active index has the rounded size, and it is `NULL` in that case; when
`mmap` succeeds the result is not `NULL`, and the lookup that follows a
successful `map_arena` always finds a block. -/
theorem malloc_null_only_without_memory (s : Heap) (live : List Nat) (h : Reach s live)
    (st : Strategy) (hst : st ≠ Strategy.UNSET)
    (hl : s.g_strat = Strategy.UNSET ∨ s.g_strat = st)
    (n : Nat) (os : Option Nat) (hos : OsOk s (arena_need (ALIGN_UP n ALIGN)) os) :
    ∃ s0 s1 p, lock_strategy s st = some s0 ∧ malloc_fit st s n os = some (s1, p) ∧
      (s0.mem = s.mem ∧ s0.g_arenas = s.g_arenas ∧ s0.g_free_head = s.g_free_head ∧
        s0.g_avl_root = s.g_avl_root ∧ s0.g_nextfit_cursor = s.g_nextfit_cursor) ∧
      (n = 0 → p = 0 ∧ s1 = s0) ∧
      (n ≠ 0 → p = 0 → os = none ∧ ∀ a ∈ s0.idx, (s0.mem a).size < ALIGN_UP n ALIGN) ∧
      (n ≠ 0 → os = none → (∀ a ∈ s0.idx, (s0.mem a).size < ALIGN_UP n ALIGN) → p = 0) ∧
      (n ≠ 0 → os ≠ none → p ≠ 0) ∧
      (∀ s2 b, index_find s0 (ALIGN_UP n ALIGN) = some (s2, b) → os ≠ none →
        ∃ s3 b2, index_find (map_arena s2 (ALIGN_UP n ALIGN) os).1 (ALIGN_UP n ALIGN)
          = some (s3, b2) ∧ b2 ≠ 0) := by
  obtain ⟨blocks, hi⟩ := reach_inv h
  obtain ⟨s0, s1, b, blocks2, e0, hs0, h0, -, e2, -, -, -, a4, a5, a6, a7, f1, f2, f3, f4, f5⟩ :=
    inv_malloc hi st hst hl n os hos
  have hos0 : OsOk s0 (arena_need (ALIGN_UP n ALIGN)) os := by
    have hb : s0.buddy_base = s.buddy_base ∧ s0.buddy_top_size = s.buddy_top_size := by
      unfold lock_strategy at e0
      split_ifs at e0 <;> cases e0 <;> exact ⟨rfl, rfl⟩
    unfold OsOk at hos ⊢
    rw [f2, hb.1, hb.2]; exact hos
  refine ⟨s0, s1, _, e0, e2, ⟨f1, f2, f3, f4, f5⟩, ?_, ?_, ?_, ?_, ?_⟩
  · intro hn
    obtain ⟨k1, k2⟩ := a4 hn
    exact ⟨by rw [k2]; rfl, k1⟩
  · intro hn hp
    by_cases hb : b = 0
    · exact a5 hn hb
    · rw [if_pos hb] at hp; omega
  · intro _ ho hno
    rw [a7 ho hno]; rfl
  · intro hn ho
    rw [if_pos (a6 hn ho)]; omega
  · intro s2 b1 e1 ho
    exact retry_finds h0 n os (by rw [hs0]; exact hst) hos0 s2 b1 e1 ho

/-- The answer `4194304` of `mmap` to a request made at program start. -/
theorem osOk_second (n : Nat) (hn : arena_need (ALIGN_UP n ALIGN) ≤ 2 ^ 32) :
    OsOk heapDemo (arena_need (ALIGN_UP n ALIGN)) (some 4194304) := by
  intro base hb
  cases hb
  refine ⟨by decide, by decide, by omega, ?_, Or.inl rfl⟩
  intro ar har
  have e : ar = (65536, 1048656) := by
    have : heapDemo.g_arenas = [(65536, 1048656)] := by decide
    rw [this] at har
    exact List.mem_singleton.1 har
  rw [e]
  right
  decide

/-- Witness for claim C3: at program start the only block has `1048576`
bytes; `malloc_first_fit(2097152)` misses, `mmap` answers `4194304`, and the
call returns a pointer that is not `NULL`. -/
theorem malloc_null_only_without_memory_witness :
    Reach heapDemo [] ∧
    ∃ s0 s1 p, lock_strategy heapDemo Strategy.FIRST = some s0 ∧
      malloc_first_fit heapDemo 2097152 (some 4194304) = some (s1, p) ∧ p ≠ 0 :=
  ⟨reach_heapDemo,
   (malloc_null_only_without_memory heapDemo [] reach_heapDemo Strategy.FIRST (by decide)
      (Or.inl rfl) 2097152 (some 4194304) (osOk_second 2097152 (by decide))).elim
     (fun s0 r0 => r0.elim (fun s1 r1 => r1.elim (fun p r =>
       ⟨s0, s1, p, r.1, r.2.1, r.2.2.2.2.2.2.1 (by decide) (by decide)⟩)))⟩

/-- Claim C7: no adjacent free blocks.  In every state reachable from program
start by `allocator_init`, the strategy-driven allocators,
`malloc_buddy_alloc` and `my_free` (each live pointer of a strategy-driven
allocator freed at most once, `mmap` answering fresh regions), no block on
the physical chain of an arena is free together with its physical successor,
so the number of adjacent free-free pairs is zero; a block of a chain has its
flag `is_free` set exactly when it is in an index slot, so this holds of the
flags and of the index slots alike.  `my_free` of a live pointer is
`free_general`, which sets the flag and calls `coalesce_and_insert`:
`coalesce_and_insert` is called in a state without adjacent free blocks (the
block being freed is in no index slot yet) and leaves a state without adjacent
free blocks, in which no flagged block has a flagged successor.
`split_block(b, need)` is called by `allocate_general` on the block `b` that
it has found and removed from the index, the block being allocated: in the
state of the call and in the state after it `b` is in no index slot and no
block in an index slot has a successor in an index slot, so `split_block`
preserves the absence of adjacent free blocks; no block other than `b` is
flagged free together with its successor, and once `allocate_general` has
cleared the flag of `b` no flagged block has a flagged successor. -/
theorem no_adjacent_free_blocks (s : Heap) (live : List Nat) (h : Reach s live) :
    (∀ ar ∈ s.g_arenas, ∀ b ∈ s.chain ar, adj_free s b = false) ∧ free_pairs s = 0 ∧
    (∀ ar ∈ s.g_arenas, ∀ b ∈ s.chain ar, (s.listed b = true ↔ (s.mem b).is_free ≠ 0)) ∧
    listed_pairs s = 0 ∧
    (∀ p ∈ live, my_free s p = some (free_general s p) ∧
      free_general s p = coalesce_and_insert
        { s with mem := store s.mem (ptr_to_blk p) (fun B => { B with is_free := 1 }) }
        (ptr_to_blk p) ∧
      Heap.listed
        { s with mem := store s.mem (ptr_to_blk p) (fun B => { B with is_free := 1 }) }
        (ptr_to_blk p) = false ∧
      listed_pairs
        { s with mem := store s.mem (ptr_to_blk p) (fun B => { B with is_free := 1 }) } = 0 ∧
      listed_pairs (free_general s p) = 0 ∧
      free_pairs (free_general s p) = 0) ∧
    (∀ b ∈ s.idx, s.g_strat ≠ Strategy.UNSET → ∀ need, need % 16 = 0 →
      need ≤ (s.mem b).size →
      (index_remove s b).listed b = false ∧
      listed_pairs (index_remove s b) = 0 ∧
      (split_block (index_remove s b) b need).listed b = false ∧
      listed_pairs (split_block (index_remove s b) b need) = 0 ∧
      (∀ ar ∈ (split_block (index_remove s b) b need).g_arenas,
        ∀ a ∈ (split_block (index_remove s b) b need).chain ar,
          adj_free (split_block (index_remove s b) b need) a = true → a = b) ∧
      free_pairs (alloc_found s b need).1 = 0 ∧
      listed_pairs (alloc_found s b need).1 = 0) := by
  obtain ⟨blocks, hi⟩ := reach_inv h
  refine ⟨(inv_no_adj hi).1, (inv_no_adj hi).2, inv_listed_flag hi, (inv_listed_pairs hi).2.1,
    ?_, ?_⟩
  · intro p hp
    obtain ⟨blocks2, e1, i2, -⟩ := inv_free hi p hp
    obtain ⟨p0, -⟩ := live_not_buddy hi p hp
    obtain ⟨r1, r2, r3⟩ := inv_release hi p hp
    have hpb := live_ptr_to_blk hi p hp
    have b0 : p - 64 ≠ 0 := invX_nz hi _ r1
    refine ⟨e1, ?_, ?_, ?_, (inv_listed_pairs i2).2.1, (inv_no_adj i2).2⟩
    · unfold free_general
      have r4 : ¬ (s.mem (ptr_to_blk p)).is_free ≠ 0 := by
        rw [hpb]; exact not_not.2 r2
      rw [if_neg p0, if_neg r4]
    · rw [hpb]; exact (inv_listed_pairs r3).2.2 b0
    · rw [hpb]; exact (inv_listed_pairs r3).2.1
  · intro b hb hst need hal hle
    obtain ⟨k1, k2, k3⟩ := (hi.free_idx b).1 (Or.inl hb)
    have t1 := inv_take hi b hb hst
    have hm : (index_remove s b).mem = s.mem := (index_remove_frame s b).1
    have hnf : ((index_remove s b).mem b).next_phys ≠ 0 →
        ((index_remove s b).mem ((index_remove s b).mem b).next_phys).is_free = 0 := by
      rw [hm]
      intro h0
      exact hi.noadj b k1 k2 k3 h0 h0
    obtain ⟨blocks2, t2, -⟩ := inv_split t1 k1 need hal (by rw [hm]; exact hle) hnf
    obtain ⟨blocks3, a1, -⟩ := inv_alloc_found hi b need hb hal hle hst
    exact ⟨(inv_listed_pairs t1).2.2 k2, (inv_listed_pairs t1).2.1,
      (inv_listed_pairs t2).2.2 k2, (inv_listed_pairs t2).2.1,
      split_pairs hi b need hb hal hle hst, (inv_no_adj a1).2, (inv_listed_pairs a1).2.1⟩

/-- Witness for claim C7: the state after `malloc_first_fit(100)` at program
start, with the live pointer `65616` and the free block `65728` in the index;
the state after freeing the pointer; and the states in which an allocation of
112 bytes out of the block `65728` calls `split_block` and in which
`split_block` returns. -/
theorem no_adjacent_free_blocks_witness :
    Reach heapDemo1.1 [65616] ∧ free_pairs heapDemo1.1 = 0 ∧
    my_free heapDemo1.1 65616 = some (free_general heapDemo1.1 65616) ∧
    free_pairs (free_general heapDemo1.1 65616) = 0 ∧
    listed_pairs (index_remove heapDemo1.1 65728) = 0 ∧
    (split_block (index_remove heapDemo1.1 65728) 65728 112).chain (65536, 1048656) =
      [65552, 65728, 65904] ∧
    (split_block (index_remove heapDemo1.1 65728) 65728 112).listed 65728 = false ∧
    listed_pairs (split_block (index_remove heapDemo1.1 65728) 65728 112) = 0 ∧
    free_pairs (alloc_found heapDemo1.1 65728 112).1 = 0 :=
  ⟨reach_heapDemo1, (no_adjacent_free_blocks heapDemo1.1 [65616] reach_heapDemo1).2.1,
   ((no_adjacent_free_blocks heapDemo1.1 [65616] reach_heapDemo1).2.2.2.2.1 65616
      (List.mem_singleton.2 rfl)).1,
   ((no_adjacent_free_blocks heapDemo1.1 [65616] reach_heapDemo1).2.2.2.2.1 65616
      (List.mem_singleton.2 rfl)).2.2.2.2.2,
   ((no_adjacent_free_blocks heapDemo1.1 [65616] reach_heapDemo1).2.2.2.2.2 65728
      (by decide) (by decide) 112 (by decide) (by decide)).2.1,
   by decide,
   ((no_adjacent_free_blocks heapDemo1.1 [65616] reach_heapDemo1).2.2.2.2.2 65728
      (by decide) (by decide) 112 (by decide) (by decide)).2.2.1,
   ((no_adjacent_free_blocks heapDemo1.1 [65616] reach_heapDemo1).2.2.2.2.2 65728
      (by decide) (by decide) 112 (by decide) (by decide)).2.2.2.1,
   ((no_adjacent_free_blocks heapDemo1.1 [65616] reach_heapDemo1).2.2.2.2.2 65728
      (by decide) (by decide) 112 (by decide) (by decide)).2.2.2.2.2.1⟩

/-- The flags while `allocate_general` hands out a block, at program start:
`malloc_first_fit(100)` latches first fit, finds the block `65552` and removes
it from the index.  `split_block(65552, 112)` carves off the remainder `65728`
and puts it in the index; the flag of `65552`, the block being allocated, is
cleared by `allocate_general` only after `split_block` has returned, so in
between the pair `(65552, 65728)` has both flags set, while `65552` is in no
index slot and no two adjacent blocks are in index slots. -/
theorem split_block_stale_flag :
    lock_strategy heapDemo Strategy.FIRST = some { heapDemo with g_strat := Strategy.FIRST } ∧
    index_find { heapDemo with g_strat := Strategy.FIRST } (ALIGN_UP 100 ALIGN) =
      some ({ heapDemo with g_strat := Strategy.FIRST }, 65552) ∧
    ALIGN_UP 100 ALIGN = 112 ∧
    free_pairs (index_remove { heapDemo with g_strat := Strategy.FIRST } 65552) = 0 ∧
    listed_pairs (index_remove { heapDemo with g_strat := Strategy.FIRST } 65552) = 0 ∧
    (split_block (index_remove { heapDemo with g_strat := Strategy.FIRST } 65552) 65552
      112).chain (65536, 1048656) = [65552, 65728] ∧
    adj_free (split_block (index_remove { heapDemo with g_strat := Strategy.FIRST } 65552)
      65552 112) 65552 = true ∧
    free_pairs (split_block (index_remove { heapDemo with g_strat := Strategy.FIRST } 65552)
      65552 112) = 1 ∧
    (split_block (index_remove { heapDemo with g_strat := Strategy.FIRST } 65552) 65552
      112).listed 65552 = false ∧
    listed_pairs (split_block (index_remove { heapDemo with g_strat := Strategy.FIRST } 65552)
      65552 112) = 0 ∧
    free_pairs (alloc_found { heapDemo with g_strat := Strategy.FIRST } 65552 112).1 = 0 :=
  ⟨rfl, rfl, by decide, by decide, by decide, by decide, by decide, by decide, by decide,
   by decide, by decide⟩

/-- Claim C5: `my_free(NULL)` leaves the whole state unchanged, and for a pointer
`p` that is a live pointer of a strategy-driven allocator in a reachable
state, or more generally any pointer that lies outside the buddy pool (or
when there is no pool), `my_free(p)` is `free_general(p)` and a second
`my_free(p)` right after it changes nothing: free index, physical chains, block
sizes and free flags are those left by the first call. -/
theorem my_free_idempotent (s : Heap) (p : Nat)
    (hp : (s.buddy_base = 0 ∨ p ≤ s.buddy_base ∨ p ≥ add64 s.buddy_base s.buddy_top_size) ∨
      ∃ live, Reach s live ∧ p ∈ live) :
    my_free s 0 = some s ∧
    my_free s p = some (free_general s p) ∧
    my_free (free_general s p) p = some (free_general s p) := by
  have h1 : is_buddy_ptr s p = none := by
    rcases hp with hp | ⟨live, hr, hl⟩
    · exact is_buddy_ptr_outside s p hp
    · obtain ⟨blocks, hi⟩ := reach_inv hr
      exact (live_not_buddy hi p hl).2
  obtain ⟨f1, f2, f3, f4, f5, -, -⟩ := free_general_frame s p
  have h2 : is_buddy_ptr (free_general s p) p = none := by
    rw [is_buddy_ptr_congr s _ p f1 f2 f3 f5]; exact h1
  refine ⟨by simp [my_free], ?_, ?_⟩
  · unfold my_free
    by_cases h0 : p = 0
    · simp [h0, free_general]
    · rw [if_neg h0, h1]
  · unfold my_free
    by_cases h0 : p = 0
    · simp [h0]
    · rw [if_neg h0, h2, free_general_idem]

/-- Witness for claim C5: the pointer returned by `malloc_first_fit(100)` at
program start (arena at `65536`), live in the state reached, freed twice. -/
theorem my_free_idempotent_witness :
    heapDemo1.2 = 65616 ∧ Reach heapDemo1.1 [65616] ∧
    my_free heapDemo1.1 65616 = some (free_general heapDemo1.1 65616) ∧
    my_free (free_general heapDemo1.1 65616) 65616 =
      some (free_general heapDemo1.1 65616) :=
  ⟨by decide, reach_heapDemo1,
   (my_free_idempotent heapDemo1.1 65616
      (Or.inr ⟨[65616], reach_heapDemo1, List.mem_singleton.2 rfl⟩)).2⟩

/-! ## Claims on the general heap: block sizes, rounding, index membership, classifier -/

/-- The mask `~15` taken in `w` bits keeps the bits `4 .. w-1`. -/
theorem and_mask16 (x w : Nat) (hw : 4 ≤ w) :
    x &&& (2 ^ w - 1 - (16 - 1)) = x % 2 ^ w / 16 * 16 := by
  have e1 : 2 ^ w - 1 - (16 - 1) = 2 ^ 4 * (2 ^ (w - 4) - 1) := by
    have : 2 ^ w = 2 ^ 4 * 2 ^ (w - 4) := by rw [← pow_add]; congr 1; omega
    have h1 : 1 ≤ 2 ^ (w - 4) := Nat.one_le_two_pow
    rw [this, Nat.mul_sub]
    omega
  have e2 : x % 2 ^ w / 16 * 16 = 2 ^ 4 * ((x % 2 ^ w) >>> 4) := by
    rw [Nat.shiftRight_eq_div_pow]; omega
  rw [e1, e2]
  apply Nat.eq_of_testBit_eq
  intro i
  rw [Nat.testBit_and, Nat.testBit_mul_pow_two, Nat.testBit_mul_pow_two,
    Nat.testBit_two_pow_sub_one, Nat.testBit_shiftRight, Nat.testBit_mod_two_pow]
  by_cases h4 : 4 ≤ i
  · have e3 : 4 + (i - 4) = i := by omega
    rw [e3]
    by_cases hi : i < w
    · have : i - 4 < w - 4 := by omega
      simp [h4, hi, this]
    · have : ¬ (i - 4 < w - 4) := by omega
      simp [h4, hi, this]
  · simp [h4]

/-- The value of `ALIGN_UP(n, ALIGN)`: the sum wraps at 64 bits and the 32-bit
mask cuts it to 32 bits before clearing the low four bits. -/
theorem ALIGN_UP_eq (n : Nat) : ALIGN_UP n ALIGN = (n + 15) % 2 ^ 32 / 16 * 16 := by
  unfold ALIGN_UP ALIGN_UP_w ALIGN SIZE_MOD
  rw [and_mask16 _ 32 (by decide)]
  have : (n + (16 - 1)) % 2 ^ 64 % 2 ^ 32 = (n + 15) % 2 ^ 32 := by omega
  rw [this]

/-- The value of `ALIGN_UP(n, a)` for the 64-bit alignment `16`. -/
theorem ALIGN_UP_sz_eq (n : Nat) : ALIGN_UP_sz n 16 = (n + 15) % 2 ^ 64 / 16 * 16 := by
  unfold ALIGN_UP_sz ALIGN_UP_w SIZE_MOD
  rw [and_mask16 _ 64 (by decide)]
  have : (n + (16 - 1)) % 2 ^ 64 % 2 ^ 64 = (n + 15) % 2 ^ 64 := by omega
  rw [this]

/-- Claim C14 with its failing input.  `ALIGN_UP(n, ALIGN)` is
`((n + 15) mod 2^32)` rounded down to a multiple of 16, because `ALIGN` is the
32-bit constant `16u`.  For `0 < n ≤ 2^32 - 16` this is the least multiple of
16 that is `≥ n`; for every `n` above `2^32 - 16` it is below `n`, for instance
`ALIGN_UP(4294967296, ALIGN) = 0`; with a 64-bit alignment constant the macro
rounds correctly for every `0 < n ≤ 2^64 - 16`. -/
theorem ALIGN_UP_truncates :
    (∀ n, ALIGN_UP n ALIGN = (n + 15) % 2 ^ 32 / 16 * 16) ∧
    (∀ n, 0 < n → n ≤ 2 ^ 32 - 16 →
      ALIGN_UP n ALIGN % 16 = 0 ∧ n ≤ ALIGN_UP n ALIGN ∧ ALIGN_UP n ALIGN < n + 16) ∧
    ALIGN_UP 4294967296 ALIGN = 0 ∧
    (∀ n, 2 ^ 32 - 16 < n → ALIGN_UP n ALIGN < n) ∧
    (∀ n, 0 < n → n ≤ 2 ^ 64 - 16 →
      ALIGN_UP_sz n 16 % 16 = 0 ∧ n ≤ ALIGN_UP_sz n 16 ∧ ALIGN_UP_sz n 16 < n + 16) := by
  refine ⟨ALIGN_UP_eq, fun n h1 h2 => ?_, by decide, fun n h1 => ?_, fun n h1 h2 => ?_⟩
  · rw [ALIGN_UP_eq]; omega
  · rw [ALIGN_UP_eq]; omega
  · rw [ALIGN_UP_sz_eq]; omega

/-- In a state that satisfies the invariant the payload size of every block
on a physical chain is a multiple of 16. -/
theorem inv_size_aligned {s : Heap} {blocks live : List Nat} (h : InvX s blocks live 0) :
    ∀ ar ∈ s.g_arenas, ∀ b ∈ s.chain ar, (s.mem b).size % 16 = 0 :=
  fun ar har b hb => (h.chain.blk b ((blocks_iff_chain h b).2 ⟨ar, har, hb⟩)).szal

/-- In a state that satisfies the invariant the members of the two index
structures are the free blocks of the physical chains, each listed once. -/
theorem inv_index_members {s : Heap} {blocks live : List Nat} (h : InvX s blocks live 0) :
    (∀ b, (b ∈ s.idx ∨ b ∈ s.orphans) ↔
      ((∃ ar ∈ s.g_arenas, b ∈ s.chain ar) ∧ (s.mem b).is_free ≠ 0)) ∧
    s.idx.Nodup ∧ s.orphans.Nodup ∧ (∀ b ∈ s.orphans, b ∉ s.idx) := by
  refine ⟨fun b => ?_, ?_, ?_, fun b hb => (h.orphan b hb).2.2⟩
  · rw [h.free_idx b, blocks_iff_chain h b]
    constructor
    · rintro ⟨h1, -, h3⟩; exact ⟨h1, h3⟩
    · rintro ⟨⟨ar, har, hb⟩, h3⟩
      have hb2 := (blocks_iff_chain h b).2 ⟨ar, har, hb⟩
      exact ⟨⟨ar, har, hb⟩, invX_nz h b hb2, h3⟩
  · by_cases ht : s.g_strat = Strategy.BEST ∨ s.g_strat = Strategy.WORST
    · rw [(idx_of_tree s ht).1]; exact bst_nodup s.sz _ h.idx.bst
    · rw [(idx_of_list s ht).1]; exact h.idx.sorted.imp (fun hlt => Nat.ne_of_lt hlt)
  · by_cases ht : s.g_strat = Strategy.BEST ∨ s.g_strat = Strategy.WORST
    · rw [(idx_of_tree s ht).2]; exact h.idx.sorted.imp (fun hlt => Nat.ne_of_lt hlt)
    · rw [(idx_of_list s ht).2]; exact List.nodup_nil

theorem reach_heapDemoWide : Reach heapDemoWide.1 [65616] :=
  Reach.malloc heapDemo heapDemoWide.1 [] Strategy.FIRST 4294967296 65616 none reach_heapDemo
    (by decide) (osOk_none _ _) rfl

theorem reach_heapDemoBest : Reach heapDemoBest.1 [4194384] :=
  Reach.malloc heapDemo heapDemoBest.1 [] Strategy.BEST 16 4194384 (some 4194304)
    reach_heapDemo (by decide) (osOk_second 16 (by decide)) rfl

/-- Claim C13 with its failing input.  In every reachable state the payload
size of every block on a physical chain is a multiple of 16, but it need not
be at least 16: at program start `malloc_first_fit(4294967296)` rounds the
request to `0` (the mask of `ALIGN_UP` is 32 bits wide), splits the block
`65552` at `0` bytes and hands it out, so the state reached holds on the chain
of its arena a block of payload size `0`. -/
theorem block_size_below_align :
    (∀ s live, Reach s live →
      ∀ ar ∈ s.g_arenas, ∀ b ∈ s.chain ar, (s.mem b).size % 16 = 0) ∧
    (Reach heapDemoWide.1 [65616] ∧ heapDemoWide.2 = 65616 ∧
      (65536, 1048656) ∈ heapDemoWide.1.g_arenas ∧
      heapDemoWide.1.chain (65536, 1048656) = [65552, 65616] ∧
      (heapDemoWide.1.mem 65552).size = 0 ∧ (heapDemoWide.1.mem 65552).is_free = 0) := by
  refine ⟨fun s live h => ?_, reach_heapDemoWide, by decide, by decide, by decide, by decide,
    by decide⟩
  obtain ⟨blocks, hi⟩ := reach_inv h
  exact inv_size_aligned hi

/-- Claim C15 with its failing input.  In every reachable state the members of
the index of the latched strategy together with the blocks left on the free
list when best or worst fit was latched (`Heap.orphans`) are exactly the free
blocks of the physical chains, each listed once and in one place only, so no
allocated block is in an index; under first and next fit there are no such
left-over blocks.  Under best and worst fit the block of the arena that
`init_once` mapped stays on the free list: at program start
`malloc_best_fit(16)` finds the tree empty, maps a second arena at `4194304`
and allocates there; afterwards the block `65552` is on a physical chain and
free, but it is not in the tree, and a request for its whole size is not
served from it. -/
theorem free_block_outside_index :
    (∀ s live, Reach s live →
      (∀ b, (b ∈ s.idx ∨ b ∈ s.orphans) ↔
        ((∃ ar ∈ s.g_arenas, b ∈ s.chain ar) ∧ (s.mem b).is_free ≠ 0)) ∧
      s.idx.Nodup ∧ s.orphans.Nodup ∧ (∀ b ∈ s.orphans, b ∉ s.idx) ∧
      (s.g_strat = Strategy.FIRST ∨ s.g_strat = Strategy.NEXT → s.orphans = [])) ∧
    (Reach heapDemoBest.1 [4194384] ∧ heapDemoBest.2 = 4194384 ∧
      heapDemoBest.1.g_strat = Strategy.BEST ∧
      heapDemoBest.1.g_arenas = [(4194304, 1048576), (65536, 1048656)] ∧
      heapDemoBest.1.chain (65536, 1048656) = [65552] ∧
      (heapDemoBest.1.mem 65552).is_free = 1 ∧ (heapDemoBest.1.mem 65552).size = 1048576 ∧
      heapDemoBest.1.idx = [4194400] ∧ heapDemoBest.1.g_free_head = [65552] ∧
      (index_find heapDemoBest.1 1048576).map Prod.snd = some 0) := by
  refine ⟨fun s live h => ?_, reach_heapDemoBest, by decide, by decide, by decide, by decide,
    by decide, by decide, by decide, by decide, by decide⟩
  obtain ⟨blocks, hi⟩ := reach_inv h
  obtain ⟨a1, a2, a3, a4⟩ := inv_index_members hi
  refine ⟨a1, a2, a3, a4, fun hs => ?_⟩
  unfold Heap.orphans
  rw [if_neg]
  rcases hs with hs | hs <;> rw [hs] <;> decide

/-- Claim C19: the buddy classifier rejects the pointers of the strategy-driven
allocators.  In a reachable state (arenas and buddy pool are disjoint mappings,
as `OsOk` and `PoolOk` assume of `mmap`), for every live pointer `p` of a
strategy-driven allocator, and so for the pointer a call of `malloc_first_fit`,
`malloc_next_fit`, `malloc_best_fit` or `malloc_worst_fit` has just returned,
with or without a buddy pool: `is_buddy_ptr(p)` answers `0`, `my_free(p)` is
`free_general(p)`, and the buddy state (pool extent, orders, bins and pool
memory) is left unchanged. -/
theorem strategy_pointer_not_buddy (s : Heap) (live : List Nat) (h : Reach s live) :
    (∀ p ∈ live, is_buddy_ptr s p = none ∧ my_free s p = some (free_general s p) ∧
      (free_general s p).buddy_bins = s.buddy_bins ∧
      (free_general s p).words = s.words ∧
      (free_general s p).buddy_base = s.buddy_base ∧
      (free_general s p).buddy_top_size = s.buddy_top_size ∧
      (free_general s p).buddy_pool_order = s.buddy_pool_order) ∧
    (∀ n os s1 p, OsOk s (arena_need (ALIGN_UP n ALIGN)) os →
      (malloc_first_fit s n os = some (s1, p) ∨ malloc_next_fit s n os = some (s1, p) ∨
        malloc_best_fit s n os = some (s1, p) ∨ malloc_worst_fit s n os = some (s1, p)) →
      p ≠ 0 →
      is_buddy_ptr s1 p = none ∧ my_free s1 p = some (free_general s1 p) ∧
      (free_general s1 p).buddy_bins = s1.buddy_bins) := by
  have key : ∀ (t : Heap) (lv : List Nat), Reach t lv → ∀ p ∈ lv,
      is_buddy_ptr t p = none ∧ my_free t p = some (free_general t p) := by
    intro t lv ht p hp
    obtain ⟨blocks, hi⟩ := reach_inv ht
    obtain ⟨blocks2, e, -⟩ := inv_free hi p hp
    exact ⟨(live_not_buddy hi p hp).2, e⟩
  constructor
  · intro p hp
    obtain ⟨f1, f2, f3, f4, f5, -, -⟩ := free_general_frame s p
    exact ⟨(key s live h p hp).1, (key s live h p hp).2, f4, f5, f1, f2, f3⟩
  · intro n os s1 p hos e hp
    have hst : ∃ st, st ≠ Strategy.UNSET ∧ malloc_fit st s n os = some (s1, p) := by
      rcases e with e | e | e | e
      · exact ⟨Strategy.FIRST, by decide, e⟩
      · exact ⟨Strategy.NEXT, by decide, e⟩
      · exact ⟨Strategy.BEST, by decide, e⟩
      · exact ⟨Strategy.WORST, by decide, e⟩
    obtain ⟨st, hst, e2⟩ := hst
    have hr := Reach.malloc s s1 live st n p os h hst hos e2
    rw [if_neg hp] at hr
    obtain ⟨k1, k2⟩ := key s1 _ hr p (List.mem_cons_self _ _)
    exact ⟨k1, k2, (free_general_frame s1 p).2.2.2.1⟩

theorem reach_mixDemo : Reach mixDemo.1 [65616] :=
  Reach.balloc heapDemo1.1 [65616] 1024 (some 1073741824) reach_heapDemo1
    (fun base hb ar har => by
      cases hb
      have e : ar = (65536, 1048656) := by
        have : heapDemo1.1.g_arenas = [(65536, 1048656)] := by decide
        rw [this] at har
        exact List.mem_singleton.1 har
      rw [e]
      right
      decide)

/-- Witness for claim C19: the pointer `65616` returned by
`malloc_first_fit(100)` at program start, in the state after a buddy pool has
been mapped at `1073741824` by `malloc_buddy_alloc(1024)`. -/
theorem strategy_pointer_not_buddy_witness :
    Reach mixDemo.1 [65616] ∧ mixDemo.1.buddy_base = 1073741824 ∧
    is_buddy_ptr mixDemo.1 65616 = none ∧
    my_free mixDemo.1 65616 = some (free_general mixDemo.1 65616) ∧
    (free_general mixDemo.1 65616).buddy_bins = mixDemo.1.buddy_bins :=
  ⟨reach_mixDemo, by decide,
   ((strategy_pointer_not_buddy mixDemo.1 [65616] reach_mixDemo).1 65616
      (List.mem_singleton.2 rfl)).1,
   ((strategy_pointer_not_buddy mixDemo.1 [65616] reach_mixDemo).1 65616
      (List.mem_singleton.2 rfl)).2.1,
   ((strategy_pointer_not_buddy mixDemo.1 [65616] reach_mixDemo).1 65616
      (List.mem_singleton.2 rfl)).2.2.1⟩


theorem order_size_eq (o : Nat) (h : o < 64) : order_size o = 2 ^ o := by
  unfold order_size SIZE_MOD
  rw [Nat.one_shiftLeft]
  exact Nat.mod_eq_of_lt (Nat.pow_lt_pow_right (by decide) h)

theorem two_pow_mod16 (q : Nat) (h : 4 ≤ q) : 2 ^ q % 16 = 0 := by
  have : 2 ^ q = 16 * 2 ^ (q - 4) := by
    rw [show (16 : Nat) = 2 ^ 4 from rfl, ← pow_add]; congr 1; omega
  omega

/-- The loop `while (order_size(o) < need && o < limit) o++` with enough fuel:
it stops at the first order at which the size suffices or the limit is reached. -/
theorem order_loop_spec (need limit : Nat) (fuel : Nat) :
    ∀ o, limit ≤ o + fuel →
      o ≤ order_loop need limit fuel o ∧
      (o ≤ limit → order_loop need limit fuel o ≤ limit) ∧
      (∀ q, o ≤ q → q < order_loop need limit fuel o → order_size q < need) ∧
      (order_loop need limit fuel o < limit → need ≤ order_size (order_loop need limit fuel o)) := by
  induction fuel with
  | zero =>
    intro o h
    unfold order_loop
    exact ⟨le_refl _, fun h1 => h1, fun q h1 h2 => by omega, fun h1 => by omega⟩
  | succ k ih =>
    intro o h
    unfold order_loop
    by_cases hc : order_size o < need ∧ o < limit
    · rw [if_pos hc]
      obtain ⟨i1, i2, i3, i4⟩ := ih (o + 1) (by omega)
      refine ⟨by omega, fun _ => i2 (by omega), fun q h1 h2 => ?_, i4⟩
      by_cases e : q = o
      · rw [e]; exact hc.1
      · exact i3 q (by omega) h2
    · rw [if_neg hc]
      refine ⟨le_refl _, fun h1 => h1, fun q h1 h2 => by omega, fun h1 => ?_⟩
      by_contra h2
      exact hc ⟨by omega, h1⟩

/-- The loop `while (k<=buddy_pool_order && !buddy_bins[k]) k++` with enough
fuel: it stops at the first non-empty bin or just past the pool order. -/
theorem bin_search_spec (s : Heap) (fuel : Nat) :
    ∀ k, s.buddy_pool_order + 1 ≤ k + fuel →
      k ≤ bin_search s fuel k ∧
      (k ≤ s.buddy_pool_order + 1 → bin_search s fuel k ≤ s.buddy_pool_order + 1) ∧
      (∀ q, k ≤ q → q < bin_search s fuel k → s.buddy_bins q = 0) ∧
      (bin_search s fuel k ≤ s.buddy_pool_order → s.buddy_bins (bin_search s fuel k) ≠ 0) := by
  induction fuel with
  | zero =>
    intro k h
    unfold bin_search
    exact ⟨le_refl _, fun h1 => h1, fun q h1 h2 => by omega, fun h1 => by omega⟩
  | succ j ih =>
    intro k h
    unfold bin_search
    by_cases hc : k ≤ s.buddy_pool_order ∧ s.buddy_bins k = 0
    · rw [if_pos hc]
      obtain ⟨i1, i2, i3, i4⟩ := ih (k + 1) (by omega)
      refine ⟨by omega, fun _ => i2 (by omega), fun q h1 h2 => ?_, i4⟩
      by_cases e : q = k
      · rw [e]; exact hc.2
      · exact i3 q (by omega) h2
    · rw [if_neg hc]
      refine ⟨le_refl _, fun h1 => h1, fun q h1 h2 => by omega, fun h1 h2 => hc ⟨h1, h2⟩⟩

theorem buddy_order0_init_eq : buddy_order0_init = 4 := by decide

/-- The pool order that `buddy_init_pool(m)` chooses for a multiple `m` of 16. -/
theorem buddy_pool_order_init_spec (m : Nat) (hm : m % 16 = 0) (h64 : m + 16 < 2 ^ 64) :
    (m ≤ 2 ^ 22 → buddy_pool_order_init m = 22) ∧
    (2 ^ 22 < m →
      4 ≤ buddy_pool_order_init m ∧ buddy_pool_order_init m ≤ 26 ∧
      (∀ q, 4 ≤ q → q < buddy_pool_order_init m → 2 ^ q < m + 8) ∧
      (buddy_pool_order_init m < 26 → m + 8 ≤ 2 ^ buddy_pool_order_init m) ∧
      (m + 8 ≤ 2 ^ 26 → m + 8 ≤ 2 ^ buddy_pool_order_init m)) := by
  unfold buddy_pool_order_init
  constructor
  · intro h
    rw [if_neg (by omega)]
  · intro h
    rw [if_pos h]
    have e1 : ALIGN_UP_sz (add64 m 8) (order_size buddy_order0_init) = m + 16 := by
      rw [show order_size buddy_order0_init = 16 from by decide, ALIGN_UP_sz_eq,
        add64_eq m 8 (by omega)]
      omega
    rw [e1, buddy_order0_init_eq]
    unfold BUDDY_MAX_ORDER
    obtain ⟨i1, i2, i3, i4⟩ := order_loop_spec (m + 16) 26 (26 + 1) 4 (by omega)
    have i2b := i2 (by omega)
    have hP : order_loop (m + 16) 26 (26 + 1) 4 < 64 := by omega
    have low : ∀ q, 4 ≤ q → q < order_loop (m + 16) 26 (26 + 1) 4 → 2 ^ q < m + 8 := by
      intro q h1 h2
      have := i3 q h1 h2
      rw [order_size_eq q (by omega)] at this
      have := two_pow_mod16 q h1
      omega
    have up : order_loop (m + 16) 26 (26 + 1) 4 < 26 →
        m + 8 ≤ 2 ^ order_loop (m + 16) 26 (26 + 1) 4 := by
      intro h1
      have := i4 h1
      rw [order_size_eq _ hP] at this
      omega
    refine ⟨i1, i2b, low, up, fun h1 => ?_⟩
    by_cases h26 : order_loop (m + 16) 26 (26 + 1) 4 < 26
    · exact up h26
    · have : order_loop (m + 16) 26 (26 + 1) 4 = 26 := by omega
      rw [this]; exact h1


theorem seg_append (w : Nat → Nat) (l1 l2 : List Nat) :
    ∀ h c, Seg w h (l1 ++ l2) c ↔ ∃ m, Seg w h l1 m ∧ Seg w m l2 c := by
  induction l1 with
  | nil =>
    intro h c
    constructor
    · intro hs; exact ⟨h, rfl, hs⟩
    · rintro ⟨m, e, hs⟩
      have e2 : h = m := e
      rw [e2]; exact hs
  | cons x xs ih =>
    intro h c
    constructor
    · rintro ⟨e, x0, hs⟩
      obtain ⟨m, h1, h2⟩ := (ih _ _).1 hs
      exact ⟨m, ⟨e, x0, h1⟩, h2⟩
    · rintro ⟨m, ⟨e, x0, h1⟩, h2⟩
      exact ⟨e, x0, (ih _ _).2 ⟨m, h1, h2⟩⟩

/-- A walk reads only the words of the blocks it passes. -/
theorem seg_frame (w w2 : Nat → Nat) (l : List Nat) :
    ∀ h c, (∀ x ∈ l, w2 x = w x) → Seg w h l c → Seg w2 h l c := by
  induction l with
  | nil => intro h c _ hs; exact hs
  | cons x xs ih =>
    intro h c hw hs
    obtain ⟨e, x0, h1⟩ := hs
    refine ⟨e, x0, ?_⟩
    rw [hw x (List.mem_cons_self _ _)]
    exact ih _ _ (fun y hy => hw y (List.mem_cons_of_mem _ hy)) h1

theorem seg_nonzero (w : Nat → Nat) (l : List Nat) :
    ∀ h c, Seg w h l c → ∀ x ∈ l, x ≠ 0 := by
  induction l with
  | nil => intro h c _ x hx; exact absurd hx (List.not_mem_nil x)
  | cons y ys ih =>
    intro h c hs x hx
    obtain ⟨-, y0, h1⟩ := hs
    rcases List.mem_cons.1 hx with e | hx2
    · rw [e]; exact y0
    · exact ih _ _ h1 x hx2

theorem storeW_same (m : Nat → Nat) (a v : Nat) : storeW m a v a = v := by
  unfold storeW; rw [if_pos rfl]

theorem storeW_other (m : Nat → Nat) (a v x : Nat) (h : x ≠ a) : storeW m a v x = m x := by
  unfold storeW; rw [if_neg h]

/-- A representation depends on the sets `F` and `U` only up to equivalence. -/
theorem rep_congr {s : Heap} {F U F2 U2 : Nat → Nat → Prop} (h : BuddyRep s F U)
    (hF : ∀ k a, F2 k a ↔ F k a) (hU : ∀ k a, U2 k a → U k a) : BuddyRep s F2 U2 := by
  refine ⟨fun k hk => ?_, fun k a hu => h.tags k a (hU k a hu)⟩
  obtain ⟨l, l1, l2, l3⟩ := h.bins k hk
  exact ⟨l, l1, l2, fun a => (l3 a).trans (hF k a).symm⟩

/-- The function `buddy_push` on a block that is neither free nor handed out:
the block joins the free blocks of its order. -/
theorem rep_push {s : Heap} {F U : Nat → Nat → Prop} (h : BuddyRep s F U) (o p : Nat)
    (ho : o ≤ BUDDY_MAX_ORDER) (p0 : p ≠ 0) (hF : ∀ k, ¬ F k p) (hU : ∀ k, ¬ U k p) :
    BuddyRep (buddy_push s o p) (fun k a => F k a ∨ (k = o ∧ a = p)) U := by
  have hw : ∀ x, x ≠ p → (buddy_push s o p).words x = s.words x :=
    fun x hx => storeW_other _ _ _ _ hx
  refine ⟨fun k hk => ?_, fun k a hu => ?_⟩
  · obtain ⟨l, l1, l2, l3⟩ := h.bins k hk
    have hpl : p ∉ l := fun hp => hF k ((l3 p).1 hp)
    have fr : BinChain (buddy_push s o p).words (s.buddy_bins k) l :=
      seg_frame _ _ l _ _ (fun x hx => hw x (fun e => hpl (e ▸ hx))) l1
    by_cases e : k = o
    · subst e
      refine ⟨p :: l, ?_, List.nodup_cons.2 ⟨hpl, l2⟩, fun a => ?_⟩
      · refine ⟨?_, p0, ?_⟩
        · show storeW s.buddy_bins k p k = p
          exact storeW_same _ _ _
        · have : (buddy_push s k p).words p = s.buddy_bins k := storeW_same _ _ _
          rw [this]; exact fr
      · rw [List.mem_cons, l3]
        constructor
        · rintro (h1 | h1)
          · exact Or.inr ⟨rfl, h1⟩
          · exact Or.inl h1
        · rintro (h1 | ⟨-, h1⟩)
          · exact Or.inr h1
          · exact Or.inl h1
    · refine ⟨l, ?_, l2, fun a => ?_⟩
      · have : (buddy_push s o p).buddy_bins k = s.buddy_bins k := storeW_other _ _ _ _ e
        unfold BinChain
        rw [this]; exact fr
      · rw [l3]
        constructor
        · exact fun h1 => Or.inl h1
        · rintro (h1 | ⟨h1, -⟩)
          · exact h1
          · exact absurd h1 e
  · have : a ≠ p := fun e => hU k (e ▸ hu)
    rw [hw a this]; exact h.tags k a hu

/-- The function `buddy_pop` on a bin that is not empty: the head of the bin
leaves the free blocks. -/
theorem rep_pop {s : Heap} {F U : Nat → Nat → Prop} (h : BuddyRep s F U) (k : Nat)
    (hk : k ≤ BUDDY_MAX_ORDER) (hne : s.buddy_bins k ≠ 0)
    (huniq : ∀ j, F j (s.buddy_bins k) → j = k) :
    (buddy_pop s k).2 = s.buddy_bins k ∧ F k (s.buddy_bins k) ∧
    (buddy_pop s k).1.words = s.words ∧
    BuddyRep (buddy_pop s k).1 (fun j a => F j a ∧ a ≠ s.buddy_bins k) U := by
  unfold buddy_pop
  rw [if_neg hne]
  obtain ⟨l, l1, l2, l3⟩ := h.bins k hk
  cases l with
  | nil => exact absurd l1 hne
  | cons x xs =>
    obtain ⟨ex, x0, hs⟩ := l1
    have hFx : F k (s.buddy_bins k) := by rw [ex]; exact (l3 x).1 (List.mem_cons_self _ _)
    refine ⟨rfl, hFx, rfl, ⟨fun j hj => ?_, fun j a hu => h.tags j a hu⟩⟩
    by_cases ej : j = k
    · subst ej
      refine ⟨xs, ?_, (List.nodup_cons.1 l2).2, fun a => ?_⟩
      · show Seg s.words (storeW s.buddy_bins j (s.words (s.buddy_bins j)) j) xs 0
        rw [storeW_same, ex]; exact hs
      · constructor
        · intro ha
          refine ⟨(l3 a).1 (List.mem_cons_of_mem _ ha), fun e2 => ?_⟩
          rw [e2, ex] at ha
          exact (List.nodup_cons.1 l2).1 ha
        · rintro ⟨h1, h2⟩
          rcases List.mem_cons.1 ((l3 a).2 h1) with e2 | h3
          · rw [ex] at h2; exact absurd e2 h2
          · exact h3
    · obtain ⟨m, m1, m2, m3⟩ := h.bins j hj
      refine ⟨m, ?_, m2, fun a => ?_⟩
      · show Seg s.words (storeW s.buddy_bins k (s.words (s.buddy_bins k)) j) m 0
        rw [storeW_other _ _ _ _ ej]; exact m1
      · rw [m3]
        constructor
        · intro h1
          exact ⟨h1, fun e2 => ej (huniq j (e2 ▸ h1))⟩
        · exact fun h1 => h1.1

theorem scan_miss (s : Heap) (j tgt : Nat) (l : List Nat) :
    ∀ cur fuel prev, Seg s.words cur l 0 → tgt ∉ l → l.length < fuel →
      bin_scan j tgt fuel s prev cur = some (s, false) := by
  induction l with
  | nil =>
    intro cur fuel prev hs _ hf
    have c0 : cur = 0 := hs
    cases fuel with
    | zero => exact absurd hf (Nat.lt_irrefl 0)
    | succ f => unfold bin_scan; rw [if_pos c0]
  | cons x xs ih =>
    intro cur fuel prev hs hn hf
    obtain ⟨e, x0, h1⟩ := hs
    cases fuel with
    | zero => exact absurd hf (Nat.not_lt_zero _)
    | succ f =>
      have c1 : cur ≠ 0 := e ▸ x0
      have c2 : cur ≠ tgt := fun e2 => hn (e2 ▸ e ▸ List.mem_cons_self _ _)
      unfold bin_scan
      rw [if_neg c1, if_neg c2]
      refine ih _ f cur (e ▸ h1) (fun hx => hn (List.mem_cons_of_mem _ hx)) ?_
      exact Nat.lt_of_succ_lt_succ hf

theorem scan_hit (s : Heap) (j tgt : Nat) (l2 : List Nat) (l1 : List Nat) :
    ∀ cur fuel prev, Seg s.words cur (l1 ++ tgt :: l2) 0 → tgt ∉ l1 → l1.length < fuel →
      bin_scan j tgt fuel s prev cur = some (bin_unlink s j tgt (l1.getLastD prev), true) := by
  induction l1 with
  | nil =>
    intro cur fuel prev hs _ hf
    obtain ⟨e, x0, -⟩ := hs
    cases fuel with
    | zero => exact absurd hf (Nat.lt_irrefl 0)
    | succ f =>
      have c1 : cur ≠ 0 := e ▸ x0
      unfold bin_scan bin_unlink
      rw [if_neg c1, if_pos e, e]
      rw [List.getLastD_nil]
      by_cases hp : prev ≠ 0
      · rw [if_pos hp, if_pos hp]
      · rw [if_neg hp, if_neg hp]
  | cons x xs ih =>
    intro cur fuel prev hs hn hf
    obtain ⟨e, x0, h1⟩ := hs
    cases fuel with
    | zero => exact absurd hf (Nat.not_lt_zero _)
    | succ f =>
      have c1 : cur ≠ 0 := e ▸ x0
      have c2 : cur ≠ tgt := fun e2 => hn (e2 ▸ e ▸ List.mem_cons_self _ _)
      unfold bin_scan
      rw [if_neg c1, if_neg c2]
      rw [ih _ f cur (e ▸ h1) (fun hx => hn (List.mem_cons_of_mem _ hx))
        (Nat.lt_of_succ_lt_succ hf), e, List.getLastD_cons]

theorem getLastD_mem (l : List Nat) : ∀ prev, l ≠ [] → l.getLastD prev ∈ l := by
  induction l with
  | nil => intro prev h; exact absurd rfl h
  | cons x xs ih =>
    intro prev _
    cases xs with
    | nil => exact List.mem_cons_self _ _
    | cons y ys =>
      rw [List.getLastD_cons]
      exact List.mem_cons_of_mem _ (ih x (List.cons_ne_nil _ _))

theorem getLastD_split (l : List Nat) : ∀ prev, l ≠ [] →
    ∃ l0, l = l0 ++ [l.getLastD prev] := by
  induction l with
  | nil => intro prev h; exact absurd rfl h
  | cons x xs ih =>
    intro prev _
    cases xs with
    | nil => exact ⟨[], rfl⟩
    | cons y ys =>
      obtain ⟨l0, e⟩ := ih x (List.cons_ne_nil _ _)
      refine ⟨x :: l0, ?_⟩
      rw [List.getLastD_cons, List.cons_append, ← e]

theorem bin_unlink_poolEq (s : Heap) (j tgt p : Nat) : PoolEq s (bin_unlink s j tgt p) := by
  unfold bin_unlink
  by_cases h : p ≠ 0
  · rw [if_pos h]; exact ⟨rfl, rfl, rfl, rfl⟩
  · rw [if_neg h]; exact ⟨rfl, rfl, rfl, rfl⟩

/-- The unlink step on a free block: the block leaves the free blocks of its
order, the other bins and the tags stay. -/
theorem rep_unlink {s : Heap} {F U : Nat → Nat → Prop} (h : BuddyRep s F U) (j tgt : Nat)
    (hj : j ≤ BUDDY_MAX_ORDER) (hF : F j tgt)
    (huniq : ∀ i k a, F i a → F k a → i = k) (hFU : ∀ i k a, F i a → ¬ U k a)
    (fuel : Nat) (hfuel : ∀ l : List Nat, l.Nodup → (∀ a ∈ l, F j a) → l.length < fuel) :
    ∃ s1, bin_scan j tgt fuel s 0 (s.buddy_bins j) = some (s1, true) ∧ PoolEq s s1 ∧
      BuddyRep s1 (fun k a => F k a ∧ a ≠ tgt) U := by
  obtain ⟨l, l1, l2, l3⟩ := h.bins j hj
  obtain ⟨p1, p2, e⟩ := List.append_of_mem ((l3 tgt).2 hF)
  subst e
  have nd := List.nodup_append.1 l2
  have t1 : tgt ∉ p1 := fun hx => nd.2.2 hx (List.mem_cons_self _ _)
  have t2 : tgt ∉ p2 := (List.nodup_cons.1 nd.2.1).1
  have hlen : p1.length < fuel := by
    have := hfuel _ l2 (fun a ha => (l3 a).1 ha)
    rw [List.length_append] at this
    omega
  refine ⟨_, scan_hit s j tgt p2 p1 _ fuel 0 l1 t1 hlen, bin_unlink_poolEq _ _ _ _, ?_⟩
  obtain ⟨m, m1, m2⟩ := (seg_append _ _ _ _ _).1 l1
  obtain ⟨em, tg0, m3⟩ := m2
  have hmemF : ∀ a, a ∈ p1 ∨ a ∈ p2 → F j a := fun a ha =>
    (l3 a).1 (by
      rcases ha with ha | ha
      · exact List.mem_append_left _ ha
      · exact List.mem_append_right _ (List.mem_cons_of_mem _ ha))
  by_cases hp : p1 = []
  · subst hp
    have e1 : bin_unlink s j tgt (([] : List Nat).getLastD 0) =
        { s with buddy_bins := storeW s.buddy_bins j (s.words tgt) } := by
      unfold bin_unlink; rw [List.getLastD_nil, if_neg (not_not.2 rfl)]
    rw [e1]
    refine ⟨fun k hk => ?_, fun k a hu => h.tags k a hu⟩
    by_cases ek : k = j
    · subst ek
      refine ⟨p2, ?_, (List.nodup_cons.1 nd.2.1).2, fun a => ?_⟩
      · show Seg s.words (storeW s.buddy_bins k (s.words tgt) k) p2 0
        rw [storeW_same]; exact m3
      · constructor
        · intro ha
          exact ⟨hmemF a (Or.inr ha), fun e2 => t2 (e2 ▸ ha)⟩
        · rintro ⟨h1, h2⟩
          rcases List.mem_cons.1 ((l3 a).2 h1) with e2 | h3
          · exact absurd e2 h2
          · exact h3
    · obtain ⟨q, q1, q2, q3⟩ := h.bins k hk
      refine ⟨q, ?_, q2, fun a => ?_⟩
      · show Seg s.words (storeW s.buddy_bins j (s.words tgt) k) q 0
        rw [storeW_other _ _ _ _ ek]; exact q1
      · rw [q3]
        constructor
        · exact fun h1 => ⟨h1, fun e2 => ek (huniq k j tgt (e2 ▸ h1) hF)⟩
        · exact fun h1 => h1.1
  · obtain ⟨p0, e0⟩ := getLastD_split p1 0 hp
    have hpm : p1.getLastD 0 ∈ p1 := getLastD_mem p1 0 hp
    generalize p1.getLastD 0 = p at e0 hpm
    have p0ne : p ≠ 0 := seg_nonzero _ _ _ _ m1 p hpm
    have e1 : bin_unlink s j tgt p = { s with words := storeW s.words p (s.words tgt) } := by
      unfold bin_unlink; rw [if_pos p0ne]
    rw [e1]
    have hFp : F j p := hmemF p (Or.inl hpm)
    have ptg : p ≠ tgt := fun e2 => t1 (e2 ▸ hpm)
    subst e0
    have nd1 := List.nodup_append.1 nd.1
    have pp0 : p ∉ p0 := fun hx => nd1.2.2 hx (List.mem_singleton_self _)
    have pp2 : p ∉ p2 := fun hx => nd.2.2 hpm (List.mem_cons_of_mem _ hx)
    obtain ⟨m0, n1, n2⟩ := (seg_append _ _ _ _ _).1 m1
    obtain ⟨en, -, n3⟩ := n2
    refine ⟨fun k hk => ?_, fun k a hu => ?_⟩
    · by_cases ek : k = j
      · subst ek
        refine ⟨p0 ++ p :: p2, ?_, ?_, fun a => ?_⟩
        · refine (seg_append _ _ _ _ _).2 ⟨m0, ?_, en, p0ne, ?_⟩
          · exact seg_frame _ _ _ _ _ (fun x hx => storeW_other _ _ _ _
              (fun e2 => pp0 (e2 ▸ hx))) n1
          · show Seg (storeW s.words p (s.words tgt)) (storeW s.words p (s.words tgt) p) p2 0
            rw [storeW_same]
            exact seg_frame _ _ _ _ _ (fun x hx => storeW_other _ _ _ _
              (fun e2 => pp2 (e2 ▸ hx))) m3
        · refine List.nodup_append.2 ⟨nd1.1, List.nodup_cons.2 ⟨pp2,
            (List.nodup_cons.1 nd.2.1).2⟩, ?_⟩
          intro a ha hb
          rcases List.mem_cons.1 hb with e2 | hb2
          · exact pp0 (e2 ▸ ha)
          · exact nd.2.2 (List.mem_append_left _ ha) (List.mem_cons_of_mem _ hb2)
        · constructor
          · intro ha
            rcases List.mem_append.1 ha with h1 | h1
            · exact ⟨hmemF a (Or.inl (List.mem_append_left _ h1)),
                fun e2 => t1 (e2 ▸ List.mem_append_left _ h1)⟩
            · rcases List.mem_cons.1 h1 with e2 | h2
              · rw [e2]; exact ⟨hFp, ptg⟩
              · exact ⟨hmemF a (Or.inr h2), fun e2 => t2 (e2 ▸ h2)⟩
          · rintro ⟨h1, h2⟩
            rcases List.mem_append.1 ((l3 a).2 h1) with h3 | h3
            · rcases List.mem_append.1 h3 with h4 | h4
              · exact List.mem_append_left _ h4
              · exact List.mem_append_right _ (List.mem_cons.2 (Or.inl (List.mem_singleton.1 h4)))
            · rcases List.mem_cons.1 h3 with e2 | h4
              · exact absurd e2 h2
              · exact List.mem_append_right _ (List.mem_cons_of_mem _ h4)
      · obtain ⟨q, q1, q2, q3⟩ := h.bins k hk
        have pq : p ∉ q := fun hx => ek (huniq k j p ((q3 p).1 hx) hFp)
        refine ⟨q, ?_, q2, fun a => ?_⟩
        · exact seg_frame _ _ _ _ _ (fun x hx => storeW_other _ _ _ _
            (fun e2 => pq (e2 ▸ hx))) q1
        · rw [q3]
          constructor
          · exact fun h1 => ⟨h1, fun e2 => ek (huniq k j tgt (e2 ▸ h1) hF)⟩
          · exact fun h1 => h1.1
    · have : a ≠ p := fun e2 => hFU j k p hFp (e2 ▸ hu)
      show storeW s.words p (s.words tgt) a = _
      rw [storeW_other _ _ _ _ this]; exact h.tags k a hu

/-- A scan for a block that is not free at this order changes nothing. -/
theorem rep_scan_miss {s : Heap} {F U : Nat → Nat → Prop} (h : BuddyRep s F U) (j tgt : Nat)
    (hj : j ≤ BUDDY_MAX_ORDER) (hF : ¬ F j tgt)
    (fuel : Nat) (hfuel : ∀ l : List Nat, l.Nodup → (∀ a ∈ l, F j a) → l.length < fuel) :
    bin_scan j tgt fuel s 0 (s.buddy_bins j) = some (s, false) := by
  obtain ⟨l, l1, l2, l3⟩ := h.bins j hj
  exact scan_miss s j tgt l _ fuel 0 l1 (fun hx => hF ((l3 tgt).1 hx))
    (hfuel l l2 (fun a ha => (l3 a).1 ha))

/-- A list of distinct addresses inside a range of `n` addresses has at most
`n` members. -/
theorem nodup_range_length (l : List Nat) (b n : Nat) (nd : l.Nodup)
    (hr : ∀ a ∈ l, b ≤ a ∧ a < b + n) : l.length ≤ n := by
  have hs : l ⊆ List.range' b n := fun a ha => by
    rw [List.mem_range']
    obtain ⟨h1, h2⟩ := hr a ha
    exact ⟨a - b, by omega, by omega⟩
  have := (List.subperm_of_subset nd hs).length_le
  rwa [List.length_range'] at this


theorem pow_pred_double (k : Nat) (h : 1 ≤ k) : 2 ^ k = 2 ^ (k - 1) + 2 ^ (k - 1) := by
  obtain ⟨m, rfl⟩ : ∃ m, k = m + 1 := ⟨k - 1, by omega⟩
  rw [Nat.add_sub_cancel, pow_succ]; omega

theorem pow_pos2 (j : Nat) : 0 < 2 ^ j := Nat.pow_pos (by decide)

theorem frees_split (l r : BTree) (k a : Nat) (p : Nat × Nat) :
    p ∈ (BTree.split l r).frees k a ↔
      p ∈ l.frees (k - 1) a ∨ p ∈ r.frees (k - 1) (a + 2 ^ (k - 1)) := by
  show p ∈ _ ++ _ ↔ _
  exact List.mem_append

theorem useds_split (l r : BTree) (k a : Nat) (p : Nat × Nat) :
    p ∈ (BTree.split l r).useds k a ↔
      p ∈ l.useds (k - 1) a ∨ p ∈ r.useds (k - 1) (a + 2 ^ (k - 1)) := by
  show p ∈ _ ++ _ ↔ _
  exact List.mem_append

/-- A free block of a pool shape lies inside the root block. -/
theorem frees_range : ∀ (t : BTree) (k a j b : Nat), t.WF k → (j, b) ∈ t.frees k a →
    4 ≤ j ∧ j ≤ k ∧ a ≤ b ∧ b + 2 ^ j ≤ a + 2 ^ k := by
  intro t
  induction t with
  | free =>
    intro k a j b hw hm
    have h4 : 4 ≤ k := hw
    have e : (j, b) = (k, a) := List.mem_singleton.1 hm
    cases e
    exact ⟨h4, le_refl _, le_refl _, le_refl _⟩
  | used => intro k a j b _ hm; exact absurd hm (List.not_mem_nil _)
  | split l r ihl ihr =>
    intro k a j b hw hm
    obtain ⟨h5, wl, wr⟩ := hw
    have hk := pow_pred_double k (by omega)
    have := pow_pos2 (k - 1)
    rcases (frees_split _ _ _ _ _).1 hm with h | h
    · obtain ⟨h1, h2, h3, h4⟩ := ihl _ _ _ _ wl h
      exact ⟨h1, by omega, h3, by omega⟩
    · obtain ⟨h1, h2, h3, h4⟩ := ihr _ _ _ _ wr h
      exact ⟨h1, by omega, by omega, by omega⟩

/-- A block handed out lies inside the root block. -/
theorem useds_range : ∀ (t : BTree) (k a j b : Nat), t.WF k → (j, b) ∈ t.useds k a →
    4 ≤ j ∧ j ≤ k ∧ a ≤ b ∧ b + 2 ^ j ≤ a + 2 ^ k := by
  intro t
  induction t with
  | free => intro k a j b _ hm; exact absurd hm (List.not_mem_nil _)
  | used =>
    intro k a j b hw hm
    have h4 : 4 ≤ k := hw
    have e : (j, b) = (k, a) := List.mem_singleton.1 hm
    cases e
    exact ⟨h4, le_refl _, le_refl _, le_refl _⟩
  | split l r ihl ihr =>
    intro k a j b hw hm
    obtain ⟨h5, wl, wr⟩ := hw
    have hk := pow_pred_double k (by omega)
    have := pow_pos2 (k - 1)
    rcases (useds_split _ _ _ _ _).1 hm with h | h
    · obtain ⟨h1, h2, h3, h4⟩ := ihl _ _ _ _ wl h
      exact ⟨h1, by omega, h3, by omega⟩
    · obtain ⟨h1, h2, h3, h4⟩ := ihr _ _ _ _ wr h
      exact ⟨h1, by omega, by omega, by omega⟩

/-- The address of a block of a pool shape, free or handed out, determines the
block: no second block, free or handed out, of any order starts there. -/
theorem leaf_uniq : ∀ (t : BTree) (k a i j b : Nat), t.WF k →
    ((i, b) ∈ t.frees k a ∨ (i, b) ∈ t.useds k a) →
    ((j, b) ∈ t.frees k a ∨ (j, b) ∈ t.useds k a) →
    i = j ∧ ((i, b) ∈ t.frees k a ↔ (j, b) ∈ t.frees k a) := by
  intro t
  induction t with
  | free =>
    intro k a i j b _ h1 h2
    rcases h1 with h1 | h1
    · rcases h2 with h2 | h2
      · have e1 : (i, b) = (k, a) := List.mem_singleton.1 h1
        have e2 : (j, b) = (k, a) := List.mem_singleton.1 h2
        cases e1; cases e2
        exact ⟨rfl, Iff.rfl⟩
      · exact absurd h2 (List.not_mem_nil _)
    · exact absurd h1 (List.not_mem_nil _)
  | used =>
    intro k a i j b _ h1 h2
    rcases h1 with h1 | h1
    · exact absurd h1 (List.not_mem_nil _)
    · rcases h2 with h2 | h2
      · exact absurd h2 (List.not_mem_nil _)
      · have e1 : (i, b) = (k, a) := List.mem_singleton.1 h1
        have e2 : (j, b) = (k, a) := List.mem_singleton.1 h2
        cases e1; cases e2
        exact ⟨rfl, Iff.rfl⟩
  | split l r ihl ihr =>
    intro k a i j b hw h1 h2
    obtain ⟨h5, wl, wr⟩ := hw
    have inl : ∀ q, ((q, b) ∈ l.frees (k - 1) a ∨ (q, b) ∈ l.useds (k - 1) a) →
        b < a + 2 ^ (k - 1) := by
      intro q hq
      have := pow_pos2 q
      rcases hq with hq | hq
      · have := frees_range _ _ _ _ _ wl hq; omega
      · have := useds_range _ _ _ _ _ wl hq; omega
    have inr : ∀ q, ((q, b) ∈ r.frees (k - 1) (a + 2 ^ (k - 1)) ∨
        (q, b) ∈ r.useds (k - 1) (a + 2 ^ (k - 1))) → a + 2 ^ (k - 1) ≤ b := by
      intro q hq
      rcases hq with hq | hq
      · have := frees_range _ _ _ _ _ wr hq; omega
      · have := useds_range _ _ _ _ _ wr hq; omega
    have sp : ∀ q, ((q, b) ∈ (BTree.split l r).frees k a ∨ (q, b) ∈ (BTree.split l r).useds k a) →
        ((q, b) ∈ l.frees (k - 1) a ∨ (q, b) ∈ l.useds (k - 1) a) ∨
        ((q, b) ∈ r.frees (k - 1) (a + 2 ^ (k - 1)) ∨
          (q, b) ∈ r.useds (k - 1) (a + 2 ^ (k - 1))) := by
      intro q hq
      rw [frees_split, useds_split] at hq
      rcases hq with (h | h) | (h | h)
      · exact Or.inl (Or.inl h)
      · exact Or.inr (Or.inl h)
      · exact Or.inl (Or.inr h)
      · exact Or.inr (Or.inr h)
    rcases sp i h1 with g1 | g1
    · rcases sp j h2 with g2 | g2
      · obtain ⟨e, f⟩ := ihl _ _ _ _ _ wl g1 g2
        refine ⟨e, ?_⟩
        rw [frees_split, frees_split]
        constructor
        · rintro (h | h)
          · exact Or.inl (f.1 h)
          · exact absurd (inr i (Or.inl h)) (Nat.not_le.2 (inl i g1))
        · rintro (h | h)
          · exact Or.inl (f.2 h)
          · exact absurd (inr j (Or.inl h)) (Nat.not_le.2 (inl i g1))
      · exact absurd (inr j g2) (Nat.not_le.2 (inl i g1))
    · rcases sp j h2 with g2 | g2
      · exact absurd (inr i g1) (Nat.not_le.2 (inl j g2))
      · obtain ⟨e, f⟩ := ihr _ _ _ _ _ wr g1 g2
        refine ⟨e, ?_⟩
        rw [frees_split, frees_split]
        constructor
        · rintro (h | h)
          · exact absurd (inr i g1) (Nat.not_le.2 (inl i (Or.inl h)))
          · exact Or.inr (f.1 h)
        · rintro (h | h)
          · exact absurd (inr i g1) (Nat.not_le.2 (inl j (Or.inl h)))
          · exact Or.inr (f.2 h)

/-- In a pool shape no block is both free and handed out. -/
theorem frees_not_useds : ∀ (t : BTree) (k a i j b : Nat),
    (i, b) ∈ t.frees k a → (j, b) ∈ t.useds k a → t.WF k → False := by
  intro t
  induction t with
  | free => intro k a i j b _ h2 _; exact absurd h2 (List.not_mem_nil _)
  | used => intro k a i j b h1 _ _; exact absurd h1 (List.not_mem_nil _)
  | split l r ihl ihr =>
    intro k a i j b h1 h2 hw
    obtain ⟨h5, wl, wr⟩ := hw
    have := pow_pos2 i
    have := pow_pos2 j
    rcases (frees_split _ _ _ _ _).1 h1 with g1 | g1
    · rcases (useds_split _ _ _ _ _).1 h2 with g2 | g2
      · exact ihl _ _ _ _ _ g1 g2 wl
      · have := frees_range _ _ _ _ _ wl g1
        have := useds_range _ _ _ _ _ wr g2
        omega
    · rcases (useds_split _ _ _ _ _).1 h2 with g2 | g2
      · have := frees_range _ _ _ _ _ wr g1
        have := useds_range _ _ _ _ _ wl g2
        omega
      · exact ihr _ _ _ _ _ g1 g2 wr

theorem merged_split (l r : BTree) :
    (BTree.split l r).Merged ↔ ¬ (l = BTree.free ∧ r = BTree.free) ∧ l.Merged ∧ r.Merged := by
  cases l <;> cases r <;> simp [BTree.Merged]

theorem mk_cases (l r : BTree) :
    (l = BTree.free ∧ r = BTree.free ∧ BTree.mk l r = BTree.free) ∨
    (¬ (l = BTree.free ∧ r = BTree.free) ∧ BTree.mk l r = BTree.split l r) := by
  cases l <;> cases r <;> simp [BTree.mk]

theorem down_ne_free (d : Nat) : BTree.down d ≠ BTree.free := by
  cases d <;> simp [BTree.down]

theorem down_merged (d : Nat) : (BTree.down d).Merged := by
  induction d with
  | zero => trivial
  | succ d ih =>
    show (BTree.split (BTree.down d) BTree.free).Merged
    rw [merged_split]
    exact ⟨fun h => down_ne_free d h.1, ih, trivial⟩

theorem down_wf (d : Nat) : ∀ k, d + 4 ≤ k → (BTree.down d).WF k := by
  induction d with
  | zero => intro k h; exact h
  | succ d ih =>
    intro k h
    show 5 ≤ k ∧ (BTree.down d).WF (k - 1) ∧ 4 ≤ k - 1
    exact ⟨by omega, ih _ (by omega), by omega⟩

theorem down_frees (d : Nat) : ∀ k a j b, d ≤ k →
    ((j, b) ∈ (BTree.down d).frees k a ↔ k - d ≤ j ∧ j < k ∧ b = a + 2 ^ j) := by
  induction d with
  | zero =>
    intro k a j b _
    constructor
    · intro h; exact absurd h (List.not_mem_nil _)
    · rintro ⟨h1, h2, -⟩; omega
  | succ d ih =>
    intro k a j b h
    show (j, b) ∈ (BTree.split (BTree.down d) BTree.free).frees k a ↔ _
    rw [frees_split, ih _ _ _ _ (by omega : d ≤ k - 1)]
    constructor
    · rintro (⟨h1, h2, h3⟩ | h1)
      · exact ⟨by omega, by omega, h3⟩
      · have e : (j, b) = (k - 1, a + 2 ^ (k - 1)) := List.mem_singleton.1 h1
        cases e
        exact ⟨by omega, by omega, rfl⟩
    · rintro ⟨h1, h2, h3⟩
      by_cases e : j = k - 1
      · right
        rw [h3, e]
        exact List.mem_singleton_self _
      · left
        exact ⟨by omega, by omega, h3⟩

theorem down_useds (d : Nat) : ∀ k a j b, d ≤ k →
    ((j, b) ∈ (BTree.down d).useds k a ↔ j = k - d ∧ b = a) := by
  induction d with
  | zero =>
    intro k a j b _
    constructor
    · intro h
      have e : (j, b) = (k, a) := List.mem_singleton.1 h
      cases e; exact ⟨rfl, rfl⟩
    · rintro ⟨h1, h2⟩
      rw [h1, h2]; exact List.mem_singleton_self _
  | succ d ih =>
    intro k a j b h
    show (j, b) ∈ (BTree.split (BTree.down d) BTree.free).useds k a ↔ _
    rw [useds_split, ih _ _ _ _ (by omega : d ≤ k - 1)]
    constructor
    · rintro (⟨h1, h2⟩ | h1)
      · exact ⟨by omega, h2⟩
      · exact absurd h1 (List.not_mem_nil _)
    · rintro ⟨h1, h2⟩
      exact Or.inl ⟨by omega, h2⟩

/-- The pool shape after `malloc_buddy_alloc` took the free block `(k, x)` for a
block of the order `o`. -/
theorem take_spec (x o k : Nat) (ho : 4 ≤ o) (hok : o ≤ k) : ∀ (t : BTree) (K a : Nat),
    t.WF K → (k, x) ∈ t.frees K a →
    (t.take K a x o).WF K ∧ (t.Merged → (t.take K a x o).Merged) ∧
    t.take K a x o ≠ BTree.free ∧
    (∀ j b, (j, b) ∈ (t.take K a x o).frees K a ↔
      ((j, b) ∈ t.frees K a ∧ b ≠ x) ∨ (o ≤ j ∧ j < k ∧ b = x + 2 ^ j)) ∧
    (∀ j b, (j, b) ∈ (t.take K a x o).useds K a ↔
      (j, b) ∈ t.useds K a ∨ (j = o ∧ b = x)) := by
  intro t
  induction t with
  | free =>
    intro K a hw hm
    have e : (k, x) = (K, a) := List.mem_singleton.1 hm
    cases e
    have h4 : 4 ≤ k := hw
    have et : BTree.free.take k x x o = BTree.down (k - o) := by
      show (if x = x then _ else _) = _
      rw [if_pos rfl]
    rw [et]
    refine ⟨down_wf _ _ (by omega), fun _ => down_merged _, down_ne_free _, fun j b => ?_,
      fun j b => ?_⟩
    · rw [down_frees _ _ _ _ _ (by omega)]
      constructor
      · rintro ⟨h1, h2, h3⟩
        exact Or.inr ⟨by omega, h2, h3⟩
      · rintro (⟨h1, h2⟩ | ⟨h1, h2, h3⟩)
        · have e : (j, b) = (k, x) := List.mem_singleton.1 h1
          cases e; exact absurd rfl h2
        · exact ⟨by omega, h2, h3⟩
    · rw [down_useds _ _ _ _ _ (by omega)]
      constructor
      · rintro ⟨h1, h2⟩
        exact Or.inr ⟨by omega, h2⟩
      · rintro (h1 | ⟨h1, h2⟩)
        · exact absurd h1 (List.not_mem_nil _)
        · exact ⟨by omega, h2⟩
  | used => intro K a _ hm; exact absurd hm (List.not_mem_nil _)
  | split l r ihl ihr =>
    intro K a hw hm
    obtain ⟨h5, wl, wr⟩ := hw
    have := pow_pos2 k
    rcases (frees_split _ _ _ _ _).1 hm with g | g
    · have rg := frees_range _ _ _ _ _ wl g
      have lt : x < a + 2 ^ (K - 1) := by omega
      have et : (BTree.split l r).take K a x o = BTree.split (l.take (K - 1) a x o) r := by
        show (if x < a + 2 ^ (K - 1) then _ else _) = _
        rw [if_pos lt]
      rw [et]
      obtain ⟨i1, i2, i3, i4, i5⟩ := ihl _ _ wl g
      refine ⟨⟨h5, i1, wr⟩, fun hmg => ?_, fun h => BTree.noConfusion h, fun j b => ?_,
        fun j b => ?_⟩
      · rw [merged_split] at hmg ⊢
        exact ⟨fun h => i3 h.1, i2 hmg.2.1, hmg.2.2⟩
      · rw [frees_split, frees_split, i4]
        constructor
        · rintro ((⟨h1, h2⟩ | h1) | h1)
          · exact Or.inl ⟨Or.inl h1, h2⟩
          · exact Or.inr h1
          · have := frees_range _ _ _ _ _ wr h1
            exact Or.inl ⟨Or.inr h1, by omega⟩
        · rintro (⟨h1 | h1, h2⟩ | h1)
          · exact Or.inl (Or.inl ⟨h1, h2⟩)
          · exact Or.inr h1
          · exact Or.inl (Or.inr h1)
      · rw [useds_split, useds_split, i5]
        exact or_right_comm
    · have rg := frees_range _ _ _ _ _ wr g
      have lt : ¬ x < a + 2 ^ (K - 1) := by omega
      have et : (BTree.split l r).take K a x o =
          BTree.split l (r.take (K - 1) (a + 2 ^ (K - 1)) x o) := by
        show (if x < a + 2 ^ (K - 1) then _ else _) = _
        rw [if_neg lt]
      rw [et]
      obtain ⟨i1, i2, i3, i4, i5⟩ := ihr _ _ wr g
      refine ⟨⟨h5, wl, i1⟩, fun hmg => ?_, fun h => BTree.noConfusion h, fun j b => ?_,
        fun j b => ?_⟩
      · rw [merged_split] at hmg ⊢
        exact ⟨fun h => i3 h.2, hmg.2.1, i2 hmg.2.2⟩
      · rw [frees_split, frees_split, i4]
        constructor
        · rintro (h1 | (⟨h1, h2⟩ | h1))
          · have := frees_range _ _ _ _ _ wl h1
            have := pow_pos2 j
            exact Or.inl ⟨Or.inl h1, by omega⟩
          · exact Or.inl ⟨Or.inr h1, h2⟩
          · exact Or.inr h1
        · rintro (⟨h1 | h1, h2⟩ | h1)
          · exact Or.inl h1
          · exact Or.inr (Or.inl ⟨h1, h2⟩)
          · exact Or.inr (Or.inr h1)
      · rw [useds_split, useds_split, i5]
        exact or_assoc.symm

theorem mk_useds (l r : BTree) (k a : Nat) (p : Nat × Nat) :
    p ∈ (BTree.mk l r).useds k a ↔
      p ∈ l.useds (k - 1) a ∨ p ∈ r.useds (k - 1) (a + 2 ^ (k - 1)) := by
  rcases mk_cases l r with ⟨h1, h2, h3⟩ | ⟨-, h3⟩
  · rw [h3, h1, h2]
    constructor
    · intro h; exact absurd h (List.not_mem_nil _)
    · rintro (h | h) <;> exact absurd h (List.not_mem_nil _)
  · rw [h3]; exact useds_split _ _ _ _ _

theorem mk_wf (l r : BTree) (k : Nat) (h5 : 5 ≤ k) (wl : l.WF (k - 1)) (wr : r.WF (k - 1)) :
    (BTree.mk l r).WF k := by
  rcases mk_cases l r with ⟨-, -, h3⟩ | ⟨-, h3⟩
  · rw [h3]; show 4 ≤ k; omega
  · rw [h3]; exact ⟨h5, wl, wr⟩

theorem mk_merged (l r : BTree) (ml : l.Merged) (mr : r.Merged) : (BTree.mk l r).Merged := by
  rcases mk_cases l r with ⟨-, -, h3⟩ | ⟨h1, h3⟩
  · rw [h3]; trivial
  · rw [h3, merged_split]; exact ⟨h1, ml, mr⟩

/-- The pool shape after the block handed out at `x` was freed: the other
blocks handed out stay, the shape is merged again. -/
theorem rel_spec (x o : Nat) : ∀ (t : BTree) (K a : Nat),
    t.WF K → t.Merged → (o, x) ∈ t.useds K a →
    (t.rel K a x).WF K ∧ (t.rel K a x).Merged ∧
    (∀ j b, (j, b) ∈ (t.rel K a x).useds K a ↔ (j, b) ∈ t.useds K a ∧ b ≠ x) := by
  intro t
  induction t with
  | free => intro K a _ _ hm; exact absurd hm (List.not_mem_nil _)
  | used =>
    intro K a hw _ hm
    have e : (o, x) = (K, a) := List.mem_singleton.1 hm
    cases e
    have et : BTree.used.rel o x x = BTree.free := by
      show (if x = x then _ else _) = _
      rw [if_pos rfl]
    rw [et]
    refine ⟨hw, trivial, fun j b => ?_⟩
    constructor
    · intro h; exact absurd h (List.not_mem_nil _)
    · rintro ⟨h1, h2⟩
      have e : (j, b) = (o, x) := List.mem_singleton.1 h1
      cases e; exact absurd rfl h2
  | split l r ihl ihr =>
    intro K a hw hmg hm
    obtain ⟨h5, wl, wr⟩ := hw
    rw [merged_split] at hmg
    have := pow_pos2 o
    rcases (useds_split _ _ _ _ _).1 hm with g | g
    · have rg := useds_range _ _ _ _ _ wl g
      have lt : x < a + 2 ^ (K - 1) := by omega
      have et : (BTree.split l r).rel K a x = BTree.mk (l.rel (K - 1) a x) r := by
        show (if x < a + 2 ^ (K - 1) then _ else _) = _
        rw [if_pos lt]
      rw [et]
      obtain ⟨i1, i2, i3⟩ := ihl _ _ wl hmg.2.1 g
      refine ⟨mk_wf _ _ _ h5 i1 wr, mk_merged _ _ i2 hmg.2.2, fun j b => ?_⟩
      rw [mk_useds, useds_split, i3]
      constructor
      · rintro (⟨h1, h2⟩ | h1)
        · exact ⟨Or.inl h1, h2⟩
        · have := useds_range _ _ _ _ _ wr h1
          exact ⟨Or.inr h1, by omega⟩
      · rintro ⟨h1 | h1, h2⟩
        · exact Or.inl ⟨h1, h2⟩
        · exact Or.inr h1
    · have rg := useds_range _ _ _ _ _ wr g
      have lt : ¬ x < a + 2 ^ (K - 1) := by omega
      have et : (BTree.split l r).rel K a x =
          BTree.mk l (r.rel (K - 1) (a + 2 ^ (K - 1)) x) := by
        show (if x < a + 2 ^ (K - 1) then _ else _) = _
        rw [if_neg lt]
      rw [et]
      obtain ⟨i1, i2, i3⟩ := ihr _ _ wr hmg.2.2 g
      refine ⟨mk_wf _ _ _ h5 wl i1, mk_merged _ _ hmg.2.1 i2, fun j b => ?_⟩
      rw [mk_useds, useds_split, i3]
      constructor
      · rintro (h1 | ⟨h1, h2⟩)
        · have := useds_range _ _ _ _ _ wl h1
          have := pow_pos2 j
          exact ⟨Or.inl h1, by omega⟩
        · exact ⟨Or.inr h1, h2⟩
      · rintro ⟨h1 | h1, h2⟩
        · exact Or.inl h1
        · exact Or.inr ⟨h1, h2⟩

/-- A merged pool shape with no block handed out is one free block. -/
theorem merged_no_useds : ∀ (t : BTree) (k a : Nat), t.Merged →
    (∀ p, p ∉ t.useds k a) → t = BTree.free := by
  intro t
  induction t with
  | free => intro _ _ _ _; rfl
  | used => intro k a _ h; exact absurd (List.mem_singleton_self _) (h (k, a))
  | split l r ihl ihr =>
    intro k a hm h
    rw [merged_split] at hm
    exfalso
    apply hm.1
    exact ⟨ihl _ _ hm.2.1 (fun p hp => h p ((useds_split _ _ _ _ _).2 (Or.inl hp))),
      ihr _ _ hm.2.2 (fun p hp => h p ((useds_split _ _ _ _ _).2 (Or.inr hp)))⟩

/-- The blocks of a pool shape do not overlap: no block starts inside another
block. -/
theorem leaf_disjoint : ∀ (t : BTree) (K a k x i b : Nat), t.WF K →
    ((k, x) ∈ t.frees K a ∨ (k, x) ∈ t.useds K a) →
    ((i, b) ∈ t.frees K a ∨ (i, b) ∈ t.useds K a) →
    x ≤ b → b < x + 2 ^ k → b = x := by
  intro t
  induction t with
  | free =>
    intro K a k x i b _ h1 h2 _ _
    rcases h1 with h1 | h1
    · rcases h2 with h2 | h2
      · have e1 : (k, x) = (K, a) := List.mem_singleton.1 h1
        have e2 : (i, b) = (K, a) := List.mem_singleton.1 h2
        cases e1; cases e2; rfl
      · exact absurd h2 (List.not_mem_nil _)
    · exact absurd h1 (List.not_mem_nil _)
  | used =>
    intro K a k x i b _ h1 h2 _ _
    rcases h1 with h1 | h1
    · exact absurd h1 (List.not_mem_nil _)
    · rcases h2 with h2 | h2
      · exact absurd h2 (List.not_mem_nil _)
      · have e1 : (k, x) = (K, a) := List.mem_singleton.1 h1
        have e2 : (i, b) = (K, a) := List.mem_singleton.1 h2
        cases e1; cases e2; rfl
  | split l r ihl ihr =>
    intro K a k x i b hw h1 h2 hxb hb
    obtain ⟨h5, wl, wr⟩ := hw
    have rl : ∀ q c, ((q, c) ∈ l.frees (K - 1) a ∨ (q, c) ∈ l.useds (K - 1) a) →
        a ≤ c ∧ c + 2 ^ q ≤ a + 2 ^ (K - 1) := by
      intro q c hq
      rcases hq with hq | hq
      · have := frees_range _ _ _ _ _ wl hq; omega
      · have := useds_range _ _ _ _ _ wl hq; omega
    have rr : ∀ q c, ((q, c) ∈ r.frees (K - 1) (a + 2 ^ (K - 1)) ∨
        (q, c) ∈ r.useds (K - 1) (a + 2 ^ (K - 1))) → a + 2 ^ (K - 1) ≤ c := by
      intro q c hq
      rcases hq with hq | hq
      · have := frees_range _ _ _ _ _ wr hq; omega
      · have := useds_range _ _ _ _ _ wr hq; omega
    have sp : ∀ q c, ((q, c) ∈ (BTree.split l r).frees K a ∨
        (q, c) ∈ (BTree.split l r).useds K a) →
        ((q, c) ∈ l.frees (K - 1) a ∨ (q, c) ∈ l.useds (K - 1) a) ∨
        ((q, c) ∈ r.frees (K - 1) (a + 2 ^ (K - 1)) ∨
          (q, c) ∈ r.useds (K - 1) (a + 2 ^ (K - 1))) := by
      intro q c hq
      rw [frees_split, useds_split] at hq
      rcases hq with (h | h) | (h | h)
      · exact Or.inl (Or.inl h)
      · exact Or.inr (Or.inl h)
      · exact Or.inl (Or.inr h)
      · exact Or.inr (Or.inr h)
    have := pow_pos2 i
    rcases sp _ _ h1 with g1 | g1
    · rcases sp _ _ h2 with g2 | g2
      · exact ihl _ _ _ _ _ _ wl g1 g2 hxb hb
      · have := rl _ _ g1
        have := rr _ _ g2
        omega
    · rcases sp _ _ h2 with g2 | g2
      · have := rl _ _ g2
        have := rr _ _ g1
        omega
      · exact ihr _ _ _ _ _ _ wr g1 g2 hxb hb


/-- The buddy of a left half: for an offset that is a multiple of `2^(j+1)`,
flipping bit `j` adds `2^j`. -/
theorem xor_left (off j : Nat) (h : off % 2 ^ (j + 1) = 0) : off ^^^ 2 ^ j = off + 2 ^ j := by
  obtain ⟨q, rfl⟩ : ∃ q, off = 2 ^ (j + 1) * q := ⟨off / 2 ^ (j + 1), by
    have := Nat.div_add_mod off (2 ^ (j + 1)); omega⟩
  have lt : 2 ^ j < 2 ^ (j + 1) := Nat.pow_lt_pow_right (by decide) (Nat.lt_succ_self j)
  rw [Nat.mul_add_lt_is_or lt]
  apply Nat.eq_of_testBit_eq
  intro i
  rw [Nat.testBit_xor, Nat.testBit_or, Nat.testBit_mul_pow_two, Nat.testBit_two_pow]
  by_cases e : j = i
  · have : ¬ j + 1 ≤ i := by omega
    simp [e, this]
  · simp [e]

/-- The buddy of a right half is the left half. -/
theorem xor_right (off j : Nat) (h : off % 2 ^ (j + 1) = 0) : (off + 2 ^ j) ^^^ 2 ^ j = off := by
  rw [← xor_left off j h, Nat.xor_assoc, Nat.xor_self, Nat.xor_zero]

/-- The tag of a block handed out has the high bit set. -/
theorem tag_high (o : Nat) : (0x8000000000000000 ||| o) &&& 0x8000000000000000 ≠ 0 := by
  intro h
  have h2 : Nat.testBit ((0x8000000000000000 ||| o) &&& 0x8000000000000000) 63 = false := by
    rw [h]; exact Nat.zero_testBit 63
  rw [Nat.testBit_and, Nat.testBit_or] at h2
  have h3 : Nat.testBit 0x8000000000000000 63 = true := by decide
  rw [h3] at h2
  simp at h2

/-- The low bits of the tag are the order. -/
theorem tag_low (o : Nat) (h : o < 2 ^ 63) :
    (0x8000000000000000 ||| o) &&& 0x7fffffffffffffff = o := by
  have e1 : (0x7fffffffffffffff : Nat) = 2 ^ 63 - 1 := by decide
  have e2 : (0x8000000000000000 : Nat) = 2 ^ 63 * 1 := by decide
  rw [e1, Nat.and_pow_two_sub_one_eq_mod, e2, ← Nat.mul_add_lt_is_or h]
  omega

/-- The tag is `2^63 + o`. -/
theorem tag_add (o : Nat) (h : o < 2 ^ 63) : 0x8000000000000000 ||| o = 2 ^ 63 + o := by
  have e2 : (0x8000000000000000 : Nat) = 2 ^ 63 * 1 := by decide
  rw [e2, ← Nat.mul_add_lt_is_or h]
  omega


theorem poolEq_refl (s : Heap) : PoolEq s s := ⟨rfl, rfl, rfl, rfl⟩

theorem poolEq_trans {s t u : Heap} (h1 : PoolEq s t) (h2 : PoolEq t u) : PoolEq s u :=
  ⟨h2.1.trans h1.1, h2.2.1.trans h1.2.1, h2.2.2.1.trans h1.2.2.1, h2.2.2.2.trans h1.2.2.2⟩

/-- The body of `malloc_buddy_alloc` once the pool exists. -/
theorem malloc_buddy_alloc_pool (s : Heap) (n : Nat) (os : Option Nat)
    (hb : s.buddy_base ≠ 0) (hn : n ≠ 0) :
    malloc_buddy_alloc s n os =
      if buddy_order s n > s.buddy_pool_order then (s, 0)
      else if bin_search s (s.buddy_pool_order + 2) (buddy_order s n) > s.buddy_pool_order
        then (s, 0)
      else
        ({ split_loop (buddy_order s n)
              (buddy_pop s (bin_search s (s.buddy_pool_order + 2) (buddy_order s n))).2
              (bin_search s (s.buddy_pool_order + 2) (buddy_order s n) - buddy_order s n)
              (buddy_pop s (bin_search s (s.buddy_pool_order + 2) (buddy_order s n))).1
              (bin_search s (s.buddy_pool_order + 2) (buddy_order s n)) with
            words := storeW (split_loop (buddy_order s n)
              (buddy_pop s (bin_search s (s.buddy_pool_order + 2) (buddy_order s n))).2
              (bin_search s (s.buddy_pool_order + 2) (buddy_order s n) - buddy_order s n)
              (buddy_pop s (bin_search s (s.buddy_pool_order + 2) (buddy_order s n))).1
              (bin_search s (s.buddy_pool_order + 2) (buddy_order s n))).words
              (buddy_pop s (bin_search s (s.buddy_pool_order + 2) (buddy_order s n))).2
              (0x8000000000000000 ||| buddy_order s n) },
          (buddy_pop s (bin_search s (s.buddy_pool_order + 2) (buddy_order s n))).2 + 8) := by
  unfold malloc_buddy_alloc buddy_order
  rw [if_neg hn]
  simp only [if_neg hb]

/-- The pushes of the right halves in `malloc_buddy_alloc`. -/
theorem split_loop_rep (order x : Nat) (U : Nat → Nat → Prop) : ∀ (d : Nat) (s : Heap)
    (F : Nat → Nat → Prop), BuddyRep s F U → order + d ≤ BUDDY_MAX_ORDER →
    (∀ i j, order ≤ j → j < order + d → ¬ F i (x + 2 ^ j)) →
    (∀ i j, order ≤ j → j < order + d → ¬ U i (x + 2 ^ j)) →
    PoolEq s (split_loop order x d s (order + d)) ∧
    BuddyRep (split_loop order x d s (order + d))
      (fun i b => F i b ∨ (order ≤ i ∧ i < order + d ∧ b = x + 2 ^ i)) U := by
  intro d
  induction d with
  | zero =>
    intro s F h _ _ _
    refine ⟨poolEq_refl s, rep_congr h (fun k a => ?_) (fun _ _ hu => hu)⟩
    constructor
    · rintro (h1 | ⟨h1, h2, -⟩)
      · exact h1
      · omega
    · exact fun h1 => Or.inl h1
  | succ d ih =>
    intro s F h hd hF hU
    have e : split_loop order x (d + 1) s (order + (d + 1)) =
        split_loop order x d (buddy_push s (order + d) (x + 2 ^ (order + d))) (order + d) := by
      show (if order + (d + 1) > order then _ else _) = _
      rw [if_pos (by omega)]
      have e1 : order + (d + 1) - 1 = order + d := by omega
      rw [e1, order_size_eq _ (by unfold BUDDY_MAX_ORDER at hd; omega)]
    rw [e]
    have hp := rep_push h (order + d) (x + 2 ^ (order + d)) (by omega)
      (by have := pow_pos2 (order + d); omega)
      (fun k => hF k _ (by omega) (by omega)) (fun k => hU k _ (by omega) (by omega))
    have ne : ∀ j, j < order + d → x + 2 ^ j ≠ x + 2 ^ (order + d) := by
      intro j hj e2
      have : 2 ^ j = 2 ^ (order + d) := by omega
      have := Nat.pow_right_injective (le_refl 2) this
      omega
    obtain ⟨i1, i2⟩ := ih _ _ hp (by omega)
      (fun i j h1 h2 hh => by
        rcases hh with hh | ⟨-, hh⟩
        · exact hF i j h1 (by omega) hh
        · exact ne j h2 hh)
      (fun i j h1 h2 => hU i j h1 (by omega))
    refine ⟨poolEq_trans ⟨rfl, rfl, rfl, rfl⟩ i1, rep_congr i2 (fun k a => ?_) (fun _ _ hu => hu)⟩
    constructor
    · rintro (h1 | ⟨h1, h2, h3⟩)
      · exact Or.inl (Or.inl h1)
      · by_cases e2 : k = order + d
        · exact Or.inl (Or.inr ⟨e2, by rw [h3, e2]⟩)
        · exact Or.inr ⟨h1, by omega, h3⟩
    · rintro ((h1 | ⟨h1, h2⟩) | ⟨h1, h2, h3⟩)
      · exact Or.inl h1
      · exact Or.inr ⟨by omega, by omega, by rw [h2, h1]⟩
      · exact Or.inr ⟨h1, by omega, h3⟩

/-- Writing the tag of a block that is on no bin. -/
theorem rep_tag {s : Heap} {F U U2 : Nat → Nat → Prop} (h : BuddyRep s F U) (x v : Nat)
    (hF : ∀ i, ¬ F i x)
    (hU : ∀ j a, U2 j a → (a ≠ x ∧ U j a) ∨ (a = x ∧ v = 0x8000000000000000 ||| j)) :
    BuddyRep { s with words := storeW s.words x v } F U2 := by
  refine ⟨fun k hk => ?_, fun k a hu => ?_⟩
  · obtain ⟨l, l1, l2, l3⟩ := h.bins k hk
    refine ⟨l, ?_, l2, l3⟩
    exact seg_frame _ _ _ _ _ (fun y hy => storeW_other _ _ _ _
      (fun e2 => hF k (e2 ▸ (l3 y).1 hy))) l1
  · rcases hU k a hu with ⟨h1, h2⟩ | ⟨h1, h2⟩
    · show storeW s.words x v a = _
      rw [storeW_other _ _ _ _ h1]; exact h.tags k a h2
    · show storeW s.words x v a = _
      rw [h1, storeW_same]; exact h2

/-- The classifier `is_buddy_ptr` accepts the pointer of every block handed
out and recovers the order and the base of the block. -/
theorem is_buddy_ptr_used {s : Heap} {t : BTree} (h : BuddyInv s t) (o a : Nat)
    (hu : (o, a) ∈ t.useds s.buddy_pool_order s.buddy_base) :
    is_buddy_ptr s (a + 8) = some (o, a) := by
  obtain ⟨r1, r2, r3, r4⟩ := useds_range _ _ _ _ _ h.wf hu
  have hfit := h.fits
  have p16 : 16 ≤ 2 ^ o := by
    have := Nat.pow_le_pow_right (by decide : 0 < 2) r1
    omega
  have hP := h.order.2
  unfold BUDDY_MAX_ORDER at hP
  have o63 : o < 2 ^ 63 := by
    have : o < 64 := by omega
    omega
  unfold is_buddy_ptr
  rw [if_neg h.base, h.top, add64_eq _ _ hfit, if_neg (by omega), Nat.add_sub_cancel,
    h.rep.tags o a hu, if_neg (tag_high o), tag_low o o63, if_neg (by omega)]

/-- The order that `malloc_buddy_alloc` computes: the least order from `4` on
whose block holds the rounded size and the tag, or `buddy_pool_order + 1` when
no order of the pool does. -/
theorem buddy_order_spec {s : Heap} {t : BTree} (h : BuddyInv s t) (n : Nat) :
    4 ≤ buddy_order s n ∧ buddy_order s n ≤ s.buddy_pool_order + 1 ∧
    (∀ q, 4 ≤ q → q < buddy_order s n → 2 ^ q < ALIGN_UP n ALIGN + 8) ∧
    (buddy_order s n ≤ s.buddy_pool_order → ALIGN_UP n ALIGN + 8 ≤ 2 ^ buddy_order s n) := by
  have hP := h.order
  unfold BUDDY_MAX_ORDER at hP
  have a32 := (ALIGN_UP_facts n).2
  have e : buddy_order s n = order_loop (ALIGN_UP n ALIGN + 8) (s.buddy_pool_order + 1)
      (s.buddy_pool_order + 2) 4 := by
    unfold buddy_order
    rw [add64_eq _ _ (by omega), h.order0]
  obtain ⟨s1, s2, s3, s4⟩ := order_loop_spec (ALIGN_UP n ALIGN + 8) (s.buddy_pool_order + 1)
    (s.buddy_pool_order + 2) 4 (by omega)
  rw [← e] at s1 s2 s3 s4
  have s2b := s2 (by omega)
  refine ⟨s1, s2b, fun q h1 h2 => ?_, fun h1 => ?_⟩
  · have := s3 q h1 h2
    rwa [order_size_eq _ (by omega)] at this
  · have := s4 (by omega)
    rwa [order_size_eq _ (by omega)] at this

/-- The function `malloc_buddy_alloc` in a state with a pool, for a size that
is not zero.  It returns `NULL` and changes nothing when the order exceeds the
pool order or every bin from the order up to the pool order is empty.
Otherwise it takes the head `x` of the first bin `k` from the order on that is
not empty, returns `x + 8`, writes the tag, and the pool has the shape
`t.take`. -/
theorem alloc_spec {s : Heap} {t : BTree} (h : BuddyInv s t) (n : Nat) (hn : n ≠ 0)
    (os : Option Nat) :
    ((buddy_order s n > s.buddy_pool_order ∨
        ∀ k, buddy_order s n ≤ k → k ≤ s.buddy_pool_order → s.buddy_bins k = 0) →
      malloc_buddy_alloc s n os = (s, 0)) ∧
    (¬ (buddy_order s n > s.buddy_pool_order ∨
        ∀ k, buddy_order s n ≤ k → k ≤ s.buddy_pool_order → s.buddy_bins k = 0) →
      ∃ k x, buddy_order s n ≤ k ∧ k ≤ s.buddy_pool_order ∧ x = s.buddy_bins k ∧
        (∀ q, buddy_order s n ≤ q → q < k → s.buddy_bins q = 0) ∧
        (k, x) ∈ t.frees s.buddy_pool_order s.buddy_base ∧
        (malloc_buddy_alloc s n os).2 = x + 8 ∧
        PoolEq s (malloc_buddy_alloc s n os).1 ∧
        (malloc_buddy_alloc s n os).1.words x = 0x8000000000000000 ||| buddy_order s n ∧
        BuddyInv (malloc_buddy_alloc s n os).1
          (t.take s.buddy_pool_order s.buddy_base x (buddy_order s n))) := by
  have hP := h.order
  obtain ⟨o1, o2, -, -⟩ := buddy_order_spec h n
  obtain ⟨b1, b2, b3, b4⟩ := bin_search_spec s (s.buddy_pool_order + 2) (buddy_order s n)
    (by omega)
  have b2b := b2 o2
  rw [malloc_buddy_alloc_pool s n os h.base hn]
  generalize buddy_order s n = o at *
  generalize hk : bin_search s (s.buddy_pool_order + 2) o = k at *
  constructor
  · rintro (h1 | h1)
    · rw [if_pos h1]
    · by_cases c1 : o > s.buddy_pool_order
      · rw [if_pos c1]
      · rw [if_neg c1]
        by_cases c2 : k > s.buddy_pool_order
        · rw [if_pos c2]
        · exact absurd (h1 k b1 (by omega)) (b4 (by omega))
  · intro hne
    have c1 : ¬ o > s.buddy_pool_order := fun c => hne (Or.inl c)
    have c2 : ¬ k > s.buddy_pool_order := by
      intro c
      apply hne
      right
      intro q q1 q2
      exact b3 q q1 (by omega)
    rw [if_neg c1, if_neg c2]
    have k26 : k ≤ BUDDY_MAX_ORDER := by omega
    have huniq : ∀ j, (j, s.buddy_bins k) ∈ t.frees s.buddy_pool_order s.buddy_base → j = k := by
      intro j hj
      obtain ⟨l, l1, -, l3⟩ := h.rep.bins k k26
      cases l with
      | nil => exact absurd l1 (b4 (by omega))
      | cons y ys =>
        have : (k, s.buddy_bins k) ∈ t.frees s.buddy_pool_order s.buddy_base := by
          rw [l1.1]; exact (l3 y).1 (List.mem_cons_self _ _)
        exact (leaf_uniq _ _ _ _ _ _ h.wf (Or.inl hj) (Or.inl this)).1
    obtain ⟨p1, p2, p3, p4⟩ := rep_pop h.rep k k26 (b4 (by omega)) huniq
    have pe : PoolEq s (buddy_pop s k).1 := by
      unfold buddy_pop; rw [if_neg (b4 (by omega))]; exact ⟨rfl, rfl, rfl, rfl⟩
    rw [p1]
    generalize (buddy_pop s k).1 = s1 at *
    generalize hx : s.buddy_bins k = x at *
    obtain ⟨d, rfl⟩ : ∃ d, k = o + d := ⟨k - o, by omega⟩
    rw [Nat.add_sub_cancel_left]
    obtain ⟨r1, r2, r3, r4⟩ := frees_range _ _ _ _ _ h.wf p2
    have inside : ∀ j, j < o + d → x ≤ x + 2 ^ j ∧ x + 2 ^ j < x + 2 ^ (o + d) ∧
        x + 2 ^ j ≠ x := by
      intro j hj
      have := pow_pos2 j
      have := Nat.pow_lt_pow_right (by decide : 1 < 2) hj
      omega
    obtain ⟨q1, q2⟩ := split_loop_rep o x _ d s1 _ p4 k26
      (fun i j _ j2 hh => (inside j j2).2.2
        (leaf_disjoint _ _ _ _ _ _ _ h.wf (Or.inl p2) (Or.inl hh.1) (inside j j2).1
          (inside j j2).2.1))
      (fun i j _ j2 hh => (inside j j2).2.2
        (leaf_disjoint _ _ _ _ _ _ _ h.wf (Or.inl p2) (Or.inr hh) (inside j j2).1
          (inside j j2).2.1))
    generalize split_loop o x d s1 (o + d) = s2 at *
    obtain ⟨t1, t2, t3, t4, t5⟩ := take_spec x o (o + d) o1 (by omega) t _ _ h.wf p2
    have pe2 : PoolEq s s2 := poolEq_trans pe q1
    refine ⟨o + d, x, b1, by omega, hx.symm, fun q h1 h2 => b3 q h1 h2, p2, rfl, pe2,
      storeW_same _ _ _, ?_⟩
    obtain ⟨e1, e2, e3, e4⟩ := pe2
    refine ⟨?_, ?_, ?_, ?_, ?_, ?_, ?_, ?_⟩
    · show s2.buddy_base ≠ 0
      rw [e1]; exact h.base
    · show s2.buddy_order0 = 4
      rw [e3]; exact h.order0
    · show 4 ≤ s2.buddy_pool_order ∧ s2.buddy_pool_order ≤ BUDDY_MAX_ORDER
      rw [e4]; exact h.order
    · show s2.buddy_top_size = 2 ^ s2.buddy_pool_order
      rw [e2, e4]; exact h.top
    · show s2.buddy_base + 2 ^ s2.buddy_pool_order < 2 ^ 64
      rw [e1, e4]; exact h.fits
    · show (t.take s.buddy_pool_order s.buddy_base x o).WF s2.buddy_pool_order
      rw [e4]; exact t1
    · exact t2 h.merged
    · have key : BuddyRep { s2 with words := storeW s2.words x (0x8000000000000000 ||| o) }
          (fun j b => (j, b) ∈ (t.take s.buddy_pool_order s.buddy_base x o).frees
            s.buddy_pool_order s.buddy_base)
          (fun j b => (j, b) ∈ (t.take s.buddy_pool_order s.buddy_base x o).useds
            s.buddy_pool_order s.buddy_base) := by
        refine rep_tag (rep_congr q2 (fun j b => t4 j b) (fun _ _ hu => hu)) x _ ?_ ?_
        · intro i hi
          rw [t4] at hi
          rcases hi with ⟨-, hi⟩ | ⟨-, hi, hi2⟩
          · exact hi rfl
          · exact (inside i hi).2.2 hi2.symm
        · intro j a hu
          rw [t5] at hu
          rcases hu with hu | ⟨hu1, hu2⟩
          · refine Or.inl ⟨fun e => ?_, hu⟩
            rw [e] at hu
            exact frees_not_useds _ _ _ _ _ _ p2 hu h.wf
          · exact Or.inr ⟨hu2, by rw [hu1]⟩
      refine rep_congr key (fun j b => ?_) (fun j b hu => ?_)
      · show (j, b) ∈ (t.take s.buddy_pool_order s.buddy_base x o).frees
          s2.buddy_pool_order s2.buddy_base ↔ _
        rw [e1, e4]
      · have hu2 : (j, b) ∈ (t.take s.buddy_pool_order s.buddy_base x o).useds
          s2.buddy_pool_order s2.buddy_base := hu
        rw [e1, e4] at hu2
        exact hu2


/-- A shape whose root block is among its free blocks is one free block. -/
theorem root_free (t : BTree) (k a : Nat) (hw : t.WF k) (h : (k, a) ∈ t.frees k a) :
    t = BTree.free := by
  cases t with
  | free => rfl
  | used => exact absurd h (List.not_mem_nil _)
  | split l r =>
    obtain ⟨h5, wl, wr⟩ := hw
    rcases (frees_split _ _ _ _ _).1 h with g | g
    · have := frees_range _ _ _ _ _ wl g; omega
    · have := frees_range _ _ _ _ _ wr g; omega

/-- One round of the loop of `buddy_try_merge` below the pool order: when the
buddy is free at this order it is unlinked and the loop goes on one order up
with the lower of the two offsets; otherwise the block is pushed. -/
theorem merge_step {s0 s : Heap} {t0 : BTree} (g : BuddyInv s0 t0) (pe : PoolEq s0 s)
    {F U : Nat → Nat → Prop} (h : BuddyRep s F U) (j off offb f : Nat)
    (hj : j < s0.buddy_pool_order) (hx : off ^^^ 2 ^ j = offb)
    (hb : offb < 2 ^ s0.buddy_pool_order)
    (huniq : ∀ i k a, F i a → F k a → i = k) (hFU : ∀ i k a, F i a → ¬ U k a)
    (hrange : ∀ i a, F i a → s0.buddy_base ≤ a ∧ a < s0.buddy_base + 2 ^ s0.buddy_pool_order) :
    (F j (s0.buddy_base + offb) →
      ∃ s1, merge_loop (f + 1) s j off =
          merge_loop f s1 (j + 1) (if offb < off then offb else off) ∧
        PoolEq s0 s1 ∧ BuddyRep s1 (fun k a => F k a ∧ a ≠ s0.buddy_base + offb) U) ∧
    (¬ F j (s0.buddy_base + offb) →
      merge_loop (f + 1) s j off = some (buddy_push s j (s0.buddy_base + off))) := by
  obtain ⟨e1, e2, e3, e4⟩ := pe
  have hP := g.order.2
  unfold BUDDY_MAX_ORDER at hP
  have j26 : j ≤ BUDDY_MAX_ORDER := by unfold BUDDY_MAX_ORDER; omega
  have hfuel : ∀ l : List Nat, l.Nodup → (∀ a ∈ l, F j a) → l.length < s.buddy_top_size + 1 := by
    intro l nd hl
    have := nodup_range_length l s0.buddy_base (2 ^ s0.buddy_pool_order) nd
      (fun a ha => hrange j a (hl a ha))
    rw [e2, g.top]; omega
  have un : merge_loop (f + 1) s j off =
      match bin_scan j (s0.buddy_base + offb) (s.buddy_top_size + 1) s 0 (s.buddy_bins j) with
      | none => none
      | some (s1, true) => merge_loop f s1 (j + 1) (if offb < off then offb else off)
      | some (s1, false) => some (buddy_push s1 j (off_ptr s1 off)) := by
    show (if j < s.buddy_pool_order then _ else _) = _
    rw [if_pos (by rw [e4]; exact hj), order_size_eq j (by omega), hx,
      if_neg (by rw [e2, g.top]; omega)]
    unfold off_ptr
    rw [e1]
  rw [un]
  constructor
  · intro hF
    obtain ⟨s1, k1, k2, k3⟩ := rep_unlink h j _ j26 hF huniq hFU _ hfuel
    rw [k1]
    exact ⟨s1, rfl, poolEq_trans ⟨e1, e2, e3, e4⟩ k2, k3⟩
  · intro hF
    rw [rep_scan_miss h j _ j26 hF _ hfuel]
    show some (buddy_push s j (off_ptr s off)) = _
    unfold off_ptr
    rw [e1]

/-- The loop of `buddy_try_merge` at the pool order pushes the block. -/
theorem merge_top {s0 s : Heap} (pe : PoolEq s0 s) (f off : Nat) :
    merge_loop f s s0.buddy_pool_order off =
      some (buddy_push s s0.buddy_pool_order (s0.buddy_base + off)) := by
  obtain ⟨e1, e2, e3, e4⟩ := pe
  cases f with
  | zero =>
    show some (buddy_push s s0.buddy_pool_order (off_ptr s off)) = _
    unfold off_ptr; rw [e1]
  | succ f =>
    show (if s0.buddy_pool_order < s.buddy_pool_order then _ else _) = _
    rw [if_neg (by rw [e4]; exact Nat.lt_irrefl _)]
    unfold off_ptr; rw [e1]

theorem mod_half (n k : Nat) (hk : 1 ≤ k) (h : n % 2 ^ k = 0) : n % 2 ^ (k - 1) = 0 := by
  obtain ⟨q, rfl⟩ := Nat.dvd_of_mod_eq_zero h
  obtain ⟨m, rfl⟩ : ∃ m, k = m + 1 := ⟨k - 1, by omega⟩
  rw [Nat.add_sub_cancel, pow_succ, Nat.mul_assoc]
  exact Nat.mul_mod_right _ _

/-- The round of the loop of `buddy_try_merge` for a block `(k-1, c)`, one half
of the block `(k, a)`, whose other half at `c2` has the shape `sib`: a free other
half is unlinked and the loop goes on with the block `(k, a)`; otherwise the
block is pushed on the bin `k-1`. -/
theorem merge_join {s0 s1 : Heap} {t0 : BTree} (g : BuddyInv s0 t0) (U : Nat → Nat → Prop)
    (pe1 : PoolEq s0 s1) (k a c c2 : Nat) (sib : BTree) (Fc : Nat → Nat → Prop)
    (h5 : 5 ≤ k) (hk : k ≤ s0.buddy_pool_order) (hBa : s0.buddy_base ≤ a)
    (hmod : (a - s0.buddy_base) % 2 ^ k = 0)
    (hfit : a + 2 ^ k ≤ s0.buddy_base + 2 ^ s0.buddy_pool_order)
    (hc : (c = a ∧ c2 = a + 2 ^ (k - 1)) ∨ (c = a + 2 ^ (k - 1) ∧ c2 = a))
    (wsib : sib.WF (k - 1))
    (rep1 : BuddyRep s1 (fun j b => Fc j b ∨ (j, b) ∈ sib.frees (k - 1) c2) U)
    (hFc : ∀ j b, Fc j b → b < a ∨ a + 2 ^ k ≤ b)
    (hUc : ∀ j, ¬ U j c)
    (huniq : ∀ i j b, (Fc i b ∨ (i, b) ∈ sib.frees (k - 1) c2) →
      (Fc j b ∨ (j, b) ∈ sib.frees (k - 1) c2) → i = j)
    (hFU : ∀ i j b, (Fc i b ∨ (i, b) ∈ sib.frees (k - 1) c2) → ¬ U j b)
    (hrange : ∀ i b, (Fc i b ∨ (i, b) ∈ sib.frees (k - 1) c2) →
      s0.buddy_base ≤ b ∧ b < s0.buddy_base + 2 ^ s0.buddy_pool_order) :
    (sib = BTree.free →
      ∃ s2, merge_loop (s0.buddy_pool_order - (k - 1)) s1 (k - 1) (c - s0.buddy_base) =
          merge_loop (s0.buddy_pool_order - k) s2 k (a - s0.buddy_base) ∧
        PoolEq s0 s2 ∧ BuddyRep s2 Fc U) ∧
    (sib ≠ BTree.free →
      ∃ s2, merge_loop (s0.buddy_pool_order - (k - 1)) s1 (k - 1) (c - s0.buddy_base) =
          some s2 ∧ PoolEq s0 s2 ∧
        BuddyRep s2 (fun j b => (Fc j b ∨ (j, b) ∈ sib.frees (k - 1) c2) ∨
          (j = k - 1 ∧ b = c)) U) := by
  have hk2 := pow_pred_double k (by omega)
  have hpos := pow_pos2 (k - 1)
  have fuel : s0.buddy_pool_order - (k - 1) = (s0.buddy_pool_order - k) + 1 := by omega
  have hm1 : (a - s0.buddy_base) % 2 ^ (k - 1 + 1) = 0 := by
    rw [Nat.sub_add_cancel (by omega)]; exact hmod
  have hP := g.order.2
  have hb0 := g.base
  have hxor : (c - s0.buddy_base) ^^^ 2 ^ (k - 1) = c2 - s0.buddy_base := by
    rcases hc with ⟨h1, h2⟩ | ⟨h1, h2⟩
    · rw [h1, h2, xor_left _ _ hm1]; omega
    · rw [h1, h2]
      have : a + 2 ^ (k - 1) - s0.buddy_base = (a - s0.buddy_base) + 2 ^ (k - 1) := by omega
      rw [this, xor_right _ _ hm1]
  have hmin : (if c2 - s0.buddy_base < c - s0.buddy_base then c2 - s0.buddy_base
      else c - s0.buddy_base) = a - s0.buddy_base := by
    rcases hc with ⟨h1, h2⟩ | ⟨h1, h2⟩
    · rw [h1, h2, if_neg (by omega)]
    · rw [h1, h2, if_pos (by omega)]
  have ec : s0.buddy_base + (c - s0.buddy_base) = c := by
    rcases hc with ⟨h1, h2⟩ | ⟨h1, h2⟩ <;> omega
  have ec2 : s0.buddy_base + (c2 - s0.buddy_base) = c2 := by
    rcases hc with ⟨h1, h2⟩ | ⟨h1, h2⟩ <;> omega
  have cin : a ≤ c ∧ c < a + 2 ^ k := by
    rcases hc with ⟨h1, h2⟩ | ⟨h1, h2⟩ <;> omega
  have c2in : a ≤ c2 ∧ c2 < a + 2 ^ k := by
    rcases hc with ⟨h1, h2⟩ | ⟨h1, h2⟩ <;> omega
  have cne : c ≠ c2 := by
    rcases hc with ⟨h1, h2⟩ | ⟨h1, h2⟩ <;> omega
  obtain ⟨st1, st2⟩ := merge_step g pe1 rep1 (k - 1) (c - s0.buddy_base) (c2 - s0.buddy_base)
    (s0.buddy_pool_order - k) (by omega) hxor (by omega) huniq hFU hrange
  rw [ec2] at st1 st2
  rw [ec] at st2
  rw [hmin, Nat.sub_add_cancel (by omega : 1 ≤ k), ← fuel] at st1
  rw [← fuel] at st2
  constructor
  · intro hs
    subst hs
    obtain ⟨s2, n1, pe2, rep2⟩ := st1 (Or.inr (List.mem_singleton_self _))
    refine ⟨s2, n1, pe2, rep_congr rep2 (fun j b => ?_) (fun _ _ hu => hu)⟩
    constructor
    · intro hf
      refine ⟨Or.inl hf, fun e => ?_⟩
      have := hFc j b hf
      omega
    · rintro ⟨hf | hf, hne⟩
      · exact hf
      · have e : (j, b) = (k - 1, c2) := List.mem_singleton.1 hf
        cases e
        exact absurd rfl hne
  · intro hs
    have miss : ¬ (Fc (k - 1) c2 ∨ (k - 1, c2) ∈ sib.frees (k - 1) c2) := by
      rintro (hf | hf)
      · have := hFc _ _ hf
        omega
      · exact hs (root_free sib _ _ wsib hf)
    refine ⟨_, st2 miss, poolEq_trans pe1 ⟨rfl, rfl, rfl, rfl⟩, ?_⟩
    refine rep_push rep1 (k - 1) c (by omega) (by omega) (fun i hf => ?_) hUc
    rcases hf with hf | hf
    · have := hFc _ _ hf
      omega
    · have rg := frees_range _ _ _ _ _ wsib hf
      have := pow_pos2 i
      rcases hc with ⟨h1, h2⟩ | ⟨h1, h2⟩ <;> omega

theorem or_rot (a b c : Prop) : a ∨ (b ∨ c) ↔ (a ∨ c) ∨ b := by
  constructor
  · rintro (h | h | h)
    · exact Or.inl (Or.inl h)
    · exact Or.inr h
    · exact Or.inl (Or.inr h)
  · rintro ((h | h) | h)
    · exact Or.inl h
    · exact Or.inr (Or.inr h)
    · exact Or.inr (Or.inl h)

/-- The loop of `buddy_try_merge` for the block handed out at `x`, followed
through the sub-block `(k, a)` of shape `t` that holds it; `Fc` are the free
blocks outside the sub-block.  If every other block of the sub-block is free,
the loop arrives at the order `k` with the whole sub-block in hand and all its
free blocks unlinked; otherwise it ends inside, and the free blocks of the
sub-block are those of `t.rel`. -/
theorem merge_sub {s0 : Heap} {t0 : BTree} (g : BuddyInv s0 t0) (U : Nat → Nat → Prop)
    (x o : Nat) : ∀ (t : BTree) (k a : Nat) (Fc F : Nat → Nat → Prop) (s : Heap),
    PoolEq s0 s → t.WF k → t.Merged → k ≤ s0.buddy_pool_order → s0.buddy_base ≤ a →
    (a - s0.buddy_base) % 2 ^ k = 0 →
    a + 2 ^ k ≤ s0.buddy_base + 2 ^ s0.buddy_pool_order →
    (o, x) ∈ t.useds k a →
    BuddyRep s F U →
    (∀ j b, F j b ↔ Fc j b ∨ (j, b) ∈ t.frees k a) →
    (∀ j b, Fc j b → b < a ∨ a + 2 ^ k ≤ b) →
    (∀ j b, U j b → (b < a ∨ a + 2 ^ k ≤ b) ∨ ((j, b) ∈ t.useds k a ∧ b ≠ x)) →
    (∀ i j b, F i b → F j b → i = j) →
    (∀ i j b, F i b → ¬ U j b) →
    (∀ i b, F i b → s0.buddy_base ≤ b ∧ b < s0.buddy_base + 2 ^ s0.buddy_pool_order) →
    (t.rel k a x = BTree.free →
      ∃ s1, merge_loop (s0.buddy_pool_order - o) s o (x - s0.buddy_base) =
          merge_loop (s0.buddy_pool_order - k) s1 k (a - s0.buddy_base) ∧
        PoolEq s0 s1 ∧ BuddyRep s1 Fc U) ∧
    (t.rel k a x ≠ BTree.free →
      ∃ s1, merge_loop (s0.buddy_pool_order - o) s o (x - s0.buddy_base) = some s1 ∧
        PoolEq s0 s1 ∧
        BuddyRep s1 (fun j b => Fc j b ∨ (j, b) ∈ (t.rel k a x).frees k a) U) := by
  intro t
  induction t with
  | free =>
    intro k a Fc F s _ _ _ _ _ _ _ hu
    exact absurd hu (List.not_mem_nil _)
  | used =>
    intro k a Fc F s pe _ _ _ _ _ _ hu rep hF _ _ _ _ _
    have e : (o, x) = (k, a) := List.mem_singleton.1 hu
    cases e
    have er : BTree.used.rel o x x = BTree.free := by
      show (if x = x then _ else _) = _
      rw [if_pos rfl]
    constructor
    · intro _
      refine ⟨s, rfl, pe, rep_congr rep (fun j b => ?_) (fun _ _ h => h)⟩
      rw [hF]
      constructor
      · exact fun h => Or.inl h
      · rintro (h | h)
        · exact h
        · exact absurd h (List.not_mem_nil _)
    · intro hne; exact absurd er hne
  | split l r ihl ihr =>
    intro k a Fc F s pe hw hmg hk hBa hmod hfit hu rep hF hFc hU huniq hFU hrange
    obtain ⟨h5, wl, wr⟩ := hw
    rw [merged_split] at hmg
    have hk2 := pow_pred_double k (by omega)
    have hpos := pow_pos2 (k - 1)
    have hpo := pow_pos2 o
    have hmodh := mod_half _ k (by omega) hmod
    rcases (useds_split _ _ _ _ _).1 hu with g1 | g1
    · -- the block lies in the left half
      have rg := useds_range _ _ _ _ _ wl g1
      have lt : x < a + 2 ^ (k - 1) := by omega
      have er : (BTree.split l r).rel k a x = BTree.mk (l.rel (k - 1) a x) r := by
        show (if x < a + 2 ^ (k - 1) then _ else _) = _
        rw [if_pos lt]
      rw [er]
      have hF2 : ∀ j b, F j b ↔
          (Fc j b ∨ (j, b) ∈ r.frees (k - 1) (a + 2 ^ (k - 1))) ∨ (j, b) ∈ l.frees (k - 1) a := by
        intro j b
        rw [hF, frees_split]
        exact or_rot _ _ _
      obtain ⟨ih1, ih2⟩ := ihl (k - 1) a
        (fun j b => Fc j b ∨ (j, b) ∈ r.frees (k - 1) (a + 2 ^ (k - 1))) F s pe wl hmg.2.1
        (by omega) hBa hmodh (by omega) g1 rep hF2
        (fun j b hf => by
          rcases hf with hf | hf
          · have := hFc j b hf; omega
          · have := frees_range _ _ _ _ _ wr hf; omega)
        (fun j b hf => by
          rcases hU j b hf with h1 | ⟨h1, h2⟩
          · left; omega
          · rcases (useds_split _ _ _ _ _).1 h1 with h3 | h3
            · exact Or.inr ⟨h3, h2⟩
            · have := useds_range _ _ _ _ _ wr h3
              left; omega)
        huniq hFU hrange
      by_cases c : l.rel (k - 1) a x = BTree.free
      · obtain ⟨s1, m1, pe1, rep1⟩ := ih1 c
        have hUa : ∀ j, ¬ U j a := by
          intro j hj
          rcases hU j a hj with h1 | ⟨h1, h2⟩
          · omega
          · rcases (useds_split _ _ _ _ _).1 h1 with h3 | h3
            · have := ((rel_spec x o l _ _ wl hmg.2.1 g1).2.2 j a).2 ⟨h3, h2⟩
              rw [c] at this
              exact absurd this (List.not_mem_nil _)
            · have := useds_range _ _ _ _ _ wr h3
              omega
        obtain ⟨j1, j2⟩ := merge_join g U pe1 k a a (a + 2 ^ (k - 1)) r Fc h5 hk hBa hmod hfit
          (Or.inl ⟨rfl, rfl⟩) wr rep1 hFc hUa
          (fun i j b h1 h2 => huniq i j b ((hF2 i b).2 (Or.inl h1)) ((hF2 j b).2 (Or.inl h2)))
          (fun i j b h1 => hFU i j b ((hF2 i b).2 (Or.inl h1)))
          (fun i b h1 => hrange i b ((hF2 i b).2 (Or.inl h1)))
        rw [c]
        by_cases cr : r = BTree.free
        · obtain ⟨s2, n1, pe2, rep2⟩ := j1 cr
          subst cr
          constructor
          · intro _
            exact ⟨s2, m1.trans n1, pe2, rep2⟩
          · intro hne; exact absurd rfl hne
        · obtain ⟨s2, n1, pe2, rep2⟩ := j2 cr
          have emk : BTree.mk BTree.free r = BTree.split BTree.free r := by
            rcases mk_cases BTree.free r with ⟨-, h2, -⟩ | ⟨-, h2⟩
            · exact absurd h2 cr
            · exact h2
          rw [emk]
          constructor
          · intro hfree; exact BTree.noConfusion hfree
          · intro _
            refine ⟨s2, m1.trans n1, pe2, rep_congr rep2 (fun j b => ?_) (fun _ _ h => h)⟩
            rw [frees_split]
            constructor
            · rintro (h1 | h1 | h1)
              · exact Or.inl (Or.inl h1)
              · have e : (j, b) = (k - 1, a) := List.mem_singleton.1 h1
                cases e
                exact Or.inr ⟨rfl, rfl⟩
              · exact Or.inl (Or.inr h1)
            · rintro ((h1 | h1) | ⟨h1, h2⟩)
              · exact Or.inl h1
              · exact Or.inr (Or.inr h1)
              · rw [h1, h2]
                exact Or.inr (Or.inl (List.mem_singleton_self _))
      · obtain ⟨s1, m1, pe1, rep1⟩ := ih2 c
        have emk : BTree.mk (l.rel (k - 1) a x) r = BTree.split (l.rel (k - 1) a x) r := by
          rcases mk_cases (l.rel (k - 1) a x) r with ⟨h1, -, -⟩ | ⟨-, h2⟩
          · exact absurd h1 c
          · exact h2
        rw [emk]
        constructor
        · intro hfree; exact BTree.noConfusion hfree
        · intro _
          refine ⟨s1, m1, pe1, rep_congr rep1 (fun j b => ?_) (fun _ _ h => h)⟩
          rw [frees_split]
          exact or_rot _ _ _
    · -- the block lies in the right half
      have rg := useds_range _ _ _ _ _ wr g1
      have lt : ¬ x < a + 2 ^ (k - 1) := by omega
      have er : (BTree.split l r).rel k a x =
          BTree.mk l (r.rel (k - 1) (a + 2 ^ (k - 1)) x) := by
        show (if x < a + 2 ^ (k - 1) then _ else _) = _
        rw [if_neg lt]
      rw [er]
      have hF2 : ∀ j b, F j b ↔
          (Fc j b ∨ (j, b) ∈ l.frees (k - 1) a) ∨
            (j, b) ∈ r.frees (k - 1) (a + 2 ^ (k - 1)) := by
        intro j b
        rw [hF, frees_split]
        exact or_assoc.symm
      have hmodr : (a + 2 ^ (k - 1) - s0.buddy_base) % 2 ^ (k - 1) = 0 := by
        have : a + 2 ^ (k - 1) - s0.buddy_base = (a - s0.buddy_base) + 2 ^ (k - 1) := by omega
        rw [this, Nat.add_mod_right]
        exact hmodh
      obtain ⟨ih1, ih2⟩ := ihr (k - 1) (a + 2 ^ (k - 1))
        (fun j b => Fc j b ∨ (j, b) ∈ l.frees (k - 1) a) F s pe wr hmg.2.2
        (by omega) (by omega) hmodr (by omega) g1 rep hF2
        (fun j b hf => by
          rcases hf with hf | hf
          · have := hFc j b hf; omega
          · have := frees_range _ _ _ _ _ wl hf
            have := pow_pos2 j
            omega)
        (fun j b hf => by
          rcases hU j b hf with h1 | ⟨h1, h2⟩
          · left; omega
          · rcases (useds_split _ _ _ _ _).1 h1 with h3 | h3
            · have := useds_range _ _ _ _ _ wl h3
              have := pow_pos2 j
              left; omega
            · exact Or.inr ⟨h3, h2⟩)
        huniq hFU hrange
      by_cases c : r.rel (k - 1) (a + 2 ^ (k - 1)) x = BTree.free
      · obtain ⟨s1, m1, pe1, rep1⟩ := ih1 c
        have hUa : ∀ j, ¬ U j (a + 2 ^ (k - 1)) := by
          intro j hj
          rcases hU j _ hj with h1 | ⟨h1, h2⟩
          · omega
          · rcases (useds_split _ _ _ _ _).1 h1 with h3 | h3
            · have := useds_range _ _ _ _ _ wl h3
              have := pow_pos2 j
              omega
            · have := ((rel_spec x o r _ _ wr hmg.2.2 g1).2.2 j _).2 ⟨h3, h2⟩
              rw [c] at this
              exact absurd this (List.not_mem_nil _)
        obtain ⟨j1, j2⟩ := merge_join g U pe1 k a (a + 2 ^ (k - 1)) a l Fc h5 hk hBa hmod hfit
          (Or.inr ⟨rfl, rfl⟩) wl rep1 hFc hUa
          (fun i j b h1 h2 => huniq i j b ((hF2 i b).2 (Or.inl h1)) ((hF2 j b).2 (Or.inl h2)))
          (fun i j b h1 => hFU i j b ((hF2 i b).2 (Or.inl h1)))
          (fun i b h1 => hrange i b ((hF2 i b).2 (Or.inl h1)))
        rw [c]
        by_cases cl : l = BTree.free
        · obtain ⟨s2, n1, pe2, rep2⟩ := j1 cl
          subst cl
          constructor
          · intro _
            exact ⟨s2, m1.trans n1, pe2, rep2⟩
          · intro hne; exact absurd rfl hne
        · obtain ⟨s2, n1, pe2, rep2⟩ := j2 cl
          have emk : BTree.mk l BTree.free = BTree.split l BTree.free := by
            rcases mk_cases l BTree.free with ⟨h1, -, -⟩ | ⟨-, h2⟩
            · exact absurd h1 cl
            · exact h2
          rw [emk]
          constructor
          · intro hfree; exact BTree.noConfusion hfree
          · intro _
            refine ⟨s2, m1.trans n1, pe2, rep_congr rep2 (fun j b => ?_) (fun _ _ h => h)⟩
            rw [frees_split]
            constructor
            · rintro (h1 | h1 | h1)
              · exact Or.inl (Or.inl h1)
              · exact Or.inl (Or.inr h1)
              · have e : (j, b) = (k - 1, a + 2 ^ (k - 1)) := List.mem_singleton.1 h1
                cases e
                exact Or.inr ⟨rfl, rfl⟩
            · rintro ((h1 | h1) | ⟨h1, h2⟩)
              · exact Or.inl h1
              · exact Or.inr (Or.inl h1)
              · rw [h1, h2]
                exact Or.inr (Or.inr (List.mem_singleton_self _))
      · obtain ⟨s1, m1, pe1, rep1⟩ := ih2 c
        have emk : BTree.mk l (r.rel (k - 1) (a + 2 ^ (k - 1)) x) =
            BTree.split l (r.rel (k - 1) (a + 2 ^ (k - 1)) x) := by
          rcases mk_cases l (r.rel (k - 1) (a + 2 ^ (k - 1)) x) with ⟨-, h1, -⟩ | ⟨-, h2⟩
          · exact absurd h1 c
          · exact h2
        rw [emk]
        constructor
        · intro hfree; exact BTree.noConfusion hfree
        · intro _
          refine ⟨s1, m1, pe1, rep_congr rep1 (fun j b => ?_) (fun _ _ h => h)⟩
          rw [frees_split]
          exact or_assoc.symm


/-- The invariant carries over to a state with the same pool geometry whose
bins and tags represent the blocks of a shape. -/
theorem inv_of_rep {s s1 : Heap} {t t1 : BTree} (h : BuddyInv s t) (pe : PoolEq s s1)
    (wf : t1.WF s.buddy_pool_order) (mg : t1.Merged)
    (rep : BuddyRep s1 (fun k a => (k, a) ∈ t1.frees s.buddy_pool_order s.buddy_base)
      (fun k a => (k, a) ∈ t1.useds s.buddy_pool_order s.buddy_base)) :
    BuddyInv s1 t1 := by
  obtain ⟨e1, e2, e3, e4⟩ := pe
  refine ⟨?_, ?_, ?_, ?_, ?_, ?_, mg, ?_⟩
  · rw [e1]; exact h.base
  · rw [e3]; exact h.order0
  · rw [e4]; exact h.order
  · rw [e2, e4]; exact h.top
  · rw [e1, e4]; exact h.fits
  · rw [e4]; exact wf
  · rw [e1, e4]; exact rep

/-- A fresh pool satisfies the invariant with the shape of one free block. -/
theorem fresh_inv {s : Heap} (h : FreshPool s) : BuddyInv s BTree.free := by
  refine ⟨h.base, h.order0, h.order, h.top, h.fits, h.order.1, trivial, ?_, ?_⟩
  · intro k hk
    by_cases e : k = s.buddy_pool_order
    · refine ⟨[s.buddy_base], ?_, List.nodup_singleton _, fun a => ?_⟩
      · rw [e]
        exact ⟨h.whole, h.base, h.last⟩
      · rw [List.mem_singleton, e]
        constructor
        · intro ha; rw [ha]; exact List.mem_singleton_self _
        · intro ha
          have := List.mem_singleton.1 ha
          exact (Prod.mk.inj this).2
    · refine ⟨[], h.empty k hk e, List.nodup_nil, fun a => ?_⟩
      constructor
      · intro ha; exact absurd ha (List.not_mem_nil _)
      · intro ha
        have := List.mem_singleton.1 ha
        exact absurd (Prod.mk.inj this).1 e
  · intro k a ha
    exact absurd ha (List.not_mem_nil _)

/-- The invariant with the shape of one free block describes a fresh pool. -/
theorem inv_fresh {s : Heap} (h : BuddyInv s BTree.free) : FreshPool s := by
  have key : ∀ k a, (k, a) ∈ BTree.free.frees s.buddy_pool_order s.buddy_base ↔
      k = s.buddy_pool_order ∧ a = s.buddy_base := by
    intro k a
    constructor
    · intro ha
      have := List.mem_singleton.1 ha
      exact ⟨(Prod.mk.inj this).1, (Prod.mk.inj this).2⟩
    · rintro ⟨h1, h2⟩
      rw [h1, h2]; exact List.mem_singleton_self _
  have w : s.buddy_bins s.buddy_pool_order = s.buddy_base ∧ s.words s.buddy_base = 0 := by
    obtain ⟨l, l1, l2, l3⟩ := h.rep.bins _ h.order.2
    have hm : s.buddy_base ∈ l := (l3 _).2 ((key _ _).2 ⟨rfl, rfl⟩)
    cases l with
    | nil => exact absurd hm (List.not_mem_nil _)
    | cons y ys =>
      have ey : y = s.buddy_base := ((key _ _).1 ((l3 y).1 (List.mem_cons_self _ _))).2
      subst ey
      cases ys with
      | nil => exact ⟨l1.1, l1.2.2⟩
      | cons z zs =>
        have ez : z = s.buddy_base := ((key _ _).1 ((l3 z).1
          (List.mem_cons_of_mem _ (List.mem_cons_self _ _)))).2
        rw [ez] at l2
        exact absurd (List.mem_cons_self _ _) (List.nodup_cons.1 l2).1
  refine ⟨h.base, h.order0, h.order, h.top, h.fits, w.1, w.2, fun k hk e => ?_⟩
  obtain ⟨l, l1, -, l3⟩ := h.rep.bins k hk
  cases l with
  | nil => exact l1
  | cons y ys => exact absurd ((key _ _).1 ((l3 y).1 (List.mem_cons_self _ _))).1 e

theorem buddy_pool_order_init_bounds (m : Nat) :
    4 ≤ buddy_pool_order_init m ∧ buddy_pool_order_init m ≤ BUDDY_MAX_ORDER := by
  unfold buddy_pool_order_init
  by_cases h : m > 2 ^ 22
  · rw [if_pos h, buddy_order0_init_eq]
    obtain ⟨s1, s2, -, -⟩ := order_loop_spec
      (ALIGN_UP_sz (add64 m 8) (order_size 4)) BUDDY_MAX_ORDER (BUDDY_MAX_ORDER + 1) 4
      (by unfold BUDDY_MAX_ORDER; omega)
    exact ⟨s1, s2 (by unfold BUDDY_MAX_ORDER; omega)⟩
  · rw [if_neg h]; unfold BUDDY_MAX_ORDER; omega

/-- The function `buddy_init_pool` with a mapping granted leaves a fresh pool. -/
theorem init_fresh (s : Heap) (m base : Nat) (h0 : base ≠ 0)
    (hfit : base + order_size (buddy_pool_order_init m) < 2 ^ 64) :
    FreshPool (buddy_init_pool s m (some base)) := by
  obtain ⟨p1, p2⟩ := buddy_pool_order_init_bounds m
  have p3 := p2
  unfold BUDDY_MAX_ORDER at p3
  rw [order_size_eq _ (by omega)] at hfit
  refine ⟨h0, buddy_order0_init_eq, ⟨p1, p2⟩, order_size_eq _ (by omega), hfit, ?_, ?_, ?_⟩
  · show storeW _ (buddy_pool_order_init m) base (buddy_pool_order_init m) = base
    exact storeW_same _ _ _
  · show storeW s.words base (if buddy_pool_order_init m ≤ BUDDY_MAX_ORDER then 0
      else s.buddy_bins (buddy_pool_order_init m)) base = 0
    rw [storeW_same, if_pos p2]
  · intro k hk e
    show storeW (fun i => if i ≤ BUDDY_MAX_ORDER then 0 else s.buddy_bins i)
      (buddy_pool_order_init m) base k = 0
    have e2 : k ≠ buddy_pool_order_init m := e
    rw [storeW_other _ _ _ _ e2]
    show (if k ≤ BUDDY_MAX_ORDER then 0 else s.buddy_bins k) = 0
    rw [if_pos hk]

/-- The function `my_free` on the pointer of a block handed out: it returns,
leaves the general heap and the pool geometry alone, and the pool has the
shape `t.rel`. -/
theorem free_spec {s : Heap} {t : BTree} (h : BuddyInv s t) (o x : Nat)
    (hu : (o, x) ∈ t.useds s.buddy_pool_order s.buddy_base) :
    ∃ s1, my_free s (x + 8) = some s1 ∧ PoolEq s s1 ∧ GenEq s s1 ∧
      BuddyInv s1 (t.rel s.buddy_pool_order s.buddy_base x) := by
  obtain ⟨r1, r2, r3, r4⟩ := useds_range _ _ _ _ _ h.wf hu
  have hfit := h.fits
  have hpo := pow_pos2 o
  have hb0 := h.base
  have e1 : my_free s (x + 8) =
      merge_loop (s.buddy_pool_order - o) s o (x - s.buddy_base) := by
    unfold my_free
    rw [if_neg (by omega), is_buddy_ptr_used h o x hu]
    show buddy_try_merge s o x = _
    unfold buddy_try_merge ptr_off
    rw [if_neg (by rintro (c | c) <;> omega), sub64_eq _ _ r3 (by omega),
      if_neg (by rw [h.top]; omega)]
  obtain ⟨w1, w2, w3⟩ := rel_spec x o t _ _ h.wf h.merged hu
  have key : ∃ s1, merge_loop (s.buddy_pool_order - o) s o (x - s.buddy_base) = some s1 ∧
      PoolEq s s1 ∧ BuddyInv s1 (t.rel s.buddy_pool_order s.buddy_base x) := by
    obtain ⟨m1, m2⟩ := merge_sub h
      (fun j b => (j, b) ∈ t.useds s.buddy_pool_order s.buddy_base ∧ b ≠ x) x o t
      s.buddy_pool_order s.buddy_base (fun _ _ => False)
      (fun j b => (j, b) ∈ t.frees s.buddy_pool_order s.buddy_base) s (poolEq_refl s)
      h.wf h.merged (le_refl _) (le_refl _) (by rw [Nat.sub_self]; exact Nat.zero_mod _)
      (le_refl _) hu (rep_congr h.rep (fun _ _ => Iff.rfl) (fun _ _ hh => hh.1))
      (fun j b => ⟨fun hh => Or.inr hh, fun hh => hh.elim False.elim id⟩)
      (fun _ _ hh => hh.elim) (fun j b hh => Or.inr hh)
      (fun i j b h1 h2 => (leaf_uniq _ _ _ _ _ _ h.wf (Or.inl h1) (Or.inl h2)).1)
      (fun i j b h1 h2 => frees_not_useds _ _ _ _ _ _ h1 h2.1 h.wf)
      (fun i b h1 => by
        have := frees_range _ _ _ _ _ h.wf h1
        have := pow_pos2 i
        omega)
    by_cases c : t.rel s.buddy_pool_order s.buddy_base x = BTree.free
    · obtain ⟨s1, n1, pe1, rep1⟩ := m1 c
      rw [merge_top pe1, Nat.sub_self, Nat.add_zero] at n1
      refine ⟨_, n1, poolEq_trans pe1 ⟨rfl, rfl, rfl, rfl⟩, ?_⟩
      refine inv_of_rep h (poolEq_trans pe1 ⟨rfl, rfl, rfl, rfl⟩) w1 w2 ?_
      have hp := rep_push rep1 s.buddy_pool_order s.buddy_base h.order.2 hb0
        (fun _ hh => hh) (fun k hh => by
          have := (w3 k s.buddy_base).2 hh
          rw [c] at this
          exact absurd this (List.not_mem_nil _))
      refine rep_congr hp (fun j b => ?_) (fun j b hh => (w3 j b).1 hh)
      rw [c]
      constructor
      · intro hh
        have := List.mem_singleton.1 hh
        exact Or.inr ⟨(Prod.mk.inj this).1, (Prod.mk.inj this).2⟩
      · rintro (hh | ⟨h1, h2⟩)
        · exact hh.elim
        · rw [h1, h2]; exact List.mem_singleton_self _
    · obtain ⟨s1, n1, pe1, rep1⟩ := m2 c
      refine ⟨s1, n1, pe1, inv_of_rep h pe1 w1 w2 ?_⟩
      refine rep_congr rep1 (fun j b => ?_) (fun j b hh => (w3 j b).1 hh)
      constructor
      · exact fun hh => Or.inr hh
      · rintro (hh | hh)
        · exact hh.elim
        · exact hh
  obtain ⟨s1, k1, k2, k3⟩ := key
  refine ⟨s1, e1.trans k1, k2, ?_, k3⟩
  have e2 : buddy_try_merge s o x = some s1 := by
    unfold buddy_try_merge ptr_off
    rw [if_neg (by rintro (c | c) <;> omega), sub64_eq _ _ r3 (by omega),
      if_neg (by rw [h.top]; omega)]
    exact k1
  exact (buddy_try_merge_keeps s o x s1 e2).1


theorem buddyEq_refl (s : Heap) : BuddyEq s s := ⟨⟨rfl, rfl, rfl, rfl⟩, rfl, rfl⟩

theorem buddyEq_trans {s t u : Heap} (h1 : BuddyEq s t) (h2 : BuddyEq t u) : BuddyEq s u :=
  ⟨poolEq_trans h1.1 h2.1, h2.2.1.trans h1.2.1, h2.2.2.trans h1.2.2⟩

theorem index_insert_buddyEq (s : Heap) (b : Nat) : BuddyEq s (index_insert s b) := by
  unfold index_insert
  split_ifs <;> exact ⟨⟨rfl, rfl, rfl, rfl⟩, rfl, rfl⟩

theorem index_remove_buddyEq (s : Heap) (b : Nat) : BuddyEq s (index_remove s b) := by
  unfold index_remove
  split_ifs <;> exact ⟨⟨rfl, rfl, rfl, rfl⟩, rfl, rfl⟩

theorem index_find_buddyEq (s s1 : Heap) (need b : Nat) (e : index_find s need = some (s1, b)) :
    BuddyEq s s1 := by
  unfold index_find at e
  split_ifs at e
  · cases e; exact buddyEq_refl s
  · cases hf : fl_next_fit s.sz s.g_free_head s.g_nextfit_cursor need with
    | none => rw [hf] at e; cases e
    | some r =>
      rw [hf] at e
      cases e
      exact ⟨⟨rfl, rfl, rfl, rfl⟩, rfl, rfl⟩
  · cases e; exact buddyEq_refl s
  · cases e; exact buddyEq_refl s
  · cases e; exact buddyEq_refl s

theorem map_arena_buddyEq (s : Heap) (mu : Nat) (os : Option Nat) :
    BuddyEq s (map_arena s mu os).1 := by
  cases os with
  | none => exact buddyEq_refl s
  | some ar =>
    show BuddyEq s (index_insert _ _)
    exact buddyEq_trans ⟨⟨rfl, rfl, rfl, rfl⟩, rfl, rfl⟩ (index_insert_buddyEq _ _)

theorem split_block_buddyEq (s : Heap) (b need : Nat) : BuddyEq s (split_block s b need) := by
  unfold split_block
  simp only []
  split_ifs
  · exact buddyEq_refl s
  · exact buddyEq_trans ⟨⟨rfl, rfl, rfl, rfl⟩, rfl, rfl⟩ (index_insert_buddyEq _ _)
  · exact buddyEq_trans ⟨⟨rfl, rfl, rfl, rfl⟩, rfl, rfl⟩ (index_insert_buddyEq _ _)

theorem alloc_found_buddyEq (s : Heap) (b size : Nat) : BuddyEq s (alloc_found s b size).1 := by
  have h1 := buddyEq_trans (index_remove_buddyEq s b)
    (split_block_buddyEq (index_remove s b) b size)
  exact buddyEq_trans h1 ⟨⟨rfl, rfl, rfl, rfl⟩, rfl, rfl⟩

theorem allocate_general_buddyEq (s s1 : Heap) (size b : Nat) (os : Option Nat)
    (e : allocate_general s size os = some (s1, b)) : BuddyEq s s1 := by
  unfold allocate_general at e
  by_cases h0 : size = 0
  · rw [if_pos h0] at e; cases e; exact buddyEq_refl s
  · rw [if_neg h0] at e
    cases hf : index_find s (ALIGN_UP size ALIGN) with
    | none => rw [hf] at e; cases e
    | some r =>
      obtain ⟨s2, b2⟩ := r
      rw [hf] at e
      have f1 := index_find_buddyEq _ _ _ _ hf
      simp only [] at e
      by_cases hb : b2 ≠ 0
      · rw [if_pos hb] at e
        cases e
        exact buddyEq_trans f1 (alloc_found_buddyEq _ _ _)
      · rw [if_neg hb] at e
        have f2 := buddyEq_trans f1 (map_arena_buddyEq s2 (ALIGN_UP size ALIGN) os)
        by_cases hm : (map_arena s2 (ALIGN_UP size ALIGN) os).2 = 0
        · rw [if_pos hm] at e; cases e; exact f2
        · rw [if_neg hm] at e
          cases hg : index_find (map_arena s2 (ALIGN_UP size ALIGN) os).1
              (ALIGN_UP size ALIGN) with
          | none => rw [hg] at e; cases e
          | some r2 =>
            obtain ⟨s3, b3⟩ := r2
            rw [hg] at e
            have f3 := buddyEq_trans f2 (index_find_buddyEq _ _ _ _ hg)
            simp only [] at e
            by_cases hb3 : b3 = 0
            · rw [if_pos hb3] at e; cases e; exact f3
            · rw [if_neg hb3] at e; cases e
              exact buddyEq_trans f3 (alloc_found_buddyEq _ _ _)

/-- The strategy allocators leave the buddy pool alone. -/
theorem malloc_fit_buddyEq (st : Strategy) (s s1 : Heap) (n p : Nat) (os : Option Nat)
    (e : malloc_fit st s n os = some (s1, p)) : BuddyEq s s1 := by
  unfold malloc_fit at e
  cases hl : lock_strategy s st with
  | none => rw [hl] at e; cases e
  | some s2 =>
    rw [hl] at e
    have f1 : BuddyEq s s2 := by
      unfold lock_strategy at hl
      split_ifs at hl
      · cases hl; exact ⟨⟨rfl, rfl, rfl, rfl⟩, rfl, rfl⟩
      · cases hl; exact buddyEq_refl s
    simp only [] at e
    cases ha : allocate_general s2 n os with
    | none => rw [ha] at e; cases e
    | some r =>
      obtain ⟨s3, b⟩ := r
      rw [ha] at e
      cases e
      exact buddyEq_trans f1 (allocate_general_buddyEq _ _ _ _ _ ha)

theorem coalesce_left_buddyEq (s : Heap) (b : Nat) : BuddyEq s (coalesce_left s b).1 := by
  unfold coalesce_left
  simp only []
  split_ifs
  · exact buddyEq_trans (index_remove_buddyEq s _) ⟨⟨rfl, rfl, rfl, rfl⟩, rfl, rfl⟩
  · exact buddyEq_trans (index_remove_buddyEq s _) ⟨⟨rfl, rfl, rfl, rfl⟩, rfl, rfl⟩
  · exact buddyEq_refl s

theorem coalesce_right_buddyEq (s : Heap) (b R : Nat) : BuddyEq s (coalesce_right s b R) := by
  unfold coalesce_right
  simp only []
  split_ifs
  · exact buddyEq_trans (index_remove_buddyEq s _) ⟨⟨rfl, rfl, rfl, rfl⟩, rfl, rfl⟩
  · exact buddyEq_trans (index_remove_buddyEq s _) ⟨⟨rfl, rfl, rfl, rfl⟩, rfl, rfl⟩
  · exact buddyEq_refl s

theorem coalesce_and_insert_buddyEq (s : Heap) (b : Nat) :
    BuddyEq s (coalesce_and_insert s b) := by
  unfold coalesce_and_insert
  simp only []
  exact buddyEq_trans (buddyEq_trans (coalesce_left_buddyEq _ _)
    (coalesce_right_buddyEq _ _ _)) (index_insert_buddyEq _ _)

/-- The function `free_general` leaves the buddy pool alone. -/
theorem free_general_buddyEq (s : Heap) (p : Nat) : BuddyEq s (free_general s p) := by
  unfold free_general
  split_ifs
  · exact buddyEq_refl s
  · exact buddyEq_refl s
  · have h2 := coalesce_and_insert_buddyEq
      { s with mem := store s.mem (ptr_to_blk p) (fun B => { B with is_free := 1 }) }
      (ptr_to_blk p)
    exact h2

/-- The invariant of the pool and the pointers held carry over to a state that
agrees on the pool. -/
theorem inv_buddyEq {s s1 : Heap} {t : BTree} {live : List Nat} (h : BuddyInv s t)
    (ow : Owns s t live) (e : BuddyEq s s1) : BuddyInv s1 t ∧ Owns s1 t live := by
  obtain ⟨pe, e5, e6⟩ := e
  constructor
  · refine inv_of_rep h pe h.wf h.merged ⟨fun k hk => ?_, fun k a hu => ?_⟩
    · rw [e5, e6]; exact h.rep.bins k hk
    · rw [e6]; exact h.rep.tags k a hu
  · obtain ⟨e1, -, -, e4⟩ := pe
    unfold Owns
    rw [e1, e4]
    exact ow


theorem owns_perm {s : Heap} {t : BTree} {l1 l2 : List Nat} (hp : l1.Perm l2)
    (h : Owns s t l1) : Owns s t l2 :=
  ⟨(hp.nodup_iff).1 h.1, fun p => (hp.mem_iff).symm.trans (h.2 p)⟩

theorem owns_fresh {s : Heap} : Owns s BTree.free [] := by
  refine ⟨List.nodup_nil, fun p => ?_⟩
  constructor
  · intro h; exact absurd h (List.not_mem_nil _)
  · rintro ⟨o, a, h, -⟩; exact absurd h (List.not_mem_nil _)

theorem malloc_buddy_alloc_zero (s : Heap) (os : Option Nat) :
    malloc_buddy_alloc s 0 os = (s, 0) := by
  unfold malloc_buddy_alloc
  rw [if_pos rfl]

/-- One call of `malloc_buddy_alloc` in a state with a pool: a call that
returns `NULL` changes nothing, a call that returns a pointer keeps the
invariant, and the pointer is new. -/
theorem alloc_owns {s : Heap} {t : BTree} {live : List Nat} (h : BuddyInv s t)
    (ow : Owns s t live) (n : Nat) (os : Option Nat) :
    ((malloc_buddy_alloc s n os).2 = 0 → malloc_buddy_alloc s n os = (s, 0)) ∧
    ((malloc_buddy_alloc s n os).2 ≠ 0 →
      PoolEq s (malloc_buddy_alloc s n os).1 ∧
      ∃ t1, BuddyInv (malloc_buddy_alloc s n os).1 t1 ∧
        Owns (malloc_buddy_alloc s n os).1 t1 ((malloc_buddy_alloc s n os).2 :: live)) := by
  by_cases hn : n = 0
  · subst hn
    rw [malloc_buddy_alloc_zero]
    exact ⟨fun _ => rfl, fun h0 => absurd rfl h0⟩
  · obtain ⟨a1, a2⟩ := alloc_spec h n hn os
    obtain ⟨o1, -, -, -⟩ := buddy_order_spec h n
    by_cases c : buddy_order s n > s.buddy_pool_order ∨
        ∀ k, buddy_order s n ≤ k → k ≤ s.buddy_pool_order → s.buddy_bins k = 0
    · rw [a1 c]
      exact ⟨fun _ => rfl, fun h0 => absurd rfl h0⟩
    · obtain ⟨k, x, k1, k2, k3, k4, k5, k6, k7, k8, k9⟩ := a2 c
      obtain ⟨-, -, -, -, t5⟩ := take_spec x (buddy_order s n) k o1 k1 t _ _ h.wf k5
      constructor
      · intro h0; rw [k6] at h0; omega
      · intro _
        refine ⟨k7, _, k9, ?_⟩
        obtain ⟨e1, -, -, e4⟩ := k7
        rw [k6]
        have nin : x + 8 ∉ live := by
          intro hin
          obtain ⟨o, a, ha, he⟩ := (ow.2 _).1 hin
          have : a = x := by omega
          rw [this] at ha
          exact frees_not_useds _ _ _ _ _ _ k5 ha h.wf
        refine ⟨List.nodup_cons.2 ⟨nin, ow.1⟩, fun p => ?_⟩
        rw [e1, e4, List.mem_cons, ow.2 p]
        constructor
        · rintro (hp | ⟨o, a, ha, he⟩)
          · exact ⟨buddy_order s n, x, (t5 _ _).2 (Or.inr ⟨rfl, rfl⟩), hp⟩
          · exact ⟨o, a, (t5 _ _).2 (Or.inl ha), he⟩
        · rintro ⟨o, a, ha, he⟩
          rcases (t5 _ _).1 ha with hh | ⟨-, hh⟩
          · exact Or.inr ⟨o, a, hh, he⟩
          · left; rw [he, hh]

/-- One call of `my_free` on a buddy pointer that the program holds: the call
returns, leaves the general heap alone and keeps the invariant; the pointer is
no longer held. -/
theorem free_owns {s : Heap} {t : BTree} {live : List Nat} (h : BuddyInv s t)
    (ow : Owns s t live) (p : Nat) (hp : p ∈ live) :
    ∃ s1, my_free s p = some s1 ∧ PoolEq s s1 ∧ GenEq s s1 ∧
      ∃ t1, BuddyInv s1 t1 ∧ Owns s1 t1 (live.erase p) := by
  obtain ⟨o, a, ha, he⟩ := (ow.2 p).1 hp
  subst he
  obtain ⟨s1, f1, f2, f3, f4⟩ := free_spec h o a ha
  obtain ⟨-, -, w3⟩ := rel_spec a o t _ _ h.wf h.merged ha
  refine ⟨s1, f1, f2, f3, _, f4, ow.1.erase _, fun q => ?_⟩
  obtain ⟨e1, -, -, e4⟩ := f2
  rw [e1, e4, ow.1.mem_erase_iff, ow.2 q]
  constructor
  · rintro ⟨hne, o2, a2, h2, h3⟩
    refine ⟨o2, a2, (w3 _ _).2 ⟨h2, fun e => hne ?_⟩, h3⟩
    rw [h3, e]
  · rintro ⟨o2, a2, h2, h3⟩
    obtain ⟨h4, h5⟩ := (w3 _ _).1 h2
    exact ⟨fun e => h5 (by omega), o2, a2, h4, h3⟩

/-- The first call of `malloc_buddy_alloc` is the call of `buddy_init_pool`
followed by the call in the state with the pool. -/
theorem first_call_eq (s : Heap) (n base : Nat) (os2 : Option Nat) (hb : s.buddy_base = 0)
    (hn : n ≠ 0) (h0 : base ≠ 0) :
    malloc_buddy_alloc s n (some base) =
      malloc_buddy_alloc (buddy_init_pool s (ALIGN_UP n ALIGN) (some base)) n os2 := by
  have e : (buddy_init_pool s (ALIGN_UP n ALIGN) (some base)).buddy_base = base := rfl
  rw [malloc_buddy_alloc_pool _ n os2 (by rw [e]; exact h0) hn]
  unfold malloc_buddy_alloc buddy_order
  rw [if_neg hn]
  simp only [if_pos hb]
  rw [if_neg (by rw [e]; exact h0)]

/-- Without a mapping the first call of `malloc_buddy_alloc` returns `NULL`
and there is still no pool. -/
theorem first_call_none (s : Heap) (n : Nat) (hb : s.buddy_base = 0) :
    (malloc_buddy_alloc s n none).2 = 0 ∧ (malloc_buddy_alloc s n none).1.buddy_base = 0 := by
  by_cases hn : n = 0
  · subst hn
    rw [malloc_buddy_alloc_zero]
    exact ⟨rfl, hb⟩
  · unfold malloc_buddy_alloc
    rw [if_neg hn]
    simp only [if_pos hb]
    have e : (buddy_init_pool s (ALIGN_UP n ALIGN) none).buddy_base = 0 := rfl
    rw [if_pos e]
    exact ⟨rfl, e⟩

/-- The invariant of the reachable states: there is no pool and no buddy
pointer is held, or the pool has a shape whose blocks handed out are those of
the pointers held. -/
theorem breach_inv {s : Heap} {live : List Nat} (h : BReach s live) :
    (s.buddy_base = 0 ∧ live = []) ∨ ∃ t, BuddyInv s t ∧ Owns s t live := by
  induction h with
  | start s hb => exact Or.inl ⟨hb, rfl⟩
  | alloc s live n os _ hos ih =>
    have step : ∀ (u : Heap) (t : BTree) (lv : List Nat) (os2 : Option Nat), BuddyInv u t →
        Owns u t lv →
        ∃ t1, BuddyInv (malloc_buddy_alloc u n os2).1 t1 ∧
          Owns (malloc_buddy_alloc u n os2).1 t1
            (if (malloc_buddy_alloc u n os2).2 = 0 then lv
             else (malloc_buddy_alloc u n os2).2 :: lv) := by
      intro u t lv os2 hi ow
      obtain ⟨a1, a2⟩ := alloc_owns hi ow n os2
      by_cases c : (malloc_buddy_alloc u n os2).2 = 0
      · rw [if_pos c, a1 c]
        exact ⟨t, hi, ow⟩
      · rw [if_neg c]
        exact (a2 c).2
    rcases ih with ⟨hb, hl⟩ | ⟨t, hi, ow⟩
    · subst hl
      by_cases hn : n = 0
      · subst hn
        rw [malloc_buddy_alloc_zero]
        exact Or.inl ⟨hb, rfl⟩
      · cases os with
        | none =>
          obtain ⟨f1, f2⟩ := first_call_none s n hb
          rw [if_pos f1]
          exact Or.inl ⟨f2, rfl⟩
        | some base =>
          obtain ⟨h0, hfit⟩ := hos base rfl
          rw [first_call_eq s n base none hb hn h0]
          exact Or.inr (step _ _ _ _ (fresh_inv (init_fresh s _ base h0 hfit)) owns_fresh)
    · exact Or.inr (step _ _ _ _ hi ow)
  | free s s1 live p _ hp e ih =>
    rcases ih with ⟨-, hl⟩ | ⟨t, hi, ow⟩
    · rw [hl] at hp; exact absurd hp (List.not_mem_nil _)
    · obtain ⟨s2, f1, -, -, t1, f4, f5⟩ := free_owns hi ow p hp
      rw [e] at f1
      cases f1
      exact Or.inr ⟨t1, f4, f5⟩
  | gmalloc s s1 live st n os p _ e ih =>
    have be := malloc_fit_buddyEq st s s1 n p os e
    rcases ih with ⟨hb, hl⟩ | ⟨t, hi, ow⟩
    · exact Or.inl ⟨be.1.1.trans hb, hl⟩
    · exact Or.inr ⟨t, inv_buddyEq hi ow be⟩
  | gfree s s1 live q _ hq e ih =>
    have be : BuddyEq s s1 := by
      unfold my_free at e
      by_cases q0 : q = 0
      · rw [if_pos q0] at e; cases e; exact buddyEq_refl s
      · rw [if_neg q0, hq] at e
        cases e
        exact free_general_buddyEq s q
    rcases ih with ⟨hb, hl⟩ | ⟨t, hi, ow⟩
    · exact Or.inl ⟨be.1.1.trans hb, hl⟩
    · exact Or.inr ⟨t, inv_buddyEq hi ow be⟩

/-- A sequence of calls of `malloc_buddy_alloc` that all return a pointer keeps
the invariant; the pointers returned are new and distinct. -/
theorem alloc_seq_inv : ∀ (ns : List Nat) (s : Heap) (t : BTree) (live : List Nat),
    BuddyInv s t → Owns s t live → (∀ p ∈ (buddy_alloc_seq s ns).2, p ≠ 0) →
    PoolEq s (buddy_alloc_seq s ns).1 ∧ GenEq s (buddy_alloc_seq s ns).1 ∧
    ∃ t1, BuddyInv (buddy_alloc_seq s ns).1 t1 ∧
      Owns (buddy_alloc_seq s ns).1 t1 ((buddy_alloc_seq s ns).2 ++ live) := by
  intro ns
  induction ns with
  | nil =>
    intro s t live hi ow _
    exact ⟨poolEq_refl s, genEq_refl s, t, hi, ow⟩
  | cons n ns ih =>
    intro s t live hi ow hs
    have h1 : (malloc_buddy_alloc s n none).2 ≠ 0 := hs _ (List.mem_cons_self _ _)
    obtain ⟨pe, t1, hi1, ow1⟩ := (alloc_owns hi ow n none).2 h1
    obtain ⟨pe2, ge2, t2, hi2, ow2⟩ := ih _ t1 _ hi1 ow1
      (fun p hp => hs p (List.mem_cons_of_mem _ hp))
    refine ⟨poolEq_trans pe pe2, genEq_trans (malloc_buddy_alloc_keeps s n none).1 ge2,
      t2, hi2, owns_perm ?_ ow2⟩
    exact List.perm_middle

/-- Freeing all the buddy pointers held, each once, in any order: every call
returns and at the end the pool is one free block again. -/
theorem free_seq_inv : ∀ (qs : List Nat) (s : Heap) (t : BTree) (live : List Nat),
    BuddyInv s t → Owns s t live → qs.Perm live →
    ∃ s2, my_free_seq s qs = some s2 ∧ PoolEq s s2 ∧ GenEq s s2 ∧ BuddyInv s2 BTree.free := by
  intro qs
  induction qs with
  | nil =>
    intro s t live hi ow hp
    have hl : live = [] := List.perm_nil.1 hp.symm
    subst hl
    have : t = BTree.free := merged_no_useds t _ _ hi.merged (fun p hp => by
      have := (ow.2 (p.2 + 8)).2 ⟨p.1, p.2, hp, rfl⟩
      exact absurd this (List.not_mem_nil _))
    subst this
    exact ⟨s, rfl, poolEq_refl s, genEq_refl s, hi⟩
  | cons q qs ih =>
    intro s t live hi ow hp
    have hq : q ∈ live := (hp.mem_iff).1 (List.mem_cons_self _ _)
    obtain ⟨s1, f1, f2, f3, t1, f4, f5⟩ := free_owns hi ow q hq
    have hp2 : qs.Perm (live.erase q) := by
      have := hp.erase q
      rwa [List.erase_cons_head] at this
    obtain ⟨s2, g1, g2, g3, g4⟩ := ih s1 t1 _ f4 f5 hp2
    refine ⟨s2, ?_, poolEq_trans f2 g2, genEq_trans f3 g3, g4⟩
    show (my_free s q).bind _ = _
    rw [f1]
    exact g1


/-- The first call of `malloc_buddy_alloc`, the mapping granted: when the block
for the rounded size and the tag fits the pool that `buddy_init_pool` sized,
the call returns the pointer one word past the pool base; otherwise it returns
`NULL`. -/
theorem first_call_spec (s : Heap) (n base : Nat) (hb : s.buddy_base = 0) (hn : n ≠ 0)
    (h0 : base ≠ 0)
    (hfit : base + order_size (buddy_pool_order_init (ALIGN_UP n ALIGN)) < 2 ^ 64) :
    (ALIGN_UP n ALIGN + 8 ≤ 2 ^ buddy_pool_order_init (ALIGN_UP n ALIGN) →
      (malloc_buddy_alloc s n (some base)).2 = base + 8) ∧
    (2 ^ buddy_pool_order_init (ALIGN_UP n ALIGN) < ALIGN_UP n ALIGN + 8 →
      (malloc_buddy_alloc s n (some base)).2 = 0) := by
  have hi := fresh_inv (init_fresh s (ALIGN_UP n ALIGN) base h0 hfit)
  have hfr := init_fresh s (ALIGN_UP n ALIGN) base h0 hfit
  rw [first_call_eq s n base none hb hn h0]
  obtain ⟨a1, a2⟩ := alloc_spec hi n hn none
  obtain ⟨o1, o2, o3, o4⟩ := buddy_order_spec hi n
  have eP : (buddy_init_pool s (ALIGN_UP n ALIGN) (some base)).buddy_pool_order =
      buddy_pool_order_init (ALIGN_UP n ALIGN) := rfl
  have eB : (buddy_init_pool s (ALIGN_UP n ALIGN) (some base)).buddy_base = base := rfl
  generalize buddy_init_pool s (ALIGN_UP n ALIGN) (some base) = u at *
  constructor
  · intro hle
    have c : ¬ (buddy_order u n > u.buddy_pool_order ∨
        ∀ k, buddy_order u n ≤ k → k ≤ u.buddy_pool_order → u.buddy_bins k = 0) := by
      have ole : buddy_order u n ≤ u.buddy_pool_order := by
        by_contra hc
        have := o3 u.buddy_pool_order hi.order.1 (by omega)
        rw [eP] at this
        omega
      rintro (c | c)
      · omega
      · have := c u.buddy_pool_order ole (le_refl _)
        rw [hfr.whole] at this
        exact hi.base this
    obtain ⟨k, x, -, -, -, -, k5, k6, -⟩ := a2 c
    have e := List.mem_singleton.1 k5
    rw [k6, (Prod.mk.inj e).2, eB]
  · intro hlt
    have c : buddy_order u n > u.buddy_pool_order := by
      by_contra hc
      have := o4 (by omega)
      have := Nat.pow_le_pow_right (by decide : 0 < 2) (by omega :
        buddy_order u n ≤ u.buddy_pool_order)
      rw [eP] at this
      omega
    rw [a1 (Or.inl c)]

/-- Claim C16 with its failing input.  For a rounded first request `m` (a
multiple of 16) `buddy_init_pool(m)` tests `m > 2^22` without the tag word: it
chooses `P = 22` for every `m ≤ 2^22`, and for `m > 2^22` the least `P ≥ 4`
with `2^P ≥ m + 8`, capped at 26.  For `m = 2^22 = 4194304` the payload plus
the tag does not fit `2^22`, yet `P = 22`: the first call
`malloc_buddy_alloc(4194304)` maps the pool and returns `NULL` (and so does
every first call whose rounded size is `2^22`).  For every other rounded size
with `m + 8 ≤ 2^26` the pool holds the block, `2^P ≥ m + 8`, and the first call
returns the pointer one word past the pool base. -/
theorem buddy_pool_order_ignores_tag :
    (∀ m, m % 16 = 0 → m + 16 < 2 ^ 64 →
      (m ≤ 2 ^ 22 → buddy_pool_order_init m = 22) ∧
      (2 ^ 22 < m →
        4 ≤ buddy_pool_order_init m ∧ buddy_pool_order_init m ≤ 26 ∧
        (∀ q, 4 ≤ q → q < buddy_pool_order_init m → 2 ^ q < m + 8) ∧
        (buddy_pool_order_init m < 26 → m + 8 ≤ 2 ^ buddy_pool_order_init m)) ∧
      (m + 8 ≤ 2 ^ 26 → m ≠ 2 ^ 22 → m + 8 ≤ 2 ^ buddy_pool_order_init m)) ∧
    (ALIGN_UP 4194304 ALIGN = 2 ^ 22 ∧ buddy_pool_order_init (2 ^ 22) = 22 ∧
      ¬ (2 ^ 22 + 8 ≤ 2 ^ buddy_pool_order_init (2 ^ 22)) ∧
      buddyDemoBig.1.buddy_base = 1073741824 ∧ buddyDemoBig.1.buddy_pool_order = 22 ∧
      buddyDemoBig.1.buddy_bins 22 = 1073741824 ∧ buddyDemoBig.2 = 0) ∧
    (∀ s n base, s.buddy_base = 0 → n ≠ 0 → base ≠ 0 →
      base + order_size (buddy_pool_order_init (ALIGN_UP n ALIGN)) < 2 ^ 64 →
      (ALIGN_UP n ALIGN = 2 ^ 22 → (malloc_buddy_alloc s n (some base)).2 = 0) ∧
      (ALIGN_UP n ALIGN + 8 ≤ 2 ^ 26 → ALIGN_UP n ALIGN ≠ 2 ^ 22 →
        (malloc_buddy_alloc s n (some base)).2 = base + 8)) := by
  have key : ∀ m, m % 16 = 0 → m + 16 < 2 ^ 64 → m + 8 ≤ 2 ^ 26 → m ≠ 2 ^ 22 →
      m + 8 ≤ 2 ^ buddy_pool_order_init m := by
    intro m hm h64 h26 hne
    obtain ⟨s1, s2⟩ := buddy_pool_order_init_spec m hm h64
    by_cases c : m ≤ 2 ^ 22
    · rw [s1 c]; omega
    · exact (s2 (by omega)).2.2.2.2 h26
  refine ⟨fun m hm h64 => ?_, ⟨by decide, by decide, by decide, by decide, by decide,
    by decide, by decide⟩, fun s n base hb hn h0 hfit => ?_⟩
  · obtain ⟨s1, s2⟩ := buddy_pool_order_init_spec m hm h64
    refine ⟨s1, fun h => ?_, key m hm h64⟩
    obtain ⟨t1, t2, t3, t4, -⟩ := s2 h
    exact ⟨t1, t2, t3, t4⟩
  · obtain ⟨f1, f2⟩ := first_call_spec s n base hb hn h0 hfit
    obtain ⟨a1, a2⟩ := ALIGN_UP_facts n
    constructor
    · intro e
      apply f2
      rw [e]
      decide
    · intro h26 hne
      exact f1 (key _ a1 (by omega) h26 hne)

/-- The contract of `malloc_buddy_alloc(n)` for `n ≠ 0` in a state with a pool
that satisfies the invariant. -/
theorem alloc_contract {s : Heap} {t : BTree} (hi : BuddyInv s t) (n : Nat) (hn : n ≠ 0)
    (os : Option Nat) :
    4 ≤ buddy_order s n ∧
    (∀ q, 4 ≤ q → q < buddy_order s n → 2 ^ q < ALIGN_UP n ALIGN + 8) ∧
    ((malloc_buddy_alloc s n os).2 = 0 ↔
      (buddy_order s n > s.buddy_pool_order ∨
        ∀ k, buddy_order s n ≤ k → k ≤ s.buddy_pool_order → s.buddy_bins k = 0)) ∧
    ((malloc_buddy_alloc s n os).2 = 0 → (malloc_buddy_alloc s n os).1 = s) ∧
    ((malloc_buddy_alloc s n os).2 ≠ 0 →
      buddy_order s n ≤ s.buddy_pool_order ∧
      ALIGN_UP n ALIGN + 8 ≤ 2 ^ buddy_order s n ∧
      ∃ x, (malloc_buddy_alloc s n os).2 = x + 8 ∧
        s.buddy_base ≤ x ∧ x + 2 ^ buddy_order s n ≤ s.buddy_base + s.buddy_top_size ∧
        (malloc_buddy_alloc s n os).1.words x = 2 ^ 63 + buddy_order s n ∧
        is_buddy_ptr (malloc_buddy_alloc s n os).1 (malloc_buddy_alloc s n os).2 =
          some (buddy_order s n, x)) := by
  obtain ⟨a1, a2⟩ := alloc_spec hi n hn os
  obtain ⟨o1, o2, o3, o4⟩ := buddy_order_spec hi n
  have succ : ¬ (buddy_order s n > s.buddy_pool_order ∨
      ∀ k, buddy_order s n ≤ k → k ≤ s.buddy_pool_order → s.buddy_bins k = 0) →
      (malloc_buddy_alloc s n os).2 ≠ 0 := by
    intro c
    obtain ⟨k, x, -, -, -, -, -, k6, -⟩ := a2 c
    rw [k6]; omega
  have null : (malloc_buddy_alloc s n os).2 = 0 →
      (buddy_order s n > s.buddy_pool_order ∨
      ∀ k, buddy_order s n ≤ k → k ≤ s.buddy_pool_order → s.buddy_bins k = 0) := by
    intro e
    by_contra c
    exact succ c e
  refine ⟨o1, o3, ⟨null, fun c => by rw [a1 c]⟩, fun e => by rw [a1 (null e)], fun hne => ?_⟩
  have c : ¬ (buddy_order s n > s.buddy_pool_order ∨
      ∀ k, buddy_order s n ≤ k → k ≤ s.buddy_pool_order → s.buddy_bins k = 0) := by
    intro c
    rw [a1 c] at hne
    exact hne rfl
  obtain ⟨k, x, k1, k2, -, -, k5, k6, k7, k8, k9⟩ := a2 c
  have ole : buddy_order s n ≤ s.buddy_pool_order := by omega
  obtain ⟨-, -, -, -, t5⟩ := take_spec x (buddy_order s n) k o1 k1 t _ _ hi.wf k5
  have hu := (t5 (buddy_order s n) x).2 (Or.inr ⟨rfl, rfl⟩)
  obtain ⟨e1, -, -, e4⟩ := k7
  have hu2 : (buddy_order s n, x) ∈
      (t.take s.buddy_pool_order s.buddy_base x (buddy_order s n)).useds
        (malloc_buddy_alloc s n os).1.buddy_pool_order
        (malloc_buddy_alloc s n os).1.buddy_base := by
    rw [e1, e4]; exact hu
  have ib := is_buddy_ptr_used k9 _ _ hu2
  obtain ⟨r1, r2, r3, r4⟩ := frees_range _ _ _ _ _ hi.wf k5
  have hP := hi.order.2
  unfold BUDDY_MAX_ORDER at hP
  have o63 : buddy_order s n < 2 ^ 63 := by
    have : buddy_order s n < 64 := by omega
    omega
  have hpw := Nat.pow_le_pow_right (by decide : 0 < 2) k1
  refine ⟨ole, o4 ole, x, k6, r3, ?_, ?_, ?_⟩
  · rw [hi.top]; omega
  · rw [k8, tag_add _ o63]
  · rw [k6]; exact ib

/-- The call of `malloc_buddy_alloc` goes on in the state after the lazy
initialisation, in which no mapping is asked for any more. -/
theorem ready_eq (s : Heap) (n : Nat) (os os2 : Option Nat) (hn : n ≠ 0)
    (hp : (buddy_ready s n os).buddy_base ≠ 0) :
    malloc_buddy_alloc s n os = malloc_buddy_alloc (buddy_ready s n os) n os2 := by
  unfold buddy_ready at hp ⊢
  by_cases hb : s.buddy_base = 0
  · rw [if_pos hb] at hp ⊢
    cases os with
    | none => exact absurd rfl hp
    | some base => exact first_call_eq s n base os2 hb hn hp
  · rw [if_neg hb]
    rw [malloc_buddy_alloc_pool s n os hb hn, malloc_buddy_alloc_pool s n os2 hb hn]

/-- The state after the lazy initialisation of a reachable state satisfies the
invariant when it has a pool. -/
theorem ready_inv {s : Heap} {live : List Nat} (h : BReach s live) (n : Nat) (os : Option Nat)
    (hos : ∀ base, os = some base → base ≠ 0 ∧
      base + order_size (buddy_pool_order_init (ALIGN_UP n ALIGN)) < 2 ^ 64)
    (hp : (buddy_ready s n os).buddy_base ≠ 0) : ∃ t, BuddyInv (buddy_ready s n os) t := by
  unfold buddy_ready at hp ⊢
  by_cases hb : s.buddy_base = 0
  · rw [if_pos hb] at hp ⊢
    cases os with
    | none => exact absurd rfl hp
    | some base =>
      obtain ⟨h0, hfit⟩ := hos base rfl
      exact ⟨BTree.free, fresh_inv (init_fresh s _ base h0 hfit)⟩
  · rw [if_neg hb]
    rcases breach_inv h with ⟨h0, -⟩ | ⟨t, hi, -⟩
    · exact absurd h0 hb
    · exact ⟨t, hi⟩

/-- Claim C17: the contract of `malloc_buddy_alloc(n)` for `n ≠ 0` called in a
reachable state, the pool being there after the lazy initialisation (state
`buddy_ready`).  The order `o` the code computes is at least 4 and no smaller
order from 4 on holds the rounded size plus the tag word.  The call returns
`NULL` iff `o` exceeds the pool order or every bin from `o` up to the pool
order is empty, and then it leaves the state as it is.  A call that returns a
pointer has `o` at most the pool order with `2^o` at least the rounded size
plus 8; the pointer is the base `x` of a block inside the pool plus 8, the word
at `x` is `2^63 + o`, and `is_buddy_ptr` accepts the pointer and recovers `o`
and `x`. -/
theorem buddy_alloc_contract (s : Heap) (live : List Nat) (h : BReach s live) (n : Nat)
    (hn : n ≠ 0) (os : Option Nat)
    (hos : ∀ base, os = some base → base ≠ 0 ∧
      base + order_size (buddy_pool_order_init (ALIGN_UP n ALIGN)) < 2 ^ 64)
    (hp : (buddy_ready s n os).buddy_base ≠ 0) :
    4 ≤ buddy_order (buddy_ready s n os) n ∧
    (∀ q, 4 ≤ q → q < buddy_order (buddy_ready s n os) n → 2 ^ q < ALIGN_UP n ALIGN + 8) ∧
    ((malloc_buddy_alloc s n os).2 = 0 ↔
      (buddy_order (buddy_ready s n os) n > (buddy_ready s n os).buddy_pool_order ∨
        ∀ k, buddy_order (buddy_ready s n os) n ≤ k →
          k ≤ (buddy_ready s n os).buddy_pool_order → (buddy_ready s n os).buddy_bins k = 0)) ∧
    ((malloc_buddy_alloc s n os).2 = 0 → (malloc_buddy_alloc s n os).1 = buddy_ready s n os) ∧
    ((malloc_buddy_alloc s n os).2 ≠ 0 →
      buddy_order (buddy_ready s n os) n ≤ (buddy_ready s n os).buddy_pool_order ∧
      ALIGN_UP n ALIGN + 8 ≤ 2 ^ buddy_order (buddy_ready s n os) n ∧
      ∃ x, (malloc_buddy_alloc s n os).2 = x + 8 ∧
        (buddy_ready s n os).buddy_base ≤ x ∧
        x + 2 ^ buddy_order (buddy_ready s n os) n ≤
          (buddy_ready s n os).buddy_base + (buddy_ready s n os).buddy_top_size ∧
        (malloc_buddy_alloc s n os).1.words x = 2 ^ 63 + buddy_order (buddy_ready s n os) n ∧
        is_buddy_ptr (malloc_buddy_alloc s n os).1 (malloc_buddy_alloc s n os).2 =
          some (buddy_order (buddy_ready s n os) n, x)) := by
  obtain ⟨t, hi⟩ := ready_inv h n os hos hp
  rw [ready_eq s n os none hn hp]
  exact alloc_contract hi n hn none

theorem breach_buddyDemo1 : BReach buddyDemo1.1 [1073741832] := by
  have h := BReach.alloc Heap.zero [] 1024 (some 1073741824) (BReach.start _ rfl)
    (fun base hb => by cases hb; decide)
  have e : (if (malloc_buddy_alloc Heap.zero 1024 (some 1073741824)).2 = 0 then []
      else [(malloc_buddy_alloc Heap.zero 1024 (some 1073741824)).2]) = [1073741832] := by
    decide
  rw [e] at h
  exact h

/-- Witness for claim C17: the second call `malloc_buddy_alloc(1024)` after the
first one at program start; it returns the pointer `1073743880`, the block of
order 11 at the pool offset 2048. -/
theorem buddy_alloc_contract_witness :
    BReach buddyDemo1.1 [1073741832] ∧ (buddy_ready buddyDemo1.1 1024 none).buddy_base ≠ 0 ∧
    buddy_order (buddy_ready buddyDemo1.1 1024 none) 1024 = 11 ∧
    (malloc_buddy_alloc buddyDemo1.1 1024 none).2 = 1073743880 ∧
    ((malloc_buddy_alloc buddyDemo1.1 1024 none).2 ≠ 0 →
      buddy_order (buddy_ready buddyDemo1.1 1024 none) 1024 ≤
        (buddy_ready buddyDemo1.1 1024 none).buddy_pool_order ∧
      ALIGN_UP 1024 ALIGN + 8 ≤ 2 ^ buddy_order (buddy_ready buddyDemo1.1 1024 none) 1024 ∧
      ∃ x, (malloc_buddy_alloc buddyDemo1.1 1024 none).2 = x + 8 ∧
        (buddy_ready buddyDemo1.1 1024 none).buddy_base ≤ x ∧
        x + 2 ^ buddy_order (buddy_ready buddyDemo1.1 1024 none) 1024 ≤
          (buddy_ready buddyDemo1.1 1024 none).buddy_base +
            (buddy_ready buddyDemo1.1 1024 none).buddy_top_size ∧
        (malloc_buddy_alloc buddyDemo1.1 1024 none).1.words x =
          2 ^ 63 + buddy_order (buddy_ready buddyDemo1.1 1024 none) 1024 ∧
        is_buddy_ptr (malloc_buddy_alloc buddyDemo1.1 1024 none).1
          (malloc_buddy_alloc buddyDemo1.1 1024 none).2 =
          some (buddy_order (buddy_ready buddyDemo1.1 1024 none) 1024, x)) :=
  ⟨breach_buddyDemo1, by decide, by decide, by decide,
   (buddy_alloc_contract buddyDemo1.1 [1073741832] breach_buddyDemo1 1024 (by decide) none
      (fun base hb => by cases hb) (by decide)).2.2.2.2⟩

/-- Claim C18: the buddy round trip.  From a fresh pool (`buddy_bins[P]` holds
the one block at offset 0, every other bin is empty), after a sequence of calls
of `malloc_buddy_alloc` that all return a pointer, followed by `my_free` of
each pointer returned exactly once, in any order: every call of `my_free`
returns, and at the end the pool is fresh again, of the same place and order:
one free block of order `P` at offset 0 in `buddy_bins[P]`, every other bin
empty. -/
theorem buddy_round_trip (s : Heap) (h : FreshPool s) (ns qs : List Nat)
    (hs : ∀ p ∈ (buddy_alloc_seq s ns).2, p ≠ 0)
    (hq : qs.Perm (buddy_alloc_seq s ns).2) :
    ∃ s2, my_free_seq (buddy_alloc_seq s ns).1 qs = some s2 ∧ FreshPool s2 ∧ PoolEq s s2 ∧
      s2.buddy_bins s.buddy_pool_order = s.buddy_base ∧ s2.words s.buddy_base = 0 ∧
      ∀ k, k ≤ BUDDY_MAX_ORDER → k ≠ s.buddy_pool_order → s2.buddy_bins k = 0 := by
  obtain ⟨pe, -, t1, hi1, ow1⟩ := alloc_seq_inv ns s BTree.free [] (fresh_inv h) owns_fresh hs
  rw [List.append_nil] at ow1
  obtain ⟨s2, f1, f2, -, f4⟩ := free_seq_inv qs _ t1 _ hi1 ow1 hq
  have fr := inv_fresh f4
  obtain ⟨e1, e2, e3, e4⟩ := poolEq_trans pe f2
  refine ⟨s2, f1, fr, ⟨e1, e2, e3, e4⟩, ?_, ?_, ?_⟩
  · rw [← e4, ← e1]; exact fr.whole
  · rw [← e1]; exact fr.last
  · intro k hk hne
    rw [← e4] at hne
    exact fr.empty k hk hne

/-- Witness for claim C18: in the fresh pool at `1073741824`, two calls
`malloc_buddy_alloc(1024)` return the pointers `1073741832` and `1073743880`,
2048 bytes apart; freeing the second and then the first leaves the pool
fresh. -/
theorem buddy_round_trip_witness :
    FreshPool poolDemo ∧
    (buddy_alloc_seq poolDemo [1024, 1024]).2 = [1073741832, 1073743880] ∧
    1073741832 + (1024 + 8) ≤ 1073743880 ∧
    ∃ s2, my_free_seq (buddy_alloc_seq poolDemo [1024, 1024]).1 [1073743880, 1073741832] =
        some s2 ∧ FreshPool s2 ∧ PoolEq poolDemo s2 ∧
      s2.buddy_bins poolDemo.buddy_pool_order = poolDemo.buddy_base ∧
      s2.words poolDemo.buddy_base = 0 ∧
      ∀ k, k ≤ BUDDY_MAX_ORDER → k ≠ poolDemo.buddy_pool_order → s2.buddy_bins k = 0 :=
  ⟨init_fresh Heap.zero 1024 1073741824 (by decide) (by decide), by decide, by decide,
   buddy_round_trip poolDemo (init_fresh Heap.zero 1024 1073741824 (by decide) (by decide))
     [1024, 1024] [1073743880, 1073741832]
     (by
       have e : (buddy_alloc_seq poolDemo [1024, 1024]).2 = [1073741832, 1073743880] := by
         decide
       rw [e]
       intro p hp
       rcases List.mem_cons.1 hp with hp | hp
       · rw [hp]; decide
       · rw [List.mem_singleton.1 hp]; decide)
     (by
       have e : (buddy_alloc_seq poolDemo [1024, 1024]).2 = [1073741832, 1073743880] := by
         decide
       rw [e]
       exact List.Perm.swap _ _ _)⟩

/-- Claim C20: the buddy allocator leaves the general heap alone.  In every
state `malloc_buddy_alloc(n)` leaves the block headers, the arena chain, the
strategy latch, the free-list head, the next-fit cursor and the tree root
unchanged, and so does `my_free` of a pointer that `is_buddy_ptr` accepts.  In
a reachable state `my_free` of the pointer that the call has just returned, and
of every buddy pointer the program holds, returns (no abort, whatever the
latch) and leaves them unchanged as well. -/
theorem buddy_leaves_general_heap (s : Heap) (live : List Nat) (h : BReach s live) (n : Nat)
    (os : Option Nat)
    (hos : ∀ base, os = some base → base ≠ 0 ∧
      base + order_size (buddy_pool_order_init (ALIGN_UP n ALIGN)) < 2 ^ 64) :
    GenEq s (malloc_buddy_alloc s n os).1 ∧
    (malloc_buddy_alloc s n os).1.g_strat = s.g_strat ∧
    (∀ q s1, (is_buddy_ptr s q).isSome = true → my_free s q = some s1 →
      GenEq s s1 ∧ s1.g_strat = s.g_strat) ∧
    ((malloc_buddy_alloc s n os).2 ≠ 0 →
      ∃ s2, my_free (malloc_buddy_alloc s n os).1 (malloc_buddy_alloc s n os).2 = some s2 ∧
        GenEq s s2 ∧ s2.g_strat = s.g_strat) ∧
    (∀ p ∈ live, ∃ s1, my_free s p = some s1 ∧ GenEq s s1 ∧ s1.g_strat = s.g_strat) := by
  have g1 := (malloc_buddy_alloc_keeps s n os).1
  have key : ∀ (u : Heap) (lv : List Nat), BReach u lv → ∀ p ∈ lv,
      ∃ s1, my_free u p = some s1 ∧ GenEq u s1 := by
    intro u lv hu p hp
    rcases breach_inv hu with ⟨-, hl⟩ | ⟨t, hi, ow⟩
    · rw [hl] at hp; exact absurd hp (List.not_mem_nil _)
    · obtain ⟨s1, f1, -, f3, -⟩ := free_owns hi ow p hp
      exact ⟨s1, f1, f3⟩
  refine ⟨g1, g1.2.2.1, fun q s1 hq e => ?_, fun hne => ?_, fun p hp => ?_⟩
  · have : GenEq s s1 := by
      unfold my_free at e
      by_cases q0 : q = 0
      · rw [if_pos q0] at e; cases e; exact genEq_refl s
      · rw [if_neg q0] at e
        cases hb : is_buddy_ptr s q with
        | none => rw [hb] at hq; cases hq
        | some r =>
          rw [hb] at e
          exact (buddy_try_merge_keeps s r.1 r.2 s1 e).1
    exact ⟨this, this.2.2.1⟩
  · have hr := BReach.alloc s live n os h hos
    rw [if_neg hne] at hr
    obtain ⟨s2, f1, f2⟩ := key _ _ hr _ (List.mem_cons_self _ _)
    exact ⟨s2, f1, genEq_trans g1 f2, (genEq_trans g1 f2).2.2.1⟩
  · obtain ⟨s1, f1, f2⟩ := key s live h p hp
    exact ⟨s1, f1, f2, f2.2.2.1⟩

/-- Witness for claim C20: the call `malloc_buddy_alloc(1024)` in the state
after `malloc_first_fit(100)` at program start, where the latch holds `FIRST`:
the call returns a pointer, and neither the call nor `my_free` of the pointer
changes the latch or the general heap. -/
theorem buddy_leaves_general_heap_witness :
    heapDemo1.1.g_strat = Strategy.FIRST ∧
    (malloc_buddy_alloc heapDemo1.1 1024 (some 1073741824)).2 = 1073741832 ∧
    GenEq heapDemo1.1 (malloc_buddy_alloc heapDemo1.1 1024 (some 1073741824)).1 ∧
    ((malloc_buddy_alloc heapDemo1.1 1024 (some 1073741824)).2 ≠ 0 →
      ∃ s2, my_free (malloc_buddy_alloc heapDemo1.1 1024 (some 1073741824)).1
          (malloc_buddy_alloc heapDemo1.1 1024 (some 1073741824)).2 = some s2 ∧
        GenEq heapDemo1.1 s2 ∧ s2.g_strat = heapDemo1.1.g_strat) :=
  ⟨by decide, by decide,
   (buddy_leaves_general_heap heapDemo1.1 [] (BReach.start _ (by decide)) 1024
      (some 1073741824) (fun base hb => by cases hb; decide)).1,
   (buddy_leaves_general_heap heapDemo1.1 [] (BReach.start _ (by decide)) 1024
      (some 1073741824) (fun base hb => by cases hb; decide)).2.2.2.1⟩

/-! ## The height of the tree index -/

theorem fib_double (d : Nat) : 2 * (Nat.fib (d + 2) - 1) ≤ Nat.fib (d + 4) - 1 := by
  have e1 : Nat.fib (d + 4) = Nat.fib (d + 2) + Nat.fib (d + 3) := Nat.fib_add_two
  have e2 : Nat.fib (d + 3) = Nat.fib (d + 1) + Nat.fib (d + 2) := Nat.fib_add_two
  have p : 0 < Nat.fib (d + 2) := Nat.fib_pos.2 (by omega)
  omega

/-- The least number of nodes of a balanced tree with `d ≥ 2` levels is at
least `2^(d/2)`: `2^d ≤ (fib (d+2) - 1)^2`. -/
theorem two_pow_le_fib_sq (k : Nat) :
    2 ^ (k + 2) ≤ (Nat.fib (k + 4) - 1) ^ 2 ∧ 2 ^ (k + 3) ≤ (Nat.fib (k + 5) - 1) ^ 2 := by
  induction k with
  | zero => exact ⟨by decide, by decide⟩
  | succ k ih =>
    refine ⟨ih.2, ?_⟩
    have h1 := fib_double (k + 2)
    have h2 : 2 ^ (k + 1 + 3) = 4 * 2 ^ (k + 2) := by
      rw [show k + 1 + 3 = (k + 2) + 2 from rfl, pow_add]; omega
    have h3 : (2 * (Nat.fib (k + 4) - 1)) ^ 2 ≤ (Nat.fib (k + 6) - 1) ^ 2 :=
      Nat.pow_le_pow_left h1 2
    have h4 : (2 * (Nat.fib (k + 4) - 1)) ^ 2 = 4 * (Nat.fib (k + 4) - 1) ^ 2 := by
      rw [Nat.mul_pow]
    have h5 := ih.1
    rw [h2]
    show 4 * 2 ^ (k + 2) ≤ (Nat.fib (k + 6) - 1) ^ 2
    omega

/-- A balanced tree with correct stored heights and at least two nodes has
`2^depth ≤ n^2`. -/
theorem depth_bound (t : Tree) (hh : t.HeightOk) (hb : t.Balanced)
    (hn : 2 ≤ t.toList.length) : 2 ^ t.depth ≤ t.toList.length ^ 2 := by
  have hf := fib_le_size t hh hb
  by_cases hd : t.depth < 2
  · have h1 : 2 ^ t.depth ≤ 2 ^ 2 := Nat.pow_le_pow_right (by decide) (by omega)
    have h2 : 2 ^ 2 ≤ t.toList.length ^ 2 := Nat.pow_le_pow_left hn 2
    exact le_trans h1 h2
  · obtain ⟨k, hk⟩ : ∃ k, t.depth = k + 2 := ⟨t.depth - 2, by omega⟩
    rw [hk] at hf ⊢
    have h1 := (two_pow_le_fib_sq k).1
    have h2 : Nat.fib (k + 4) - 1 ≤ t.toList.length := by
      have : k + 2 + 2 = k + 4 := rfl
      rw [this] at hf
      omega
    exact le_trans h1 (Nat.pow_le_pow_left h2 2)

/-- The invariant of the reachable trees. -/
theorem treeReach_inv (sz : Nat → Nat) (t : Tree) (h : TreeReach sz t) :
    t.Bst sz ∧ t.HeightOk ∧ t.Balanced ∧ ∀ x ∈ t.toList, x < 2 ^ 64 := by
  induction h with
  | empty => exact ⟨trivial, trivial, trivial, fun x hx => absurd hx (List.not_mem_nil x)⟩
  | insert t b _ hb h64 ih =>
    obtain ⟨i1, i2, i3, i4⟩ := ih
    obtain ⟨s1, s2, s3, s4, -⟩ := avl_insert_rec_spec sz b t hb i1 i2 i3
      (height_le_of_ptr sz t i1 i2 i3 i4)
    refine ⟨s4, s1, s2, fun x hx => ?_⟩
    rcases List.mem_cons.1 (s3.mem_iff.1 hx) with e | e
    · rw [e]; exact h64
    · exact i4 x e
  | erase t b _ ih =>
    obtain ⟨i1, i2, i3, i4⟩ := ih
    have hd := height_le_of_ptr sz t i1 i2 i3 i4
    obtain ⟨s1, s2, s3, -⟩ := avl_delete_rec_spec sz t b i1 i2 i3 (by omega)
    refine ⟨?_, s1, s2, fun x hx => ?_⟩
    · rw [bst_iff_pairwise, s3]
      exact ((bst_iff_pairwise sz t).1 i1).sublist (List.filter_sublist _)
    · rw [s3] at hx
      exact i4 x (List.mem_of_mem_filter hx)

/-- Claim C21: the height bound of the tree index.  Every tree that a
sequence of `avl_insert` (of blocks not in the tree) and `avl_erase` makes from
the empty tree and that holds `n ≥ 2` nodes has a stored root height equal to
its number of levels `h`, with `2^h ≤ n^2`, that is `h ≤ 2·log₂ n`; the same
holds of the tree `g_avl_root` of every reachable state of the allocator. -/
theorem avl_height_bound (sz : Nat → Nat) (t : Tree) (h : TreeReach sz t)
    (hn : 2 ≤ t.toList.length) :
    height t = t.depth ∧ 2 ^ t.depth ≤ t.toList.length ^ 2 ∧
    (∀ (s : Heap) (live : List Nat), Reach s live → 2 ≤ s.g_avl_root.toList.length →
      height s.g_avl_root = s.g_avl_root.depth ∧
      2 ^ s.g_avl_root.depth ≤ s.g_avl_root.toList.length ^ 2) := by
  obtain ⟨-, i2, i3, -⟩ := treeReach_inv sz t h
  refine ⟨height_eq_depth t i2, depth_bound t i2 i3 hn, fun s live hr hs => ?_⟩
  obtain ⟨blocks, hi⟩ := reach_inv hr
  exact ⟨height_eq_depth _ hi.idx.hok, depth_bound _ hi.idx.hok hi.idx.bal hs⟩

/-- Witness for claim C21: the tree after the insertion of the blocks `32` and
`64` (of equal size) into the empty tree: two nodes on two levels, `2^2 ≤ 2^2`. -/
theorem avl_height_bound_witness :
    (avl_insert_rec (fun _ => 16) (avl_insert_rec (fun _ => 16) Tree.nil 32) 64).toList =
      [32, 64] ∧
    height (avl_insert_rec (fun _ => 16) (avl_insert_rec (fun _ => 16) Tree.nil 32) 64) = 2 ∧
    height (avl_insert_rec (fun _ => 16) (avl_insert_rec (fun _ => 16) Tree.nil 32) 64) =
      (avl_insert_rec (fun _ => 16) (avl_insert_rec (fun _ => 16) Tree.nil 32) 64).depth ∧
    2 ^ (avl_insert_rec (fun _ => 16) (avl_insert_rec (fun _ => 16) Tree.nil 32) 64).depth ≤
      (avl_insert_rec (fun _ => 16)
        (avl_insert_rec (fun _ => 16) Tree.nil 32) 64).toList.length ^ 2 :=
  ⟨by decide, by decide,
   (avl_height_bound (fun _ => 16) _
      (TreeReach.insert _ 64 (TreeReach.insert _ 32 TreeReach.empty (by decide) (by decide))
        (by decide) (by decide)) (by decide)).1,
   (avl_height_bound (fun _ => 16) _
      (TreeReach.insert _ 64 (TreeReach.insert _ 32 TreeReach.empty (by decide) (by decide))
        (by decide) (by decide)) (by decide)).2.1⟩

/-! ## The free-list lookups and the cursor -/

/-- The outcome of `fl_first_fit` on a list without `NULL`: `NULL` when no
block fits, otherwise the list splits at the answer into blocks that do not
fit, the answer, which fits, and the rest. -/
theorem first_fit_split (sz : Nat → Nat) (need : Nat) : ∀ (l : List Nat), 0 ∉ l →
    (fl_first_fit sz l need = 0 ∧ ∀ a ∈ l, sz a < need) ∨
    (fl_first_fit sz l need ≠ 0 ∧ need ≤ sz (fl_first_fit sz l need) ∧
      ∃ pre post, l = pre ++ fl_first_fit sz l need :: post ∧ ∀ a ∈ pre, sz a < need) := by
  intro l
  induction l with
  | nil =>
    intro _
    exact Or.inl ⟨rfl, fun a ha => absurd ha (List.not_mem_nil a)⟩
  | cons x xs ih =>
    intro h0
    have hx : x ≠ 0 := fun e => h0 (e ▸ List.mem_cons_self _ _)
    have h0s : 0 ∉ xs := fun h => h0 (List.mem_cons_of_mem _ h)
    by_cases hf : sz x ≥ need
    · have e : fl_first_fit sz (x :: xs) need = x := by
        show (if sz x ≥ need then x else _) = x
        rw [if_pos hf]
      rw [e]
      exact Or.inr ⟨hx, hf, [], xs, rfl, fun a ha => absurd ha (List.not_mem_nil a)⟩
    · have e : fl_first_fit sz (x :: xs) need = fl_first_fit sz xs need := by
        show (if sz x ≥ need then x else _) = _
        rw [if_neg hf]
      rw [e]
      rcases ih h0s with ⟨h1, h2⟩ | ⟨h1, h2, pre, post, h3, h4⟩
      · left
        refine ⟨h1, fun a ha => ?_⟩
        rcases List.mem_cons.1 ha with h | h
        · rw [h]; exact Nat.lt_of_not_le hf
        · exact h2 a h
      · right
        refine ⟨h1, h2, x :: pre, post, by rw [List.cons_append, ← h3], fun a ha => ?_⟩
        rcases List.mem_cons.1 ha with h | h
        · rw [h]; exact Nat.lt_of_not_le hf
        · exact h4 a h

/-- Claim C26: the first-fit find.  On a free list of non-null blocks,
`fl_first_fit(need)` returns `NULL` iff no block of the list has size at least
`need`; otherwise it returns the first block in head-to-tail order that fits
(every block before it is too small), which on a list strictly ascending by
address is the fitting block of lowest address.  Under first fit `index_find`
is this function and hands back the state as it was: list and cursor are not
written. -/
theorem fl_first_fit_first (s : Heap) (need : Nat) (h0 : 0 ∉ s.g_free_head) :
    (fl_first_fit s.sz s.g_free_head need = 0 ↔ ∀ a ∈ s.g_free_head, s.sz a < need) ∧
    (fl_first_fit s.sz s.g_free_head need ≠ 0 →
      need ≤ s.sz (fl_first_fit s.sz s.g_free_head need) ∧
      ∃ pre post, s.g_free_head = pre ++ fl_first_fit s.sz s.g_free_head need :: post ∧
        ∀ a ∈ pre, s.sz a < need) ∧
    (s.g_free_head.Pairwise (· < ·) → ∀ a ∈ s.g_free_head, need ≤ s.sz a →
      fl_first_fit s.sz s.g_free_head need ≠ 0 ∧ fl_first_fit s.sz s.g_free_head need ≤ a) ∧
    (s.g_strat = Strategy.FIRST →
      index_find s need = some (s, fl_first_fit s.sz s.g_free_head need)) := by
  have key := first_fit_split s.sz need s.g_free_head h0
  have hfind : s.g_strat = Strategy.FIRST →
      index_find s need = some (s, fl_first_fit s.sz s.g_free_head need) := by
    intro hst
    unfold index_find
    rw [if_pos hst]
  generalize fl_first_fit s.sz s.g_free_head need = r at key hfind ⊢
  refine ⟨⟨fun e => ?_, fun hall => ?_⟩, fun hne => ?_, fun hs a ha hfit => ?_, hfind⟩
  · rcases key with ⟨-, h2⟩ | ⟨h1, -⟩
    · exact h2
    · exact absurd e h1
  · rcases key with ⟨h1, -⟩ | ⟨-, h2, pre, post, h3, -⟩
    · exact h1
    · have hm : r ∈ s.g_free_head := by
        rw [h3]; exact List.mem_append_right _ (List.mem_cons_self _ _)
      have := hall _ hm
      omega
  · rcases key with ⟨h1, -⟩ | ⟨-, h2, h3⟩
    · exact absurd h1 hne
    · exact ⟨h2, h3⟩
  · rcases key with ⟨-, h2⟩ | ⟨h1, -, pre, post, h3, h4⟩
    · have := h2 a ha
      omega
    · refine ⟨h1, ?_⟩
      rw [h3] at ha hs
      rcases List.mem_append.1 ha with h | h
      · have := h4 a h
        omega
      · rcases List.mem_cons.1 h with h | h
        · rw [h]
        · have := (List.pairwise_cons.1 (List.pairwise_append.1 hs).2.1).1 a h
          omega

/-- Witness for claim C26: the free list `[65552]` at program start, whose
block has size `1048496`, and the need `112`. -/
theorem fl_first_fit_first_witness :
    0 ∉ heapDemo.g_free_head ∧ heapDemo.g_free_head = [65552] ∧
    fl_first_fit heapDemo.sz heapDemo.g_free_head 112 = 65552 ∧
    (fl_first_fit heapDemo.sz heapDemo.g_free_head 112 ≠ 0 →
      112 ≤ heapDemo.sz (fl_first_fit heapDemo.sz heapDemo.g_free_head 112) ∧
      ∃ pre post, heapDemo.g_free_head =
          pre ++ fl_first_fit heapDemo.sz heapDemo.g_free_head 112 :: post ∧
        ∀ a ∈ pre, heapDemo.sz a < 112) :=
  ⟨by decide, by decide, by decide,
   (fl_first_fit_first heapDemo 112 (by decide)).2.1⟩

/-- Claim C27: the next-fit find.  On a free list without repetition (acyclic)
and without `NULL`, the cursor being `NULL` or a block of the list,
`fl_next_fit(need)` returns; its loop, started at the cursor (at the head when
the cursor is `NULL`), ends within as many rounds as the list has blocks.  It
returns `NULL` iff no block of the list has size at least `need`.  Otherwise,
with the list cut at the start block into `pre ++ c :: post`, the answer is the
first block of the circular order `c :: post ++ pre` that fits, and the new
cursor is the successor of the answer on the list, or the head when the answer
is the tail. -/
theorem fl_next_fit_circular (sz : Nat → Nat) (l : List Nat) (cursor need : Nat)
    (hnd : l.Nodup) (h0 : 0 ∉ l) (hc : cursor = 0 ∨ cursor ∈ l) :
    ∃ r c2, fl_next_fit sz l cursor need = some (r, c2) ∧
      (l ≠ [] → ∀ fuel, l.length ≤ fuel →
        fl_next_fit_loop sz l need (if cursor = 0 then fl_head l else cursor)
          (if cursor = 0 then fl_head l else cursor) fuel
          (if cursor = 0 then fl_head l else cursor) = some (r, c2)) ∧
      (r = 0 ↔ ∀ a ∈ l, sz a < need) ∧
      (r ≠ 0 → need ≤ sz r ∧
        c2 = (if next_free l r ≠ 0 then next_free l r else fl_head l) ∧
        ∃ pre c post u v, l = pre ++ c :: post ∧ (cursor = c ∨ (cursor = 0 ∧ pre = [])) ∧
          c :: post ++ pre = u ++ r :: v ∧ ∀ a ∈ u, sz a < need) := by
  cases l with
  | nil =>
    have e : cursor = 0 := by
      rcases hc with h | h
      · exact h
      · exact absurd h (List.not_mem_nil _)
    refine ⟨0, 0, ?_, fun h => absurd rfl h, ⟨fun _ a ha => absurd ha (List.not_mem_nil a),
      fun _ => rfl⟩, fun h => absurd rfl h⟩
    rw [e]
    rfl
  | cons y ys =>
    obtain ⟨pre, post, c, el, hcc⟩ : ∃ pre post c, y :: ys = pre ++ c :: post ∧
        ((cursor = 0 ∧ pre = []) ∨ cursor = c) := by
      by_cases hz : cursor = 0
      · exact ⟨[], ys, y, rfl, Or.inl ⟨hz, rfl⟩⟩
      · rcases hc with h | h
        · exact absurd h hz
        · obtain ⟨pre, post, e⟩ := List.append_of_mem h
          exact ⟨pre, post, cursor, e, Or.inr rfl⟩
    rw [el] at hnd h0 ⊢
    have hc0 : c ≠ 0 := fun e => h0 (e ▸ List.mem_append_right _ (List.mem_cons_self _ _))
    have e1 : (if cursor = 0 then fl_head (pre ++ c :: post) else cursor) = c := by
      rcases hcc with ⟨h1, h2⟩ | h1
      · rw [if_pos h1, h2]; rfl
      · rw [h1, if_neg hc0]
    rw [e1, fl_next_fit_scan sz pre post c cursor need hnd h0 hcc]
    have hloop : ∀ fuel, (pre ++ c :: post).length ≤ fuel →
        fl_next_fit_loop sz (pre ++ c :: post) need c c fuel c =
          scan_result sz (pre ++ c :: post) need c (c :: post ++ pre) := by
      intro fuel hf
      have := next_fit_loop_post sz need c c pre post [] [] c fuel
        (by simp) (by simpa using hnd) (by simpa using h0)
        (by simp at hf ⊢; omega)
      simpa using this
    have hperm : ∀ a, a ∈ c :: post ++ pre ↔ a ∈ pre ++ c :: post := by
      intro a
      simp only [List.mem_append, List.mem_cons]
      constructor
      · rintro ((h | h) | h)
        · exact Or.inr (Or.inl h)
        · exact Or.inr (Or.inr h)
        · exact Or.inl h
      · rintro (h | h | h)
        · exact Or.inr h
        · exact Or.inl (Or.inl h)
        · exact Or.inl (Or.inr h)
    unfold scan_result at hloop ⊢
    cases hf : (c :: post ++ pre).find? (fun a => decide (need ≤ sz a)) with
    | none =>
      rw [hf] at hloop
      have hall : ∀ a ∈ pre ++ c :: post, sz a < need := by
        intro a ha
        have := List.find?_eq_none.1 hf a ((hperm a).2 ha)
        simpa using this
      exact ⟨0, c, rfl, fun _ fuel hfu => hloop fuel hfu, ⟨fun _ => hall, fun _ => rfl⟩,
        fun h => absurd rfl h⟩
    | some r =>
      rw [hf] at hloop
      obtain ⟨hr2, u, v, huv, hu⟩ := List.find?_eq_some.1 hf
      have hr1 : r ∈ pre ++ c :: post :=
        (hperm r).1 (by rw [huv]; exact List.mem_append_right _ (List.mem_cons_self _ _))
      have hr3 : need ≤ sz r := by simpa using hr2
      have hr0 : r ≠ 0 := fun e => h0 (e ▸ hr1)
      refine ⟨r, _, rfl, fun _ fuel hfu => hloop fuel hfu, ⟨fun e => absurd e hr0,
        fun hall => ?_⟩, fun _ => ⟨hr3, rfl, pre, c, post, u, v, rfl, ?_, huv, fun a ha => ?_⟩⟩
      · have := hall r hr1
        omega
      · rcases hcc with h | h
        · exact Or.inr h
        · exact Or.inl h
      · have := hu a ha
        simpa using this

/-- Witness for claim C27: the list `[32, 64, 128]` with the cursor at the tail
`128`, where only the block `32` has size at least `50`: the scan wraps round
to the head, returns `32` and moves the cursor to `64`. -/
theorem fl_next_fit_circular_witness :
    fl_next_fit (fun a => if a = 32 then 100 else 10) [32, 64, 128] 128 50 = some (32, 64) ∧
    ∃ r c2, fl_next_fit (fun a => if a = 32 then 100 else 10) [32, 64, 128] 128 50 =
        some (r, c2) ∧
      ([32, 64, 128] ≠ [] → ∀ fuel, [32, 64, 128].length ≤ fuel →
        fl_next_fit_loop (fun a => if a = 32 then 100 else 10) [32, 64, 128] 50
          (if 128 = 0 then fl_head [32, 64, 128] else 128)
          (if 128 = 0 then fl_head [32, 64, 128] else 128) fuel
          (if 128 = 0 then fl_head [32, 64, 128] else 128) = some (r, c2)) ∧
      (r = 0 ↔ ∀ a ∈ [32, 64, 128], (fun a => if a = 32 then 100 else 10) a < 50) ∧
      (r ≠ 0 → 50 ≤ (fun a => if a = 32 then 100 else 10) r ∧
        c2 = (if next_free [32, 64, 128] r ≠ 0 then next_free [32, 64, 128] r
          else fl_head [32, 64, 128]) ∧
        ∃ pre c post u v, [32, 64, 128] = pre ++ c :: post ∧
          (128 = c ∨ (128 = 0 ∧ pre = [])) ∧
          c :: post ++ pre = u ++ r :: v ∧
          ∀ a ∈ u, (fun a => if a = 32 then 100 else 10) a < 50) :=
  ⟨by decide,
   fl_next_fit_circular (fun a => if a = 32 then 100 else 10) [32, 64, 128] 128 50
     (by decide) (by decide) (by decide)⟩

theorem next_free_ne (l : List Nat) (b : Nat) (hnd : l.Nodup) (h : next_free l b ≠ 0) :
    next_free l b ≠ b := by
  induction l with
  | nil => exact absurd rfl h
  | cons x xs ih =>
    obtain ⟨hx, hxs⟩ := List.nodup_cons.1 hnd
    unfold next_free at h ⊢
    by_cases e : x = b
    · rw [if_pos e] at h ⊢
      intro e2
      have := fl_head_mem xs h
      rw [e2, ← e] at this
      exact hx this
    · rw [if_neg e] at h ⊢
      exact ih hxs h

/-- Claim C28: the cursor on removal.  On a free list without repetition and
without `NULL`, for a member `b` and a cursor that is `NULL` or a member,
`fl_remove(b)` takes `b` off the list and leaves the cursor as it is when it is
not `b`; a cursor at `b` becomes the former successor of `b`, or the new head
when `b` was the tail (`NULL` when the list is empty then).  Afterwards the
cursor is `NULL` or a member of the new list, and it is not `b`. -/
theorem fl_remove_cursor_moves (l : List Nat) (c b : Nat) (hnd : l.Nodup) (h0 : 0 ∉ l)
    (hb : b ∈ l) (hc : c = 0 ∨ c ∈ l) :
    (fl_remove l c b).1 = l.erase b ∧ b ∉ (fl_remove l c b).1 ∧
    (c ≠ b → (fl_remove l c b).2 = c) ∧
    (c = b → next_free l b ≠ 0 → (fl_remove l c b).2 = next_free l b) ∧
    (c = b → next_free l b = 0 → (fl_remove l c b).2 = fl_head (l.erase b)) ∧
    (c = b → l.erase b = [] → (fl_remove l c b).2 = 0) ∧
    ((fl_remove l c b).2 = 0 ∨ (fl_remove l c b).2 ∈ (fl_remove l c b).1) ∧
    (fl_remove l c b).2 ≠ b := by
  have e1 : (fl_remove l c b).1 = l.erase b := fl_unlink_eq_erase l b
  have e2 : (fl_remove l c b).2 =
      if c = b then (if next_free l b ≠ 0 then next_free l b else fl_head (l.erase b))
      else c := by
    show (if c = b then (if next_free l b ≠ 0 then next_free l b else fl_head (fl_unlink l b))
      else c) = _
    rw [fl_unlink_eq_erase]
  have hb0 : b ≠ 0 := fun e => h0 (e ▸ hb)
  have hnb : b ∉ l.erase b := fun h => (hnd.mem_erase_iff.1 h).1 rfl
  have hmem : (fl_remove l c b).2 = 0 ∨ (fl_remove l c b).2 ∈ l.erase b := by
    rw [e2]
    by_cases hcb : c = b
    · rw [if_pos hcb]
      by_cases hn : next_free l b ≠ 0
      · rw [if_pos hn]
        exact Or.inr (hnd.mem_erase_iff.2 ⟨next_free_ne l b hnd hn, next_free_mem l b hn⟩)
      · rw [if_neg hn]
        by_cases hh : fl_head (l.erase b) = 0
        · exact Or.inl hh
        · exact Or.inr (fl_head_mem _ hh)
    · rw [if_neg hcb]
      rcases hc with h | h
      · exact Or.inl h
      · exact Or.inr (hnd.mem_erase_iff.2 ⟨hcb, h⟩)
  rw [e1]
  refine ⟨rfl, hnb, fun h => ?_, fun h hn => ?_, fun h hn => ?_, fun h he => ?_, hmem, ?_⟩
  · rw [e2, if_neg h]
  · rw [e2, if_pos h, if_pos hn]
  · rw [e2, if_pos h, if_neg (not_not.2 hn)]
  · rcases hmem with h1 | h1
    · exact h1
    · rw [he] at h1; exact absurd h1 (List.not_mem_nil _)
  · rcases hmem with h1 | h1
    · rw [h1]; exact fun e => hb0 e.symm
    · intro e
      rw [e] at h1
      exact hnb h1

/-- Witness for claim C28: the list `[32, 64, 128]` with the cursor at the tail
`128`, which is removed: the cursor moves to the head `32`. -/
theorem fl_remove_cursor_moves_witness :
    fl_remove [32, 64, 128] 128 128 = ([32, 64], 32) ∧
    (fl_remove [32, 64, 128] 128 128).1 = [32, 64, 128].erase 128 ∧
    128 ∉ (fl_remove [32, 64, 128] 128 128).1 :=
  ⟨by decide,
   (fl_remove_cursor_moves [32, 64, 128] 128 128 (by decide) (by decide) (by decide)
      (by decide)).1,
   (fl_remove_cursor_moves [32, 64, 128] 128 128 (by decide) (by decide) (by decide)
      (by decide)).2.1⟩

/-! ## The physical chain of an arena -/

theorem phys_chain_null (m : Nat → Block) (fuel : Nat) : phys_chain m fuel 0 = [] := by
  cases fuel with
  | zero => rfl
  | succ k => unfold phys_chain; rw [if_pos rfl]

/-- The headers and payloads on the walk from a block to the end of its arena
add up to the bytes between the block and the end of the arena. -/
theorem chain_sum {m : Nat → Block} {ars : List (Nat × Nat)} {blocks : List Nat}
    (h : ChainOK m ars blocks) (ar : Nat × Nat) (har : ar ∈ ars) (fuel : Nat) :
    ∀ b, b ∈ blocks → ar.1 + 16 ≤ b → b + 64 + (m b).size ≤ ar.1 + ar.2 →
      ar.1 + ar.2 ≤ b + fuel →
      ((phys_chain m fuel b).map (fun c => HDR_SZ + (m c).size)).sum = ar.1 + ar.2 - b := by
  induction fuel with
  | zero => intro b _ _ h2 h3; omega
  | succ k ih =>
    intro b hb h1 h2 h3
    have bb := chain_bounds h b hb
    unfold phys_chain
    rw [if_neg (by omega), List.map_cons, List.sum_cons, HDR_SZ_eq]
    obtain ⟨ar2, har2, c1, c2, -, c4⟩ := (h.blk b hb).arena
    have e2 : ar2 = ar := arena_unique h ar2 ar har2 har b (by omega) (by omega)
    rw [e2] at c4
    by_cases e3 : (m b).next_phys = 0
    · rw [e3, phys_chain_null, List.map_nil, List.sum_nil]
      have := c4 e3
      omega
    · obtain ⟨n1, n2, -, n4⟩ := chain_next h b hb e3
      obtain ⟨k1, -⟩ := n4 ar har h1 h2
      have e := ih _ n1 (by omega) k1 (by omega)
      rw [HDR_SZ_eq] at e
      rw [e]
      omega

/-- The heap invariant gives the physical-chain property. -/
theorem inv_phys {s : Heap} {blocks live : List Nat} {x : Nat} (h : InvX s blocks live x) :
    PhysOK s := by
  intro ar har
  refine ⟨?_, ?_⟩
  · intro b hb
    have hb2 := (blocks_iff_chain h b).2 ⟨ar, har, hb⟩
    refine ⟨fun hp => ((h.chain.blk b hb2).prv hp).2, fun hn => ?_⟩
    obtain ⟨-, n2, n3⟩ := (h.chain.blk b hb2).nxt hn
    rw [HDR_SZ_eq]
    exact ⟨n3, n2⟩
  · obtain ⟨f1, -⟩ := h.chain.first ar har
    obtain ⟨ar2, har2, c1, c2, -, -⟩ := (h.chain.blk _ f1).arena
    have e2 : ar2 = ar := arena_unique h.chain ar2 ar har2 har (ar.1 + 16) (by omega)
      (by have := (h.chain.arenas ar har).2.2.2; omega)
    rw [e2] at c2
    unfold Heap.chain
    rw [show SIZEOF_ARENA = 16 from rfl,
      chain_sum h.chain ar har ar.2 _ f1 (le_refl _) c2 (by omega)]
    omega

/-- Claim C30 (physical-chain invariant).  In every state reachable from program
start by `allocator_init`, the allocators and `my_free`, on the chain of every
arena each block is the successor of its predecessor and the predecessor of its
successor where they exist, the successor lies at `b + HDR_SZ + b->size`, and
the sum of `HDR_SZ + size` over the chain is the arena size less
`sizeof(Arena)` (`PhysOK`).  The property holds again after `map_arena`
succeeds, after `split_block` on a block that `allocate_general` has found and
taken off the index, and after `coalesce_and_insert` on the block of a live
pointer that `free_general` has flagged free. -/
theorem phys_chain_invariant (s : Heap) (live : List Nat) (h : Reach s live) :
    PhysOK s ∧
    (∀ mu base, mu % 16 = 0 → mu < 2 ^ 32 → OsOk s (arena_need mu) (some base) →
      PhysOK (map_arena s mu (some base)).1) ∧
    (s.g_strat ≠ Strategy.UNSET → ∀ b ∈ s.idx, ∀ need, need % 16 = 0 →
      need ≤ (s.mem b).size → PhysOK (split_block (index_remove s b) b need)) ∧
    (∀ p ∈ live, PhysOK (coalesce_and_insert
      { s with mem := store s.mem (p - 64) (fun B => { B with is_free := 1 }) } (p - 64))) := by
  obtain ⟨blocks, hi⟩ := reach_inv h
  refine ⟨inv_phys hi, ?_, ?_, ?_⟩
  · intro mu base h1 h2 hos
    exact inv_phys (inv_map hi mu base h1 h2 hos).1
  · intro hst b hb need hal hle
    obtain ⟨k1, k2, k3⟩ := (hi.free_idx b).1 (Or.inl hb)
    have t1 := inv_take hi b hb hst
    have hm : (index_remove s b).mem = s.mem := (index_remove_frame s b).1
    have hnf : ((index_remove s b).mem b).next_phys ≠ 0 →
        ((index_remove s b).mem ((index_remove s b).mem b).next_phys).is_free = 0 := by
      rw [hm]
      intro h0
      exact hi.noadj b k1 k2 k3 h0 h0
    obtain ⟨blocks2, t2, -⟩ := inv_split t1 k1 need hal (by rw [hm]; exact hle) hnf
    exact inv_phys t2
  · intro p hp
    obtain ⟨r1, -, r3⟩ := inv_release hi p hp
    have F := store_flag s.mem (p - 64) 1 (p - 64)
    obtain ⟨blocks2, c1, -⟩ := inv_coalesce r3 r1
      (by show (store s.mem (p - 64) (fun B => { B with is_free := 1 }) (p - 64)).is_free ≠ 0
          rw [F.2.2.2, if_pos rfl]; exact Nat.one_ne_zero)
    exact inv_phys c1

/-- Witness for claim C30: the state after `malloc_first_fit(100)` at program
start; the chain of its arena at `65536` is the block handed out and the
remainder. -/
theorem phys_chain_invariant_witness :
    Reach heapDemo1.1 [65616] ∧ heapDemo1.1.g_arenas = [(65536, 1048656)] ∧
    heapDemo1.1.chain (65536, 1048656) = [65552, 65728] ∧ PhysOK heapDemo1.1 :=
  ⟨reach_heapDemo1, by decide, by decide,
   (phys_chain_invariant heapDemo1.1 [65616] reach_heapDemo1).1⟩

/-! ## Exact effect of an allocation that finds a block -/

/-- The call `lock_strategy(st)` when the latch is unset or holds `st`. -/
theorem lock_strategy_eq (s : Heap) (st : Strategy)
    (hl : s.g_strat = Strategy.UNSET ∨ s.g_strat = st) :
    lock_strategy s st = some { s with g_strat := st } := by
  unfold lock_strategy
  by_cases hu : s.g_strat = Strategy.UNSET
  · rw [if_pos hu]
  · rw [if_neg hu]
    have e : s.g_strat = st := hl.resolve_left hu
    rw [if_neg (not_not.2 e)]
    subst e
    rfl

/-- A strategy-driven allocator whose first lookup finds the block `b`. -/
theorem malloc_fit_hit (st : Strategy) (s : Heap) (n : Nat) (os : Option Nat)
    (hl : s.g_strat = Strategy.UNSET ∨ s.g_strat = st) (hn : n ≠ 0) (s1 : Heap) (b : Nat)
    (e : index_find { s with g_strat := st } (ALIGN_UP n ALIGN) = some (s1, b)) (hb : b ≠ 0) :
    malloc_fit st s n os = some ((alloc_found s1 b (ALIGN_UP n ALIGN)).1, b + 64) := by
  unfold malloc_fit
  rw [lock_strategy_eq s st hl]
  simp only []
  unfold allocate_general
  rw [if_neg hn, e]
  simp only []
  rw [if_pos hb]
  show some ((alloc_found s1 b (ALIGN_UP n ALIGN)).1,
    if (alloc_found s1 b (ALIGN_UP n ALIGN)).2 ≠ 0
      then blk_to_ptr (alloc_found s1 b (ALIGN_UP n ALIGN)).2 else 0) = _
  have e2 : (alloc_found s1 b (ALIGN_UP n ALIGN)).2 = b := rfl
  rw [e2, if_pos hb]
  rfl

/-- A strategy-driven allocator whose first lookup misses, `mmap` answering
`base`, and whose second lookup finds the block `b`. -/
theorem malloc_fit_grow (st : Strategy) (s : Heap) (n : Nat) (base : Nat)
    (hl : s.g_strat = Strategy.UNSET ∨ s.g_strat = st) (hn : n ≠ 0) (s1 s3 : Heap) (b : Nat)
    (e : index_find { s with g_strat := st } (ALIGN_UP n ALIGN) = some (s1, 0))
    (hm : (map_arena s1 (ALIGN_UP n ALIGN) (some base)).2 ≠ 0)
    (e3 : index_find (map_arena s1 (ALIGN_UP n ALIGN) (some base)).1 (ALIGN_UP n ALIGN)
      = some (s3, b)) (hb : b ≠ 0) :
    malloc_fit st s n (some base) = some ((alloc_found s3 b (ALIGN_UP n ALIGN)).1, b + 64) := by
  unfold malloc_fit
  rw [lock_strategy_eq s st hl]
  simp only []
  unfold allocate_general
  rw [if_neg hn, e]
  simp only []
  rw [if_neg (not_not.2 rfl), if_neg hm, e3]
  simp only []
  rw [if_neg hb]
  show some ((alloc_found s3 b (ALIGN_UP n ALIGN)).1,
    if (alloc_found s3 b (ALIGN_UP n ALIGN)).2 ≠ 0
      then blk_to_ptr (alloc_found s3 b (ALIGN_UP n ALIGN)).2 else 0) = _
  have e2 : (alloc_found s3 b (ALIGN_UP n ALIGN)).2 = b := rfl
  rw [e2, if_pos hb]
  rfl

/-- The writes of `split_block` to a block that is last on its chain. -/
theorem split_mem_last (m : Nat → Block) (b need left : Nat) (h0 : (m b).next_phys = 0)
    (hb : b ≠ 0) :
    ∀ x, x ≠ b → x ≠ b + 64 + need → split_mem m b need left x = m x := by
  intro x h1 h2
  by_cases hx : x = 0
  · have hrb : b + 64 + need ≠ b := by omega
    have hbr : b ≠ b + 64 + need := by omega
    unfold split_mem store
    simp only [HDR_SZ_eq]
    simp [h0, hrb, hbr, h1, h2]
  · exact (split_mem_spec m b need left (by rw [h0]; exact Ne.symm hb)
      (by rw [h0]; omega)).2.2.2 x h1 h2 (by rw [h0]; exact hx)

/-- The index after `split_block` on a block that is off the index: the
remainder is its one new member. -/
theorem split_idx (s : Heap) (a N left : Nat) (hi : IdxOK s) (hai : a ∉ s.idx)
    (hr : a + 64 + N ∉ s.idx) (hnb : (s.mem a).next_phys ≠ a)
    (hnr : (s.mem a).next_phys ≠ a + 64 + N) (h64 : a + 64 + N < 2 ^ 64) :
    IdxOK (index_insert { s with mem := split_mem s.mem a N left } (a + 64 + N)) ∧
    (∀ z, z ∈ (index_insert { s with mem := split_mem s.mem a N left } (a + 64 + N)).idx ↔
      z ∈ s.idx ∨ z = a + 64 + N) ∧
    (index_insert { s with mem := split_mem s.mem a N left } (a + 64 + N)).orphans
      = s.orphans := by
  obtain ⟨-, -, m3, m4⟩ := split_mem_spec s.mem a N left hnb hnr
  have hi2 : IdxOK { s with mem := split_mem s.mem a N left } := by
    apply idxOK_mem s _ hi
    intro z hz
    have hz2 : z ∈ s.idx := by
      by_cases ht : s.g_strat = Strategy.BEST ∨ s.g_strat = Strategy.WORST
      · rw [(idx_of_tree s ht).1]; exact hz
      · rw [hi.tree_nil ht] at hz
        exact absurd hz (List.not_mem_nil z)
    have z1 : z ≠ a := fun e => hai (e ▸ hz2)
    have z2 : z ≠ a + 64 + N := fun e => hr (e ▸ hz2)
    by_cases z3 : z = (s.mem a).next_phys
    · rw [z3, m3 (by rw [← z3]; exact fun e => hi.nz.2 (e ▸ hz))]
    · rw [m4 z z1 z2 z3]
  exact idx_insert _ _ hi2 hr (by omega) h64

/-- The free list and the cursor after the tail of `allocate_general` when the
free list is the index. -/
theorem alloc_found_list (s : Heap) (b S : Nat)
    (hs : ¬ (s.g_strat = Strategy.BEST ∨ s.g_strat = Strategy.WORST)) :
    (alloc_found s b S).1.g_free_head =
      (if sub64 (s.mem b).size S < 80 then fl_unlink s.g_free_head b
       else fl_push_sorted (fl_unlink s.g_free_head b) (b + 64 + S)) ∧
    (alloc_found s b S).1.g_nextfit_cursor = (fl_remove s.g_free_head s.g_nextfit_cursor b).2 := by
  unfold alloc_found
  simp only []
  rw [split_block_eq, index_remove_of_list s b hs]
  by_cases h : sub64 (s.mem b).size S < 80
  · have h2 : sub64 ((s.fl_remove b).mem b).size S < 80 := h
    rw [if_pos h2, if_pos h]
    exact ⟨rfl, rfl⟩
  · have h2 : ¬ sub64 ((s.fl_remove b).mem b).size S < 80 := h
    rw [if_neg h2, if_neg h, index_insert_of_list
      { s.fl_remove b with
        mem := split_mem (s.fl_remove b).mem b S (sub64 ((s.fl_remove b).mem b).size S) }
      (b + 64 + S) hs]
    exact ⟨rfl, rfl⟩

/-- The tail of `allocate_general` on a block `b` of the index, `S` being the
rounded size: the state keeps the invariant, `b` leaves the index, the
remainder, when `b` is split, joins it, and the headers are as `split_block`
and the clearing of the flag leave them. -/
theorem alloc_found_spec {s : Heap} {blocks live : List Nat} (h : InvX s blocks live 0)
    (b S : Nat) (hb : b ∈ s.idx) (hal : S % 16 = 0) (hle : S ≤ (s.mem b).size)
    (hst : s.g_strat ≠ Strategy.UNSET) :
    (∃ blocks2, InvX (alloc_found s b S).1 blocks2 ((b + 64) :: live) 0) ∧
    (alloc_found s b S).1.g_strat = s.g_strat ∧
    (alloc_found s b S).1.g_arenas = s.g_arenas ∧
    (∀ z, z ∈ (alloc_found s b S).1.idx ↔
      (z ∈ s.idx ∧ z ≠ b) ∨ (S + 80 ≤ (s.mem b).size ∧ z = b + 64 + S)) ∧
    (alloc_found s b S).1.orphans = s.orphans ∧
    ((s.mem b).size < S + 80 →
      (alloc_found s b S).1.mem b = { s.mem b with is_free := 0 } ∧
      ∀ z, z ≠ b → (alloc_found s b S).1.mem z = s.mem z) ∧
    (S + 80 ≤ (s.mem b).size →
      (alloc_found s b S).1.mem b = ⟨S, 0, (s.mem b).prev_phys, b + 64 + S⟩ ∧
      (alloc_found s b S).1.mem (b + 64 + S) =
        ⟨(s.mem b).size - S - 64, 1, b, (s.mem b).next_phys⟩ ∧
      ((s.mem b).next_phys ≠ 0 → (alloc_found s b S).1.mem (s.mem b).next_phys =
        { s.mem (s.mem b).next_phys with prev_phys := b + 64 + S }) ∧
      (∀ z, z ≠ b → z ≠ b + 64 + S →
        ((s.mem b).next_phys ≠ 0 → z ≠ (s.mem b).next_phys) →
        (alloc_found s b S).1.mem z = s.mem z)) := by
  obtain ⟨blocks2, t3, -, -, -, hstr⟩ := inv_alloc_found h b S hb hal hle hst
  obtain ⟨k1, k2, k3⟩ := (h.free_idx b).1 (Or.inl hb)
  have bb := chain_bounds h.chain b k1
  have b0 : b ≠ 0 := by omega
  obtain ⟨i1, i2, i3⟩ := idx_remove s b h.idx
  obtain ⟨hm, ha, -⟩ := index_remove_frame s b
  have hsub : sub64 (s.mem b).size S = (s.mem b).size - S := sub64_eq _ _ hle (by omega)
  have hnx : (s.mem b).next_phys ≠ 0 → (s.mem b).next_phys = b + 64 + (s.mem b).size :=
    fun h0 => (chain_next h.chain b k1 h0).2.1
  have hnb : (s.mem b).next_phys ≠ b := by
    intro e
    by_cases h0 : (s.mem b).next_phys = 0
    · exact b0 (e ▸ h0)
    · have := hnx h0; omega
  refine ⟨⟨blocks2, t3⟩, hstr, ?_, ?_⟩
  · show (split_block (index_remove s b) b S).g_arenas = s.g_arenas
    rw [split_block_eq]
    split_ifs
    · exact ha
    · rw [(index_insert_frame _ _).2.1]; exact ha
  have kA : (alloc_found s b S).1.mem = store (split_block (index_remove s b) b S).mem b
      (fun B => { B with is_free := 0 }) := rfl
  have kB : (alloc_found s b S).1.idx = (split_block (index_remove s b) b S).idx := rfl
  have kC : (alloc_found s b S).1.orphans = (split_block (index_remove s b) b S).orphans := rfl
  rw [kA, kB, kC, split_block_eq, hm, hsub]
  by_cases hsp : (s.mem b).size - S < 80
  · rw [if_pos hsp]
    refine ⟨?_, i3, ?_, fun hge => absurd hsp (by omega)⟩
    · intro z
      rw [i2 z]
      constructor
      · exact fun hz => Or.inl hz
      · rintro (hz | ⟨hz, -⟩)
        · exact hz
        · omega
    · intro _
      rw [hm]
      exact ⟨store_same _ _ _, fun z hz => store_other _ _ _ _ hz⟩
  · rw [if_neg hsp]
    have hle2 : S + 80 ≤ (s.mem b).size := by omega
    obtain ⟨hrem, -⟩ := chain_split h.chain b S k1 hal hle2
    have hnr : (s.mem b).next_phys ≠ b + 64 + S := by
      intro e
      by_cases h0 : (s.mem b).next_phys = 0
      · rw [h0] at e; omega
      · have := hnx h0; omega
    have hbi : b ∉ (index_remove s b).idx := fun hz => ((i2 b).1 hz).2 rfl
    have hri : b + 64 + S ∉ (index_remove s b).idx := by
      intro hz
      exact hrem ((h.free_idx _).1 (Or.inl ((i2 _).1 hz).1)).1
    obtain ⟨-, j2, j3⟩ := split_idx (index_remove s b) b S ((s.mem b).size - S) i1 hbi hri
      (by rw [hm]; exact hnb) (by rw [hm]; exact hnr) (by omega)
    rw [hm] at j2 j3
    obtain ⟨m1, m2, m3, m4⟩ := split_mem_spec s.mem b S ((s.mem b).size - S) hnb hnr
    have hs64 : sub64 ((s.mem b).size - S) 64 = (s.mem b).size - S - 64 :=
      sub64_eq _ _ (by omega) (by omega)
    rw [hs64] at m2
    have hmm : (index_insert
        { index_remove s b with mem := split_mem s.mem b S ((s.mem b).size - S) }
        (b + 64 + S)).mem = split_mem s.mem b S ((s.mem b).size - S) :=
      (index_insert_frame
        { index_remove s b with mem := split_mem s.mem b S ((s.mem b).size - S) }
        (b + 64 + S)).1
    refine ⟨?_, j3.trans i3, fun hlt => absurd hlt (by omega), fun _ => ?_⟩
    · intro z
      rw [j2 z, i2 z]
      constructor
      · rintro (hz | hz)
        · exact Or.inl hz
        · exact Or.inr ⟨hle2, hz⟩
      · rintro (hz | ⟨-, hz⟩)
        · exact Or.inl hz
        · exact Or.inr hz
    · rw [hmm]
      refine ⟨?_, ?_, ?_, ?_⟩
      · rw [store_same, m1]
      · rw [store_other _ _ _ _ (by omega), m2]
      · intro h0
        rw [store_other _ _ _ _ hnb, m3 h0]
      · intro z z1 z2 z3
        rw [store_other _ _ _ _ z1]
        by_cases h0 : (s.mem b).next_phys = 0
        · exact split_mem_last s.mem b S _ h0 b0 z z1 z2
        · exact m4 z z1 z2 (z3 h0)

/-! ## Exact effect of a free on the general heap -/

theorem index_insert_cursor (s : Heap) (b : Nat) :
    (index_insert s b).g_nextfit_cursor = s.g_nextfit_cursor := by
  unfold index_insert Heap.fl_push_sorted avl_insert; split <;> rfl

/-- The call `free_general(p)` of a live pointer flags the block free and hands
it to `coalesce_and_insert`. -/
theorem free_general_live {s : Heap} {blocks live : List Nat} (h : InvX s blocks live 0)
    (p : Nat) (hp : p ∈ live) :
    free_general s p = coalesce_and_insert
      { s with mem := store s.mem (p - 64) (fun B => { B with is_free := 1 }) } (p - 64) := by
  obtain ⟨p0, -⟩ := live_not_buddy h p hp
  obtain ⟨-, r2, -⟩ := inv_release h p hp
  unfold free_general
  rw [if_neg p0, live_ptr_to_blk h p hp, if_neg (not_not.2 r2)]

/-- The physical neighbours of a block lie strictly below and above it. -/
theorem neighbours_ne {m : Nat → Block} {ars : List (Nat × Nat)} {blocks : List Nat}
    (h : ChainOK m ars blocks) (b : Nat) (hb : b ∈ blocks) :
    ((m b).prev_phys ≠ 0 → (m b).prev_phys ∈ blocks ∧ (m b).prev_phys < b ∧
      (m (m b).prev_phys).next_phys = b ∧
      (m b).prev_phys + 64 + (m (m b).prev_phys).size = b) ∧
    ((m b).next_phys ≠ 0 → (m b).next_phys ∈ blocks ∧
      (m b).next_phys = b + 64 + (m b).size ∧ (m (m b).next_phys).prev_phys = b) := by
  have bb := chain_bounds h b hb
  constructor
  · intro h0
    obtain ⟨p1, p2⟩ := (h.blk b hb).prv h0
    have k := (chain_next h _ p1 (by rw [p2]; omega)).2.1
    rw [p2] at k
    exact ⟨p1, by omega, p2, by omega⟩
  · intro h0
    obtain ⟨n1, n2, n3, -⟩ := chain_next h b hb h0
    exact ⟨n1, n2, n3⟩

/-- The call `free_general(p)` of a live pointer whose block has no free
physical neighbour: the block is flagged free and joins the index. -/
theorem free_plain {s : Heap} {blocks live : List Nat} (h : InvX s blocks live 0) (p : Nat)
    (hp : p ∈ live)
    (hL : (s.mem (p - 64)).prev_phys = 0 ∨ (s.mem (s.mem (p - 64)).prev_phys).is_free = 0)
    (hR : (s.mem (p - 64)).next_phys = 0 ∨ (s.mem (s.mem (p - 64)).next_phys).is_free = 0) :
    free_general s p = index_insert
      { s with mem := store s.mem (p - 64) (fun B => { B with is_free := 1 }) } (p - 64) ∧
    (∀ z, z ∈ (free_general s p).idx ↔ z ∈ s.idx ∨ z = p - 64) ∧
    (free_general s p).orphans = s.orphans ∧
    (free_general s p).mem = store s.mem (p - 64) (fun B => { B with is_free := 1 }) ∧
    (free_general s p).g_nextfit_cursor = s.g_nextfit_cursor := by
  obtain ⟨r1, r2, r3⟩ := inv_release h p hp
  have F := store_flag s.mem (p - 64) 1
  have bb := chain_bounds h.chain _ r1
  obtain ⟨nL, nR⟩ := neighbours_ne h.chain _ r1
  have e : free_general s p = index_insert
      { s with mem := store s.mem (p - 64) (fun B => { B with is_free := 1 }) } (p - 64) := by
    rw [free_general_live h p hp]
    unfold coalesce_and_insert
    simp only []
    have c1 : coalesce_left
        { s with mem := store s.mem (p - 64) (fun B => { B with is_free := 1 }) } (p - 64) =
        ({ s with mem := store s.mem (p - 64) (fun B => { B with is_free := 1 }) }, p - 64) := by
      rw [coalesce_left_eq, if_neg]
      show ¬ ((store s.mem (p - 64) (fun B => { B with is_free := 1 }) (p - 64)).prev_phys ≠ 0 ∧
        (store s.mem (p - 64) (fun B => { B with is_free := 1 })
          (store s.mem (p - 64) (fun B => { B with is_free := 1 }) (p - 64)).prev_phys).is_free
            ≠ 0)
      rw [(F (p - 64)).2.1]
      rintro ⟨h0, h1⟩
      rw [(F _).2.2.2, if_neg (by have := (nL h0).2.1; omega)] at h1
      exact h1 (hL.resolve_left h0)
    rw [c1]
    simp only []
    rw [coalesce_right_eq, if_neg]
    show ¬ ((store s.mem (p - 64) (fun B => { B with is_free := 1 }) (p - 64)).next_phys ≠ 0 ∧
      (store s.mem (p - 64) (fun B => { B with is_free := 1 })
        (store s.mem (p - 64) (fun B => { B with is_free := 1 }) (p - 64)).next_phys).is_free
          ≠ 0)
    rw [(F (p - 64)).2.2.1]
    rintro ⟨h0, h1⟩
    rw [(F _).2.2.2, if_neg (by have := (nR h0).2.1; omega)] at h1
    exact h1 (hR.resolve_left h0)
  have hni : p - 64 ∉
      ({ s with mem := store s.mem (p - 64) (fun B => { B with is_free := 1 }) } : Heap).idx := by
    intro hz
    have hz2 : p - 64 ∈ s.idx := hz
    exact ((h.free_idx _).1 (Or.inl hz2)).2.2 r2
  obtain ⟨-, j2, j3⟩ := idx_insert _ (p - 64) r3.idx hni (by omega) (by omega)
  rw [e]
  exact ⟨rfl, j2, j3, (index_insert_frame _ _).1, index_insert_cursor _ _⟩

/-- The call `free_general(p)` of a live pointer whose block has a free
physical successor `R` and no free predecessor: `R` leaves the index, the block
absorbs it and joins the index. -/
theorem free_merge_right {s : Heap} {blocks live : List Nat} (h : InvX s blocks live 0)
    (p : Nat) (hp : p ∈ live)
    (hL : (s.mem (p - 64)).prev_phys = 0 ∨ (s.mem (s.mem (p - 64)).prev_phys).is_free = 0)
    (hR0 : (s.mem (p - 64)).next_phys ≠ 0)
    (hRf : (s.mem (s.mem (p - 64)).next_phys).is_free ≠ 0) :
    (∀ z, z ∈ (free_general s p).idx ↔
      (z ∈ s.idx ∧ z ≠ (s.mem (p - 64)).next_phys) ∨ z = p - 64) ∧
    (free_general s p).mem (p - 64) =
      ⟨(s.mem (p - 64)).size + 64 + (s.mem (s.mem (p - 64)).next_phys).size, 1,
        (s.mem (p - 64)).prev_phys, (s.mem (s.mem (p - 64)).next_phys).next_phys⟩ ∧
    ((s.mem (s.mem (p - 64)).next_phys).next_phys ≠ 0 →
      (free_general s p).mem (s.mem (s.mem (p - 64)).next_phys).next_phys =
        { s.mem (s.mem (s.mem (p - 64)).next_phys).next_phys with prev_phys := p - 64 }) ∧
    (∀ z, z ≠ p - 64 → z ≠ (s.mem (s.mem (p - 64)).next_phys).next_phys →
      (free_general s p).mem z = s.mem z) := by
  obtain ⟨r1, r2, r3⟩ := inv_release h p hp
  have F := store_flag s.mem (p - 64) 1
  have bb := chain_bounds h.chain _ r1
  obtain ⟨nL, nR⟩ := neighbours_ne h.chain _ r1
  obtain ⟨R1, R2, R3⟩ := nR hR0
  have bR := chain_bounds h.chain _ R1
  obtain ⟨-, nRR⟩ := neighbours_ne h.chain _ R1
  generalize hb : p - 64 = b at *
  generalize hRR : (s.mem b).next_phys = R at *
  have hbR : b ≠ R := by omega
  have sb : store s.mem b (fun B => { B with is_free := 1 }) b = { s.mem b with is_free := 1 } :=
    store_same _ _ _
  have sR : store s.mem b (fun B => { B with is_free := 1 }) R = s.mem R :=
    store_other _ _ _ _ (Ne.symm hbR)
  have e : free_general s p = index_insert
      { index_remove { s with mem := store s.mem b (fun B => { B with is_free := 1 }) } R with
        mem := absorb (store s.mem b (fun B => { B with is_free := 1 })) b R } b := by
    rw [free_general_live h p hp, hb]
    unfold coalesce_and_insert
    simp only []
    have c1 : coalesce_left
        { s with mem := store s.mem b (fun B => { B with is_free := 1 }) } b =
        ({ s with mem := store s.mem b (fun B => { B with is_free := 1 }) }, b) := by
      rw [coalesce_left_eq, if_neg]
      show ¬ ((store s.mem b (fun B => { B with is_free := 1 }) b).prev_phys ≠ 0 ∧
        (store s.mem b (fun B => { B with is_free := 1 })
          (store s.mem b (fun B => { B with is_free := 1 }) b).prev_phys).is_free ≠ 0)
      rw [(F b).2.1]
      rintro ⟨h0, h1⟩
      rw [(F _).2.2.2, if_neg (by have := (nL h0).2.1; omega)] at h1
      exact h1 (hL.resolve_left h0)
    rw [c1]
    simp only []
    have e2 : (store s.mem b (fun B => { B with is_free := 1 }) b).next_phys = R := by
      rw [(F b).2.2.1, hRR]
    rw [e2, coalesce_right_eq, if_pos]
    show R ≠ 0 ∧ (store s.mem b (fun B => { B with is_free := 1 }) R).is_free ≠ 0
    rw [sR]
    exact ⟨hR0, hRf⟩
  obtain ⟨a1, a2, a3, a4, a5⟩ := inv_absorb r3 b R R r1
    (by show (store s.mem b (fun B => { B with is_free := 1 }) b).next_phys = R
        rw [sb]; exact hRR)
    hR0
    (by show (store s.mem b (fun B => { B with is_free := 1 }) b).is_free ≠ 0
        rw [sb]; exact Nat.one_ne_zero)
    (by show (store s.mem b (fun B => { B with is_free := 1 }) R).is_free ≠ 0
        rw [sR]; exact hRf)
    (Or.inl ⟨rfl, rfl⟩)
  obtain ⟨-, i2, -⟩ := idx_remove
    { s with mem := store s.mem b (fun B => { B with is_free := 1 }) } R r3.idx
  have hbi : b ∉ s.idx := fun hz => ((h.free_idx _).1 (Or.inl hz)).2.2 r2
  have hni : b ∉ ({ index_remove
      { s with mem := store s.mem b (fun B => { B with is_free := 1 }) } R with
      mem := absorb (store s.mem b (fun B => { B with is_free := 1 })) b R } : Heap).idx := by
    intro hz
    exact hbi ((i2 b).1 hz).1
  obtain ⟨-, j2, -⟩ := idx_insert _ b a1.idx hni (by omega) (by omega)
  obtain ⟨m1, m2, m3⟩ := absorb_spec (store s.mem b (fun B => { B with is_free := 1 })) b R hbR
    (by rw [sR]
        intro e0
        by_cases hz : (s.mem R).next_phys = 0
        · omega
        · have := (nRR hz).2.1; omega)
  rw [sb, sR] at m1
  rw [sR] at m2 m3
  have hadd : add64 (s.mem b).size (add64 64 (s.mem R).size) =
      (s.mem b).size + 64 + (s.mem R).size := by
    rw [add64_eq 64 _ (by omega), add64_eq _ _ (by omega)]
    omega
  have hmm : (free_general s p).mem =
      absorb (store s.mem b (fun B => { B with is_free := 1 })) b R := by
    rw [e]; exact (index_insert_frame _ _).1
  rw [hmm, e]
  refine ⟨?_, ?_, ?_, ?_⟩
  · intro z
    rw [j2 z]
    constructor
    · rintro (hz | hz)
      · exact Or.inl ((i2 z).1 hz)
      · exact Or.inr hz
    · rintro (hz | hz)
      · exact Or.inl ((i2 z).2 hz)
      · exact Or.inr hz
  · rw [m1, hadd]
  · intro h0
    rw [m2 h0, store_other _ _ _ _ (by have := (nRR h0).2.1; omega)]
  · intro z z1 z2
    rw [m3 z z1 z2, store_other _ _ _ _ z1]

/-- The call `free_general(p)` of a live pointer whose block has a free
physical predecessor `L` and no free successor: `L` absorbs the block and is
put back into the index. -/
theorem free_merge_left {s : Heap} {blocks live : List Nat} (h : InvX s blocks live 0)
    (p : Nat) (hp : p ∈ live)
    (hL0 : (s.mem (p - 64)).prev_phys ≠ 0)
    (hLf : (s.mem (s.mem (p - 64)).prev_phys).is_free ≠ 0)
    (hR : (s.mem (p - 64)).next_phys = 0 ∨ (s.mem (s.mem (p - 64)).next_phys).is_free = 0) :
    (∀ z, z ∈ (free_general s p).idx ↔ z ∈ s.idx) ∧
    (free_general s p).mem (s.mem (p - 64)).prev_phys =
      ⟨(s.mem (s.mem (p - 64)).prev_phys).size + 64 + (s.mem (p - 64)).size,
        (s.mem (s.mem (p - 64)).prev_phys).is_free,
        (s.mem (s.mem (p - 64)).prev_phys).prev_phys, (s.mem (p - 64)).next_phys⟩ ∧
    ((s.mem (p - 64)).next_phys ≠ 0 →
      (free_general s p).mem (s.mem (p - 64)).next_phys =
        { s.mem (s.mem (p - 64)).next_phys with prev_phys := (s.mem (p - 64)).prev_phys }) ∧
    (∀ z, z ≠ p - 64 → z ≠ (s.mem (p - 64)).prev_phys → z ≠ (s.mem (p - 64)).next_phys →
      (free_general s p).mem z = s.mem z) := by
  obtain ⟨r1, r2, r3⟩ := inv_release h p hp
  have F := store_flag s.mem (p - 64) 1
  have bb := chain_bounds h.chain _ r1
  obtain ⟨nL, nR⟩ := neighbours_ne h.chain _ r1
  obtain ⟨L1, L2, L3, L4⟩ := nL hL0
  have bL := chain_bounds h.chain _ L1
  generalize hb : p - 64 = b at *
  generalize hLL : (s.mem b).prev_phys = L at *
  generalize hRR : (s.mem b).next_phys = R at *
  have hLb : L ≠ b := by omega
  have hRb : R ≠ 0 → R ≠ b ∧ R ≠ L := fun h0 => by have := (nR h0).2.1; omega
  have sb : store s.mem b (fun B => { B with is_free := 1 }) b = { s.mem b with is_free := 1 } :=
    store_same _ _ _
  have sL : store s.mem b (fun B => { B with is_free := 1 }) L = s.mem L :=
    store_other _ _ _ _ hLb
  obtain ⟨a1, a2, a3, a4, a5⟩ := inv_absorb r3 L b L L1
    (by show (store s.mem b (fun B => { B with is_free := 1 }) L).next_phys = b
        rw [sL]; exact L3)
    (by omega)
    (by show (store s.mem b (fun B => { B with is_free := 1 }) L).is_free ≠ 0
        rw [sL]; exact hLf)
    (by show (store s.mem b (fun B => { B with is_free := 1 }) b).is_free ≠ 0
        rw [sb]; exact Nat.one_ne_zero)
    (Or.inr ⟨rfl, rfl⟩)
  have e : free_general s p = index_insert
      { index_remove { s with mem := store s.mem b (fun B => { B with is_free := 1 }) } L with
        mem := absorb (store s.mem b (fun B => { B with is_free := 1 })) L b } L := by
    rw [free_general_live h p hp, hb]
    unfold coalesce_and_insert
    simp only []
    have c1 : coalesce_left
        { s with mem := store s.mem b (fun B => { B with is_free := 1 }) } b =
        ({ index_remove { s with mem := store s.mem b (fun B => { B with is_free := 1 }) } L
            with mem := absorb (store s.mem b (fun B => { B with is_free := 1 })) L b }, L) := by
      have e1 : (({ s with mem := store s.mem b (fun B => { B with is_free := 1 }) } : Heap).mem
          b).prev_phys = L := by
        show (store s.mem b (fun B => { B with is_free := 1 }) b).prev_phys = L
        rw [sb]; exact hLL
      rw [coalesce_left_eq, e1, if_pos]
      show L ≠ 0 ∧ (store s.mem b (fun B => { B with is_free := 1 }) L).is_free ≠ 0
      rw [sL]
      exact ⟨hL0, hLf⟩
    rw [c1]
    simp only []
    have e2 : (store s.mem b (fun B => { B with is_free := 1 }) b).next_phys = R := by
      rw [sb]; exact hRR
    rw [e2, coalesce_right_eq, if_neg]
    show ¬ (R ≠ 0 ∧ (absorb (store s.mem b (fun B => { B with is_free := 1 })) L b R).is_free ≠ 0)
    rintro ⟨h0, h1⟩
    rw [a3 R h0] at h1
    have h2 : (store s.mem b (fun B => { B with is_free := 1 }) R).is_free ≠ 0 := h1
    rw [store_other _ _ _ _ (hRb h0).1] at h2
    exact h2 (hR.resolve_left h0)
  obtain ⟨-, i2, -⟩ := idx_remove
    { s with mem := store s.mem b (fun B => { B with is_free := 1 }) } L r3.idx
  have hLi : L ∈ s.idx := by
    rcases (h.free_idx L).2 ⟨L1, hL0, hLf⟩ with hz | hz
    · exact hz
    · have := (h.orphan L hz).2.1
      omega
  have hni : L ∉ ({ index_remove
      { s with mem := store s.mem b (fun B => { B with is_free := 1 }) } L with
      mem := absorb (store s.mem b (fun B => { B with is_free := 1 })) L b } : Heap).idx := by
    intro hz
    exact ((i2 L).1 hz).2 rfl
  obtain ⟨-, j2, -⟩ := idx_insert _ L a1.idx hni hL0 (by omega)
  obtain ⟨m1, m2, m3⟩ := absorb_spec (store s.mem b (fun B => { B with is_free := 1 })) L b hLb
    (by rw [sb]
        show (s.mem b).next_phys ≠ L
        rw [hRR]
        intro e0
        by_cases hz : R = 0
        · omega
        · exact (hRb hz).2 e0)
  rw [sb, sL] at m1
  rw [sb] at m2 m3
  have hadd : add64 (s.mem L).size (add64 64 (s.mem b).size) =
      (s.mem L).size + 64 + (s.mem b).size := by
    rw [add64_eq 64 _ (by omega), add64_eq _ _ (by omega)]
    omega
  have hmm : (free_general s p).mem =
      absorb (store s.mem b (fun B => { B with is_free := 1 })) L b := by
    rw [e]; exact (index_insert_frame _ _).1
  rw [hmm, e]
  refine ⟨?_, ?_, ?_, ?_⟩
  · intro z
    rw [j2 z]
    constructor
    · rintro (hz | hz)
      · exact ((i2 z).1 hz).1
      · rw [hz]; exact hLi
    · intro hz
      by_cases ez : z = L
      · exact Or.inr ez
      · exact Or.inl ((i2 z).2 ⟨hz, ez⟩)
  · rw [m1, hadd]
    show _ = (⟨_, _, _, R⟩ : Block)
    rw [← hRR]
  · intro h0
    have h1 : (s.mem b).next_phys ≠ 0 := by rw [hRR]; exact h0
    have e3 := m2 h1
    rw [hRR] at e3
    rw [e3, store_other _ _ _ _ (hRb h0).1]
  · intro z z1 z2 z3
    rw [m3 z z2 (by show z ≠ (s.mem b).next_phys; rw [hRR]; exact z3),
      store_other _ _ _ _ z1]


/-! ## The sizes of the arenas of a reachable state -/

theorem index_find_arenas (s s1 : Heap) (need b : Nat) (e : index_find s need = some (s1, b)) :
    s1.g_arenas = s.g_arenas := by
  unfold index_find at e
  split_ifs at e
  · cases e; rfl
  · cases hf : fl_next_fit s.sz s.g_free_head s.g_nextfit_cursor need with
    | none => rw [hf] at e; cases e
    | some r =>
      rw [hf] at e
      cases e
      rfl
  · cases e; rfl
  · cases e; rfl
  · cases e; rfl

theorem alloc_found_arenas (s : Heap) (b size : Nat) :
    (alloc_found s b size).1.g_arenas = s.g_arenas := by
  show (split_block (index_remove s b) b size).g_arenas = s.g_arenas
  rw [split_block_eq]
  split_ifs
  · exact (index_remove_frame s b).2.1
  · rw [(index_insert_frame _ _).2.1]; exact (index_remove_frame s b).2.1

theorem map_arena_arenas (s : Heap) (mu : Nat) (os : Option Nat) :
    (map_arena s mu os).1.g_arenas = s.g_arenas ∨
    ∃ base, (map_arena s mu os).1.g_arenas = (base, arena_need mu) :: s.g_arenas := by
  cases os with
  | none => exact Or.inl rfl
  | some ar =>
    right
    refine ⟨ar, ?_⟩
    show (index_insert _ _).g_arenas = _
    rw [(index_insert_frame _ _).2.1]

theorem allocate_general_arenas (s s1 : Heap) (size b : Nat) (os : Option Nat)
    (e : allocate_general s size os = some (s1, b)) :
    s1.g_arenas = s.g_arenas ∨
    ∃ base, s1.g_arenas = (base, arena_need (ALIGN_UP size ALIGN)) :: s.g_arenas := by
  unfold allocate_general at e
  by_cases h0 : size = 0
  · rw [if_pos h0] at e; cases e; exact Or.inl rfl
  · rw [if_neg h0] at e
    cases hf : index_find s (ALIGN_UP size ALIGN) with
    | none => rw [hf] at e; cases e
    | some r =>
      obtain ⟨s2, b2⟩ := r
      rw [hf] at e
      have f1 := index_find_arenas _ _ _ _ hf
      simp only [] at e
      by_cases hb : b2 ≠ 0
      · rw [if_pos hb] at e
        cases e
        left
        exact (alloc_found_arenas s2 b (ALIGN_UP size ALIGN)).trans f1
      · rw [if_neg hb] at e
        have f2 := map_arena_arenas s2 (ALIGN_UP size ALIGN) os
        rw [f1] at f2
        by_cases hm : (map_arena s2 (ALIGN_UP size ALIGN) os).2 = 0
        · rw [if_pos hm] at e; cases e; exact f2
        · rw [if_neg hm] at e
          cases hg : index_find (map_arena s2 (ALIGN_UP size ALIGN) os).1
              (ALIGN_UP size ALIGN) with
          | none => rw [hg] at e; cases e
          | some r2 =>
            obtain ⟨s3, b3⟩ := r2
            rw [hg] at e
            have f3 := index_find_arenas _ _ _ _ hg
            simp only [] at e
            by_cases hb3 : b3 = 0
            · rw [if_pos hb3] at e; cases e; rw [f3]; exact f2
            · rw [if_neg hb3] at e; cases e
              have k := alloc_found_arenas s3 b (ALIGN_UP size ALIGN)
              rw [f3] at k
              show (alloc_found s3 b (ALIGN_UP size ALIGN)).1.g_arenas = _ ∨
                ∃ base, (alloc_found s3 b (ALIGN_UP size ALIGN)).1.g_arenas = _
              rw [k]; exact f2

theorem malloc_fit_arenas (st : Strategy) (s s1 : Heap) (n p : Nat) (os : Option Nat)
    (e : malloc_fit st s n os = some (s1, p)) :
    s1.g_arenas = s.g_arenas ∨
    ∃ base, s1.g_arenas = (base, arena_need (ALIGN_UP n ALIGN)) :: s.g_arenas := by
  unfold malloc_fit at e
  cases hl : lock_strategy s st with
  | none => rw [hl] at e; cases e
  | some s2 =>
    rw [hl] at e
    have f1 : s2.g_arenas = s.g_arenas := by
      unfold lock_strategy at hl
      split_ifs at hl
      · cases hl; rfl
      · cases hl; rfl
    simp only [] at e
    cases ha : allocate_general s2 n os with
    | none => rw [ha] at e; cases e
    | some r =>
      obtain ⟨s3, b⟩ := r
      rw [ha] at e
      cases e
      have := allocate_general_arenas _ _ _ _ _ ha
      rw [f1] at this
      exact this

theorem my_free_arenas (s s1 : Heap) (p : Nat) (e : my_free s p = some s1) :
    s1.g_arenas = s.g_arenas := by
  unfold my_free at e
  by_cases p0 : p = 0
  · rw [if_pos p0] at e; cases e; rfl
  · rw [if_neg p0] at e
    cases hb : is_buddy_ptr s p with
    | none =>
      rw [hb] at e
      cases e
      exact (free_general_frame s p).2.2.2.2.2.2
    | some r =>
      rw [hb] at e
      exact (buddy_try_merge_keeps s r.1 r.2 s1 e).1.2.1

/-- No arena of a reachable state is larger than `2^32 + 64` bytes: the size
that `allocate_general` passes to `map_arena` is below `2^32`. -/
theorem reach_arena_le {s : Heap} {live : List Nat} (h : Reach s live) :
    ∀ ar ∈ s.g_arenas, ar.2 ≤ 2 ^ 32 + 64 := by
  induction h with
  | boot os hos =>
    cases os with
    | none => intro ar har; exact absurd har (List.not_mem_nil ar)
    | some base =>
      intro ar har
      have e : (init_once Heap.zero (some base)).g_arenas = [(base, arena_need ARENA_MIN)] := by
        show (index_insert _ _).g_arenas = _
        rw [(index_insert_frame _ _).2.1]
        rfl
      rw [e] at har
      rw [List.mem_singleton.1 har]
      show arena_need ARENA_MIN ≤ 2 ^ 32 + 64
      decide
  | init s s1 live st _ e ih =>
    have f1 : s1.g_arenas = s.g_arenas := by
      unfold allocator_init lock_strategy at e
      split_ifs at e
      · cases e; rfl
      · cases e; rfl
    rw [f1]; exact ih
  | malloc s s1 live st n p os _ hst hos e ih =>
    rcases malloc_fit_arenas st s s1 n p os e with f | ⟨base, f⟩
    · rw [f]; exact ih
    · rw [f]
      intro ar har
      rcases List.mem_cons.1 har with h1 | h1
      · rw [h1]
        obtain ⟨hal, hlt⟩ := ALIGN_UP_facts n
        show arena_need (ALIGN_UP n ALIGN) ≤ 2 ^ 32 + 64
        have e1 : add64 (add64 SIZEOF_ARENA HDR_SZ) (ALIGN_UP n ALIGN) = 80 + ALIGN_UP n ALIGN := by
          rw [show add64 SIZEOF_ARENA HDR_SZ = 80 from by decide]
          exact add64_eq _ _ (by omega)
        unfold arena_need
        rw [e1]
        unfold ARENA_MIN
        split <;> omega
      · exact ih ar h1
  | free s s1 live p _ hp e ih =>
    rw [my_free_arenas s s1 p e]; exact ih
  | balloc s live n os _ hos ih =>
    rw [(malloc_buddy_alloc_keeps s n os).1.2.1]; exact ih
  | bfree s s1 live q _ hq e ih =>
    rw [my_free_arenas s s1 q e]; exact ih

/-! ## The contract of `split_block` -/

/-- Claim C29 (split).  For a block at address `a ≠ NULL` of payload `B = (s.mem a).size`
whose end `a + HDR_SZ + B` does not pass `2^64` and whose `next_phys` is `NULL`
or that end, and a size `N ≤ B`: when `B - N < HDR_SZ + 16` the call
`split_block(a, N)` changes nothing; otherwise the block keeps its flag and its
`prev_phys` and gets size `N` and `next_phys = a + HDR_SZ + N`, the header at
`a + HDR_SZ + N` is a free block of payload `B - N - HDR_SZ` with `prev_phys = a`
and the old successor as `next_phys`, the old successor gets the remainder as
`prev_phys`, no other header changes, `N + HDR_SZ + (B - N - HDR_SZ) = B`, and
the remainder is inserted into the active index (`index_insert`), which, when
the index is well formed and holds neither the block (`allocate_general` has
removed it) nor the remainder, gains exactly that member. -/
theorem split_block_contract (s : Heap) (a N : Nat) (ha : a ≠ 0) (hN : N ≤ (s.mem a).size)
    (h64 : a + HDR_SZ + (s.mem a).size ≤ 2 ^ 64)
    (hc : (s.mem a).next_phys = 0 ∨ (s.mem a).next_phys = a + HDR_SZ + (s.mem a).size) :
    ((s.mem a).size - N < HDR_SZ + 16 → split_block s a N = s) ∧
    (HDR_SZ + 16 ≤ (s.mem a).size - N →
      split_block s a N =
        index_insert { s with mem := (split_block s a N).mem } (a + HDR_SZ + N) ∧
      (split_block s a N).mem a =
        ⟨N, (s.mem a).is_free, (s.mem a).prev_phys, a + HDR_SZ + N⟩ ∧
      (split_block s a N).mem (a + HDR_SZ + N) =
        ⟨(s.mem a).size - N - HDR_SZ, 1, a, (s.mem a).next_phys⟩ ∧
      ((s.mem a).next_phys ≠ 0 → (split_block s a N).mem (s.mem a).next_phys =
        { s.mem (s.mem a).next_phys with prev_phys := a + HDR_SZ + N }) ∧
      (∀ z, z ≠ a → z ≠ a + HDR_SZ + N → z ≠ (s.mem a).next_phys →
        (split_block s a N).mem z = s.mem z) ∧
      N + HDR_SZ + ((s.mem a).size - N - HDR_SZ) = (s.mem a).size ∧
      (split_block s a N).g_arenas = s.g_arenas ∧
      (IdxOK s → a ∉ s.idx → a + HDR_SZ + N ∉ s.idx →
        IdxOK (split_block s a N) ∧
        ∀ z, z ∈ (split_block s a N).idx ↔ z ∈ s.idx ∨ z = a + HDR_SZ + N)) := by
  rw [HDR_SZ_eq] at h64 hc ⊢
  have hsub : sub64 (s.mem a).size N = (s.mem a).size - N := sub64_eq _ _ hN (by omega)
  rw [split_block_eq, hsub]
  refine ⟨fun hlt => by rw [if_pos (by omega)], fun hge => ?_⟩
  rw [if_neg (by omega)]
  have hnb : (s.mem a).next_phys ≠ a := by
    rcases hc with e | e <;> rw [e]
    · exact Ne.symm ha
    · omega
  have hnr : (s.mem a).next_phys ≠ a + 64 + N := by
    rcases hc with e | e <;> rw [e] <;> omega
  obtain ⟨m1, m2, m3, m4⟩ := split_mem_spec s.mem a N ((s.mem a).size - N) hnb hnr
  have hs64 : sub64 ((s.mem a).size - N) 64 = (s.mem a).size - N - 64 :=
    sub64_eq _ _ (by omega) (by omega)
  rw [hs64] at m2
  have hm := (index_insert_frame
    { s with mem := split_mem s.mem a N ((s.mem a).size - N) } (a + 64 + N)).1
  have hg := (index_insert_frame
    { s with mem := split_mem s.mem a N ((s.mem a).size - N) } (a + 64 + N)).2.1
  rw [hm]
  refine ⟨rfl, m1, m2, m3, m4, by omega, hg, ?_⟩
  intro hi hai hr
  obtain ⟨j1, j2, -⟩ := split_idx s a N ((s.mem a).size - N) hi hai hr hnb hnr (by omega)
  exact ⟨j1, j2⟩

/-- Witness for claim C29: the block at `65552` of payload `1048576` at program
start; `split_block(b, 112)` leaves the remainder at `65728` with payload
`1048400`, and `split_block(b, 1048560)` changes nothing. -/
theorem split_block_contract_witness :
    (heapDemo.mem 65552).size = 1048576 ∧
    (split_block heapDemo 65552 112).mem 65552 = ⟨112, 1, 0, 65728⟩ ∧
    (split_block heapDemo 65552 112).mem 65728 = ⟨1048400, 1, 65552, 0⟩ ∧
    split_block heapDemo 65552 1048560 = heapDemo :=
  ⟨by decide,
   ((split_block_contract heapDemo 65552 112 (by decide) (by decide) (by decide)
      (Or.inl (by decide))).2 (by decide)).2.1,
   ((split_block_contract heapDemo 65552 112 (by decide) (by decide) (by decide)
      (Or.inl (by decide))).2 (by decide)).2.2.1,
   (split_block_contract heapDemo 65552 1048560 (by decide) (by decide) (by decide)
      (Or.inl (by decide))).1 (by decide)⟩

/-! ## Arena growth -/

/-- Claim C25 (arena growth).  In a reachable state, for each strategy that the
latch admits and every `n > 0` whose rounded size `ALIGN_UP(n)` no block of the
active index reaches, when `mmap` answers `base` the allocator returns the
pointer `base + sizeof(Arena) + HDR_SZ`, which is not `NULL` and lies inside the
new arena; the arena has `max(sizeof(Arena) + HDR_SZ + ALIGN_UP(n), ARENA_MIN)`
bytes and is the new head of `g_arenas`, whose tail is the old list (one arena
more); no header outside the new arena is written; `map_arena` lays one free
block of payload `arena size - sizeof(Arena) - HDR_SZ`, at least the rounded
size, at `base + sizeof(Arena)`; and that block is the one handed out. -/
theorem arena_growth (s : Heap) (live : List Nat) (h : Reach s live) (st : Strategy)
    (hst : st ≠ Strategy.UNSET) (hl : s.g_strat = Strategy.UNSET ∨ s.g_strat = st)
    (n : Nat) (hn : n ≠ 0) (base : Nat)
    (hos : OsOk s (arena_need (ALIGN_UP n ALIGN)) (some base))
    (hmiss : ∀ a ∈ ({ s with g_strat := st } : Heap).idx, (s.mem a).size < ALIGN_UP n ALIGN) :
    ∃ s1, malloc_fit st s n (some base) = some (s1, base + SIZEOF_ARENA + HDR_SZ) ∧
      base + SIZEOF_ARENA + HDR_SZ ≠ 0 ∧
      base + SIZEOF_ARENA + HDR_SZ < base + arena_need (ALIGN_UP n ALIGN) ∧
      arena_need (ALIGN_UP n ALIGN) = max (SIZEOF_ARENA + HDR_SZ + ALIGN_UP n ALIGN) ARENA_MIN ∧
      s1.g_arenas = (base, arena_need (ALIGN_UP n ALIGN)) :: s.g_arenas ∧
      s1.g_arenas.length = s.g_arenas.length + 1 ∧
      (∀ z, z < base ∨ base + arena_need (ALIGN_UP n ALIGN) ≤ z → s1.mem z = s.mem z) ∧
      (∃ c, index_find { s with g_strat := st } (ALIGN_UP n ALIGN) =
          some ({ s with g_strat := st, g_nextfit_cursor := c }, 0) ∧
        (map_arena { s with g_strat := st, g_nextfit_cursor := c } (ALIGN_UP n ALIGN)
          (some base)).1.mem (base + SIZEOF_ARENA) =
            ⟨arena_need (ALIGN_UP n ALIGN) - SIZEOF_ARENA - HDR_SZ, 1, 0, 0⟩) ∧
      ALIGN_UP n ALIGN ≤ arena_need (ALIGN_UP n ALIGN) - SIZEOF_ARENA - HDR_SZ ∧
      (s1.mem (base + SIZEOF_ARENA)).is_free = 0 ∧
      ALIGN_UP n ALIGN ≤ (s1.mem (base + SIZEOF_ARENA)).size := by
  obtain ⟨blocks, hi⟩ := reach_inv h
  obtain ⟨hal, hlt⟩ := ALIGN_UP_facts n
  obtain ⟨n1, n2, n3⟩ := arena_need_facts (ALIGN_UP n ALIGN) hal hlt
  obtain ⟨h0, hs0⟩ := inv_lock_strategy hi st (lock_strategy_eq s st hl)
  have hst0 : ({ s with g_strat := st } : Heap).g_strat ≠ Strategy.UNSET := hst
  obtain ⟨c, b, e1, I1, f1, f2⟩ := idx_find _ (ALIGN_UP n ALIGN) h0.idx hst0
  have hb : b = 0 := by
    by_contra hb
    obtain ⟨g1, g2⟩ := f1 hb
    have := hmiss b g1
    unfold Heap.sz at g2
    have g3 : ALIGN_UP n ALIGN ≤ (s.mem b).size := g2
    omega
  rw [hb] at e1
  have h1 := inv_cursor h0 c I1
  have hos1 : OsOk { s with g_strat := st, g_nextfit_cursor := c }
      (arena_need (ALIGN_UP n ALIGN)) (some base) := hos
  obtain ⟨o1, o2, o3, o4, o5⟩ := hos base rfl
  obtain ⟨m1, m2, m3, m4, m5, m6⟩ := inv_map h1 (ALIGN_UP n ALIGN) base hal hlt hos1
  have hsz : sub64 (sub64 (arena_need (ALIGN_UP n ALIGN)) SIZEOF_ARENA) HDR_SZ =
      arena_need (ALIGN_UP n ALIGN) - 80 := by
    rw [show SIZEOF_ARENA = 16 from rfl, HDR_SZ_eq, sub64_eq _ 16 (by omega) (by omega),
      sub64_eq _ 64 (by omega) (by omega)]
    omega
  -- the state that `map_arena` leaves
  have hMm : (map_arena { s with g_strat := st, g_nextfit_cursor := c } (ALIGN_UP n ALIGN)
      (some base)).1.mem = store s.mem (base + 16)
        (fun _ => ⟨arena_need (ALIGN_UP n ALIGN) - 80, 1, 0, 0⟩) := by
    show (index_insert _ _).mem = _
    rw [(index_insert_frame _ _).1]
    show store s.mem (base + SIZEOF_ARENA) (fun _ => (⟨sub64 (sub64
      (arena_need (ALIGN_UP n ALIGN)) SIZEOF_ARENA) HDR_SZ, 1, 0, 0⟩ : Block)) = _
    rw [hsz]
    rfl
  have hMa : (map_arena { s with g_strat := st, g_nextfit_cursor := c } (ALIGN_UP n ALIGN)
      (some base)).1.g_arenas = (base, arena_need (ALIGN_UP n ALIGN)) :: s.g_arenas := by
    show (index_insert _ _).g_arenas = _
    rw [(index_insert_frame _ _).2.1]
  have hin : ∀ a ∈ blocks, a < base ∨ base + arena_need (ALIGN_UP n ALIGN) ≤ a := by
    intro a ha
    obtain ⟨ar, har, a1, a2, -, -⟩ := (hi.chain.blk a ha).arena
    have := o4 ar har
    omega
  have hidx : ∀ a ∈ ({ s with g_strat := st } : Heap).idx, a ∈ blocks :=
    fun a ha => ((h0.free_idx a).1 (Or.inl ha)).1
  obtain ⟨c2, b2, e2, I2, g1, g2⟩ := idx_find _ (ALIGN_UP n ALIGN) m1.idx (by rw [m6]; exact hst)
  have hb2 : b2 ≠ 0 := by
    intro e
    have := g2 e _ m4
    unfold Heap.sz at this
    omega
  obtain ⟨k1, k2⟩ := g1 hb2
  have hb16 : b2 = base + 16 := by
    by_contra hne
    obtain ⟨q1, q2, q3⟩ := (m1.free_idx b2).1 (Or.inl k1)
    have q4 : b2 ∈ blocks := (List.mem_cons.1 q1).resolve_left hne
    have q5 : (s.mem b2).is_free ≠ 0 := by
      rw [hMm, store_other _ _ _ _ hne] at q3; exact q3
    have q6 : ALIGN_UP n ALIGN ≤ (s.mem b2).size := by
      unfold Heap.sz at k2
      rw [hMm, store_other _ _ _ _ hne] at k2; exact k2
    rcases (h1.free_idx b2).2 ⟨q4, q2, q5⟩ with q7 | q7
    · have := hmiss b2 q7
      omega
    · have q8 : b2 ∈ (map_arena { s with g_strat := st, g_nextfit_cursor := c }
          (ALIGN_UP n ALIGN) (some base)).1.orphans := by
        have e3 : (map_arena { s with g_strat := st, g_nextfit_cursor := c }
            (ALIGN_UP n ALIGN) (some base)).1.orphans =
            ({ s with g_strat := st, g_nextfit_cursor := c } : Heap).orphans := by
          show (index_insert _ _).orphans = _
          unfold index_insert Heap.orphans Heap.fl_push_sorted avl_insert
          by_cases ht : st = Strategy.BEST ∨ st = Strategy.WORST
          · rcases ht with ht | ht <;> subst ht <;> simp
          · have q9 := q7
            unfold Heap.orphans at q9
            rw [if_neg ht] at q9
            exact absurd q9 (List.not_mem_nil b2)
        rw [e3]; exact q7
      exact (m1.orphan b2 q8).2.2 k1
  rw [hb16] at e2 k1
  have h3 := inv_cursor m1 c2 I2
  have e4 := malloc_fit_grow st s n base hl hn _ _ _ e1 (by rw [m2]; exact m3) e2 (by omega)
  have hb3 : (base + 16) ∈ ({ (map_arena { s with g_strat := st, g_nextfit_cursor := c }
      (ALIGN_UP n ALIGN) (some base)).1 with g_nextfit_cursor := c2 } : Heap).idx := k1
  obtain ⟨-, -, A3, -, -, A6, A7⟩ := alloc_found_spec h3 (base + 16) (ALIGN_UP n ALIGN) hb3 hal m5
    (by show (map_arena _ _ _).1.g_strat ≠ _; rw [m6]; exact hst)
  have hB : (map_arena { s with g_strat := st, g_nextfit_cursor := c } (ALIGN_UP n ALIGN)
      (some base)).1.mem (base + 16) = ⟨arena_need (ALIGN_UP n ALIGN) - 80, 1, 0, 0⟩ := by
    rw [hMm, store_same]
  refine ⟨_, e4, by omega, ?_, ?_, ?_, ?_, ?_, ⟨c, e1, ?_⟩, ?_, ?_⟩
  · rw [show SIZEOF_ARENA = 16 from rfl, HDR_SZ_eq]; omega
  · have e5 : add64 (add64 SIZEOF_ARENA HDR_SZ) (ALIGN_UP n ALIGN) = 80 + ALIGN_UP n ALIGN := by
      rw [show add64 SIZEOF_ARENA HDR_SZ = 80 from by decide]
      exact add64_eq _ _ (by omega)
    unfold arena_need
    rw [e5, show SIZEOF_ARENA = 16 from rfl, HDR_SZ_eq]
    unfold ARENA_MIN
    split <;> omega
  · rw [A3]; exact hMa
  · rw [A3]
    show (map_arena _ _ _).1.g_arenas.length = _
    rw [hMa]; rfl
  · intro z hz
    have z1 : z ≠ base + 16 := by omega
    have e6 : (map_arena { s with g_strat := st, g_nextfit_cursor := c } (ALIGN_UP n ALIGN)
        (some base)).1.mem z = s.mem z := by rw [hMm, store_other _ _ _ _ z1]
    by_cases hsp : ((map_arena { s with g_strat := st, g_nextfit_cursor := c }
        (ALIGN_UP n ALIGN) (some base)).1.mem (base + 16)).size < ALIGN_UP n ALIGN + 80
    · rw [(A6 hsp).2 z z1]; exact e6
    · have hsp2 := Nat.le_of_not_lt hsp
      have hsz2 := hsp2
      rw [hB] at hsz2
      have hsz3 : ALIGN_UP n ALIGN + 80 ≤ arena_need (ALIGN_UP n ALIGN) - 80 := hsz2
      rw [(A7 hsp2).2.2.2 z z1 (by omega) (fun h0 => absurd (by rw [hB]) h0)]
      exact e6
  · rw [show SIZEOF_ARENA = 16 from rfl, HDR_SZ_eq, hB]
    show (⟨_, 1, 0, 0⟩ : Block) = ⟨_, 1, 0, 0⟩
    rw [Nat.sub_sub]
  · rw [show SIZEOF_ARENA = 16 from rfl, HDR_SZ_eq]; omega
  · rw [show SIZEOF_ARENA = 16 from rfl]
    by_cases hsp : ((map_arena { s with g_strat := st, g_nextfit_cursor := c }
        (ALIGN_UP n ALIGN) (some base)).1.mem (base + 16)).size < ALIGN_UP n ALIGN + 80
    · rw [(A6 hsp).1]
      exact ⟨rfl, m5⟩
    · rw [(A7 (Nat.le_of_not_lt hsp)).1]
      exact ⟨rfl, le_refl _⟩

/-- Witness for claim C25: at program start (one arena of the default size at
`65536`) `malloc_first_fit(1572864)`, one and a half times `ARENA_MIN`, misses
the block of `1048576` bytes; `mmap` answers `4194304` and the call returns
`4194384` in the new arena of `1572944` bytes. -/
theorem arena_growth_witness :
    Reach heapDemo [] ∧ heapDemo.g_arenas = [(65536, 1048656)] ∧
    ∃ s1, malloc_first_fit heapDemo 1572864 (some 4194304) = some (s1, 4194384) ∧
      s1.g_arenas = [(4194304, 1572944), (65536, 1048656)] :=
  ⟨reach_heapDemo, by decide,
   (arena_growth heapDemo [] reach_heapDemo Strategy.FIRST (by decide) (Or.inl rfl) 1572864
      (by decide) 4194304 (osOk_second 1572864 (by decide)) (by decide)).elim
     (fun s1 r => ⟨s1, r.1, r.2.2.2.2.1⟩)⟩


/-! ## Which block a lookup returns -/

/-- First fit over a list that splits at a fitting block after blocks that do
not fit. -/
theorem first_fit_at (sz : Nat → Nat) (need A : Nat) (hA : need ≤ sz A) :
    ∀ (pre post : List Nat), (∀ x ∈ pre, sz x < need) →
      fl_first_fit sz (pre ++ A :: post) need = A := by
  intro pre
  induction pre with
  | nil =>
    intro post _
    show (if sz A ≥ need then A else _) = A
    rw [if_pos hA]
  | cons x xs ih =>
    intro post hx
    show (if sz x ≥ need then x else fl_first_fit sz (xs ++ A :: post) need) = A
    rw [if_neg (by have := hx x (List.mem_cons_self _ _); omega)]
    exact ih post (fun y hy => hx y (List.mem_cons_of_mem _ hy))

/-- A strictly ascending list splits at a member that is the lowest fitting
block into blocks that do not fit, the member, and the rest. -/
theorem split_at_least (sz : Nat → Nat) (need A : Nat) (l : List Nat)
    (hs : l.Pairwise (· < ·)) (hA : A ∈ l)
    (hleast : ∀ z ∈ l, z ≠ A → need ≤ sz z → A < z) :
    ∃ pre post, l = pre ++ A :: post ∧ ∀ x ∈ pre, sz x < need := by
  obtain ⟨pre, post, e⟩ := List.append_of_mem hA
  refine ⟨pre, post, e, fun x hx => ?_⟩
  rw [e] at hs
  have h1 : x < A := (List.pairwise_append.1 hs).2.2 x hx A (List.mem_cons_self _ _)
  by_contra hf
  have h2 := hleast x (by rw [e]; exact List.mem_append_left _ hx) (by omega) (by omega)
  omega

/-- The lookup of first fit, of next fit with the cursor at `NULL` or at `A`,
and of best fit returns the fitting block `A` of the index when every other
fitting block has a higher address and is at least as large. -/
theorem find_among (s : Heap) (S A : Nat) (h : IdxOK s)
    (hst : s.g_strat = Strategy.FIRST ∨ s.g_strat = Strategy.NEXT ∨ s.g_strat = Strategy.BEST)
    (hA : A ∈ s.idx) (hfit : S ≤ (s.mem A).size)
    (hc : s.g_strat = Strategy.NEXT → s.g_nextfit_cursor = 0 ∨ s.g_nextfit_cursor = A)
    (hleast : ∀ z ∈ s.idx, z ≠ A → S ≤ (s.mem z).size →
      A < z ∧ (s.g_strat = Strategy.BEST → (s.mem A).size ≤ (s.mem z).size)) :
    ∃ c, index_find s S = some ({ s with g_nextfit_cursor := c }, A) ∧
      (s.g_strat = Strategy.NEXT →
        c = if next_free s.g_free_head A ≠ 0 then next_free s.g_free_head A
            else fl_head s.g_free_head) := by
  rcases hst with hs | hs | hs
  · -- first fit
    have ht : ¬ (s.g_strat = Strategy.BEST ∨ s.g_strat = Strategy.WORST) := by simp [hs]
    rw [(idx_of_list s ht).1] at hA hleast
    obtain ⟨pre, post, e, hp⟩ := split_at_least s.sz S A s.g_free_head h.sorted hA
      (fun z hz h1 h2 => (hleast z hz h1 h2).1)
    refine ⟨s.g_nextfit_cursor, ?_, fun e2 => by rw [hs] at e2; cases e2⟩
    have k : fl_first_fit s.sz s.g_free_head S = A := by
      rw [e]; exact first_fit_at s.sz S A hfit pre post hp
    unfold index_find
    rw [if_pos hs, k]
  · -- next fit from the head
    have ht : ¬ (s.g_strat = Strategy.BEST ∨ s.g_strat = Strategy.WORST) := by simp [hs]
    rw [(idx_of_list s ht).1] at hA hleast
    obtain ⟨pre, post, e, hp⟩ := split_at_least s.sz S A s.g_free_head h.sorted hA
      (fun z hz h1 h2 => (hleast z hz h1 h2).1)
    have hnd : s.g_free_head.Nodup := h.sorted.imp (fun hlt => ne_of_lt hlt)
    have key : fl_next_fit s.sz s.g_free_head s.g_nextfit_cursor S =
        some (A, if next_free s.g_free_head A ≠ 0 then next_free s.g_free_head A
                 else fl_head s.g_free_head) := by
      rcases hc hs with hc0 | hc0
      swap
      · rw [hc0]
        have h2 := fl_next_fit_scan s.sz pre post A A S (by rw [← e]; exact hnd)
          (by rw [← e]; exact h.nz.1) (Or.inr rfl)
        rw [← e] at h2
        rw [h2, List.cons_append, scan_result_cons_fit _ _ _ _ _ _ hfit]
      rw [hc0]
      cases hl : s.g_free_head with
      | nil => rw [hl] at hA; exact absurd hA (List.not_mem_nil A)
      | cons y ys =>
        have h2 := fl_next_fit_scan s.sz [] ys y 0 S (by rw [← hl] at *; exact hnd)
          (by rw [← hl]; exact h.nz.1) (Or.inl ⟨rfl, rfl⟩)
        rw [List.nil_append, List.append_nil] at h2
        rw [h2]
        unfold scan_result
        have hf : (y :: ys).find? (fun a => decide (S ≤ s.sz a)) = some A := by
          rw [List.find?_eq_some]
          refine ⟨by simpa using hfit, pre, post, by rw [← hl]; exact e, fun a ha => ?_⟩
          have := hp a ha
          simp only [Bool.not_eq_eq_eq_not, Bool.not_true, decide_eq_false_iff_not, not_le]
          exact this
        rw [hf]
    refine ⟨_, ?_, fun _ => rfl⟩
    unfold index_find
    rw [if_neg (by rw [hs]; decide), if_pos hs, key]
  · -- best fit
    have ht : s.g_strat = Strategy.BEST ∨ s.g_strat = Strategy.WORST := Or.inl hs
    rw [(idx_of_tree s ht).1] at hA hleast
    refine ⟨s.g_nextfit_cursor, ?_, fun e2 => by rw [hs] at e2; cases e2⟩
    unfold index_find
    rw [if_neg (by rw [hs]; decide), if_neg (by rw [hs]; decide), if_pos hs]
    have hb : avl_lower_bound s.sz s.g_avl_root S = A := by
      unfold avl_lower_bound
      rcases lower_bound_from_min s.sz S s.g_avl_root h.bst 0 with ⟨-, k⟩ | ⟨k1, k2, k3⟩
      · have k0 : (s.mem A).size < S := k A hA
        omega
      · rcases k3 A hA hfit with k4 | k4
        · exact k4.symm
        · by_contra hne
          generalize avl_lower_bound_from s.sz S s.g_avl_root 0 = b at k1 k2 k4 hne
          have k5 := hleast b k1 hne k2
          have k7 := k5.2 hs
          have k6 : (s.mem b).size < (s.mem A).size ∨
              ((s.mem b).size = (s.mem A).size ∧ b < A) := (cmp_lt_iff _ _ _).1 k4
          omega
    rw [hb]

/-- The lookup of worst fit returns the block of greatest key when it fits. -/
theorem find_worst (s : Heap) (S R : Nat) (h : IdxOK s) (hs : s.g_strat = Strategy.WORST)
    (hR : R ∈ s.idx) (hfit : S ≤ (s.mem R).size)
    (hmax : ∀ z ∈ s.idx, z ≠ R → cmp_block s.sz z R < 0) :
    index_find s S = some (s, R) := by
  have ht : s.g_strat = Strategy.BEST ∨ s.g_strat = Strategy.WORST := Or.inr hs
  rw [(idx_of_tree s ht).1] at hR hmax
  unfold index_find
  rw [if_neg (by rw [hs]; decide), if_neg (by rw [hs]; decide), if_neg (by rw [hs]; decide),
    if_pos hs]
  have hb : avl_rightmost_ge s.sz s.g_avl_root S = R := by
    unfold avl_rightmost_ge
    rcases rightmost_ge_from_max s.sz S s.g_avl_root h.bst 0 with ⟨-, k⟩ | ⟨k1, k2, k3⟩
    · have k0 : (s.mem R).size < S := k R hR
      omega
    · rcases k3 R hR with k4 | k4
      · exact k4.symm
      · by_contra hne
        generalize avl_rightmost_ge_from s.sz S s.g_avl_root 0 = b at k1 k2 k4 hne
        have k5 := (cmp_lt_iff _ _ _).1 (hmax b k1 hne)
        have k6 := (cmp_lt_iff _ _ _).1 k4
        omega
  rw [hb]

/-- A strategy-driven allocator whose lookup returns the block `A` of the
index: the pointer is `A + HDR_SZ`, and the state is described as by
`alloc_found_spec`. -/
theorem malloc_found {s : Heap} {blocks live : List Nat} (h : InvX s blocks live 0)
    (st : Strategy) (hst : st ≠ Strategy.UNSET)
    (hl : s.g_strat = Strategy.UNSET ∨ s.g_strat = st) (n : Nat) (hn : n ≠ 0)
    (os : Option Nat) (A c : Nat)
    (e1 : index_find { s with g_strat := st } (ALIGN_UP n ALIGN) =
      some ({ s with g_strat := st, g_nextfit_cursor := c }, A))
    (hA : A ∈ ({ s with g_strat := st } : Heap).idx)
    (hfit : ALIGN_UP n ALIGN ≤ (s.mem A).size) :
    ∃ t blocks2, malloc_fit st s n os = some (t, A + 64) ∧
      InvX t blocks2 ((A + 64) :: live) 0 ∧ t.g_strat = st ∧ t.g_arenas = s.g_arenas ∧
      (∀ z, z ∈ t.idx ↔ (z ∈ ({ s with g_strat := st } : Heap).idx ∧ z ≠ A) ∨
        (ALIGN_UP n ALIGN + 80 ≤ (s.mem A).size ∧ z = A + 64 + ALIGN_UP n ALIGN)) ∧
      ((s.mem A).size < ALIGN_UP n ALIGN + 80 →
        t.mem A = { s.mem A with is_free := 0 } ∧ ∀ z, z ≠ A → t.mem z = s.mem z) ∧
      (ALIGN_UP n ALIGN + 80 ≤ (s.mem A).size →
        t.mem A = ⟨ALIGN_UP n ALIGN, 0, (s.mem A).prev_phys, A + 64 + ALIGN_UP n ALIGN⟩ ∧
        t.mem (A + 64 + ALIGN_UP n ALIGN) =
          ⟨(s.mem A).size - ALIGN_UP n ALIGN - 64, 1, A, (s.mem A).next_phys⟩ ∧
        ((s.mem A).next_phys ≠ 0 → t.mem (s.mem A).next_phys =
          { s.mem (s.mem A).next_phys with prev_phys := A + 64 + ALIGN_UP n ALIGN }) ∧
        (∀ z, z ≠ A → z ≠ A + 64 + ALIGN_UP n ALIGN →
          ((s.mem A).next_phys ≠ 0 → z ≠ (s.mem A).next_phys) → t.mem z = s.mem z)) ∧
      (¬ (st = Strategy.BEST ∨ st = Strategy.WORST) →
        t.g_nextfit_cursor = (fl_remove s.g_free_head c A).2) := by
  obtain ⟨hal, hlt⟩ := ALIGN_UP_facts n
  obtain ⟨h0, hs0⟩ := inv_lock_strategy h st (lock_strategy_eq s st hl)
  have hst0 : ({ s with g_strat := st } : Heap).g_strat ≠ Strategy.UNSET := hst
  obtain ⟨c2, b, e2, I1, -, -⟩ := idx_find _ (ALIGN_UP n ALIGN) h0.idx hst0
  rw [e1] at e2
  have ec : c = c2 := by
    have := congrArg (fun r : Option (Heap × Nat) =>
      (r.getD (Heap.zero, 0)).1.g_nextfit_cursor) e2
    exact this
  rw [← ec] at I1
  have h1 := inv_cursor h0 c I1
  have A0 : A ≠ 0 := invX_nz h0 A ((h0.free_idx A).1 (Or.inl hA)).1
  obtain ⟨⟨blocks2, a1⟩, a2, a3, a4, -, a6, a7⟩ := alloc_found_spec h1 A (ALIGN_UP n ALIGN)
    hA hal hfit hst
  refine ⟨_, blocks2, malloc_fit_hit st s n os hl hn _ A e1 A0, a1, a2, a3, a4, a6, a7, ?_⟩
  intro ht
  exact (alloc_found_list { s with g_strat := st, g_nextfit_cursor := c } A (ALIGN_UP n ALIGN)
    ht).2

/-- The index of a state whose latch holds `st`, read after latching `st`. -/
theorem idx_latched (t : Heap) (st : Strategy) (e : t.g_strat = st) :
    ({ t with g_strat := st } : Heap).idx = t.idx := by
  subst e; rfl

/-- A well-formed index has no repetition. -/
theorem idx_nodup (s : Heap) (h : IdxOK s) : s.idx.Nodup := by
  by_cases ht : s.g_strat = Strategy.BEST ∨ s.g_strat = Strategy.WORST
  · rw [(idx_of_tree s ht).1]; exact bst_nodup s.sz _ h.bst
  · rw [(idx_of_list s ht).1]; exact h.sorted.imp (fun hlt => ne_of_lt hlt)

/-- A list without repetition whose only member is `a`. -/
theorem list_of_mem1 (l : List Nat) (a : Nat) (hnd : l.Nodup) (hm : ∀ z, z ∈ l ↔ z = a) :
    l = [a] := by
  cases l with
  | nil => exact absurd ((hm a).2 rfl) (List.not_mem_nil a)
  | cons x xs =>
    have hx : x = a := (hm x).1 (List.mem_cons_self _ _)
    cases xs with
    | nil => rw [hx]
    | cons y ys =>
      have hy : y = a := (hm y).1 (List.mem_cons_of_mem _ (List.mem_cons_self _ _))
      have := (List.nodup_cons.1 hnd).1
      rw [hx, hy] at this
      exact absurd (List.mem_cons_self _ _) this

/-! ## Allocation from an index with one block -/

/-- A strategy-driven allocator on a state whose active index holds the single
block `a`, large enough to be split: the pointer is `a + HDR_SZ`, the block
keeps the rounded size, and the remainder is the single block of the index. -/
theorem malloc_single {s : Heap} {blocks live : List Nat} (h : InvX s blocks live 0)
    (st : Strategy) (hst : st ≠ Strategy.UNSET)
    (hl : s.g_strat = Strategy.UNSET ∨ s.g_strat = st) (n : Nat) (hn : n ≠ 0)
    (os : Option Nat) (a : Nat)
    (hidx : ∀ z, z ∈ ({ s with g_strat := st } : Heap).idx ↔ z = a)
    (hfit : ALIGN_UP n ALIGN + 80 ≤ (s.mem a).size) :
    ∃ t blocks2, malloc_fit st s n os = some (t, a + 64) ∧
      InvX t blocks2 ((a + 64) :: live) 0 ∧ t.g_strat = st ∧ t.g_arenas = s.g_arenas ∧
      (∀ z, z ∈ ({ t with g_strat := st } : Heap).idx ↔ z = a + 64 + ALIGN_UP n ALIGN) ∧
      t.mem a = ⟨ALIGN_UP n ALIGN, 0, (s.mem a).prev_phys, a + 64 + ALIGN_UP n ALIGN⟩ ∧
      t.mem (a + 64 + ALIGN_UP n ALIGN) =
        ⟨(s.mem a).size - ALIGN_UP n ALIGN - 64, 1, a, (s.mem a).next_phys⟩ ∧
      ((s.mem a).next_phys ≠ 0 → t.mem (s.mem a).next_phys =
        { s.mem (s.mem a).next_phys with prev_phys := a + 64 + ALIGN_UP n ALIGN }) ∧
      (∀ z, z ≠ a → z ≠ a + 64 + ALIGN_UP n ALIGN →
        ((s.mem a).next_phys ≠ 0 → z ≠ (s.mem a).next_phys) → t.mem z = s.mem z) ∧
      (st = Strategy.NEXT → t.g_nextfit_cursor = 0) := by
  obtain ⟨h0, hs0⟩ := inv_lock_strategy h st (lock_strategy_eq s st hl)
  have hA : a ∈ ({ s with g_strat := st } : Heap).idx := (hidx a).2 rfl
  have hfit2 : ALIGN_UP n ALIGN ≤ (s.mem a).size := by omega
  have hfind : ∃ c, index_find { s with g_strat := st } (ALIGN_UP n ALIGN) =
      some ({ s with g_strat := st, g_nextfit_cursor := c }, a) ∧
      (st = Strategy.NEXT →
        c = if next_free s.g_free_head a ≠ 0 then next_free s.g_free_head a
            else fl_head s.g_free_head) := by
    by_cases hw : st = Strategy.WORST
    · refine ⟨s.g_nextfit_cursor, ?_, fun e => by rw [hw] at e; cases e⟩
      exact find_worst _ _ a h0.idx hw hA hfit2 (fun z hz hne => absurd ((hidx z).1 hz) hne)
    · refine find_among _ _ a h0.idx ?_ hA hfit2 ?_
        (fun z hz hne => absurd ((hidx z).1 hz) hne)
      · show st = Strategy.FIRST ∨ st = Strategy.NEXT ∨ st = Strategy.BEST
        cases st <;> simp at hst hw ⊢
      · intro e
        have e2 : st = Strategy.NEXT := e
        rcases h0.idx.cursor with k | k
        · exact Or.inl k
        · right
          have ht : ¬ (({ s with g_strat := st } : Heap).g_strat = Strategy.BEST ∨
              ({ s with g_strat := st } : Heap).g_strat = Strategy.WORST) := by
            rw [e]; simp
          have k2 : s.g_nextfit_cursor ∈ ({ s with g_strat := st } : Heap).idx := by
            rw [(idx_of_list _ ht).1]; exact k
          exact (hidx _).1 k2
  obtain ⟨c, e1, ec⟩ := hfind
  obtain ⟨t, blocks2, r1, r2, r3, r4, r5, -, r7, r8⟩ :=
    malloc_found h st hst hl n hn os a c e1 hA hfit2
  obtain ⟨m1, m2, m3, m4⟩ := r7 hfit
  refine ⟨t, blocks2, r1, r2, r3, r4, ?_, m1, m2, m3, m4, ?_⟩
  · intro z
    rw [idx_latched t st r3, r5 z]
    constructor
    · rintro (⟨hz, hne⟩ | ⟨-, hz⟩)
      · exact absurd ((hidx z).1 hz) hne
      · exact hz
    · intro hz
      exact Or.inr ⟨hfit, hz⟩
  · intro e
    have ht : ¬ (st = Strategy.BEST ∨ st = Strategy.WORST) := by rw [e]; simp
    have ht2 : ¬ (({ s with g_strat := st } : Heap).g_strat = Strategy.BEST ∨
        ({ s with g_strat := st } : Heap).g_strat = Strategy.WORST) := ht
    have hlist : s.g_free_head = [a] := by
      have k := idx_nodup _ h0.idx
      rw [(idx_of_list _ ht2).1] at k
      refine list_of_mem1 _ a k (fun z => ?_)
      have := hidx z
      rw [(idx_of_list _ ht2).1] at this
      exact this
    rw [r8 ht, ec e, hlist]
    simp [fl_remove, next_free, fl_unlink, fl_head]

/-! ## A run of allocations out of one block -/

theorem spec_run_off_zero (ns : List Nat) : spec_run_off ns 0 = 0 := by
  unfold spec_run_off; simp

theorem spec_run_off_cons (n : Nat) (ns : List Nat) (i : Nat) :
    spec_run_off (n :: ns) (i + 1) = (n + 15) / 16 * 16 + 64 + spec_run_off ns i := by
  unfold spec_run_off
  rw [List.take_succ_cons, List.map_cons, List.sum_cons, HDR_SZ_eq]

theorem spec_run_off_succ (ns : List Nat) :
    ∀ i, i < ns.length →
      spec_run_off ns (i + 1) = spec_run_off ns i + ((ns.getD i 0 + 15) / 16 * 16 + 64) := by
  induction ns with
  | nil => intro i hi; exact absurd hi (Nat.not_lt_zero _)
  | cons n ns ih =>
    intro i hi
    cases i with
    | zero =>
      rw [spec_run_off_cons, spec_run_off_zero, spec_run_off_zero]
      simp
    | succ j =>
      rw [spec_run_off_cons, spec_run_off_cons, ih j (by simpa using hi)]
      simp only [List.getD_cons_succ]
      omega

theorem spec_run_off_mono (ns : List Nat) (i j : Nat) (h : i ≤ j) :
    spec_run_off ns i ≤ spec_run_off ns j := by
  induction ns generalizing i j with
  | nil => unfold spec_run_off; simp
  | cons n ns ih =>
    cases i with
    | zero => rw [spec_run_off_zero]; exact Nat.zero_le _
    | succ i2 =>
      cases j with
      | zero => omega
      | succ j2 =>
        rw [spec_run_off_cons, spec_run_off_cons]
        have := ih i2 j2 (by omega)
        omega

theorem spec_run_off_mod (ns : List Nat) (i : Nat) : spec_run_off ns i % 16 = 0 := by
  induction ns generalizing i with
  | nil => unfold spec_run_off; simp
  | cons n ns ih =>
    cases i with
    | zero => rw [spec_run_off_zero]
    | succ i2 =>
      rw [spec_run_off_cons]
      have := ih i2
      omega

/-- Below `2^32 - 15` the macro `ALIGN_UP` rounds up to the next multiple of 16. -/
theorem ALIGN_UP_small (n : Nat) (h : n + 15 < 2 ^ 32) : ALIGN_UP n ALIGN = (n + 15) / 16 * 16 := by
  rw [ALIGN_UP_eq, Nat.mod_eq_of_lt h]

/-- A run of allocations of the sizes `ns` by one strategy-driven allocator on
a state whose active index holds the single block `a`, every allocation
splitting the block that the one before left: the `i`-th pointer is
`a + spec_run_off ns i + HDR_SZ`, the blocks handed out follow one another on
the physical chain, the remainder is the single block of the index, and
nothing outside the block at `a` and the back pointer of its successor is
written. -/
theorem single_run (st : Strategy) (hst : st ≠ Strategy.UNSET) (os : Option Nat) :
    ∀ (ns : List Nat) (s : Heap) (blocks live : List Nat) (a : Nat),
      InvX s blocks live 0 → (s.g_strat = Strategy.UNSET ∨ s.g_strat = st) →
      (∀ z, z ∈ ({ s with g_strat := st } : Heap).idx ↔ z = a) →
      (∀ n ∈ ns, n ≠ 0) → (s.mem a).size ≤ 2 ^ 32 →
      (∀ i, i < ns.length → spec_run_off ns (i + 1) + 16 ≤ (s.mem a).size) →
      ∃ s1 blocks1 live1,
        malloc_seq st os s ns =
          some (s1, (List.range ns.length).map (fun i => a + spec_run_off ns i + 64)) ∧
        InvX s1 blocks1 live1 0 ∧ (s1.g_strat = Strategy.UNSET ∨ s1.g_strat = st) ∧
        (∀ p ∈ live, p ∈ live1) ∧
        (∀ i, i < ns.length → a + spec_run_off ns i + 64 ∈ live1) ∧
        (∀ z, z ∈ ({ s1 with g_strat := st } : Heap).idx ↔ z = a + spec_run_off ns ns.length) ∧
        (s1.mem (a + spec_run_off ns ns.length)).size =
          (s.mem a).size - spec_run_off ns ns.length ∧
        (s1.mem (a + spec_run_off ns ns.length)).next_phys = (s.mem a).next_phys ∧
        (s1.mem (a + spec_run_off ns ns.length)).prev_phys =
          (if ns = [] then (s.mem a).prev_phys else a + spec_run_off ns (ns.length - 1)) ∧
        (∀ i, i < ns.length → s1.mem (a + spec_run_off ns i) =
          ⟨(ns.getD i 0 + 15) / 16 * 16, 0,
            if i = 0 then (s.mem a).prev_phys else a + spec_run_off ns (i - 1),
            a + spec_run_off ns (i + 1)⟩) ∧
        (∀ z, z < a ∨ a + 64 + (s.mem a).size < z → s1.mem z = s.mem z) ∧
        (st = Strategy.NEXT →
          s1.g_nextfit_cursor = if ns = [] then s.g_nextfit_cursor else 0) ∧
        s1.g_arenas = s.g_arenas := by
  intro ns
  induction ns with
  | nil =>
    intro s blocks live a h hl hidx _ _ _
    have e0 : spec_run_off ([] : List Nat) ([] : List Nat).length = 0 := spec_run_off_zero _
    refine ⟨s, blocks, live, rfl, h, hl, fun p hp => hp,
      fun i hi => absurd hi (Nat.not_lt_zero _), ?_, ?_, ?_, ?_,
      fun i hi => absurd hi (Nat.not_lt_zero _), fun _ _ => rfl, fun _ => rfl, rfl⟩
    · rw [e0]; exact hidx
    · rw [e0]; rfl
    · rw [e0]; rfl
    · rw [e0]; rfl
  | cons n ns ih =>
    intro s blocks live a h hl hidx hn0 hB htot
    have hlen : (n :: ns).length = ns.length + 1 := rfl
    rw [hlen] at htot ⊢
    have hc := spec_run_off_cons n ns
    have htot0 := htot 0 (Nat.succ_pos _)
    rw [hc, spec_run_off_zero] at htot0
    have hn : n ≠ 0 := hn0 n (List.mem_cons_self _ _)
    have hS : ALIGN_UP n ALIGN = (n + 15) / 16 * 16 := ALIGN_UP_small n (by omega)
    obtain ⟨h0, -⟩ := inv_lock_strategy h st (lock_strategy_eq s st hl)
    have ha : a ∈ blocks := ((h0.free_idx a).1 (Or.inl ((hidx a).2 rfl))).1
    have bb := chain_bounds h.chain a ha
    obtain ⟨-, nR⟩ := neighbours_ne h.chain a ha
    obtain ⟨t, blocks2, r1, r2, r3, r4, r5, m1, m2, m3, m4, r6⟩ :=
      malloc_single h st hst hl n hn os a hidx (by omega)
    rw [hS] at r5 m1 m2 m3 m4
    have ea : a + 64 + (n + 15) / 16 * 16 = a + ((n + 15) / 16 * 16 + 64) := by omega
    rw [ea] at r5 m1 m2 m3 m4
    generalize hf : (n + 15) / 16 * 16 + 64 = f at hc htot0 r5 m1 m2 m3 m4
    have f64 : 64 ≤ f := by omega
    have hsz : (t.mem (a + f)).size = (s.mem a).size - f := by
      rw [m2]; show _ - _ - _ = _; omega
    obtain ⟨s1, blocks1, live1, q1, q2, q3, qL, q4, q5, q6, q7, q8, q9, q10, q11, q12⟩ :=
      ih t blocks2 ((a + 64) :: live) (a + f) r2 (Or.inr r3) r5
        (fun k hk => hn0 k (List.mem_cons_of_mem _ hk)) (by omega)
        (fun i hi => by
          have := htot (i + 1) (by omega)
          rw [hc] at this
          omega)
    have hpl : ∀ x, a + f + x = a + (f + x) := fun x => by omega
    have hz0 : spec_run_off (n :: ns) 0 = 0 := spec_run_off_zero _
    refine ⟨s1, blocks1, live1, ?_, q2, q3, fun p hp => qL p (List.mem_cons_of_mem _ hp),
      ?_, ?_, ?_, ?_, ?_, ?_, ?_, ?_, q12.trans r4⟩
    · show (match malloc_fit st s n os with
        | none => none
        | some (s1, p) =>
          match malloc_seq st os s1 ns with
          | none => none
          | some (s2, ps) => some (s2, p :: ps)) = _
      rw [r1]
      simp only []
      rw [q1]
      simp only []
      rw [List.range_succ_eq_map, List.map_cons, List.map_map, hz0, Nat.add_zero]
      congr 2
      refine congrArg _ (List.map_congr_left (fun i _ => ?_))
      show a + f + spec_run_off ns i + 64 = a + spec_run_off (n :: ns) (i + 1) + 64
      rw [hc, hpl]
    · intro i hi
      cases i with
      | zero =>
        rw [hz0]
        exact qL _ (List.mem_cons_self _ _)
      | succ j =>
        rw [hc, ← hpl]
        exact q4 j (by omega)
    · intro z
      rw [hc, ← hpl]
      exact q5 z
    · rw [hc, ← hpl, q6, hsz]
      omega
    · rw [hc, ← hpl, q7, m2]
    · rw [hc, ← hpl, q8, if_neg (List.cons_ne_nil _ _)]
      show _ = a + spec_run_off (n :: ns) ns.length
      by_cases e : ns = []
      · rw [if_pos e, m2, e]
        show a = a + spec_run_off [n] 0
        rw [spec_run_off_zero]
        rfl
      · rw [if_neg e]
        obtain ⟨k, hk⟩ : ∃ k, ns.length = k + 1 :=
          ⟨ns.length - 1, by have := List.length_pos.2 e; omega⟩
        rw [hk, hc, hpl]
        rfl
    · intro i hi
      cases i with
      | zero =>
        rw [hz0, Nat.add_zero, q10 a (Or.inl (by omega)), m1, hc, spec_run_off_zero,
          Nat.add_zero, if_pos rfl, ← hf]
        simp
      | succ j =>
        have hj : j < ns.length := by omega
        rw [hc, ← hpl, q9 j hj, if_neg (Nat.succ_ne_zero j)]
        show _ = (⟨((n :: ns).getD (j + 1) 0 + 15) / 16 * 16, 0,
          a + spec_run_off (n :: ns) j, a + spec_run_off (n :: ns) (j + 1 + 1)⟩ : Block)
        rw [List.getD_cons_succ, hc (j + 1), ← hpl]
        cases j with
        | zero => rw [if_pos rfl, m2, hz0]; rfl
        | succ j2 =>
          rw [if_neg (Nat.succ_ne_zero j2), hc j2, ← hpl]
          rfl
    · intro z hz
      have z1 : z ≠ a := by omega
      have z2 : z ≠ a + f := by omega
      have z3 : (s.mem a).next_phys ≠ 0 → z ≠ (s.mem a).next_phys := by
        intro h1
        have := (nR h1).2.1
        omega
      rw [q10 z (by rw [hsz]; omega), m4 z z1 z2 z3]
    · intro e
      rw [q11 e, if_neg (List.cons_ne_nil _ _)]
      by_cases e2 : ns = []
      · rw [if_pos e2]; exact r6 e
      · rw [if_neg e2]

/-! ## Scenario S1 -/

/-- In a reachable state no block is larger than `2^32` bytes. -/
theorem reach_block_le {s : Heap} {live blocks : List Nat} (h : Reach s live)
    (hi : InvX s blocks live 0) (a : Nat) (ha : a ∈ blocks) : (s.mem a).size ≤ 2 ^ 32 := by
  obtain ⟨ar, har, a1, a2, -, -⟩ := (hi.chain.blk a ha).arena
  have := reach_arena_le h ar har
  omega

theorem getD_map_range (g : Nat → Nat) (k i : Nat) (hi : i < k) :
    ((List.range k).map g).getD i 0 = g i := by
  rw [List.getD_eq_getElem _ _ (by simpa using hi)]
  simp

theorem spec_run_off_lt (ns : List Nat) (i j : Nat) (hij : i < j) (hj : j ≤ ns.length) :
    spec_run_off ns i + ((ns.getD i 0 + 15) / 16 * 16 + 64) ≤ spec_run_off ns j := by
  rw [← spec_run_off_succ ns i (by omega)]
  exact spec_run_off_mono ns (i + 1) j hij

/-- Claim C22 (scenario S1, generalised).  In a reachable state whose latch
admits first fit and whose free list holds the single block `a`, for request
sizes `ns`, none of them 0, such that each allocation splits the block that the
one before left (after the `i`-th allocation at least `HDR_SZ + 16` bytes
remain, the sizes being rounded up to multiples of 16), the calls of
`malloc_first_fit` return pointers that are not `NULL` and are 16-aligned, the
first is `a + HDR_SZ`, each next one lies `roundup16(n) + HDR_SZ` after the one
before, and so the pointers ascend strictly and the ranges `[p, p + n)` do not
overlap. -/
theorem first_fit_sequence (s : Heap) (live : List Nat) (h : Reach s live)
    (hl : s.g_strat = Strategy.UNSET ∨ s.g_strat = Strategy.FIRST) (a : Nat)
    (hidx : s.g_free_head = [a]) (ns : List Nat) (hn0 : ∀ n ∈ ns, n ≠ 0)
    (hfit : ∀ i, i < ns.length → spec_run_off ns (i + 1) + 16 ≤ (s.mem a).size)
    (os : Option Nat) :
    ∃ s1 ps, malloc_seq Strategy.FIRST os s ns = some (s1, ps) ∧ ps.length = ns.length ∧
      (∀ p ∈ ps, p ≠ 0 ∧ p % 16 = 0) ∧
      (ns ≠ [] → ps.getD 0 0 = a + HDR_SZ) ∧
      (∀ i, i + 1 < ns.length →
        ps.getD (i + 1) 0 = ps.getD i 0 + (ns.getD i 0 + 15) / 16 * 16 + HDR_SZ) ∧
      (∀ i, i < ns.length → ps.getD i 0 = a + spec_run_off ns i + HDR_SZ) ∧
      ps.Pairwise (· < ·) ∧
      (∀ i j, i < j → j < ns.length → ps.getD i 0 + ns.getD i 0 ≤ ps.getD j 0) := by
  obtain ⟨blocks, hi⟩ := reach_inv h
  have hidx2 : ∀ z, z ∈ ({ s with g_strat := Strategy.FIRST } : Heap).idx ↔ z = a := by
    intro z
    show z ∈ s.g_free_head ↔ _
    rw [hidx]
    exact List.mem_singleton
  obtain ⟨h0, -⟩ := inv_lock_strategy hi Strategy.FIRST (lock_strategy_eq s _ hl)
  have ha : a ∈ blocks := ((h0.free_idx a).1 (Or.inl ((hidx2 a).2 rfl))).1
  have hal := (hi.chain.blk a ha).al
  obtain ⟨s1, blocks1, live1, q1, -⟩ := single_run Strategy.FIRST (by decide) os ns s blocks
    live a hi hl hidx2 hn0 (reach_block_le h hi a ha) hfit
  have hg : ∀ i, i < ns.length →
      ((List.range ns.length).map (fun i => a + spec_run_off ns i + 64)).getD i 0 =
        a + spec_run_off ns i + 64 :=
    fun i hi => getD_map_range _ _ i hi
  rw [HDR_SZ_eq]
  refine ⟨s1, _, q1, by simp, ?_, ?_, ?_, hg, ?_, ?_⟩
  · intro p hp
    obtain ⟨i, -, e⟩ := List.mem_map.1 hp
    have := spec_run_off_mod ns i
    rw [← e]
    omega
  · intro hne
    rw [hg 0 (List.length_pos.2 hne), spec_run_off_zero]
  · intro i hi
    rw [hg (i + 1) hi, hg i (by omega), spec_run_off_succ ns i (by omega)]
    omega
  · rw [List.pairwise_map]
    refine (List.pairwise_lt_range ns.length).imp_of_mem ?_
    intro i j _ hj hij
    have := spec_run_off_lt ns i j hij (by have := List.mem_range.1 hj; omega)
    show a + spec_run_off ns i + 64 < a + spec_run_off ns j + 64
    omega
  · intro i j hij hj
    rw [hg i (by omega), hg j hj]
    have := spec_run_off_lt ns i j hij (by omega)
    omega

/-- Witness for claim C22: at program start (free list `[65552]`, one block of
`1048576` bytes) the sizes 100, 256, 512 give the pointers `65616`, `65792`,
`66112`. -/
theorem first_fit_sequence_witness :
    Reach heapDemo [] ∧ heapDemo.g_free_head = [65552] ∧
    ∃ s1 ps, malloc_seq Strategy.FIRST none heapDemo [100, 256, 512] = some (s1, ps) ∧
      ps.length = 3 ∧ ps.getD 0 0 = 65616 ∧ ps.getD 1 0 = 65792 ∧ ps.getD 2 0 = 66112 ∧
      ps.Pairwise (· < ·) :=
  ⟨reach_heapDemo, by decide,
   (first_fit_sequence heapDemo [] reach_heapDemo (Or.inl rfl) 65552 (by decide)
      [100, 256, 512] (by decide) (by decide) none).elim
     (fun s1 r => r.elim (fun ps q =>
       ⟨s1, ps, q.1, q.2.1, (q.2.2.2.2.2.1 0 (by decide)).trans (by decide),
        (q.2.2.2.2.2.1 1 (by decide)).trans (by decide),
        (q.2.2.2.2.2.1 2 (by decide)).trans (by decide), q.2.2.2.2.2.2.1⟩))⟩

/-! ## Scenario S2 -/

/-- In a state that satisfies the invariant and has a live pointer the latch is
set. -/
theorem live_latched {s : Heap} {blocks live : List Nat} (h : InvX s blocks live 0) (p : Nat)
    (hp : p ∈ live) : s.g_strat ≠ Strategy.UNSET := by
  intro e
  obtain ⟨b, hb, -, hf, -⟩ := (h.live_iff p).1 hp
  exact ((h.unset e).2 b hb).1 hf

/-- The state after three allocations of `n` bytes out of the single block `a`
of the active index and `my_free` of the second pointer: the blocks of the
index are the freed block and the remainder. -/
theorem reuse_setup (s : Heap) (live : List Nat) (h : Reach s live) (st : Strategy)
    (hst : st ≠ Strategy.UNSET) (hl : s.g_strat = Strategy.UNSET ∨ s.g_strat = st) (a : Nat)
    (hidx : ({ s with g_strat := st } : Heap).idx = [a]) (n S : Nat) (hn : n ≠ 0)
    (hS : S = (n + 15) / 16 * 16)
    (hfit : 3 * (S + 64) + 16 ≤ (s.mem a).size) (os : Option Nat) :
    ALIGN_UP n ALIGN = S ∧
    ∃ s3 s4 blocks4 live4,
      malloc_seq st os s [n, n, n] =
        some (s3, [a + 64, a + (S + 64) + 64, a + 2 * (S + 64) + 64]) ∧
      my_free s3 (a + (S + 64) + 64) = some s4 ∧
      InvX s4 blocks4 live4 0 ∧ s4.g_strat = st ∧
      (∀ z, z ∈ s4.idx ↔ z = a + (S + 64) ∨ z = a + 3 * (S + 64)) ∧
      (s4.mem (a + (S + 64))).size = S ∧
      (s4.mem (a + 3 * (S + 64))).size = (s.mem a).size - 3 * (S + 64) ∧
      (st = Strategy.NEXT → s4.g_nextfit_cursor = 0) := by
  obtain ⟨blocks, hi⟩ := reach_inv h
  have hidx2 : ∀ z, z ∈ ({ s with g_strat := st } : Heap).idx ↔ z = a := by
    intro z
    rw [hidx]
    exact List.mem_singleton
  obtain ⟨h0, -⟩ := inv_lock_strategy hi st (lock_strategy_eq s _ hl)
  have ha : a ∈ blocks := ((h0.free_idx a).1 (Or.inl ((hidx2 a).2 rfl))).1
  have hB : (s.mem a).size ≤ 2 ^ 32 := by
    obtain ⟨ar, har, a1, a2, -, -⟩ := (hi.chain.blk a ha).arena
    have := reach_arena_le h ar har
    omega
  have hA : ALIGN_UP n ALIGN = S := by rw [hS]; exact ALIGN_UP_small n (by omega)
  have o0 : ∀ l, spec_run_off l 0 = 0 := spec_run_off_zero
  have o1 : spec_run_off [n, n, n] 1 = S + 64 := by
    rw [spec_run_off_cons, o0, ← hS]
  have o2 : spec_run_off [n, n, n] 2 = 2 * (S + 64) := by
    rw [spec_run_off_cons, spec_run_off_cons, o0, ← hS]; omega
  have o3 : spec_run_off [n, n, n] 3 = 3 * (S + 64) := by
    rw [spec_run_off_cons, spec_run_off_cons, spec_run_off_cons, o0, ← hS]; omega
  obtain ⟨s3, blocks3, live3, q1, q2, q3, -, q4, q5, q6, q7, q8, q9, q10, q11, q12⟩ :=
    single_run st hst os [n, n, n] s blocks live a hi hl hidx2
      (fun k hk => by
        have : k = n := by simpa using hk
        rw [this]; exact hn) hB
      (fun i hi => by
        have h3 : i + 1 ≤ 3 := hi
        have := spec_run_off_mono [n, n, n] (i + 1) 3 h3
        rw [o3] at this
        omega)
  refine ⟨hA, ?_⟩
  have hlen : [n, n, n].length = 3 := rfl
  rw [hlen] at q1 q5 q6
  rw [o3] at q5 q6
  have hps : (List.range 3).map (fun i => a + spec_run_off [n, n, n] i + 64) =
      [a + 64, a + (S + 64) + 64, a + 2 * (S + 64) + 64] := by
    show [a + spec_run_off [n, n, n] 0 + 64, a + spec_run_off [n, n, n] 1 + 64,
      a + spec_run_off [n, n, n] 2 + 64] = _
    rw [o0, o1, o2]
  rw [hps] at q1
  have b0 : (s3.mem a).is_free = 0 := by
    have := q9 0 (by rw [hlen]; decide)
    rw [o0] at this
    have e : a + 0 = a := rfl
    rw [e] at this
    rw [this]
  have b1 : s3.mem (a + (S + 64)) = ⟨S, 0, a, a + 2 * (S + 64)⟩ := by
    have := q9 1 (by rw [hlen]; decide)
    rw [o1, o2] at this
    rw [this, if_neg (by decide), hS]
    show (⟨_, 0, a + spec_run_off [n, n, n] 0, _⟩ : Block) = _
    rw [o0]
    rfl
  have b2 : (s3.mem (a + 2 * (S + 64))).is_free = 0 := by
    have := q9 2 (by rw [hlen]; decide)
    rw [o2] at this
    rw [this]
  have hp : a + (S + 64) + 64 ∈ live3 := by
    have := q4 1 (by rw [hlen]; decide)
    rw [o1] at this
    exact this
  have hsub : a + (S + 64) + 64 - 64 = a + (S + 64) := Nat.add_sub_cancel _ _
  have hs3 : s3.g_strat = st := q3.resolve_left (live_latched q2 _ hp)
  obtain ⟨blocks4, e2, i4, -⟩ := inv_free q2 _ hp
  obtain ⟨-, f2, -, f4, f5⟩ := free_plain q2 _ hp
    (by rw [hsub, b1]; exact Or.inr b0)
    (by rw [hsub, b1]; exact Or.inr b2)
  rw [hsub] at f2 f4
  have F := store_flag s3.mem (a + (S + 64)) 1
  refine ⟨s3, free_general s3 (a + (S + 64) + 64), blocks4, _, q1, e2, i4, ?_, ?_, ?_, ?_, ?_⟩
  · rw [(free_general_frame s3 _).2.2.2.2.2.1]; exact hs3
  · intro z
    rw [f2 z, ← idx_latched s3 st hs3, q5 z]
    constructor
    · rintro (hz | hz)
      · exact Or.inr hz
      · exact Or.inl hz
    · rintro (hz | hz)
      · exact Or.inr hz
      · exact Or.inl hz
  · rw [f4, (F _).1, b1]
  · rw [f4, (F _).1, q6]
  · intro e
    rw [f5, q11 e, if_neg (List.cons_ne_nil _ _)]

/-- Claim C23 (scenario S2), as the code has it.  In a reachable state whose
latch admits the strategy and whose active index holds the single block `a`,
large enough for three allocations of `n > 0` bytes that each split it, the
three calls return `p1 = a + HDR_SZ`, `p2`, `p3`, each `roundup16(n) + HDR_SZ`
after the one before, and after `my_free(p2)` the next call with `n` returns
`p4 = p2` under first, next and best fit, and under worst fit when the
remainder of the block is smaller than `roundup16(n)`; under worst fit with a
remainder of at least `roundup16(n)` bytes it returns the start of the
remainder, `p3 + roundup16(n) + HDR_SZ`, which lies behind the range
`[p2, p2 + n)`. -/
theorem reuse_after_free (s : Heap) (live : List Nat) (h : Reach s live) (st : Strategy)
    (hst : st ≠ Strategy.UNSET) (hl : s.g_strat = Strategy.UNSET ∨ s.g_strat = st) (a : Nat)
    (hidx : ({ s with g_strat := st } : Heap).idx = [a]) (n : Nat) (hn : n ≠ 0)
    (hfit : 3 * ((n + 15) / 16 * 16 + HDR_SZ) + 16 ≤ (s.mem a).size) (os : Option Nat) :
    ∃ s3 p1 p2 p3 s4, malloc_seq st os s [n, n, n] = some (s3, [p1, p2, p3]) ∧
      p1 = a + HDR_SZ ∧ p2 = p1 + (n + 15) / 16 * 16 + HDR_SZ ∧
      p3 = p2 + (n + 15) / 16 * 16 + HDR_SZ ∧
      my_free s3 p2 = some s4 ∧
      ((st ≠ Strategy.WORST ∨
          (s.mem a).size - 3 * ((n + 15) / 16 * 16 + HDR_SZ) < (n + 15) / 16 * 16) →
        ∃ s5, malloc_fit st s4 n os = some (s5, p2)) ∧
      (st = Strategy.WORST →
        (n + 15) / 16 * 16 ≤ (s.mem a).size - 3 * ((n + 15) / 16 * 16 + HDR_SZ) →
        ∃ s5, malloc_fit st s4 n os = some (s5, p3 + (n + 15) / 16 * 16 + HDR_SZ) ∧
          p2 + n ≤ p3 + (n + 15) / 16 * 16 + HDR_SZ) := by
  rw [HDR_SZ_eq] at hfit ⊢
  have hnS : n ≤ (n + 15) / 16 * 16 := by omega
  generalize hS : (n + 15) / 16 * 16 = S at hfit hnS ⊢
  obtain ⟨hA, s3, s4, blocks4, live4, q1, q2, i4, hs4, hi4, z1, z2, hc⟩ :=
    reuse_setup s live h st hst hl a hidx n S hn hS.symm hfit os
  obtain ⟨h0, -⟩ := inv_lock_strategy i4 st (lock_strategy_eq s4 _ (Or.inr hs4))
  have hi5 : ∀ z, z ∈ ({ s4 with g_strat := st } : Heap).idx ↔
      z = a + (S + 64) ∨ z = a + 3 * (S + 64) := by
    intro z; rw [idx_latched s4 st hs4]; exact hi4 z
  have hA1 : a + (S + 64) ∈ ({ s4 with g_strat := st } : Heap).idx := (hi5 _).2 (Or.inl rfl)
  have hR1 : a + 3 * (S + 64) ∈ ({ s4 with g_strat := st } : Heap).idx := (hi5 _).2 (Or.inr rfl)
  refine ⟨s3, a + 64, a + (S + 64) + 64, a + 2 * (S + 64) + 64, s4, q1, rfl, by omega, by omega,
    q2, ?_, ?_⟩
  · intro hcase
    have hfind : ∃ c, index_find { s4 with g_strat := st } (ALIGN_UP n ALIGN) =
        some ({ s4 with g_strat := st, g_nextfit_cursor := c }, a + (S + 64)) := by
      rw [hA]
      by_cases hw : st = Strategy.WORST
      · refine ⟨s4.g_nextfit_cursor, ?_⟩
        refine find_worst _ _ _ h0.idx hw hA1 (by rw [z1]) ?_
        intro z hz hne
        have ez : z = a + 3 * (S + 64) := ((hi5 z).1 hz).resolve_left hne
        rw [ez, cmp_lt_iff]
        left
        show (s4.mem _).size < (s4.mem _).size
        rw [z1, z2]
        exact hcase.resolve_left (not_not.2 hw)
      · obtain ⟨c, e1, -⟩ := find_among { s4 with g_strat := st } S (a + (S + 64)) h0.idx
          (by show st = Strategy.FIRST ∨ st = Strategy.NEXT ∨ st = Strategy.BEST
              cases st <;> simp at hst hw ⊢)
          hA1 (by show S ≤ (s4.mem _).size; rw [z1])
          (fun e => Or.inl (hc e))
          (fun z hz hne hfz => by
            have ez : z = a + 3 * (S + 64) := ((hi5 z).1 hz).resolve_left hne
            refine ⟨by omega, fun _ => ?_⟩
            show (s4.mem _).size ≤ (s4.mem z).size
            rw [z1]; exact hfz)
        exact ⟨c, e1⟩
    obtain ⟨c, e1⟩ := hfind
    obtain ⟨t, -, r1, -⟩ := malloc_found i4 st hst (Or.inr hs4) n hn os _ c e1 hA1
      (by rw [hA, z1])
    exact ⟨t, r1⟩
  · intro hw hr
    have e1 : index_find { s4 with g_strat := st } (ALIGN_UP n ALIGN) =
        some ({ s4 with g_strat := st, g_nextfit_cursor := s4.g_nextfit_cursor },
          a + 3 * (S + 64)) := by
      rw [hA]
      refine find_worst _ _ _ h0.idx hw hR1 (by show S ≤ (s4.mem _).size; rw [z2]; exact hr) ?_
      intro z hz hne
      have ez : z = a + (S + 64) := ((hi5 z).1 hz).resolve_right hne
      rw [ez, cmp_lt_iff]
      show (s4.mem _).size < (s4.mem _).size ∨ ((s4.mem _).size = (s4.mem _).size ∧ _)
      rw [z1, z2]
      omega
    obtain ⟨t, -, r1, -⟩ := malloc_found i4 st hst (Or.inr hs4) n hn os _ _ e1 hR1
      (by rw [hA, z2]; exact hr)
    refine ⟨t, ?_, by omega⟩
    rw [r1]
    congr 2
    omega

/-- Witness for claim C23: at program start under first fit three calls with
256 bytes return `65616`, `65936`, `66256`; after `my_free(65936)` the next call
with 256 bytes returns `65936` again. -/
theorem reuse_after_free_witness :
    Reach heapDemo [] ∧
    ∃ s3 s4 s5, malloc_seq Strategy.FIRST none heapDemo [256, 256, 256] =
        some (s3, [65616, 65936, 66256]) ∧
      my_free s3 65936 = some s4 ∧ malloc_first_fit s4 256 none = some (s5, 65936) := by
  obtain ⟨s3, p1, p2, p3, s4, e1, e2, e3, e4, e5, e6, -⟩ :=
    reuse_after_free heapDemo [] reach_heapDemo Strategy.FIRST (by decide) (Or.inl rfl) 65552
      (by decide) 256 (by decide) (by decide) none
  subst e2
  subst e3
  subst e4
  obtain ⟨s5, e7⟩ := e6 (Or.inl (by decide))
  exact ⟨reach_heapDemo, s3, s4, s5, e1, e5, e7⟩

theorem reach_heapDemoWorst : Reach heapDemoWorst.1 [4194384] :=
  Reach.malloc heapDemo heapDemoWorst.1 [] Strategy.WORST 16 4194384 (some 4194304)
    reach_heapDemo (by decide) (osOk_second 16 (by decide)) rfl

/-- Counterexample for claim C23: worst fit does not reuse the freed block.
After `malloc_worst_fit(16)` at program start has mapped a second arena, worst
fit is latched and the tree holds the single block `4194400` of `1048416`
bytes.  Three calls with 256 bytes return `4194464`, `4194784`, `4195104`; after
`my_free(4194784)` the tree holds the freed block of 256 bytes and the
remainder, and `malloc_worst_fit(256)` takes the remainder: it returns
`4195424`, which is not in `[4194784, 4194784 + 256)`. -/
theorem worst_fit_skips_freed_block :
    Reach heapDemoWorst.1 [4194384] ∧ heapDemoWorst.1.g_strat = Strategy.WORST ∧
    heapDemoWorst.1.idx = [4194400] ∧ (heapDemoWorst.1.mem 4194400).size = 1048416 ∧
    worstReuseDemo = some ([4194464, 4194784, 4195104], 4195424) ∧
    ¬ (4194784 ≤ 4195424 ∧ 4195424 < 4194784 + 256) :=
  ⟨reach_heapDemoWorst, by decide, by decide, by decide, by decide, by decide⟩

/-! ## Scenario S3 -/

/-- The state after four first-fit allocations of `n` bytes, `n` a positive
multiple of 16, out of the single block `a` of the free list. -/
theorem coalesce_setup (s : Heap) (live : List Nat) (h : Reach s live)
    (hl : s.g_strat = Strategy.UNSET ∨ s.g_strat = Strategy.FIRST) (a : Nat)
    (hidx : s.g_free_head = [a]) (n : Nat) (hn : 0 < n) (h16 : n % 16 = 0)
    (hfit : 4 * (n + 64) + 16 ≤ (s.mem a).size) (os : Option Nat) :
    n + n + 15 < 2 ^ 32 ∧
    ∃ s4 blocks4 live4,
      malloc_seq Strategy.FIRST os s [n, n, n, n] =
        some (s4, [a + 64, a + (n + 64) + 64, a + 2 * (n + 64) + 64, a + 3 * (n + 64) + 64]) ∧
      InvX s4 blocks4 live4 0 ∧ s4.g_strat = Strategy.FIRST ∧
      a + (n + 64) + 64 ∈ live4 ∧ a + 2 * (n + 64) + 64 ∈ live4 ∧
      (∀ z, z ∈ s4.idx ↔ z = a + 4 * (n + 64)) ∧
      (s4.mem a).is_free = 0 ∧
      s4.mem (a + (n + 64)) = ⟨n, 0, a, a + 2 * (n + 64)⟩ ∧
      s4.mem (a + 2 * (n + 64)) = ⟨n, 0, a + (n + 64), a + 3 * (n + 64)⟩ ∧
      s4.mem (a + 3 * (n + 64)) = ⟨n, 0, a + 2 * (n + 64), a + 4 * (n + 64)⟩ := by
  obtain ⟨blocks, hi⟩ := reach_inv h
  have hidx2 : ∀ z, z ∈ ({ s with g_strat := Strategy.FIRST } : Heap).idx ↔ z = a := by
    intro z
    show z ∈ s.g_free_head ↔ _
    rw [hidx]
    exact List.mem_singleton
  obtain ⟨h0, -⟩ := inv_lock_strategy hi Strategy.FIRST (lock_strategy_eq s _ hl)
  have ha : a ∈ blocks := ((h0.free_idx a).1 (Or.inl ((hidx2 a).2 rfl))).1
  have hB : (s.mem a).size ≤ 2 ^ 32 := by
    obtain ⟨ar, har, a1, a2, -, -⟩ := (hi.chain.blk a ha).arena
    have := reach_arena_le h ar har
    omega
  have hS : (n + 15) / 16 * 16 = n := by omega
  have o0 : ∀ l, spec_run_off l 0 = 0 := spec_run_off_zero
  have o1 : spec_run_off [n, n, n, n] 1 = n + 64 := by
    rw [spec_run_off_cons, o0, hS]
  have o2 : spec_run_off [n, n, n, n] 2 = 2 * (n + 64) := by
    rw [spec_run_off_cons, spec_run_off_cons, o0, hS]; omega
  have o3 : spec_run_off [n, n, n, n] 3 = 3 * (n + 64) := by
    rw [spec_run_off_cons, spec_run_off_cons, spec_run_off_cons, o0, hS]; omega
  have o4 : spec_run_off [n, n, n, n] 4 = 4 * (n + 64) := by
    rw [spec_run_off_cons, spec_run_off_cons, spec_run_off_cons, spec_run_off_cons, o0, hS]
    omega
  have hlen : [n, n, n, n].length = 4 := rfl
  obtain ⟨s4, blocks4, live4, q1, q2, q3, -, q4, q5, q6, q7, q8, q9, q10, q11, q12⟩ :=
    single_run Strategy.FIRST (by decide) os [n, n, n, n] s blocks live a hi hl hidx2
      (fun k hk => by
        have : k = n := by simpa using hk
        rw [this]; omega) hB
      (fun i hi => by
        have h3 : i + 1 ≤ 4 := hi
        have := spec_run_off_mono [n, n, n, n] (i + 1) 4 h3
        rw [o4] at this
        omega)
  refine ⟨by omega, ?_⟩
  rw [hlen] at q1 q5
  rw [o4] at q5
  have hps : (List.range 4).map (fun i => a + spec_run_off [n, n, n, n] i + 64) =
      [a + 64, a + (n + 64) + 64, a + 2 * (n + 64) + 64, a + 3 * (n + 64) + 64] := by
    show [a + spec_run_off [n, n, n, n] 0 + 64, a + spec_run_off [n, n, n, n] 1 + 64,
      a + spec_run_off [n, n, n, n] 2 + 64, a + spec_run_off [n, n, n, n] 3 + 64] = _
    rw [o0, o1, o2, o3]
  rw [hps] at q1
  have hp2 : a + (n + 64) + 64 ∈ live4 := by
    have := q4 1 (by rw [hlen]; decide)
    rw [o1] at this
    exact this
  have hp3 : a + 2 * (n + 64) + 64 ∈ live4 := by
    have := q4 2 (by rw [hlen]; decide)
    rw [o2] at this
    exact this
  have hs4 : s4.g_strat = Strategy.FIRST := q3.resolve_left (live_latched q2 _ hp2)
  have b0 : (s4.mem a).is_free = 0 := by
    have := q9 0 (by rw [hlen]; decide)
    rw [o0] at this
    have e : a + 0 = a := rfl
    rw [e] at this
    rw [this]
  have b1 : s4.mem (a + (n + 64)) = ⟨n, 0, a, a + 2 * (n + 64)⟩ := by
    have := q9 1 (by rw [hlen]; decide)
    rw [o1, o2] at this
    rw [this, if_neg (by decide)]
    show (⟨(n + 15) / 16 * 16, 0, a + spec_run_off [n, n, n, n] 0, _⟩ : Block) = _
    rw [o0, hS]
    rfl
  have b2 : s4.mem (a + 2 * (n + 64)) = ⟨n, 0, a + (n + 64), a + 3 * (n + 64)⟩ := by
    have := q9 2 (by rw [hlen]; decide)
    rw [o2, o3] at this
    rw [this, if_neg (by decide)]
    show (⟨(n + 15) / 16 * 16, 0, a + spec_run_off [n, n, n, n] 1, _⟩ : Block) = _
    rw [o1, hS]
  have b3 : s4.mem (a + 3 * (n + 64)) = ⟨n, 0, a + 2 * (n + 64), a + 4 * (n + 64)⟩ := by
    have := q9 3 (by rw [hlen]; decide)
    rw [o3, o4] at this
    rw [this, if_neg (by decide)]
    show (⟨(n + 15) / 16 * 16, 0, a + spec_run_off [n, n, n, n] 2, _⟩ : Block) = _
    rw [o2, hS]
  refine ⟨s4, blocks4, live4, q1, q2, hs4, hp2, hp3, ?_, b0, b1, b2, b3⟩
  intro z
  rw [← idx_latched s4 _ hs4]
  exact q5 z

/-- The two frees of scenario S3, in either order: the blocks of the second and
the third pointer end up as one free block at the second pointer's header. -/
theorem coalesce_merged {s4 : Heap} {blocks4 live4 : List Nat} (a n : Nat)
    (i4 : InvX s4 blocks4 live4 0) (hs4 : s4.g_strat = Strategy.FIRST)
    (hp2 : a + (n + 64) + 64 ∈ live4) (hp3 : a + 2 * (n + 64) + 64 ∈ live4)
    (hidx : ∀ z, z ∈ s4.idx ↔ z = a + 4 * (n + 64))
    (b0 : (s4.mem a).is_free = 0)
    (b1 : s4.mem (a + (n + 64)) = ⟨n, 0, a, a + 2 * (n + 64)⟩)
    (b2 : s4.mem (a + 2 * (n + 64)) = ⟨n, 0, a + (n + 64), a + 3 * (n + 64)⟩)
    (b3 : s4.mem (a + 3 * (n + 64)) = ⟨n, 0, a + 2 * (n + 64), a + 4 * (n + 64)⟩)
    (qs : List Nat)
    (hq : qs = [a + (n + 64) + 64, a + 2 * (n + 64) + 64] ∨
      qs = [a + 2 * (n + 64) + 64, a + (n + 64) + 64]) :
    ∃ s6 blocks6 live6, my_free_seq s4 qs = some s6 ∧ InvX s6 blocks6 live6 0 ∧
      s6.g_strat = Strategy.FIRST ∧
      (∀ z, z ∈ s6.idx ↔ z = a + (n + 64) ∨ z = a + 4 * (n + 64)) ∧
      s6.mem (a + (n + 64)) = ⟨n + 64 + n, 1, a, a + 3 * (n + 64)⟩ := by
  have hsub1 : a + (n + 64) + 64 - 64 = a + (n + 64) := Nat.add_sub_cancel _ _
  have hsub2 : a + 2 * (n + 64) + 64 - 64 = a + 2 * (n + 64) := Nat.add_sub_cancel _ _
  have hne : a + 2 * (n + 64) + 64 ≠ a + (n + 64) + 64 := by omega
  rcases hq with hq | hq
  · -- the second pointer first
    obtain ⟨blocks5, e5, i5, -⟩ := inv_free i4 _ hp2
    obtain ⟨-, f2, -, f4, -⟩ := free_plain i4 _ hp2
      (by rw [hsub1, b1]; exact Or.inr b0)
      (by rw [hsub1, b1]; exact Or.inr (by rw [b2]))
    rw [hsub1] at f2 f4
    have hp3b : a + 2 * (n + 64) + 64 ∈ live4.erase (a + (n + 64) + 64) :=
      (List.mem_erase_of_ne hne).2 hp3
    have c1 : (free_general s4 (a + (n + 64) + 64)).mem (a + (n + 64)) =
        ⟨n, 1, a, a + 2 * (n + 64)⟩ := by rw [f4, store_same, b1]
    have c2 : (free_general s4 (a + (n + 64) + 64)).mem (a + 2 * (n + 64)) =
        ⟨n, 0, a + (n + 64), a + 3 * (n + 64)⟩ := by
      rw [f4, store_other _ _ _ _ (by omega), b2]
    have c3 : (free_general s4 (a + (n + 64) + 64)).mem (a + 3 * (n + 64)) =
        ⟨n, 0, a + 2 * (n + 64), a + 4 * (n + 64)⟩ := by
      rw [f4, store_other _ _ _ _ (by omega), b3]
    obtain ⟨blocks6, e6, i6, -⟩ := inv_free i5 _ hp3b
    obtain ⟨g1, g2, -, -⟩ := free_merge_left i5 _ hp3b
      (by rw [hsub2, c2]; show a + (n + 64) ≠ 0; omega)
      (by rw [hsub2, c2]; show ((free_general s4 _).mem (a + (n + 64))).is_free ≠ 0
          rw [c1]; exact Nat.one_ne_zero)
      (by rw [hsub2, c2]; right
          show ((free_general s4 _).mem (a + 3 * (n + 64))).is_free = 0
          rw [c3])
    rw [hsub2, c2] at g2
    have g3 : (free_general (free_general s4 (a + (n + 64) + 64))
        (a + 2 * (n + 64) + 64)).mem (a + (n + 64)) =
        ⟨((free_general s4 (a + (n + 64) + 64)).mem (a + (n + 64))).size + 64 + n,
          ((free_general s4 (a + (n + 64) + 64)).mem (a + (n + 64))).is_free,
          ((free_general s4 (a + (n + 64) + 64)).mem (a + (n + 64))).prev_phys,
          a + 3 * (n + 64)⟩ := g2
    rw [c1] at g3
    refine ⟨_, blocks6, _, ?_, i6, ?_, ?_, g3⟩
    · rw [hq]
      show (my_free s4 _).bind (fun s1 => (my_free s1 _).bind (fun s2 => some s2)) = _
      rw [e5, Option.some_bind, e6, Option.some_bind]
    · rw [(free_general_frame _ _).2.2.2.2.2.1, (free_general_frame _ _).2.2.2.2.2.1]
      exact hs4
    · intro z
      rw [g1 z, f2 z, hidx z]
      constructor
      · rintro (hz | hz)
        · exact Or.inr hz
        · exact Or.inl hz
      · rintro (hz | hz)
        · exact Or.inr hz
        · exact Or.inl hz
  · -- the third pointer first
    obtain ⟨blocks5, e5, i5, -⟩ := inv_free i4 _ hp3
    obtain ⟨-, f2, -, f4, -⟩ := free_plain i4 _ hp3
      (by rw [hsub2, b2]; exact Or.inr (by rw [b1]))
      (by rw [hsub2, b2]; exact Or.inr (by rw [b3]))
    rw [hsub2] at f2 f4
    have hp2b : a + (n + 64) + 64 ∈ live4.erase (a + 2 * (n + 64) + 64) :=
      (List.mem_erase_of_ne (Ne.symm hne)).2 hp2
    have c0 : ((free_general s4 (a + 2 * (n + 64) + 64)).mem a).is_free = 0 := by
      rw [f4, store_other _ _ _ _ (by omega), b0]
    have c1 : (free_general s4 (a + 2 * (n + 64) + 64)).mem (a + (n + 64)) =
        ⟨n, 0, a, a + 2 * (n + 64)⟩ := by
      rw [f4, store_other _ _ _ _ (by omega), b1]
    have c2 : (free_general s4 (a + 2 * (n + 64) + 64)).mem (a + 2 * (n + 64)) =
        ⟨n, 1, a + (n + 64), a + 3 * (n + 64)⟩ := by rw [f4, store_same, b2]
    obtain ⟨blocks6, e6, i6, -⟩ := inv_free i5 _ hp2b
    obtain ⟨g1, g2, -, -⟩ := free_merge_right i5 _ hp2b
      (by rw [hsub1, c1]; exact Or.inr c0)
      (by rw [hsub1, c1]; show a + 2 * (n + 64) ≠ 0; omega)
      (by rw [hsub1, c1]; show ((free_general s4 _).mem (a + 2 * (n + 64))).is_free ≠ 0
          rw [c2]; exact Nat.one_ne_zero)
    rw [hsub1, c1] at g1 g2
    have g3 : (free_general (free_general s4 (a + 2 * (n + 64) + 64))
        (a + (n + 64) + 64)).mem (a + (n + 64)) =
        ⟨n + 64 + ((free_general s4 (a + 2 * (n + 64) + 64)).mem (a + 2 * (n + 64))).size, 1,
          a, ((free_general s4 (a + 2 * (n + 64) + 64)).mem (a + 2 * (n + 64))).next_phys⟩ := g2
    rw [c2] at g3
    refine ⟨_, blocks6, _, ?_, i6, ?_, ?_, g3⟩
    · rw [hq]
      show (my_free s4 _).bind (fun s1 => (my_free s1 _).bind (fun s2 => some s2)) = _
      rw [e5, Option.some_bind, e6, Option.some_bind]
    · rw [(free_general_frame _ _).2.2.2.2.2.1, (free_general_frame _ _).2.2.2.2.2.1]
      exact hs4
    · intro z
      have g4 : z ∈ (free_general (free_general s4 (a + 2 * (n + 64) + 64))
          (a + (n + 64) + 64)).idx ↔
          (z ∈ (free_general s4 (a + 2 * (n + 64) + 64)).idx ∧ z ≠ a + 2 * (n + 64)) ∨
            z = a + (n + 64) := g1 z
      rw [g4, f2 z, hidx z]
      constructor
      · rintro (⟨hz | hz, hz2⟩ | hz)
        · exact Or.inr hz
        · exact absurd hz hz2
        · exact Or.inl hz
      · rintro (hz | hz)
        · exact Or.inr hz
        · exact Or.inl ⟨Or.inl hz, by omega⟩

/-- Claim C24 (scenario S3).  In a reachable state whose latch admits first fit
and whose free list holds the single block `a`, for every positive multiple
`n` of 16 such that four allocations of `n` bytes each split the block, the four
calls return `p1..p4`, each `n + HDR_SZ` after the one before; after `my_free`
of `p2` and `p3` in either order the free list holds the block at
`p2 - HDR_SZ`, of payload `2n + HDR_SZ`, and the remainder behind `p4`, and not
the block of `p3`; `malloc_first_fit(2n)` then returns `p2` and hands out that
block whole, its payload `[p2, p2 + 2n + HDR_SZ)` covering `[p2, p2 + n)` and
`[p3, p3 + n)`. -/
theorem coalesce_then_fit (s : Heap) (live : List Nat) (h : Reach s live)
    (hl : s.g_strat = Strategy.UNSET ∨ s.g_strat = Strategy.FIRST) (a : Nat)
    (hidx : s.g_free_head = [a]) (n : Nat) (hn : 0 < n) (h16 : n % 16 = 0)
    (hfit : 4 * (n + HDR_SZ) + 16 ≤ (s.mem a).size) (os : Option Nat) :
    ∃ s4 p1 p2 p3 p4, malloc_seq Strategy.FIRST os s [n, n, n, n] = some (s4, [p1, p2, p3, p4]) ∧
      p1 = a + HDR_SZ ∧ p2 = p1 + n + HDR_SZ ∧ p3 = p2 + n + HDR_SZ ∧ p4 = p3 + n + HDR_SZ ∧
      ∀ qs, qs = [p2, p3] ∨ qs = [p3, p2] →
        ∃ s6, my_free_seq s4 qs = some s6 ∧
          (∀ z, z ∈ s6.g_free_head ↔ z = p2 - HDR_SZ ∨ z = p4 + n) ∧
          s6.mem (p2 - HDR_SZ) = ⟨2 * n + HDR_SZ, 1, p1 - HDR_SZ, p4 - HDR_SZ⟩ ∧
          ∃ s7, malloc_first_fit s6 (2 * n) os = some (s7, p2) ∧
            s7.mem (p2 - HDR_SZ) = ⟨2 * n + HDR_SZ, 0, p1 - HDR_SZ, p4 - HDR_SZ⟩ ∧
            p2 + n ≤ p2 + (2 * n + HDR_SZ) ∧ p3 + n ≤ p2 + (2 * n + HDR_SZ) := by
  rw [HDR_SZ_eq] at hfit ⊢
  obtain ⟨h32, s4, blocks4, live4, q1, i4, hs4, hp2, hp3, hi4, b0, b1, b2, b3⟩ :=
    coalesce_setup s live h hl a hidx n hn h16 hfit os
  refine ⟨s4, a + 64, a + (n + 64) + 64, a + 2 * (n + 64) + 64, a + 3 * (n + 64) + 64, q1, rfl,
    by omega, by omega, by omega, ?_⟩
  intro qs hq
  obtain ⟨s6, blocks6, live6, e6, i6, hs6, hi6, c1⟩ :=
    coalesce_merged a n i4 hs4 hp2 hp3 hi4 b0 b1 b2 b3 qs hq
  have hsub1 : a + (n + 64) + 64 - 64 = a + (n + 64) := Nat.add_sub_cancel _ _
  have hsub0 : a + 64 - 64 = a := Nat.add_sub_cancel _ _
  have hsub3 : a + 3 * (n + 64) + 64 - 64 = a + 3 * (n + 64) := Nat.add_sub_cancel _ _
  have hR : a + 3 * (n + 64) + 64 + n = a + 4 * (n + 64) := by omega
  have h2n : n + 64 + n = 2 * n + 64 := by omega
  rw [hsub1, hsub0, hsub3, hR]
  rw [h2n] at c1
  have hA : ALIGN_UP (2 * n) ALIGN = 2 * n := by
    rw [ALIGN_UP_small (2 * n) (by omega)]; omega
  obtain ⟨h0, -⟩ := inv_lock_strategy i6 Strategy.FIRST (lock_strategy_eq s6 _ (Or.inr hs6))
  have hi7 : ∀ z, z ∈ ({ s6 with g_strat := Strategy.FIRST } : Heap).idx ↔
      z = a + (n + 64) ∨ z = a + 4 * (n + 64) := by
    intro z; rw [idx_latched s6 _ hs6]; exact hi6 z
  have hA1 : a + (n + 64) ∈ ({ s6 with g_strat := Strategy.FIRST } : Heap).idx :=
    (hi7 _).2 (Or.inl rfl)
  obtain ⟨c, e1, -⟩ := find_among { s6 with g_strat := Strategy.FIRST } (2 * n) (a + (n + 64))
    h0.idx (Or.inl rfl) hA1 (by show 2 * n ≤ (s6.mem _).size; rw [c1]; show 2 * n ≤ 2 * n + 64
                                omega)
    (fun e => by cases e)
    (fun z hz hne _ => by
      have ez : z = a + 4 * (n + 64) := ((hi7 z).1 hz).resolve_left hne
      exact ⟨by omega, fun e => by cases e⟩)
  rw [← hA] at e1
  obtain ⟨t, -, r1, -, -, -, -, r6, -⟩ := malloc_found i6 Strategy.FIRST (by decide)
    (Or.inr hs6) (2 * n) (by omega) os _ c e1 hA1
    (by rw [hA, c1]; show 2 * n ≤ 2 * n + 64; omega)
  obtain ⟨r7, -⟩ := r6 (by rw [hA, c1]; show 2 * n + 64 < 2 * n + 80; omega)
  refine ⟨s6, e6, ?_, c1, t, r1, ?_, by omega, by omega⟩
  · intro z
    have := hi6 z
    rw [(idx_of_list s6 (by rw [hs6]; simp)).1] at this
    exact this
  · rw [r7, c1]

/-- Witness for claim C24: at program start four calls with 128 bytes return
`65616`, `65808`, `66000`, `66192`; after `my_free(65808)` and `my_free(66000)`
the block at `65744` has payload `320`, and `malloc_first_fit(256)` returns
`65808`. -/
theorem coalesce_then_fit_witness :
    Reach heapDemo [] ∧
    ∃ s4 s6 s7, malloc_seq Strategy.FIRST none heapDemo [128, 128, 128, 128] =
        some (s4, [65616, 65808, 66000, 66192]) ∧
      my_free_seq s4 [65808, 66000] = some s6 ∧ (s6.mem 65744).size = 320 ∧
      malloc_first_fit s6 256 none = some (s7, 65808) := by
  obtain ⟨s4, p1, p2, p3, p4, e1, e2, e3, e4, e5, e6⟩ :=
    coalesce_then_fit heapDemo [] reach_heapDemo (Or.inl rfl) 65552 (by decide) 128
      (by decide) (by decide) (by decide) none
  subst e2
  subst e3
  subst e4
  subst e5
  obtain ⟨s6, f1, -, f3, s7, f4, -⟩ := e6 _ (Or.inl rfl)
  exact ⟨reach_heapDemo, s4, s6, s7, e1, f1, congrArg Block.size f3, f4⟩

/-! ## The tiling of the buddy pool: proofs -/

theorem leaves_mem : ∀ (t : BTree) (k a : Nat) (p : Nat × Nat),
    p ∈ t.leaves k a ↔ p ∈ t.frees k a ∨ p ∈ t.useds k a := by
  intro t
  induction t with
  | free => intro k a p; simp [BTree.leaves, BTree.frees, BTree.useds]
  | used => intro k a p; simp [BTree.leaves, BTree.frees, BTree.useds]
  | split l r ihl ihr =>
    intro k a p
    simp only [BTree.leaves, BTree.frees, BTree.useds, List.mem_append, ihl, ihr]
    tauto

theorem leaves_range (t : BTree) (k a j b : Nat) (hw : t.WF k) (h : (j, b) ∈ t.leaves k a) :
    4 ≤ j ∧ j ≤ k ∧ a ≤ b ∧ b + 2 ^ j ≤ a + 2 ^ k := by
  rcases (leaves_mem t k a _).1 h with h1 | h1
  · exact frees_range _ _ _ _ _ hw h1
  · exact useds_range _ _ _ _ _ hw h1

theorem leaves_nodup : ∀ (t : BTree) (k a : Nat), t.WF k → (t.leaves k a).Nodup := by
  intro t
  induction t with
  | free => intro k a _; simp [BTree.leaves]
  | used => intro k a _; simp [BTree.leaves]
  | split l r ihl ihr =>
    intro k a hw
    obtain ⟨h5, wl, wr⟩ := hw
    have hp := pow_pred_double k (by omega)
    show (l.leaves (k - 1) a ++ r.leaves (k - 1) (a + 2 ^ (k - 1))).Nodup
    rw [List.nodup_append]
    refine ⟨ihl _ _ wl, ihr _ _ wr, ?_⟩
    rintro ⟨j, b⟩ h1 h2
    obtain ⟨-, -, -, r4⟩ := leaves_range _ _ _ _ _ wl h1
    obtain ⟨-, -, r3, -⟩ := leaves_range _ _ _ _ _ wr h2
    have := pow_pos2 j
    omega

theorem leaves_sum : ∀ (t : BTree) (k a : Nat), t.WF k →
    ((t.leaves k a).map (fun p => 2 ^ p.1)).sum = 2 ^ k := by
  intro t
  induction t with
  | free => intro k a _; simp [BTree.leaves]
  | used => intro k a _; simp [BTree.leaves]
  | split l r ihl ihr =>
    intro k a hw
    obtain ⟨h5, wl, wr⟩ := hw
    have hp := pow_pred_double k (by omega)
    show ((l.leaves (k - 1) a ++ r.leaves (k - 1) (a + 2 ^ (k - 1))).map _).sum = _
    rw [List.map_append, List.sum_append, ihl _ _ wl, ihr _ _ wr]
    omega

theorem leaves_aligned : ∀ (t : BTree) (k a B j b : Nat), t.WF k → B ≤ a →
    (a - B) % 2 ^ k = 0 → (j, b) ∈ t.leaves k a → (b - B) % 2 ^ j = 0 := by
  intro t
  induction t with
  | free =>
    intro k a B j b _ _ hm h
    simp only [BTree.leaves, List.mem_singleton, Prod.mk.injEq] at h
    rw [h.1, h.2]; exact hm
  | used =>
    intro k a B j b _ _ hm h
    simp only [BTree.leaves, List.mem_singleton, Prod.mk.injEq] at h
    rw [h.1, h.2]; exact hm
  | split l r ihl ihr =>
    intro k a B j b hw hB hm h
    obtain ⟨h5, wl, wr⟩ := hw
    have hm1 := mod_half _ k (by omega) hm
    rcases List.mem_append.1 h with h1 | h1
    · exact ihl _ _ _ _ _ wl hB hm1 h1
    · refine ihr _ _ _ _ _ wr (by omega) ?_ h1
      have e : a + 2 ^ (k - 1) - B = (a - B) + 2 ^ (k - 1) := by omega
      rw [e, Nat.add_mod, hm1, Nat.mod_self]; rfl

theorem seg_unique (w : Nat → Nat) : ∀ (l1 l2 : List Nat) (h : Nat),
    Seg w h l1 0 → Seg w h l2 0 → l1 = l2 := by
  intro l1
  induction l1 with
  | nil =>
    intro l2 h h1 h2
    cases l2 with
    | nil => rfl
    | cons y ys =>
      have e1 : h = 0 := h1
      obtain ⟨e2, y0, -⟩ := h2
      exact absurd (e2 ▸ e1) y0
  | cons x xs ih =>
    intro l2 h h1 h2
    obtain ⟨e1, x0, t1⟩ := h1
    cases l2 with
    | nil =>
      have e2 : h = 0 := h2
      exact absurd (e1 ▸ e2) x0
    | cons y ys =>
      obtain ⟨e2, -, t2⟩ := h2
      have exy : x = y := e1.symm.trans e2
      subst exy
      rw [ih ys _ t1 t2]

/-- The free blocks of the bins are the free blocks of the pool shape. -/
theorem binBlock_iff {s : Heap} {t : BTree} (h : BuddyInv s t) (k a : Nat) :
    BinBlock s k a ↔ (k, a) ∈ t.frees s.buddy_pool_order s.buddy_base := by
  constructor
  · rintro ⟨hk, l, hl, ha⟩
    obtain ⟨l2, c2, -, m2⟩ := h.rep.bins k hk
    rw [seg_unique _ _ _ _ hl c2] at ha
    exact (m2 a).1 ha
  · intro hf
    obtain ⟨-, r2, -, -⟩ := frees_range _ _ _ _ _ h.wf hf
    have hk : k ≤ BUDDY_MAX_ORDER := le_trans r2 h.order.2
    obtain ⟨l2, c2, -, m2⟩ := h.rep.bins k hk
    exact ⟨hk, l2, c2, (m2 a).2 hf⟩

/-- The allocated blocks are the blocks handed out of the pool shape. -/
theorem heldBlock_iff {s : Heap} {t : BTree} {live : List Nat} (h : BuddyInv s t)
    (ow : Owns s t live) (k a : Nat) :
    HeldBlock s live k a ↔ (k, a) ∈ t.useds s.buddy_pool_order s.buddy_base := by
  constructor
  · rintro ⟨hl, hb⟩
    obtain ⟨o, x, hu, e⟩ := (ow.2 _).1 hl
    have ex : x = a := by omega
    subst ex
    rw [is_buddy_ptr_used h o x hu] at hb
    cases hb
    exact hu
  · intro hu
    exact ⟨(ow.2 _).2 ⟨k, a, hu, rfl⟩, is_buddy_ptr_used h k a hu⟩

theorem poolBlock_iff {s : Heap} {t : BTree} {live : List Nat} (h : BuddyInv s t)
    (ow : Owns s t live) (k a : Nat) :
    PoolBlock s live k a ↔ (k, a) ∈ t.leaves s.buddy_pool_order s.buddy_base := by
  unfold PoolBlock
  rw [binBlock_iff h, heldBlock_iff h ow, leaves_mem]

theorem bin_scan_pool (order target : Nat) : ∀ (fuel : Nat) (s : Heap) (prev cur : Nat)
    (r : Heap × Bool), bin_scan order target fuel s prev cur = some r → PoolEq s r.1 := by
  intro fuel
  induction fuel with
  | zero => intro s prev cur r e; cases e
  | succ f ih =>
    intro s prev cur r e
    unfold bin_scan at e
    split_ifs at e with c1 c2 c3
    · cases e; exact poolEq_refl s
    · cases e; exact ⟨rfl, rfl, rfl, rfl⟩
    · cases e; exact ⟨rfl, rfl, rfl, rfl⟩
    · exact ih _ _ _ _ e

/-- The instrumented loop runs as `merge_loop` does. -/
theorem merge_trace_fst : ∀ (fuel : Nat) (s : Heap) (order off : Nat),
    (merge_trace fuel s order off).map Prod.fst = merge_loop fuel s order off := by
  intro fuel
  induction fuel with
  | zero => intro s order off; rfl
  | succ f ih =>
    intro s order off
    unfold merge_trace merge_loop
    by_cases c1 : order < s.buddy_pool_order
    · rw [if_pos c1, if_pos c1]
      by_cases c2 : off ^^^ order_size order ≥ s.buddy_top_size
      · rw [if_pos c2, if_pos c2]; rfl
      · rw [if_neg c2, if_neg c2]
        cases hb : bin_scan order (off_ptr s (off ^^^ order_size order)) (s.buddy_top_size + 1)
          s 0 (s.buddy_bins order) with
        | none => rfl
        | some r =>
          obtain ⟨s1, b⟩ := r
          cases b with
          | true =>
            show Option.map Prod.fst (Option.map _ _) = merge_loop f s1 (order + 1) _
            rw [Option.map_map, ← ih]
            rfl
          | false => rfl
    · rw [if_neg c1, if_neg c1]; rfl

/-- Every buddy offset that the loop computes lies inside the pool, whatever
the bins hold: the pool size is a power of two, the offset is below it and so
is the block size. -/
theorem merge_trace_lt : ∀ (fuel : Nat) (s : Heap) (order off : Nat) (r : Heap × List Nat),
    s.buddy_top_size = 2 ^ s.buddy_pool_order → s.buddy_pool_order < 64 →
    off < s.buddy_top_size → merge_trace fuel s order off = some r →
    ∀ b ∈ r.2, b < s.buddy_top_size := by
  intro fuel
  induction fuel with
  | zero =>
    intro s order off r _ _ _ e b hb
    cases e
    exact absurd hb (List.not_mem_nil _)
  | succ f ih =>
    intro s order off r ht hP hoff e b hb
    unfold merge_trace at e
    by_cases c1 : order < s.buddy_pool_order
    · rw [if_pos c1] at e
      have hx : off ^^^ order_size order < s.buddy_top_size := by
        rw [order_size_eq _ (by omega), ht]
        refine Nat.xor_lt_two_pow (by rw [← ht]; exact hoff) ?_
        exact Nat.pow_lt_pow_right (by decide) c1
      rw [if_neg (by omega)] at e
      cases hs : bin_scan order (off_ptr s (off ^^^ order_size order)) (s.buddy_top_size + 1) s 0
        (s.buddy_bins order) with
      | none => rw [hs] at e; cases e
      | some r1 =>
        obtain ⟨s1, fl⟩ := r1
        obtain ⟨-, e2, -, e4⟩ := bin_scan_pool _ _ _ _ _ _ _ hs
        have e2 : s1.buddy_top_size = s.buddy_top_size := e2
        have e4 : s1.buddy_pool_order = s.buddy_pool_order := e4
        rw [hs] at e
        cases fl with
        | false =>
          cases e
          rw [List.mem_singleton.1 hb]; exact hx
        | true =>
          have e' : (merge_trace f s1 (order + 1)
              (if off ^^^ order_size order < off then off ^^^ order_size order else off)).map
              (fun r => (r.1, (off ^^^ order_size order) :: r.2)) = some r := e
          cases hm : merge_trace f s1 (order + 1)
              (if off ^^^ order_size order < off then off ^^^ order_size order else off) with
          | none => rw [hm] at e'; cases e'
          | some r2 =>
            rw [hm] at e'
            cases e'
            rcases List.mem_cons.1 hb with hb | hb
            · rw [hb]; exact hx
            · have := ih s1 _ _ r2 (by rw [e2, e4]; exact ht) (by rw [e4]; exact hP)
                (by rw [e2]; split_ifs <;> omega) hm b hb
              rw [e2] at this
              exact this
    · rw [if_neg c1] at e
      cases e
      exact absurd hb (List.not_mem_nil _)

/-- The invariant of the states reachable from a fresh pool. -/
theorem poolReach_inv {s : Heap} {live : List Nat} (h : PoolReach s live) :
    ∃ t, BuddyInv s t ∧ Owns s t live := by
  induction h with
  | fresh s m base h0 hfit => exact ⟨BTree.free, fresh_inv (init_fresh s m base h0 hfit), owns_fresh⟩
  | alloc s live n os _ ih =>
    obtain ⟨t, hi, ow⟩ := ih
    obtain ⟨a1, a2⟩ := alloc_owns hi ow n os
    by_cases c : (malloc_buddy_alloc s n os).2 = 0
    · rw [if_pos c, a1 c]
      exact ⟨t, hi, ow⟩
    · rw [if_neg c]
      exact (a2 c).2
  | free s s1 live p _ hp e ih =>
    obtain ⟨t, hi, ow⟩ := ih
    obtain ⟨s2, f1, -, -, t1, f4, f5⟩ := free_owns hi ow p hp
    rw [e] at f1
    cases f1
    exact ⟨t1, f4, f5⟩

/-- The tiling of a pool that satisfies the invariant. -/
theorem tiling_of_inv {s : Heap} {t : BTree} {live : List Nat} (hi : BuddyInv s t)
    (ow : Owns s t live) :
    (∀ k a, PoolBlock s live k a →
      s.buddy_base ≤ a ∧ (a - s.buddy_base) % 2 ^ k = 0 ∧
      a + 2 ^ k ≤ s.buddy_base + s.buddy_top_size) ∧
    (∀ k a j b, PoolBlock s live k a → PoolBlock s live j b → (k, a) ≠ (j, b) →
      a + 2 ^ k ≤ b ∨ b + 2 ^ j ≤ a) ∧
    (∃ bl : List (Nat × Nat), bl.Nodup ∧ (∀ k a, (k, a) ∈ bl ↔ PoolBlock s live k a) ∧
      (bl.map (fun p => 2 ^ p.1)).sum = 2 ^ s.buddy_pool_order) := by
  refine ⟨?_, ?_, ?_⟩
  · intro k a hb
    have hl := (poolBlock_iff hi ow k a).1 hb
    obtain ⟨-, -, r3, r4⟩ := leaves_range _ _ _ _ _ hi.wf hl
    refine ⟨r3, leaves_aligned _ _ _ _ _ _ hi.wf (le_refl _) ?_ hl, by rw [hi.top]; exact r4⟩
    rw [Nat.sub_self]; exact Nat.zero_mod _
  · intro k a j b h1 h2 hne
    have l1 := (leaves_mem _ _ _ _).1 ((poolBlock_iff hi ow k a).1 h1)
    have l2 := (leaves_mem _ _ _ _).1 ((poolBlock_iff hi ow j b).1 h2)
    by_contra hc
    have hk := pow_pos2 k
    have hj := pow_pos2 j
    rcases Nat.le_total a b with hab | hab
    · have e := leaf_disjoint _ _ _ _ _ _ _ hi.wf l1 l2 hab (by omega)
      subst e
      exact hne (by rw [(leaf_uniq _ _ _ _ _ _ hi.wf l1 l2).1])
    · have e := leaf_disjoint _ _ _ _ _ _ _ hi.wf l2 l1 hab (by omega)
      subst e
      exact hne (by rw [(leaf_uniq _ _ _ _ _ _ hi.wf l1 l2).1])
  · exact ⟨t.leaves s.buddy_pool_order s.buddy_base, leaves_nodup _ _ _ hi.wf,
      fun k a => (poolBlock_iff hi ow k a).symm, leaves_sum _ _ _ hi.wf⟩

/-- The run of `buddy_try_merge` for a pointer that the program holds. -/
theorem merge_in_pool {s : Heap} {t : BTree} {live : List Nat} (hi : BuddyInv s t)
    (ow : Owns s t live) (p : Nat) (hp : p ∈ live) :
    ∃ o x s1 tr, is_buddy_ptr s p = some (o, x) ∧ ptr_off s x < s.buddy_top_size ∧
      merge_trace (s.buddy_pool_order - o) s o (ptr_off s x) = some (s1, tr) ∧
      my_free s p = some s1 ∧ ∀ b ∈ tr, b < s.buddy_top_size := by
  obtain ⟨o, x, hu, e⟩ := (ow.2 p).1 hp
  subst e
  obtain ⟨r1, r2, r3, r4⟩ := useds_range _ _ _ _ _ hi.wf hu
  have hfit := hi.fits
  have hpo := pow_pos2 o
  have hb0 := hi.base
  have hP := hi.order.2
  unfold BUDDY_MAX_ORDER at hP
  have hoff : ptr_off s x < s.buddy_top_size := by
    unfold ptr_off
    rw [sub64_eq _ _ r3 (by omega), hi.top]; omega
  have e1 : my_free s (x + 8) = merge_loop (s.buddy_pool_order - o) s o (ptr_off s x) := by
    unfold my_free
    rw [if_neg (by omega), is_buddy_ptr_used hi o x hu]
    show buddy_try_merge s o x = _
    unfold buddy_try_merge
    rw [if_neg (by rintro (c | c) <;> omega), if_neg (by omega)]
  obtain ⟨s1, f1, -⟩ := free_spec hi o x hu
  have e2 := merge_trace_fst (s.buddy_pool_order - o) s o (ptr_off s x)
  rw [← e1, f1] at e2
  cases hm : merge_trace (s.buddy_pool_order - o) s o (ptr_off s x) with
  | none => rw [hm] at e2; cases e2
  | some r =>
    rw [hm] at e2
    obtain ⟨s2, tr⟩ := r
    have e3 : s2 = s1 := by
      have : some s2 = some s1 := e2
      exact Option.some.inj this
    subst e3
    exact ⟨o, x, s2, tr, is_buddy_ptr_used hi o x hu, hoff, hm, f1,
      merge_trace_lt _ _ _ _ _ hi.top (by omega) hoff hm⟩

/-- Claim C31: the tiling of the buddy pool.  In every state reachable from a
freshly initialised pool by calls of `malloc_buddy_alloc` and by calls of
`my_free` on buddy pointers that the program holds (a pointer is no longer
held once it is freed), with `P = buddy_pool_order`: every block of the pool,
a free block on the chain of `buddy_bins[k]` or an allocated block of the
order `k`, lies at an offset from `buddy_base` that is a multiple of `2^k`, and
inside the pool; two different blocks do not overlap; the blocks are finitely
many, and their sizes `2^k` sum to `2^P`, which is `buddy_top_size`.  For
every pointer that the program holds `my_free` returns, and every value
`buddy_off = off ^ block_sz` that `buddy_try_merge` computes on the way is
below `buddy_top_size`, so that the loop is never left by the `break` of
`if (buddy_off>=buddy_top_size)`. -/
theorem buddy_tiling (s : Heap) (live : List Nat) (h : PoolReach s live) :
    (∀ k a, PoolBlock s live k a →
      s.buddy_base ≤ a ∧ (a - s.buddy_base) % 2 ^ k = 0 ∧
      a + 2 ^ k ≤ s.buddy_base + s.buddy_top_size) ∧
    (∀ k a j b, PoolBlock s live k a → PoolBlock s live j b → (k, a) ≠ (j, b) →
      a + 2 ^ k ≤ b ∨ b + 2 ^ j ≤ a) ∧
    (∃ bl : List (Nat × Nat), bl.Nodup ∧ (∀ k a, (k, a) ∈ bl ↔ PoolBlock s live k a) ∧
      (bl.map (fun p => 2 ^ p.1)).sum = 2 ^ s.buddy_pool_order) ∧
    s.buddy_top_size = 2 ^ s.buddy_pool_order ∧
    (∀ p ∈ live, ∃ o x s1 tr, is_buddy_ptr s p = some (o, x) ∧
      ptr_off s x < s.buddy_top_size ∧
      merge_trace (s.buddy_pool_order - o) s o (ptr_off s x) = some (s1, tr) ∧
      my_free s p = some s1 ∧ ∀ b ∈ tr, b < s.buddy_top_size) := by
  obtain ⟨t, hi, ow⟩ := poolReach_inv h
  obtain ⟨t1, t2, t3⟩ := tiling_of_inv hi ow
  exact ⟨t1, t2, t3, hi.top, fun p hp => merge_in_pool hi ow p hp⟩

theorem poolReach_poolDemo1 : PoolReach poolDemo1.1 [1073741832] := by
  have h := PoolReach.alloc poolDemo [] 1024 none
    (PoolReach.fresh Heap.zero 1024 1073741824 (by decide) (by decide))
  have e : (if (malloc_buddy_alloc poolDemo 1024 none).2 = 0 then []
      else [(malloc_buddy_alloc poolDemo 1024 none).2]) = [1073741832] := by
    decide
  rw [e] at h
  exact h

/-- Witness for claim C31: the state after `malloc_buddy_alloc(1024)` in the
fresh pool of order 22 at `1073741824`; the program holds the pointer
`1073741832` of the block of order 11 at the offset 0. -/
theorem buddy_tiling_witness :
    PoolReach poolDemo1.1 [1073741832] ∧
    is_buddy_ptr poolDemo1.1 1073741832 = some (11, 1073741824) ∧
    (∀ k a, PoolBlock poolDemo1.1 [1073741832] k a →
      poolDemo1.1.buddy_base ≤ a ∧ (a - poolDemo1.1.buddy_base) % 2 ^ k = 0 ∧
      a + 2 ^ k ≤ poolDemo1.1.buddy_base + poolDemo1.1.buddy_top_size) ∧
    (∀ k a j b, PoolBlock poolDemo1.1 [1073741832] k a →
      PoolBlock poolDemo1.1 [1073741832] j b → (k, a) ≠ (j, b) →
      a + 2 ^ k ≤ b ∨ b + 2 ^ j ≤ a) ∧
    (∃ bl : List (Nat × Nat), bl.Nodup ∧
      (∀ k a, (k, a) ∈ bl ↔ PoolBlock poolDemo1.1 [1073741832] k a) ∧
      (bl.map (fun p => 2 ^ p.1)).sum = 2 ^ poolDemo1.1.buddy_pool_order) ∧
    poolDemo1.1.buddy_top_size = 2 ^ poolDemo1.1.buddy_pool_order ∧
    (∀ p ∈ [1073741832], ∃ o x s1 tr, is_buddy_ptr poolDemo1.1 p = some (o, x) ∧
      ptr_off poolDemo1.1 x < poolDemo1.1.buddy_top_size ∧
      merge_trace (poolDemo1.1.buddy_pool_order - o) poolDemo1.1 o (ptr_off poolDemo1.1 x) =
        some (s1, tr) ∧
      my_free poolDemo1.1 p = some s1 ∧ ∀ b ∈ tr, b < poolDemo1.1.buddy_top_size) :=
  ⟨poolReach_poolDemo1, by decide,
   buddy_tiling poolDemo1.1 [1073741832] poolReach_poolDemo1⟩

/-! ## The pointers of the buddy allocator modulo 16 -/

/-- A call of `malloc_buddy_alloc` that finds no pool after the lazy
initialisation returns `NULL`. -/
theorem alloc_no_pool (s : Heap) (n : Nat) (os : Option Nat)
    (h : (buddy_ready s n os).buddy_base = 0) : (malloc_buddy_alloc s n os).2 = 0 := by
  by_cases hn : n = 0
  · subst hn; rw [malloc_buddy_alloc_zero]
  · unfold buddy_ready at h
    unfold malloc_buddy_alloc
    rw [if_neg hn]
    simp only [if_pos h]

/-- The block that `malloc_buddy_alloc` hands out in a state with a pool lies
at an offset that is a multiple of 16, inside the pool. -/
theorem alloc_offset {s : Heap} {t : BTree} (hi : BuddyInv s t) (n : Nat) (hn : n ≠ 0)
    (os : Option Nat) (hq : (malloc_buddy_alloc s n os).2 ≠ 0) :
    (malloc_buddy_alloc s n os).1.buddy_base = s.buddy_base ∧
    (malloc_buddy_alloc s n os).1.buddy_top_size = s.buddy_top_size ∧
    ∃ x, (malloc_buddy_alloc s n os).2 = x + 8 ∧ s.buddy_base ≤ x ∧
      x + 16 ≤ s.buddy_base + s.buddy_top_size ∧ (x - s.buddy_base) % 16 = 0 := by
  obtain ⟨a1, a2⟩ := alloc_spec hi n hn os
  by_cases c : buddy_order s n > s.buddy_pool_order ∨
      ∀ k, buddy_order s n ≤ k → k ≤ s.buddy_pool_order → s.buddy_bins k = 0
  · rw [a1 c] at hq; exact absurd rfl hq
  · obtain ⟨k, x, -, -, -, -, k5, k6, k7, -, -⟩ := a2 c
    obtain ⟨r1, r2, r3, r4⟩ := frees_range _ _ _ _ _ hi.wf k5
    have hl := (leaves_mem _ _ _ _).2 (Or.inl k5)
    have hm := leaves_aligned _ _ _ s.buddy_base _ _ hi.wf (le_refl _)
      (by rw [Nat.sub_self]; exact Nat.zero_mod _) hl
    have h16 : (16 : Nat) ∣ 2 ^ k := by
      have := Nat.pow_dvd_pow 2 r1
      exact this
    have hd : (16 : Nat) ∣ x - s.buddy_base := Nat.dvd_trans h16 (Nat.dvd_of_mod_eq_zero hm)
    have hle : 16 ≤ 2 ^ k := Nat.le_of_dvd (pow_pos2 k) h16
    refine ⟨k7.1, k7.2.1, x, k6, r3, ?_, Nat.mod_eq_zero_of_dvd hd⟩
    rw [hi.top]; omega

/-- Claim C33: the pointers of the buddy allocator are 8 modulo 16 from the
pool base.  For every call `malloc_buddy_alloc(n)` in a reachable state that
returns a pointer `q` other than `NULL`, whatever `n` is: the pool exists
afterwards, `q` lies inside it, and `(q - buddy_base) % 16 = 8`.  So `q` is a
multiple of 8 when `buddy_base` is one (`mmap` answers page-aligned
addresses), and when `buddy_base` is a multiple of 16 then `q % 16 = 8`: the
pointer is never 16-byte aligned. -/
theorem buddy_pointer_mod16 (s : Heap) (live : List Nat) (h : BReach s live) (n : Nat)
    (os : Option Nat)
    (hos : ∀ base, os = some base → base ≠ 0 ∧
      base + order_size (buddy_pool_order_init (ALIGN_UP n ALIGN)) < 2 ^ 64)
    (hq : (malloc_buddy_alloc s n os).2 ≠ 0) :
    (malloc_buddy_alloc s n os).1.buddy_base ≠ 0 ∧
    (malloc_buddy_alloc s n os).1.buddy_base < (malloc_buddy_alloc s n os).2 ∧
    (malloc_buddy_alloc s n os).2 <
      (malloc_buddy_alloc s n os).1.buddy_base + (malloc_buddy_alloc s n os).1.buddy_top_size ∧
    ((malloc_buddy_alloc s n os).2 - (malloc_buddy_alloc s n os).1.buddy_base) % 16 = 8 ∧
    ((malloc_buddy_alloc s n os).1.buddy_base % 8 = 0 → (malloc_buddy_alloc s n os).2 % 8 = 0) ∧
    ((malloc_buddy_alloc s n os).1.buddy_base % 16 = 0 →
      (malloc_buddy_alloc s n os).2 % 16 = 8 ∧ (malloc_buddy_alloc s n os).2 % 16 ≠ 0) := by
  have hn : n ≠ 0 := by
    intro e; subst e
    rw [malloc_buddy_alloc_zero] at hq
    exact hq rfl
  have hp : (buddy_ready s n os).buddy_base ≠ 0 := fun e => hq (alloc_no_pool s n os e)
  obtain ⟨t, hi⟩ := ready_inv h n os hos hp
  rw [ready_eq s n os none hn hp] at hq ⊢
  obtain ⟨e1, e2, x, e3, x1, x2, x3⟩ := alloc_offset hi n hn none hq
  rw [e1, e2, e3]
  refine ⟨hi.base, by omega, by omega, by omega, by omega, by omega⟩

/-- Witness for claim C33: the second call `malloc_buddy_alloc(1024)` after the
first one at program start returns `1073743880`, which is 2056 bytes after the
pool base `1073741824`: 8 modulo 16. -/
theorem buddy_pointer_mod16_witness :
    BReach buddyDemo1.1 [1073741832] ∧
    (malloc_buddy_alloc buddyDemo1.1 1024 none).2 = 1073743880 ∧
    (malloc_buddy_alloc buddyDemo1.1 1024 none).1.buddy_base = 1073741824 ∧
    ((malloc_buddy_alloc buddyDemo1.1 1024 none).2 -
      (malloc_buddy_alloc buddyDemo1.1 1024 none).1.buddy_base) % 16 = 8 ∧
    ((malloc_buddy_alloc buddyDemo1.1 1024 none).1.buddy_base % 8 = 0 →
      (malloc_buddy_alloc buddyDemo1.1 1024 none).2 % 8 = 0) ∧
    ((malloc_buddy_alloc buddyDemo1.1 1024 none).1.buddy_base % 16 = 0 →
      (malloc_buddy_alloc buddyDemo1.1 1024 none).2 % 16 = 8 ∧
      (malloc_buddy_alloc buddyDemo1.1 1024 none).2 % 16 ≠ 0) :=
  ⟨breach_buddyDemo1, by decide, by decide,
   (buddy_pointer_mod16 buddyDemo1.1 [1073741832] breach_buddyDemo1 1024 none
      (fun base hb => by cases hb) (by decide)).2.2.2⟩

/-! ## The round trip on the general heap -/

theorem block_prev_eta (B : Block) (b : Nat) (h : B.prev_phys = b) :
    ({ B with prev_phys := b } : Block) = B := by
  cases B; cases h; rfl

theorem block_free_eta (B : Block) (h : B.is_free = 1) :
    ({ B with is_free := 1 } : Block) = B := by
  cases B; cases h; rfl

theorem block_mk_eta (B : Block) (h : B.is_free = 1) :
    (⟨B.size, 1, B.prev_phys, B.next_phys⟩ : Block) = B := by
  cases B; cases h; rfl

/-- A walk along `next_phys` only reads the headers of blocks. -/
theorem phys_chain_agree {m m2 : Nat → Block} {ars : List (Nat × Nat)} {blocks : List Nat}
    (h : ChainOK m ars blocks) (he : ∀ z ∈ blocks, m2 z = m z) (fuel : Nat) :
    ∀ b0, (b0 = 0 ∨ b0 ∈ blocks) → phys_chain m2 fuel b0 = phys_chain m fuel b0 := by
  induction fuel with
  | zero => intro b0 _; rfl
  | succ k ih =>
    intro b0 hb0
    unfold phys_chain
    by_cases e : b0 = 0
    · rw [if_pos e, if_pos e]
    · rw [if_neg e, if_neg e]
      have hb1 : b0 ∈ blocks := hb0.resolve_left e
      rw [he b0 hb1]
      congr 1
      refine ih _ ?_
      by_cases e3 : (m b0).next_phys = 0
      · exact Or.inl e3
      · exact Or.inr ((h.blk b0 hb1).nxt e3).1

/-- A free block of the index has no free physical neighbour. -/
theorem free_block_alone {s : Heap} {blocks live : List Nat} (h : InvX s blocks live 0)
    (b : Nat) (hb : b ∈ blocks) (hf : (s.mem b).is_free ≠ 0) :
    ((s.mem b).prev_phys = 0 ∨ (s.mem (s.mem b).prev_phys).is_free = 0) ∧
    ((s.mem b).next_phys = 0 ∨ (s.mem (s.mem b).next_phys).is_free = 0) := by
  obtain ⟨nL, nR⟩ := neighbours_ne h.chain b hb
  have b0 := invX_nz h b hb
  constructor
  · by_cases e : (s.mem b).prev_phys = 0
    · exact Or.inl e
    · right
      obtain ⟨p1, p2, p3, -⟩ := nL e
      by_contra hc
      have := h.noadj _ p1 e hc (by rw [p3]; exact b0) (by rw [p3]; exact b0)
      rw [p3] at this
      exact hf this
  · by_cases e : (s.mem b).next_phys = 0
    · exact Or.inl e
    · exact Or.inr (h.noadj b hb b0 hf e e)

/-- The round trip `my_free(malloc(n))` for `n ≠ 0` when the index of the
strategy holds a block that fits: the block headers on the chains and the
members of the index are as before. -/
theorem round_trip_core {s : Heap} {blocks live : List Nat} (h : InvX s blocks live 0)
    (hflag : ∀ a ∈ blocks, (s.mem a).is_free ≤ 1)
    (st : Strategy) (hst : st ≠ Strategy.UNSET)
    (hl : s.g_strat = Strategy.UNSET ∨ s.g_strat = st) (n : Nat) (hn : n ≠ 0) (os : Option Nat)
    (hfit : ∃ a ∈ ({ s with g_strat := st } : Heap).idx, ALIGN_UP n ALIGN ≤ (s.mem a).size) :
    ∃ t b, malloc_fit st s n os = some (t, b + 64) ∧
      my_free t (b + 64) = some (free_general t (b + 64)) ∧
      b ∈ ({ s with g_strat := st } : Heap).idx ∧ b ∈ blocks ∧
      ALIGN_UP n ALIGN ≤ (s.mem b).size ∧
      t.g_arenas = s.g_arenas ∧
      (∃ blocks2, InvX (free_general t (b + 64)) blocks2 live 0) ∧
      (∀ z ∈ blocks, (free_general t (b + 64)).mem z = s.mem z) ∧
      (∀ z, z ∈ (free_general t (b + 64)).idx ↔ z ∈ ({ s with g_strat := st } : Heap).idx) ∧
      (ALIGN_UP n ALIGN + 80 ≤ (s.mem b).size →
        (t.mem b).size = ALIGN_UP n ALIGN ∧
        (t.mem b).next_phys = b + 64 + ALIGN_UP n ALIGN ∧
        b + 64 + ALIGN_UP n ALIGN ∈ t.idx ∧
        (t.mem (b + 64 + ALIGN_UP n ALIGN)).size = (s.mem b).size - ALIGN_UP n ALIGN - 64 ∧
        (t.mem (b + 64 + ALIGN_UP n ALIGN)).is_free = 1 ∧
        b + 64 + ALIGN_UP n ALIGN ∉ (free_general t (b + 64)).idx) := by
  obtain ⟨h0, hs0⟩ := inv_lock_strategy h st (lock_strategy_eq s st hl)
  have hst0 : ({ s with g_strat := st } : Heap).g_strat ≠ Strategy.UNSET := hst
  obtain ⟨c, b, e1, -, I2, I3⟩ := idx_find _ (ALIGN_UP n ALIGN) h0.idx hst0
  have b0 : b ≠ 0 := by
    intro e
    obtain ⟨a, ha, hfa⟩ := hfit
    have := I3 e a ha
    have k : ({ s with g_strat := st } : Heap).sz a = (s.mem a).size := rfl
    omega
  obtain ⟨hA, hsz⟩ := I2 b0
  have hsz : ALIGN_UP n ALIGN ≤ (s.mem b).size := hsz
  obtain ⟨t, blocks2, m1, m2, m3, m4, m5, m6, m7, -⟩ :=
    malloc_found h st hst hl n hn os b c e1 hA hsz
  generalize hS : ALIGN_UP n ALIGN = S at *
  obtain ⟨hb, -, hbf⟩ := (h0.free_idx b).1 (Or.inl hA)
  have hbf : (s.mem b).is_free ≠ 0 := hbf
  have hb1 : (s.mem b).is_free = 1 := by have := hflag b hb; omega
  obtain ⟨aL, aR⟩ := free_block_alone h b hb hbf
  obtain ⟨nL, nR⟩ := neighbours_ne h.chain b hb
  have bb := chain_bounds h.chain b hb
  have hp : b + 64 ∈ (b + 64) :: live := List.mem_cons_self _ _
  obtain ⟨blocks3, f1, f2, -⟩ := inv_free m2 (b + 64) hp
  rw [List.erase_cons_head] at f2
  have hsub : b + 64 - 64 = b := Nat.add_sub_cancel b 64
  refine ⟨t, b, m1, f1, hA, hb, hsz, m4, ⟨blocks3, f2⟩, ?_⟩
  by_cases hsp : (s.mem b).size < S + 80
  · -- the block is handed out whole
    obtain ⟨t1, t2⟩ := m6 hsp
    have hL : (t.mem (b + 64 - 64)).prev_phys = 0 ∨
        (t.mem (t.mem (b + 64 - 64)).prev_phys).is_free = 0 := by
      rw [hsub, t1]
      show (s.mem b).prev_phys = 0 ∨ (t.mem (s.mem b).prev_phys).is_free = 0
      rcases aL with e | e
      · exact Or.inl e
      · by_cases e0 : (s.mem b).prev_phys = 0
        · exact Or.inl e0
        · right
          rw [t2 _ (by have := (nL e0).2.1; omega)]; exact e
    have hR : (t.mem (b + 64 - 64)).next_phys = 0 ∨
        (t.mem (t.mem (b + 64 - 64)).next_phys).is_free = 0 := by
      rw [hsub, t1]
      show (s.mem b).next_phys = 0 ∨ (t.mem (s.mem b).next_phys).is_free = 0
      rcases aR with e | e
      · exact Or.inl e
      · by_cases e0 : (s.mem b).next_phys = 0
        · exact Or.inl e0
        · right
          rw [t2 _ (by have := (nR e0).2.1; omega)]; exact e
    obtain ⟨-, p2, -, p4, -⟩ := free_plain m2 (b + 64) hp hL hR
    rw [hsub] at p2 p4
    refine ⟨?_, ?_, fun hge => absurd hsp (by omega)⟩
    · intro z _
      rw [p4]
      by_cases ez : z = b
      · rw [ez, store_same, t1]
        exact block_free_eta _ hb1
      · rw [store_other _ _ _ _ ez, t2 z ez]
    · intro z
      rw [p2, m5]
      constructor
      · rintro (⟨⟨k, -⟩ | ⟨k, -⟩⟩ | k)
        · exact k
        · omega
        · rw [k]; exact hA
      · intro k
        by_cases ez : z = b
        · exact Or.inr ez
        · exact Or.inl (Or.inl ⟨k, ez⟩)
  · -- the block is split and the remainder merged back
    have hge : S + 80 ≤ (s.mem b).size := by omega
    obtain ⟨t1, t2, t3, t4⟩ := m7 hge
    have hRn : b + 64 + S ∉ blocks := by
      intro hin
      have d := h.chain.disj b hb _ hin (by omega)
      omega
    have tb1 : (t.mem (b + 64 - 64)).next_phys = b + 64 + S := by rw [hsub, t1]
    have tb2 : (t.mem (b + 64 - 64)).prev_phys = (s.mem b).prev_phys := by rw [hsub, t1]
    have tb3 : (t.mem (b + 64 - 64)).size = S := by rw [hsub, t1]
    have hL : (t.mem (b + 64 - 64)).prev_phys = 0 ∨
        (t.mem (t.mem (b + 64 - 64)).prev_phys).is_free = 0 := by
      rw [tb2]
      rcases aL with e | e
      · exact Or.inl e
      · by_cases e0 : (s.mem b).prev_phys = 0
        · exact Or.inl e0
        · right
          have k := (nL e0).2.1
          rw [t4 _ (by omega) (by omega) (fun e1 => by have := (nR e1).2.1; omega)]
          exact e
    obtain ⟨q1, q2, q3, q4⟩ := free_merge_right m2 (b + 64) hp hL
      (by rw [tb1]; omega) (by rw [tb1, t2]; exact Nat.one_ne_zero)
    rw [tb1, tb2, tb3, t2] at q2
    rw [tb1, t2] at q3 q4
    rw [tb1] at q1
    rw [hsub] at q1 q2 q3 q4
    simp only [] at q2 q3 q4
    refine ⟨?_, ?_, fun _ => ⟨by rw [t1], by rw [t1], (m5 _).2 (Or.inr ⟨hge, rfl⟩),
      by rw [t2], by rw [t2], fun hin => ?_⟩⟩
    · intro z hz
      by_cases ez : z = b
      · rw [ez, q2]
        have e : S + 64 + ((s.mem b).size - S - 64) = (s.mem b).size := by omega
        rw [e]; exact block_mk_eta _ hb1
      · by_cases eN : (s.mem b).next_phys ≠ 0 ∧ z = (s.mem b).next_phys
        · obtain ⟨eN0, eNz⟩ := eN
          rw [eNz, q3 eN0, t3 eN0]
          have k := (nR eN0).2.2
          exact block_prev_eta _ _ k
        · have zR : z ≠ b + 64 + S := fun e => hRn (e ▸ hz)
          have z0 := invX_nz h z hz
          rw [q4 z ez (fun e => eN ⟨e ▸ z0, e⟩),
            t4 z ez zR (fun e1 e2 => eN ⟨e1, e2⟩)]
    · intro z
      rw [q1, m5]
      constructor
      · rintro (⟨⟨k, -⟩ | ⟨-, k⟩, k2⟩ | k)
        · exact k
        · exact absurd k k2
        · rw [k]; exact hA
      · intro k
        by_cases ez : z = b
        · exact Or.inr ez
        · refine Or.inl ⟨Or.inl ⟨k, ez⟩, fun e => hRn ?_⟩
          rw [← e]
          exact ((h0.free_idx z).1 (Or.inl k)).1
    · have := (q1 _).1 hin
      rcases this with ⟨-, k⟩ | k
      · exact k rfl
      · omega

/-! ## The free flags are 0 or 1 -/

theorem flag_store (m : Nat → Block) (a : Nat) (f : Block → Block)
    (h : ∀ z, (m z).is_free ≤ 1) (hf : ∀ B : Block, B.is_free ≤ 1 → (f B).is_free ≤ 1) :
    ∀ z, (store m a f z).is_free ≤ 1 := by
  intro z
  unfold store
  by_cases e : z = a
  · rw [if_pos e]; exact hf _ (h a)
  · rw [if_neg e]; exact h z

theorem flag_split_mem (m : Nat → Block) (b need left : Nat) (h : ∀ z, (m z).is_free ≤ 1) :
    ∀ z, (split_mem m b need left z).is_free ≤ 1 := by
  unfold split_mem
  refine flag_store _ _ _ (flag_store _ _ _ ?_ (fun B hB => hB)) (fun B hB => hB)
  have h2 : ∀ z, (store (store m (b + HDR_SZ + need)
      (fun B => ⟨sub64 left HDR_SZ, 1, b, B.next_phys⟩)) (b + HDR_SZ + need)
      (fun B => { B with next_phys := (store m (b + HDR_SZ + need)
        (fun B => ⟨sub64 left HDR_SZ, 1, b, B.next_phys⟩) b).next_phys }) z).is_free ≤ 1 :=
    flag_store _ _ _ (flag_store _ _ _ h (fun B _ => le_refl 1)) (fun B hB => hB)
  split_ifs
  · exact flag_store _ _ _ h2 (fun B hB => hB)
  · exact h2

theorem flag_split_block (s : Heap) (b need : Nat) (h : ∀ z, (s.mem z).is_free ≤ 1) :
    ∀ z, ((split_block s b need).mem z).is_free ≤ 1 := by
  rw [split_block_eq]
  split_ifs
  · exact h
  · rw [(index_insert_frame _ _).1]
    exact flag_split_mem _ _ _ _ h

theorem flag_alloc_found (s : Heap) (b size : Nat) (h : ∀ z, (s.mem z).is_free ≤ 1) :
    ∀ z, ((alloc_found s b size).1.mem z).is_free ≤ 1 := by
  show ∀ z, (store (split_block (index_remove s b) b size).mem b
    (fun B => { B with is_free := 0 }) z).is_free ≤ 1
  refine flag_store _ _ _ (flag_split_block _ _ _ ?_) (fun B _ => Nat.zero_le 1)
  rw [(index_remove_frame s b).1]; exact h

theorem flag_map_arena (s : Heap) (mu : Nat) (os : Option Nat)
    (h : ∀ z, (s.mem z).is_free ≤ 1) : ∀ z, ((map_arena s mu os).1.mem z).is_free ≤ 1 := by
  cases os with
  | none => exact h
  | some ar =>
    show ∀ z, ((index_insert _ _).mem z).is_free ≤ 1
    rw [(index_insert_frame _ _).1]
    exact flag_store _ _ _ h (fun B _ => le_refl 1)

theorem index_find_mem (s s1 : Heap) (need b : Nat) (e : index_find s need = some (s1, b)) :
    s1.mem = s.mem := by
  unfold index_find at e
  split_ifs at e
  · cases e; rfl
  · cases hf : fl_next_fit s.sz s.g_free_head s.g_nextfit_cursor need with
    | none => rw [hf] at e; cases e
    | some r =>
      rw [hf] at e
      cases e
      rfl
  · cases e; rfl
  · cases e; rfl
  · cases e; rfl

theorem flag_allocate_general (s s1 : Heap) (size b : Nat) (os : Option Nat)
    (e : allocate_general s size os = some (s1, b)) (h : ∀ z, (s.mem z).is_free ≤ 1) :
    ∀ z, (s1.mem z).is_free ≤ 1 := by
  unfold allocate_general at e
  by_cases h0 : size = 0
  · rw [if_pos h0] at e; cases e; exact h
  · rw [if_neg h0] at e
    cases hf : index_find s (ALIGN_UP size ALIGN) with
    | none => rw [hf] at e; cases e
    | some r =>
      obtain ⟨s2, b2⟩ := r
      rw [hf] at e
      have f1 := index_find_mem _ _ _ _ hf
      have h2 : ∀ z, (s2.mem z).is_free ≤ 1 := by rw [f1]; exact h
      simp only [] at e
      by_cases hb : b2 ≠ 0
      · rw [if_pos hb] at e
        cases e
        exact flag_alloc_found s2 b _ h2
      · rw [if_neg hb] at e
        have h3 := flag_map_arena s2 (ALIGN_UP size ALIGN) os h2
        by_cases hm : (map_arena s2 (ALIGN_UP size ALIGN) os).2 = 0
        · rw [if_pos hm] at e; cases e; exact h3
        · rw [if_neg hm] at e
          cases hg : index_find (map_arena s2 (ALIGN_UP size ALIGN) os).1
              (ALIGN_UP size ALIGN) with
          | none => rw [hg] at e; cases e
          | some r2 =>
            obtain ⟨s3, b3⟩ := r2
            rw [hg] at e
            have f3 := index_find_mem _ _ _ _ hg
            have h4 : ∀ z, (s3.mem z).is_free ≤ 1 := by rw [f3]; exact h3
            simp only [] at e
            by_cases hb3 : b3 = 0
            · rw [if_pos hb3] at e; cases e; exact h4
            · rw [if_neg hb3] at e; cases e
              exact flag_alloc_found s3 b _ h4

theorem flag_lock (s s1 : Heap) (st : Strategy) (e : lock_strategy s st = some s1) :
    s1.mem = s.mem := by
  unfold lock_strategy at e
  split_ifs at e
  · cases e; rfl
  · cases e; rfl

theorem flag_malloc_fit (st : Strategy) (s s1 : Heap) (n p : Nat) (os : Option Nat)
    (e : malloc_fit st s n os = some (s1, p)) (h : ∀ z, (s.mem z).is_free ≤ 1) :
    ∀ z, (s1.mem z).is_free ≤ 1 := by
  unfold malloc_fit at e
  cases hl : lock_strategy s st with
  | none => rw [hl] at e; cases e
  | some s2 =>
    rw [hl] at e
    have f1 := flag_lock _ _ _ hl
    simp only [] at e
    cases ha : allocate_general s2 n os with
    | none => rw [ha] at e; cases e
    | some r =>
      obtain ⟨s3, b⟩ := r
      rw [ha] at e
      cases e
      exact flag_allocate_general _ _ _ _ _ ha (by rw [f1]; exact h)

theorem flag_free_general (s : Heap) (p : Nat) (h : ∀ z, (s.mem z).is_free ≤ 1) :
    ∀ z, ((free_general s p).mem z).is_free ≤ 1 := by
  unfold free_general
  split_ifs
  · exact h
  · exact h
  · intro z
    rw [(coalesce_and_insert_frame _ _).1 z]
    exact flag_store _ _ _ h (fun B _ => le_refl 1) z

theorem flag_my_free (s s1 : Heap) (p : Nat) (e : my_free s p = some s1)
    (h : ∀ z, (s.mem z).is_free ≤ 1) : ∀ z, (s1.mem z).is_free ≤ 1 := by
  unfold my_free at e
  by_cases p0 : p = 0
  · rw [if_pos p0] at e; cases e; exact h
  · rw [if_neg p0] at e
    cases hb : is_buddy_ptr s p with
    | none =>
      rw [hb] at e
      cases e
      exact flag_free_general s p h
    | some r =>
      rw [hb] at e
      rw [(buddy_try_merge_keeps s r.1 r.2 s1 e).1.1]
      exact h

/-- In every reachable state the flag `is_free` of every header is 0 or 1:
the code writes no other value. -/
theorem reach_flag {s : Heap} {live : List Nat} (h : Reach s live) :
    ∀ z, (s.mem z).is_free ≤ 1 := by
  induction h with
  | boot os hos => exact flag_map_arena Heap.zero ARENA_MIN os (fun _ => Nat.zero_le 1)
  | init s s1 live st _ e ih => rw [flag_lock _ _ _ e]; exact ih
  | malloc s s1 live st n p os _ hst hos e ih => exact flag_malloc_fit _ _ _ _ _ _ e ih
  | free s s1 live p _ hp e ih => exact flag_my_free _ _ _ e ih
  | balloc s live n os _ hos ih => rw [(malloc_buddy_alloc_keeps s n os).1.1]; exact ih
  | bfree s s1 live q _ hq e ih => exact flag_my_free _ _ _ e ih

/-- Claim C32: the round trip on the general heap.  For each of the four
strategies `st` (the latch being unset or `st`), in every state that satisfies
the heap invariant, with free flags 0 or 1 as the code writes them, and whose
index for `st` holds a block of at least `ALIGN_UP(n, ALIGN)` bytes: the call
`malloc(n)` returns (a pointer `p`, which is `NULL` only for `n = 0`) without
mapping an arena, and `my_free(p)` returns; afterwards the arena list is the
same, the physical chain of every arena holds the same block addresses, every
block on a chain has the header it had (size, free flag and the two chain
links), and the index holds the same set of blocks; the invariant holds again
with the same live pointers.  For `n ≠ 0` the block `p - HDR_SZ` was in the
index and fits; when the call split it (it has at least `ALIGN_UP(n, ALIGN) +
80` bytes), the remainder at `p + ALIGN_UP(n, ALIGN)` was a free block of the
index with the rest of the bytes after `malloc`, and after `my_free` it is in
the index no more: it is merged back into the block it was cut from, which has
its old size. -/
theorem general_round_trip (s : Heap) (blocks live : List Nat) (h : HeapInv s blocks live)
    (hflag : ∀ a ∈ blocks, (s.mem a).is_free ≤ 1)
    (st : Strategy) (hst : st ≠ Strategy.UNSET)
    (hl : s.g_strat = Strategy.UNSET ∨ s.g_strat = st) (n : Nat) (os : Option Nat)
    (hfit : ∃ a ∈ ({ s with g_strat := st } : Heap).idx, ALIGN_UP n ALIGN ≤ (s.mem a).size) :
    ∃ t p t2, malloc_fit st s n os = some (t, p) ∧ my_free t p = some t2 ∧
      (p = 0 ↔ n = 0) ∧
      t.g_arenas = s.g_arenas ∧ t2.g_arenas = s.g_arenas ∧
      (∀ ar ∈ s.g_arenas, t2.chain ar = s.chain ar ∧ ∀ z ∈ s.chain ar, t2.mem z = s.mem z) ∧
      (∀ z, z ∈ t2.idx ↔ z ∈ ({ s with g_strat := st } : Heap).idx) ∧
      (∃ blocks2, HeapInv t2 blocks2 live) ∧
      (n ≠ 0 →
        p - 64 ∈ ({ s with g_strat := st } : Heap).idx ∧
        ALIGN_UP n ALIGN ≤ (s.mem (p - 64)).size ∧
        (ALIGN_UP n ALIGN + 80 ≤ (s.mem (p - 64)).size →
          (t.mem (p - 64)).size = ALIGN_UP n ALIGN ∧
          (t.mem (p - 64)).next_phys = p + ALIGN_UP n ALIGN ∧
          p + ALIGN_UP n ALIGN ∈ t.idx ∧
          (t.mem (p + ALIGN_UP n ALIGN)).size =
            (s.mem (p - 64)).size - ALIGN_UP n ALIGN - 64 ∧
          (t.mem (p + ALIGN_UP n ALIGN)).is_free = 1 ∧
          p + ALIGN_UP n ALIGN ∉ t2.idx ∧
          (t2.mem (p - 64)).size = (s.mem (p - 64)).size)) := by
  by_cases hn : n = 0
  · subst hn
    obtain ⟨h0, -⟩ := inv_lock_strategy h st (lock_strategy_eq s st hl)
    refine ⟨{ s with g_strat := st }, 0, { s with g_strat := st }, ?_, rfl,
      ⟨fun _ => rfl, fun _ => rfl⟩, rfl, rfl, fun ar _ => ⟨rfl, fun z _ => rfl⟩,
      fun z => Iff.rfl, ⟨blocks, h0⟩, fun c => absurd rfl c⟩
    unfold malloc_fit
    rw [lock_strategy_eq s st hl]
    rfl
  · obtain ⟨t, b, r1, r2, r3, r4, r5, r6, r7, r8, r9, r10⟩ :=
      round_trip_core h hflag st hst hl n hn os hfit
    have hsub : b + 64 - 64 = b := Nat.add_sub_cancel b 64
    have ar2 : (free_general t (b + 64)).g_arenas = s.g_arenas :=
      (my_free_arenas _ _ _ r2).trans r6
    refine ⟨t, b + 64, free_general t (b + 64), r1, r2,
      ⟨fun e => by omega, fun e => absurd e hn⟩, r6, ar2, ?_, r9, r7, fun _ => ?_⟩
    · intro ar har
      refine ⟨?_, fun z hz => r8 z ((blocks_iff_chain h z).2 ⟨ar, har, hz⟩)⟩
      exact phys_chain_agree h.chain r8 ar.2 _ (Or.inr (h.chain.first ar har).1)
    · rw [hsub]
      refine ⟨r3, r5, fun hge => ?_⟩
      obtain ⟨k1, k2, k3, k4, k5, k6⟩ := r10 hge
      exact ⟨k1, k2, k3, k4, k5, k6, by rw [r8 b r4]⟩

/-- Witness for claim C32: at program start (one arena at `65536`, its block
`65552` of 1048576 bytes on the free list) `malloc_first_fit(100)` returns
`65616` and splits the block; `my_free(65616)` merges the remainder at
`65728` back, and the header of `65552` is what it was. -/
theorem general_round_trip_witness :
    (malloc_first_fit heapDemo 100 none).map Prod.snd = some 65616 ∧
    ∃ blocks, HeapInv heapDemo blocks [] ∧
      (∀ a ∈ blocks, (heapDemo.mem a).is_free ≤ 1) ∧
      (∃ a ∈ ({ heapDemo with g_strat := Strategy.FIRST } : Heap).idx,
        ALIGN_UP 100 ALIGN ≤ (heapDemo.mem a).size) ∧
      ∃ t p t2, malloc_fit Strategy.FIRST heapDemo 100 none = some (t, p) ∧
        my_free t p = some t2 ∧ (p = 0 ↔ 100 = 0) ∧
        t.g_arenas = heapDemo.g_arenas ∧ t2.g_arenas = heapDemo.g_arenas ∧
        (∀ ar ∈ heapDemo.g_arenas, t2.chain ar = heapDemo.chain ar ∧
          ∀ z ∈ heapDemo.chain ar, t2.mem z = heapDemo.mem z) ∧
        (∀ z, z ∈ t2.idx ↔ z ∈ ({ heapDemo with g_strat := Strategy.FIRST } : Heap).idx) ∧
        (∃ blocks2, HeapInv t2 blocks2 []) ∧
        (100 ≠ 0 →
          p - 64 ∈ ({ heapDemo with g_strat := Strategy.FIRST } : Heap).idx ∧
          ALIGN_UP 100 ALIGN ≤ (heapDemo.mem (p - 64)).size ∧
          (ALIGN_UP 100 ALIGN + 80 ≤ (heapDemo.mem (p - 64)).size →
            (t.mem (p - 64)).size = ALIGN_UP 100 ALIGN ∧
            (t.mem (p - 64)).next_phys = p + ALIGN_UP 100 ALIGN ∧
            p + ALIGN_UP 100 ALIGN ∈ t.idx ∧
            (t.mem (p + ALIGN_UP 100 ALIGN)).size =
              (heapDemo.mem (p - 64)).size - ALIGN_UP 100 ALIGN - 64 ∧
            (t.mem (p + ALIGN_UP 100 ALIGN)).is_free = 1 ∧
            p + ALIGN_UP 100 ALIGN ∉ t2.idx ∧
            (t2.mem (p - 64)).size = (heapDemo.mem (p - 64)).size)) :=
  ⟨by decide,
   (reach_inv reach_heapDemo).elim fun blocks hb =>
    ⟨blocks, hb, fun a _ => reach_flag reach_heapDemo a, ⟨65552, by decide, by decide⟩,
     general_round_trip heapDemo blocks [] hb (fun a _ => reach_flag reach_heapDemo a)
       Strategy.FIRST (by decide) (Or.inl rfl) 100 none ⟨65552, by decide, by decide⟩⟩⟩

end Mmu
